import Mathlib

/-!
# Sparse multivariate polynomials of the calculator (`poly.c`)

A shallow embedding of the polynomial engine of `src/poly.c`:

* a polynomial is a `constant` and a linked list of monomials (`first_mono`,
  `next_mono`), every monomial holding a coefficient polynomial `p` in the next
  variable and an exponent `exp`;
* coefficients are `poly_coeff_t` (`long`): every arithmetic operation on them is
  followed by `wrapCoeff`, the reduction to the 64-bit two's complement range;
* exponents are `poly_exp_t`, a 32-bit `int`. The functions of the namespace
  `Machine` are the functions of `poly.c` on the machine: an exponent field holds
  the 32-bit pattern, exponents are compared as `int`s and the sum of two
  exponents wraps around, as the compiled program computes it. The functions of
  the same names outside `Machine` take the sum of two exponents exactly; the two
  agree as long as no sum of exponents leaves `[0, INT_MAX]`;
* the input is the list of its bytes, as characters. `PeekCharacter` of `input.h`
  returns a `char`, in which the byte `0xFF` is equal to `EOF`: the functions of
  `Machine` that read the input take that byte for the end of the input, as the
  compiled program does. The functions of the same names outside `Machine` return
  `EOF` at the end of the input only: `ReadPolynomial` returns the same
  polynomial, diagnostics and flag as `Machine.ReadPolynomial` on every input, and
  leaves the same stream when a newline comes before every byte `0xFF`;
* in-place operations return the new value of the polynomial they update; cloning
  and freeing do not appear.
-/

namespace PolyCalc

/-! ## Coefficients -/

/-- Number of values of `poly_coeff_t`: `2 ^ 64`. -/
def coeffModulus : Int := 18446744073709551616

/-- Value of `LONG_MAX + 1`: `2 ^ 63`. -/
def coeffHalf : Int := 9223372036854775808

/-- Reduction of a mathematical integer to `poly_coeff_t` (two's complement
wrap-around into `[LONG_MIN, LONG_MAX]`). -/
def wrapCoeff (x : Int) : Int := (x + coeffHalf) % coeffModulus - coeffHalf

/-- A value that `poly_coeff_t` can hold. -/
def CoeffInRange (x : Int) : Prop := -coeffHalf ≤ x ∧ x < coeffHalf

instance (x : Int) : Decidable (CoeffInRange x) := by
  unfold CoeffInRange; infer_instance

/-! ## Data model -/

/-- A polynomial: `constant` and the list of monomials reached from `first_mono`
through `next_mono`. A monomial is the pair of its coefficient `p` and its
exponent `exp`. -/
inductive Poly : Type
  | mk (constant : Int) (first_mono : List (Poly × Nat))

/-- A monomial `(p, exp)`: the value `p * x ^ exp`. -/
abbrev Mono : Type := Poly × Nat

/-- Field `constant` of a polynomial. -/
def Poly.constant : Poly → Int
  | .mk c _ => c

/-- Field `first_mono` of a polynomial, as the list of its monomials. -/
def Poly.first_mono : Poly → List Mono
  | .mk _ ms => ms

/-- Modelled from the spec: `PolyZero` of the absent `poly.h`, the polynomial
with `constant = 0` and no terms. -/
def PolyZero : Poly := .mk 0 []

/-- Modelled from the spec: `PolyFromCoeff` of the absent `poly.h`, the
polynomial with the given constant and no terms. -/
def PolyFromCoeff (c : Int) : Poly := .mk c []

/-- Modelled from the spec: `PolyIsCoeff` of the absent `poly.h`
("constant ⇔ no terms"). -/
def PolyIsCoeff (p : Poly) : Bool := p.first_mono.isEmpty

/-- Modelled from the spec: `PolyIsZero` of the absent `poly.h`
("zero ⇔ `constant = 0` and no terms"). -/
def PolyIsZero (p : Poly) : Bool := p.constant == 0 && p.first_mono.isEmpty

/-- Modelled from the spec: `MonoFromPoly` of the absent `poly.h`, the monomial
`p * x ^ e` taking over `p`. -/
def MonoFromPoly (p : Poly) (e : Nat) : Mono := (p, e)

mutual
/-- Number of nodes (polynomials) of a polynomial tree. -/
def Poly.nodes : Poly → Nat
  | .mk _ ms => 1 + nodesList ms
/-- Number of nodes below a list of monomials. -/
def nodesList : List (Poly × Nat) → Nat
  | [] => 0
  | (p, _) :: rest => Poly.nodes p + nodesList rest
end

/-! ## Equality -/

mutual
/-- Function `PolyIsEq`: equal constants and pairwise equal monomial lists. -/
def PolyIsEq : Poly → Poly → Bool
  | .mk pc pms, .mk qc qms => if pc != qc then false else MonoListIsEq pms qms
/-- The `while` loop of `PolyIsEq` over the two monomial lists, and the test
that both lists ended together. -/
def MonoListIsEq : List (Poly × Nat) → List (Poly × Nat) → Bool
  | [], [] => true
  | [], _ :: _ => false
  | _ :: _, [] => false
  | (pp, pe) :: ps, (qp, qe) :: qs =>
    if pe != qe || PolyIsEq pp qp == false then false else MonoListIsEq ps qs
end

/-! ## Addition -/

/-- Function `RemoveEmptyMonosFromPoly` on the monomial list: the monomials whose
coefficient is not the zero polynomial, in their order. -/
def RemoveEmptyMonos (monos : List Mono) : List Mono :=
  monos.filter (fun m => !PolyIsZero m.1)

/-- The `while` loop of `PolyAddInPlace` for one monomial `q_mono` of `q`,
running over the monomials of `p` from `p_mono` on. `addInto c` is
`PolyAddInPlace(c, q_mono->p)` and `next ps` is the rest of the loop, entered
with the following monomial of `q` and `p_mono` at the head of `ps`. When the
list of `p` ends, the rest of `q` is linked behind it. -/
def mergeMono (q_mono : Mono) (q_next : List Mono) (addInto : Poly → Poly)
    (next : List Mono → List Mono) : List Mono → List Mono
  | [] => q_mono :: q_next
  | p_mono :: p_next =>
    if p_mono.2 < q_mono.2 then
      p_mono :: mergeMono q_mono q_next addInto next p_next
    else if p_mono.2 > q_mono.2 then
      q_mono :: next (p_mono :: p_next)
    else
      next ((addInto p_mono.1, p_mono.2) :: p_next)

/-- The step after the merge in `PolyAddInPlace`: when the first monomial has
exponent 0, its coefficient's constant moves into the constant of the
polynomial. -/
def foldFirstConstant (constant : Int) : List Mono → Int × List Mono
  | (p, 0) :: rest => (wrapCoeff (constant + p.constant), (Poly.mk 0 p.first_mono, 0) :: rest)
  | monos => (constant, monos)

mutual
/-- Function `PolyAddInPlace(p, q)`: the new value of `p`. For a list of `q` that is not
ascending the pointer updates of the C loop can close the list of `p` into a
cycle; the model is the merge the loop performs when the list of `q` ascends. -/
def PolyAddInPlace (p : Poly) : Poly → Poly
  | .mk q_constant [] => .mk (wrapCoeff (p.constant + q_constant)) p.first_mono
  | .mk q_constant (q_first :: q_next) =>
    match p.first_mono with
    | [] => .mk (wrapCoeff (p.constant + q_constant)) (q_first :: q_next)
    | p_first :: p_next =>
      let merged :=
        if p_first.2 > q_first.2 then
          mergeLoop (q_first :: p_first :: p_next) q_next
        else
          mergeLoop (p_first :: p_next) (q_first :: q_next)
      let folded := foldFirstConstant (wrapCoeff (p.constant + q_constant)) merged
      .mk folded.1 (RemoveEmptyMonos folded.2)
/-- The merge loop of `PolyAddInPlace`: `p_monos` is the list of `p` from
`p_mono` on, the second argument the list of `q` from `q_mono` on. -/
def mergeLoop (p_monos : List (Poly × Nat)) : List (Poly × Nat) → List (Poly × Nat)
  | [] => p_monos
  | (q_p, q_exp) :: q_next =>
    mergeMono (q_p, q_exp) q_next (fun c => PolyAddInPlace c q_p)
      (fun ps => mergeLoop ps q_next) p_monos
end

/-- Function `PolyAdd(p, q)`: `PolyAddInPlace` on clones of `p` and `q`. -/
def PolyAdd (p q : Poly) : Poly := PolyAddInPlace p q

/-! ## Sum of an array of monomials -/

/-- Comparison `MonoCompare(a, b) <= 0`: the exponent of `a` is not above that of `b`. -/
def MonoLe (a b : Mono) : Prop := a.2 ≤ b.2

instance : DecidableRel MonoLe := fun a b => by
  unfold MonoLe; infer_instance

/-- Function `MonosAreSorted`: no monomial of the array has an exponent above that of
its successor. -/
def MonosAreSorted : List Mono → Bool
  | [] => true
  | [_] => true
  | a :: b :: rest => if a.2 > b.2 then false else MonosAreSorted (b :: rest)

/-- Modelled from the spec: `qsort` of the C library with `MonoCompare`, as a
stable sort on the exponent ("stable key-only sort"). -/
def qsortMonos (monos : List Mono) : List Mono := monos.insertionSort MonoLe

/-- The two statements of `PolyAddMonos` repeated after every step: when
`last_mono` has exponent 0 the constant of its coefficient moves into
`result.constant`. -/
def foldLastConstant (constant : Int) (last_mono : Mono) : Int × Mono :=
  if last_mono.2 = 0 then
    (wrapCoeff (constant + last_mono.1.constant), (Poly.mk 0 last_mono.1.first_mono, last_mono.2))
  else
    (constant, last_mono)

/-- The `for` loop of `PolyAddMonos` over `monos[i]`, `i >= 1`: `constant` is
`result.constant`, `last_mono` the monomial at the end of the list built so
far. Returns the final constant and the list from `last_mono` on. -/
def addMonosLoop (constant : Int) (last_mono : Mono) : List Mono → Int × List Mono
  | [] => (constant, [last_mono])
  | m :: rest =>
    if last_mono.2 = m.2 then
      let st := foldLastConstant constant (PolyAddInPlace last_mono.1 m.1, last_mono.2)
      addMonosLoop st.1 st.2 rest
    else
      let st := foldLastConstant constant m
      let r := addMonosLoop st.1 st.2 rest
      (r.1, last_mono :: r.2)

/-- The array after the first `if` of `PolyAddMonos`: sorted by `qsort` when
`MonosAreSorted` is false. -/
def sortMonosIfNeeded (monos : List Mono) : List Mono :=
  if MonosAreSorted monos = false then qsortMonos monos else monos

/-- Function `PolyAddMonos(count, monos)`, the array given as a list. -/
def PolyAddMonos (monos : List Mono) : Poly :=
  match monos with
  | [] => PolyZero
  | _ :: _ =>
    match sortMonosIfNeeded monos with
    | [] => PolyZero
    | first :: rest =>
      let st := foldLastConstant 0 first
      let r := addMonosLoop st.1 st.2 rest
      .mk r.1 (RemoveEmptyMonos r.2)

/-! ## Multiplication -/

/-- Function `MonoCount`: number of monomials of the list of `p`. -/
def MonoCount (p : Poly) : Nat := p.first_mono.length

/-- Function `CloneMonosMultipliedByAConstant`: every monomial of the list with its
coefficient multiplied (by `mul`, which is `PolyMul`) by the constant
polynomial. -/
def CloneMonosMultipliedByAConstant (mul : Poly → Poly → Poly) (first_mono : List Mono)
    (constant : Int) : List Mono :=
  first_mono.map (fun m => (mul m.1 (PolyFromCoeff constant), m.2))

/-- Function `PolyMul` with a bound on the depth of the recursion; `PolyMul` passes a
bound that is never reached. The sum `mp.2 + mq.2` of two exponents is taken
exactly here, which is what `poly.c` computes as long as the sum is at most
`INT_MAX`; `Machine.PolyMulFuel` adds the two 32-bit `int`s as the machine does. -/
def PolyMulFuel : Nat → Poly → Poly → Poly
  | 0, _, _ => PolyZero
  | fuel + 1, p, q =>
    let cross := p.first_mono.flatMap (fun mp =>
      q.first_mono.map (fun mq => (PolyMulFuel fuel mp.1 mq.1, mp.2 + mq.2)))
    let first_p_mono := CloneMonosMultipliedByAConstant (PolyMulFuel fuel) p.first_mono q.constant
    let first_q_mono := CloneMonosMultipliedByAConstant (PolyMulFuel fuel) q.first_mono p.constant
    let result := PolyAddMonos (cross ++ (first_p_mono ++ first_q_mono))
    .mk (wrapCoeff (p.constant * q.constant)) result.first_mono

/-- Function `PolyMul(p, q)`, with a bound that the recursion cannot reach; the
sums of exponents are exact, see `PolyMulFuel`. -/
def PolyMul (p q : Poly) : Poly := PolyMulFuel (p.nodes + q.nodes) p q

/-! ## Powers -/

/-- The `while (n != 0)` loop of `FastCoeffPow`, at most `fuel` rounds. -/
def FastCoeffPowLoop : Nat → Int → Int → Nat → Int
  | 0, result, _, _ => result
  | fuel + 1, result, x, n =>
    if n = 0 then result
    else
      FastCoeffPowLoop fuel (if n % 2 = 1 then wrapCoeff (result * x) else result)
        (wrapCoeff (x * x)) (n / 2)

/-- Function `FastCoeffPow(x, n)`; the loop halves `n`, so `n` rounds are enough. -/
def FastCoeffPow (x : Int) (n : Nat) : Int := FastCoeffPowLoop n 1 x n

/-- The `while (n != 0)` loop of `FastPolyPow`, at most `fuel` rounds. -/
def FastPolyPowLoop : Nat → Poly → Poly → Nat → Poly
  | 0, result, _, _ => result
  | fuel + 1, result, x, n =>
    if n = 0 then result
    else
      FastPolyPowLoop fuel (if n % 2 = 1 then PolyMul result x else result)
        (PolyMul x x) (n / 2)

/-- Function `FastPolyPow(p, n)`; as in `FastCoeffPow`, `n` rounds are enough. -/
def FastPolyPow (p : Poly) (n : Nat) : Poly :=
  if PolyIsCoeff p then PolyFromCoeff (FastCoeffPow p.constant n)
  else FastPolyPowLoop n (PolyFromCoeff 1) p n

/-! ## Evaluation of the first variable -/

/-- Function `PolyAt(p, x)`. -/
def PolyAt (p : Poly) (x : Int) : Poly :=
  let result := p.first_mono.foldl
    (fun result m => PolyAddInPlace result (PolyMul (PolyFromCoeff (FastCoeffPow x m.2)) m.1))
    PolyZero
  .mk (wrapCoeff (result.constant + p.constant)) result.first_mono

/-! ## Composition -/

/-- Structure `ComposeState`: the result so far and the monomial being processed (the list
from that monomial on; `[]` is `NULL`). -/
structure ComposeState where
  /-- Field `result`. -/
  result : Poly
  /-- Field `mono`. -/
  mono : List Mono

/-- Function `NewComposeState(mono, constant)`. -/
def NewComposeState (mono : List Mono) (constant : Int) : ComposeState :=
  { result := PolyFromCoeff constant, mono := mono }

/-- Ways in which the loop of `PolyCompose` could fail to return a polynomial. -/
inductive ComposeFault : Type
  /-- The bound on the number of rounds was reached. -/
  | outOfFuel
  /-- Call of `StackTop` or `StackPop` on an empty stack (a failed `assert`). -/
  | emptyStack
  /-- Pointer `next_state->mono` is `NULL` where its exponent is read. -/
  | nullMono
  /-- The array `x` is read at an index that is not below `count`. -/
  | outOfBounds
  deriving DecidableEq, Repr

/-- The `while` loop of `PolyCompose` and the statements after it; the stack is
a list with its top at the head. -/
def composeLoop (count : Nat) (x : List Poly) :
    Nat → List ComposeState → Except ComposeFault Poly
  | 0, _ => .error .outOfFuel
  | _ + 1, [] => .error .emptyStack
  | fuel + 1, current_state :: below =>
    if below.length + 1 > 1 || !current_state.mono.isEmpty then
      if current_state.mono.isEmpty || below.length + 1 > count then
        let lower_result := current_state.result
        match below with
        | [] => .ok lower_result
        | next_state :: rest =>
          match next_state.mono with
          | [] => .error .nullMono
          | m :: next_mono =>
            if below.length - 1 < count then
              match x[below.length - 1]? with
              | none => .error .outOfBounds
              | some x_i =>
                let poly_power := FastPolyPow x_i m.2
                let result := PolyMul lower_result poly_power
                composeLoop count x fuel
                  ({ result := PolyAddInPlace next_state.result result,
                     mono := next_mono } :: rest)
            else .error .outOfBounds
      else
        match current_state.mono with
        | [] => .error .nullMono
        | m :: _ =>
          composeLoop count x fuel
            (NewComposeState m.1.first_mono m.1.constant :: current_state :: below)
    else
      .ok current_state.result

/-- Function `PolyCompose(p, count, x)`; every monomial of `p` is pushed and popped at
most once, which bounds the number of rounds. -/
def PolyCompose (p : Poly) (count : Nat) (x : List Poly) : Except ComposeFault Poly :=
  composeLoop count x (2 * p.nodes + 1) [NewComposeState p.first_mono p.constant]

/-! ## Value of a polynomial -/

mutual
/-- Value of `p` under the assignment `v` of integers to the variables: the
constant plus the sum of `v 0 ^ exp * value of the coefficient` over the
monomials, the coefficient read in the variables `v 1, v 2, ...`. -/
def value : Poly → (Nat → Int) → Int
  | .mk c ms, v => c + valueMonos ms v
/-- Sum of the values of the monomials of a list. -/
def valueMonos : List (Poly × Nat) → (Nat → Int) → Int
  | [], _ => 0
  | (p, e) :: rest, v => v 0 ^ e * value p (fun i => v (i + 1)) + valueMonos rest v
end

mutual
/-- Value of `p` in a commutative ring `R` under an assignment of elements of `R`
to the variables (the integers are the case `value`). -/
def evalIn {R : Type} [CommRing R] : Poly → (Nat → R) → R
  | .mk c ms, v => (c : R) + evalMonosIn ms v
/-- Sum in `R` of the values of the monomials of a list. -/
def evalMonosIn {R : Type} [CommRing R] : List (Poly × Nat) → (Nat → R) → R
  | [], _ => 0
  | (p, e) :: rest, v => v 0 ^ e * evalIn p (fun i => v (i + 1)) + evalMonosIn rest v
end

/-- The assignment `(a, v 0, v 1, ...)`: `a` for the first variable, `v` for the
variables after it. -/
def consAssign {R : Type} (a : R) (v : Nat → R) : Nat → R
  | 0 => a
  | i + 1 => v i

/-- A ring in which `2 ^ 64` is zero: the wrap-around of the coefficient type
cannot be seen in it. -/
def WrapsIn (R : Type) [CommRing R] : Prop := ((coeffModulus : Int) : R) = 0

/-! ## Invariants of the representation -/

mutual
/-- Every polynomial of the tree (the polynomial, the coefficients of its
monomials, their coefficients, ...) passes the test `ok` on its constant and
its list of monomials. -/
def Poly.all (ok : Int → List Mono → Bool) : Poly → Bool
  | .mk c ms => ok c ms && allList ok ms
/-- The coefficients of a list of monomials pass `Poly.all`. -/
def allList (ok : Int → List Mono → Bool) : List (Poly × Nat) → Bool
  | [] => true
  | (p, _) :: rest => Poly.all ok p && allList ok rest
end

/-- Exponents of a monomial list strictly ascending (so no exponent twice). -/
def ExpsAscending (monos : List Mono) : Prop := (monos.map Prod.snd).Pairwise (· < ·)

instance (monos : List Mono) : Decidable (ExpsAscending monos) := by
  unfold ExpsAscending; infer_instance

/-- Test at one polynomial: exponents strictly ascending and no monomial with
the zero polynomial as coefficient. -/
def orderedNode (_constant : Int) (monos : List Mono) : Bool :=
  decide (ExpsAscending monos) && monos.all (fun m => !PolyIsZero m.1)

/-- Test at one polynomial: a monomial with exponent 0 has a coefficient whose
constant is 0. -/
def zeroExpNode (_constant : Int) (monos : List Mono) : Bool :=
  monos.all (fun m => m.2 != 0 || m.1.constant == 0)

/-- Test at one polynomial: the constant is a value of `poly_coeff_t`. -/
def rangeNode (constant : Int) (_monos : List Mono) : Bool :=
  decide (CoeffInRange constant)

/-- Ordering and non-zero invariant at every nesting level. -/
def TermsOrdered (p : Poly) : Prop := p.all orderedNode = true

/-- At every nesting level a monomial with exponent 0 has a coefficient whose
constant is 0: the constant part of an exponent-0 term is held in the constant of
the enclosing polynomial. -/
def ZeroExpFolded (p : Poly) : Prop := p.all zeroExpNode = true

/-- Every constant of the tree is a value of `poly_coeff_t`. -/
def CoeffsInRange (p : Poly) : Prop := p.all rangeNode = true

/-- The canonical form of the engine: what `PolyZero`, `PolyFromCoeff`,
`PolyAddMonos` and the operations build. -/
def Canonical (p : Poly) : Prop := TermsOrdered p ∧ ZeroExpFolded p ∧ CoeffsInRange p

instance (p : Poly) : Decidable (TermsOrdered p) := by
  unfold TermsOrdered; infer_instance

instance (p : Poly) : Decidable (ZeroExpFolded p) := by
  unfold ZeroExpFolded; infer_instance

instance (p : Poly) : Decidable (CoeffsInRange p) := by
  unfold CoeffsInRange; infer_instance

instance (p : Poly) : Decidable (Canonical p) := by
  unfold Canonical; infer_instance

/-- No monomial of the polynomial itself has exponent 0. -/
def NoZeroExpTerm (p : Poly) : Prop := ∀ m ∈ p.first_mono, m.2 ≠ 0

instance (p : Poly) : Decidable (NoZeroExpTerm p) := by
  unfold NoZeroExpTerm; infer_instance

/-! ## What the loop of `PolyCompose` computes -/

mutual
/-- The result that the frame of a polynomial `p` holds when it is popped, `k`
being the number of frames below it: the constant alone when the stack has grown
past `count`, otherwise the constant plus, for every monomial in turn, the result
of its coefficient times the power of `x[k]`. -/
def composeRec (count : Nat) (x : List Poly) : Nat → Poly → Poly
  | k, .mk c ms =>
    if k + 1 > count then PolyFromCoeff c else composeMonos count x k (PolyFromCoeff c) ms
/-- The frame result after the monomials of the list were processed, starting
from the result `acc`. -/
def composeMonos (count : Nat) (x : List Poly) : Nat → Poly → List (Poly × Nat) → Poly
  | _, acc, [] => acc
  | k, acc, (p, e) :: rest =>
    composeMonos count x k
      (PolyAddInPlace acc (PolyMul (composeRec count x (k + 1) p)
        (FastPolyPow (x.getD k PolyZero) e))) rest
end

instance : IsTrans Mono MonoLe := ⟨fun _ _ _ h1 h2 => Nat.le_trans h1 h2⟩

instance : IsTotal Mono MonoLe := ⟨fun a b => Nat.le_total a.2 b.2⟩

/-! ## Negation and subtraction -/

mutual
/-- Function `PolyNeg(p)`: the constant multiplied by -1 and the list of the
negated monomials, in the same order. -/
def PolyNeg : Poly → Poly
  | .mk c ms => .mk (wrapCoeff (-1 * c)) (MonoListNeg ms)
/-- Modelled from the spec: `MonoNeg` of the absent `poly.h` ("recursively negate
every term's coefficient; exponents and structure are otherwise copied
unchanged"), the monomial with the negated coefficient and the same exponent. -/
def MonoNeg : Poly × Nat → Poly × Nat
  | (p, e) => (PolyNeg p, e)
/-- The loop of `PolyNeg` over the list of `p`: `MonoNeg` of every monomial. -/
def MonoListNeg : List (Poly × Nat) → List (Poly × Nat)
  | [] => []
  | m :: rest => MonoNeg m :: MonoListNeg rest
end

/-- Function `PolySub(p, q)`: `PolyAddInPlace` of a clone of `p` and `PolyNeg(q)`. -/
def PolySub (p q : Poly) : Poly := PolyAddInPlace p (PolyNeg q)

/-! ## Degree -/

/-- Function `Max` of `poly.c` on `poly_exp_t`. -/
def Max (a b : Int) : Int := if a > b then a else b

mutual
/-- Function `PolyDeg(p)`: -1, or 0 when the constant is not 0, raised by the loop
over the monomials. The result is a `poly_exp_t`, an integer here: the sums of
the loop are taken exactly, which is what `poly.c` computes as long as no sum
is above `INT_MAX`; `Machine.PolyDeg` computes them as the machine does. -/
def PolyDeg : Poly → Int
  | .mk c ms => PolyDegLoop (if c ≠ 0 then 0 else -1) ms
/-- The `while` loop of `PolyDeg`: `result` becomes the larger of `result` and
the degree of the coefficient plus the exponent, for every monomial in turn.
The sum is exact here; `Machine.PolyDegLoop` wraps it around to 32 bits. -/
def PolyDegLoop : Int → List (Poly × Nat) → Int
  | result, [] => result
  | result, (p, e) :: rest => PolyDegLoop (Max result (PolyDeg p + (e : Int))) rest
end

/-! ## The identity chain of the composition -/

mutual
/-- Variable nesting depth: 0 for a polynomial without monomials, otherwise one
more than the largest depth of a coefficient. -/
def Poly.depth : Poly → Nat
  | .mk _ ms => depthList ms
/-- Largest value of `1 + depth of the coefficient` over a list of monomials. -/
def depthList : List (Poly × Nat) → Nat
  | [] => 0
  | (p, _) :: rest => max (1 + Poly.depth p) (depthList rest)
end

/-! ## Degree in one variable -/

/-- The first `while` loop of `PolyDegBy` (taken when `var_idx == 0`): `result`
becomes the larger of `result` and the exponent, for every monomial in turn. -/
def PolyDegByExpLoop : Int → List Mono → Int
  | result, [] => result
  | result, m :: rest => PolyDegByExpLoop (Max result (m.2 : Int)) rest

mutual
/-- Function `PolyDegBy(p, var_idx)`: -1 for the zero polynomial; otherwise
`result` starts at 0 and is raised by one of the two loops over the monomials.
The result is a `poly_exp_t`, an integer here; `var_idx` is unsigned. -/
def PolyDegBy : Poly → Nat → Int
  | .mk c ms, var_idx =>
    if PolyIsZero (.mk c ms) then -1
    else if var_idx = 0 then PolyDegByExpLoop 0 ms
    else PolyDegByLoop 0 ms var_idx
/-- The second `while` loop of `PolyDegBy` (taken when `var_idx != 0`): `result`
becomes the larger of `result` and `PolyDegBy(&mono->p, var_idx - 1)`. -/
def PolyDegByLoop : Int → List (Poly × Nat) → Nat → Int
  | result, [], _ => result
  | result, (p, _) :: rest, var_idx =>
    PolyDegByLoop (Max result (PolyDegBy p (var_idx - 1))) rest var_idx
end

/-! ## The expansion of a polynomial into monomials -/

mutual
/-- The expansion of a polynomial, as the specification speaks of it: the list
of its monomials, each given by the exponents of the variables `x_0, x_1, ...`
(position `i` holds the exponent of `x_i`, a missing position means exponent 0)
and by its coefficient. A node contributes its constant, when that is not 0,
and a term `(p, e)` contributes the monomials of `p` multiplied by `x^e`. -/
def expansion : Poly → List (List Nat × Int)
  | .mk c ms => (if c ≠ 0 then [([], c)] else []) ++ expansionMonos ms
/-- The monomials contributed by a list of terms. -/
def expansionMonos : List (Poly × Nat) → List (List Nat × Int)
  | [] => []
  | (p, e) :: rest => (expansion p).map (fun t => (e :: t.1, t.2)) ++ expansionMonos rest
end

/-- Value of the monomial with the given exponents: the product of the powers
`(v i) ^ (exponent at position i)`. -/
def monomialValue {R : Type} [CommRing R] : List Nat → (Nat → R) → R
  | [], _ => 1
  | e :: es, v => v 0 ^ e * monomialValue es (fun i => v (i + 1))

/-- Sum of the exponents of a monomial of the expansion. -/
def exponentSum (es : List Nat) : Int := ((es.sum : Nat) : Int)

/-- Structure `InputStream` of `input.h`. The buffer and the rest of the file
behind it are one list, `unread`, of the characters not read yet; the counters
`column_number` and `line_number` are unsigned in the source and natural numbers
here (no line or file reaches `2^32`). The text written with `fprintf(stderr, ...)`
by the functions that hold the stream is collected in `stderr`, one entry for
each call. -/
structure InputStream where
  /-- Characters not read yet. -/
  unread : List Char
  /-- Number of characters read in the current line. -/
  column_number : Nat
  /-- Number of newlines read. -/
  line_number : Nat
  /-- Flag set when a parse error was found; cleared by every `PeekCharacter`. -/
  parse_error : Bool
  /-- Text written to the standard error stream. -/
  stderr : List String

/-- Function `InputStreamInit`, on the text of the file. -/
def InputStreamInit (text : List Char) : InputStream :=
  { unread := text, column_number := 0, line_number := 0, parse_error := false, stderr := [] }

/-- Function `PeekCharacter`: clears `parse_error` and returns the current
character, or `none` for `EOF`. Here `EOF` is returned at the end of the input
only: the input is taken to hold no byte `0xFF`, the one byte that as a `char`
is equal to `EOF`. `Machine.PeekCharacter` is the function on every input. -/
def PeekCharacter (stream : InputStream) : Option Char × InputStream :=
  (stream.unread.head?, { stream with parse_error := false })

/-- Function `ReadCharacter`: returns the current character and moves past it;
the column grows by one, and a newline starts the next line at column 0. At
`EOF` nothing moves. As for `PeekCharacter`, the input is taken to hold no byte
`0xFF`; `Machine.ReadCharacter` is the function on every input. -/
def ReadCharacter (stream : InputStream) : Option Char × InputStream :=
  match PeekCharacter stream with
  | (none, stream) => (none, stream)
  | (some c, stream) =>
    let stream := { stream with unread := stream.unread.tail,
                                column_number := stream.column_number + 1 }
    if c = '\n' then
      (some c, { stream with line_number := stream.line_number + 1, column_number := 0 })
    else (some c, stream)

/-- The loop of `SkipLine`: `c = ReadCharacter(stream)` until `c` is a newline
or `EOF`. The first argument is the list of unread characters of the stream, on
which the recursion runs. `EOF` is met at the end of the input only, as for
`PeekCharacter`; `Machine.SkipLineLoop` is the loop on every input. -/
def SkipLineLoop : List Char → InputStream → InputStream
  | [], stream => (ReadCharacter stream).2
  | c :: rest, stream =>
    if c = '\n' then (ReadCharacter stream).2 else SkipLineLoop rest (ReadCharacter stream).2

/-- Function `SkipLine`: reads up to and including the next newline. -/
def SkipLine (stream : InputStream) : InputStream := SkipLineLoop stream.unread stream

/-! ## Numbers -/

/-- Constant `MAX_VALUE_AND_COEFF_LENGTH` of `parse.h`. -/
def MAX_VALUE_AND_COEFF_LENGTH : Nat := 19

/-- Constant `MAX_EXPONENT_LENGTH` of `parse.h`. -/
def MAX_EXPONENT_LENGTH : Nat := 10

/-- Constant `MAX_VARIABLE_LENGTH` of `parse.h`. -/
def MAX_VARIABLE_LENGTH : Nat := 10

/-- Constant `LONG_MIN` of `limits.h` for a 64-bit `long`. -/
def LONG_MIN : Int := -9223372036854775808

/-- Constant `LONG_MAX` of `limits.h` for a 64-bit `long`. -/
def LONG_MAX : Int := 9223372036854775807

/-- Constant `UINT_MAX` of `limits.h` for a 32-bit `unsigned`. -/
def UINT_MAX : Nat := 4294967295

/-- Constant `INT_MAX` of `limits.h` for a 32-bit `int`. -/
def INT_MAX : Nat := 2147483647

/-- Function `IsValidDigit` of `parse.h`; `EOF` is not a digit. -/
def IsValidDigit : Option Char → Bool
  | some c => decide ('0' ≤ c) && decide (c ≤ '9')
  | none => false

/-- Function `IsValidNumberCharacter` of `parse.h`. -/
def IsValidNumberCharacter (c : Option Char) : Bool := IsValidDigit c || c == some '-'

/-- The expression `value[i] - '0'`, for a digit. -/
def digitValue (c : Char) : Nat := c.toNat - '0'.toNat

/-- Function `ReadDigitsIntoAnArray`: reads digits while the current character
is a digit and the array has room. The first argument is the room that is left,
`max_length - length`; the result is the filled part of the array (its length
is the returned `length`) and the stream. -/
def ReadDigitsIntoAnArray : Nat → InputStream → List Char × InputStream
  | 0, stream => ([], (PeekCharacter stream).2)
  | room + 1, stream =>
    match PeekCharacter stream with
    | (some c, stream) =>
      if IsValidDigit (some c) then
        let r := ReadDigitsIntoAnArray room (ReadCharacter stream).2
        (c :: r.1, r.2)
      else ([], stream)
    | (none, stream) => ([], stream)

/-- The error exit of the readers: `fprintf(stderr, ...)`, `SkipLine(stream)`,
`stream->parse_error = true`. -/
def reportError (stream : InputStream) (message : String) : InputStream :=
  let stream := { stream with stderr := stream.stderr ++ [message] }
  let stream := SkipLine stream
  { stream with parse_error := true }

/-- The bound loop of `ReadValueOrCoefficient`, `for (i = length - 1; i >= 0; --i)`:
the digits come from the last to the first, `reference` loses its last digit in
every round, and the result tells whether the round with `c > ref_c` was
reached. Division and remainder round towards zero, as in C. -/
def coeffDigitExceeds : List Char → Int → Bool
  | [], _ => false
  | d :: digits, reference =>
    let c : Int := (digitValue d : Int)
    let ref_c : Int := Int.tmod reference 10
    let ref_c : Int := if ref_c < 0 then ref_c * (-1) else ref_c
    let reference : Int := Int.tdiv reference 10
    if c > ref_c then true else coeffDigitExceeds digits reference

/-- The bound loop of `ReadDegByOrComposeCommandArgument` and of `ReadExponent`,
on an `unsigned reference`. -/
def unsignedDigitExceeds : List Char → Nat → Bool
  | [], _ => false
  | d :: digits, reference =>
    let c : Nat := digitValue d
    let ref_c : Nat := reference % 10
    let reference : Nat := reference / 10
    if c > ref_c then true else unsignedDigitExceeds digits reference

/-- Function `ReadValueOrCoefficient`. The result of the `poly_coeff_t`
arithmetic wraps around. -/
def ReadValueOrCoefficient (stream : InputStream) (isValue : Bool) : Int × InputStream :=
  let negative : Bool := (PeekCharacter stream).1 == some '-'
  let stream := (PeekCharacter stream).2
  let stream := if negative then (ReadCharacter stream).2 else stream
  let (value, stream) := ReadDigitsIntoAnArray MAX_VALUE_AND_COEFF_LENGTH stream
  let length := value.length
  let c := (PeekCharacter stream).1
  let stream := (PeekCharacter stream).2
  if isValue && (c != some '\n' || length == 0) then
    (0, reportError stream ("ERROR " ++ toString (stream.line_number + 1) ++ " WRONG VALUE\n"))
  else if !isValue && ((c != some ',' && c != some '\n') || length == 0) then
    (0, reportError stream ("ERROR " ++ toString (stream.line_number + 1) ++ " "
      ++ toString (stream.column_number + 1) ++ "\n"))
  else if length == MAX_VALUE_AND_COEFF_LENGTH
      && coeffDigitExceeds value.reverse (if negative then LONG_MIN else LONG_MAX) then
    if isValue then
      (0, reportError stream ("ERROR " ++ toString (stream.line_number + 1) ++ " WRONG VALUE\n"))
    else
      (0, reportError stream ("ERROR " ++ toString (stream.line_number + 1) ++ " "
        ++ toString stream.column_number ++ "\n"))
  else
    let result : Int :=
      value.foldl (fun result d => wrapCoeff (wrapCoeff (result * 10) + (digitValue d : Int))) 0
    let result : Int := if negative then wrapCoeff (result * (-1)) else result
    (result, stream)

/-- Function `ReadAtCommandArgument`. -/
def ReadAtCommandArgument (stream : InputStream) : Int × InputStream :=
  ReadValueOrCoefficient stream true

/-- Function `ReadPolyCoefficient`. -/
def ReadPolyCoefficient (stream : InputStream) : Int × InputStream :=
  ReadValueOrCoefficient stream false

/-- Function `ReadDegByOrComposeCommandArgument`. The `unsigned` result is
computed modulo `2^32`. -/
def ReadDegByOrComposeCommandArgument (stream : InputStream) (isDegBy : Bool) :
    Nat × InputStream :=
  let (value, stream) := ReadDigitsIntoAnArray MAX_VARIABLE_LENGTH stream
  let length := value.length
  -- `length == 0 || ReadCharacter(stream) != '\n'`: the character is read only when
  -- there are digits
  let wrong : Bool := length == 0 || (ReadCharacter stream).1 != some '\n'
  let stream := if length == 0 then stream else (ReadCharacter stream).2
  if wrong then
    if isDegBy then
      (0, reportError stream
        ("ERROR " ++ toString (stream.line_number + 1) ++ " WRONG VARIABLE\n"))
    else
      (0, reportError stream ("ERROR " ++ toString (stream.line_number + 1) ++ " WRONG COUNT\n"))
  else if length == MAX_VARIABLE_LENGTH && unsignedDigitExceeds value.reverse UINT_MAX then
    if isDegBy then
      (0, { stream with
              stderr := stream.stderr
                ++ ["ERROR " ++ toString stream.line_number ++ " WRONG VARIABLE\n"],
              parse_error := true })
    else
      (0, { stream with
              stderr := stream.stderr ++ ["ERROR " ++ toString stream.line_number ++ " WRONG COUNT\n"],
              parse_error := true })
  else
    (value.foldl (fun result d => (result * 10 % 4294967296 + digitValue d) % 4294967296) 0,
      stream)

/-- Function `ReadDegByCommandArgument`. -/
def ReadDegByCommandArgument (stream : InputStream) : Nat × InputStream :=
  ReadDegByOrComposeCommandArgument stream true

/-- Function `ReadComposeCommandArgument`. -/
def ReadComposeCommandArgument (stream : InputStream) : Nat × InputStream :=
  ReadDegByOrComposeCommandArgument stream false

/-- Function `ReadExponent`. The result is a `poly_exp_t`; it is computed only
after the bound loop has passed, so it is at most `INT_MAX` and the natural
number here is the value of the `int`. -/
def ReadExponent (stream : InputStream) : Nat × InputStream :=
  let last_column := stream.column_number + 2
  let negative_zero_expected : Bool := (PeekCharacter stream).1 == some '-'
  let stream := (PeekCharacter stream).2
  let stream := if negative_zero_expected then (ReadCharacter stream).2 else stream
  let (value, stream) := ReadDigitsIntoAnArray MAX_EXPONENT_LENGTH stream
  let length := value.length
  if negative_zero_expected && (length != 1 || value.head? != some '0') then
    (0, reportError stream ("ERROR " ++ toString (stream.line_number + 1) ++ " "
      ++ toString last_column ++ "\n"))
  else if length == 0 then
    (0, reportError stream ("ERROR " ++ toString (stream.line_number + 1) ++ " "
      ++ toString (stream.column_number + 1) ++ "\n"))
  else if length == MAX_EXPONENT_LENGTH && unsignedDigitExceeds value.reverse INT_MAX then
    (0, reportError stream ("ERROR " ++ toString (stream.line_number + 1) ++ " "
      ++ toString stream.column_number ++ "\n"))
  else
    (value.foldl (fun result d => result * 10 + digitValue d) 0, stream)

/-! ## Printing -/

mutual
/-- Function `PolyPrintWithConstant(p, constant)`, with the text given to
`printf` as the result. `%ld` and `%u` print a number in decimal. -/
def PolyPrintWithConstant : Poly → Int → String
  | .mk c ms, constant =>
    let constant : Int := wrapCoeff (constant + c)
    match ms with
    | [] => toString constant
    | (p, e) :: rest =>
      (if constant ≠ 0 ∧ e ≠ 0 then "(" ++ toString constant ++ ",0)+" else "")
        ++ PolyPrintLoop ((p, e) :: rest) constant
/-- The `while` loop of `PolyPrintWithConstant` over the monomials: the
coefficient of a monomial with exponent 0 is printed with `constant`, the
others with 0. -/
def PolyPrintLoop : List (Poly × Nat) → Int → String
  | [], _ => ""
  | (p, e) :: rest, constant =>
    "(" ++ (if e = 0 then PolyPrintWithConstant p constant else PolyPrintWithConstant p 0)
      ++ "," ++ toString e ++ ")"
      ++ (if rest.isEmpty then "" else "+") ++ PolyPrintLoop rest constant
end

/-- Function `PolyPrint`, with the printed text as the result. -/
def PolyPrint (p : Poly) : String := PolyPrintWithConstant p 0

/-! ## Reading a polynomial -/

/-- Function `CollapseMonoStackIntoAPoly`: the stack, given with its top first,
is copied into an array from the bottom to the top and summed. -/
def CollapseMonoStackIntoAPoly (s : List Mono) : Poly :=
  if s.length = 0 then PolyZero else PolyAddMonos s.reverse

/-- The failing exit of `PARSE_POLY_EXPECT`: the diagnostic with the 1-based
line and column, `SkipLine`, the flag, and the zero polynomial as the result. -/
def parsePolyFail (stream : InputStream) : Poly × InputStream :=
  (PolyZero, reportError stream ("ERROR " ++ toString (stream.line_number + 1) ++ " "
    ++ toString (stream.column_number + 1) ++ "\n"))

/-- The `while` loop of `ReadPolynomial` together with the statements after it.
The stack `parse_stack` is never empty and is given as its top accumulator `top`
and the list `below` of the others, so that `StackSize(&parse_stack)` is
`below.length + 1`; an accumulator is a stack of monomials with its top first.
Every round that goes on reads a character, and the first argument bounds the
number of rounds. -/
def ReadPolynomialLoop :
    Nat → InputStream → Bool → List Mono → List (List Mono) → Poly × InputStream
  | 0, stream, _, _, _ => (PolyZero, stream)
  | fuel + 1, stream, expecting_mono, top, below =>
    let c := (PeekCharacter stream).1
    let stream := (PeekCharacter stream).2
    if c == some '\n' then
      -- the loop is left
      if below.length + 1 == 1 && expecting_mono == false then
        (CollapseMonoStackIntoAPoly top, (ReadCharacter stream).2)
      else parsePolyFail stream
    else if c == some '(' then
      let stream := (ReadCharacter stream).2
      let c := (PeekCharacter stream).1
      let stream := (PeekCharacter stream).2
      if IsValidNumberCharacter c || c == some '(' then
        ReadPolynomialLoop fuel stream false [] (top :: below)
      else parsePolyFail stream
    else if IsValidNumberCharacter c && expecting_mono == false then
      let (coeff, stream) := ReadPolyCoefficient stream
      if stream.parse_error then (PolyZero, stream)
      else if coeff != 0 then
        ReadPolynomialLoop fuel stream expecting_mono
          (MonoFromPoly (PolyFromCoeff coeff) 0 :: top) below
      else ReadPolynomialLoop fuel stream expecting_mono top below
    else if c == some ',' && expecting_mono == false && below.length + 1 > 1 then
      let stream := (ReadCharacter stream).2
      let (exponent, stream) := ReadExponent stream
      if stream.parse_error then (PolyZero, stream)
      else
        match below with
        | [] => parsePolyFail stream
        | next :: below =>
          let p := CollapseMonoStackIntoAPoly top
          let top := if !PolyIsZero p then MonoFromPoly p exponent :: next else next
          let c := (PeekCharacter stream).1
          let stream := (PeekCharacter stream).2
          if c == some ')' then
            let stream := (ReadCharacter stream).2
            let c := (PeekCharacter stream).1
            let stream := (PeekCharacter stream).2
            if c == some '+' then
              ReadPolynomialLoop fuel (ReadCharacter stream).2 true top below
            else if c == some '\n' || c == some ',' then
              ReadPolynomialLoop fuel stream expecting_mono top below
            else parsePolyFail stream
          else parsePolyFail stream
    else parsePolyFail stream

/-- Function `ReadPolynomial`: the polynomial read and the stream after it. -/
def ReadPolynomial (stream : InputStream) : Poly × InputStream :=
  let c := (PeekCharacter stream).1
  let stream := (PeekCharacter stream).2
  if IsValidNumberCharacter c || c == some '(' then
    ReadPolynomialLoop (stream.unread.length + 1) stream false [] []
  else parsePolyFail stream

/-! ## Decimal literals -/

/-- Every character of the list is a decimal digit. -/
def AllDigits (digits : List Char) : Prop := ∀ d ∈ digits, IsValidDigit (some d) = true

instance (digits : List Char) : Decidable (AllDigits digits) := by
  unfold AllDigits; infer_instance

/-- The number written by a list of decimal digits. -/
def decimalValue (digits : List Char) : Nat :=
  digits.foldl (fun value d => value * 10 + digitValue d) 0

/-- Text of a literal: an optional `-` and the digits. -/
def literalText (negative : Bool) (digits : List Char) : List Char :=
  if negative then '-' :: digits else digits

/-- The number written by a literal. -/
def literalValue (negative : Bool) (digits : List Char) : Int :=
  if negative then -(decimalValue digits : Int) else (decimalValue digits : Int)

/-! ## The rendering, as the specification describes it -/

/-- Strings joined by `+`. -/
def joinPlus : List String → String
  | [] => ""
  | [s] => s
  | s :: t :: rest => s ++ "+" ++ joinPlus (t :: rest)

mutual
/-- The rendering that the specification describes for `PolyPrint`: the
constant for a polynomial without terms; otherwise the terms, each as `(`, the
rendering of the coefficient, `,`, the exponent and `)`, joined by `+`, preceded
by `(constant,0)+` when the constant is not 0 and the first exponent is not 0. -/
def renderClaimed : Poly → String
  | .mk c ms =>
    match ms with
    | [] => toString c
    | (p, e) :: rest =>
      (if c ≠ 0 ∧ e ≠ 0 then "(" ++ toString c ++ ",0)+" else "")
        ++ joinPlus (renderClaimedTerms ((p, e) :: rest))
/-- The renderings of the terms, for `renderClaimed`. -/
def renderClaimedTerms : List (Poly × Nat) → List String
  | [] => []
  | (p, e) :: rest =>
    ("(" ++ renderClaimed p ++ "," ++ toString e ++ ")") :: renderClaimedTerms rest
end

/-! ## The grammar of the polynomial literals -/

/-- A literal accepted by a reader: applied to the literal followed by the
terminator, the reader leaves the parse-error flag clear and stops right at the
terminator. -/
def AcceptsLiteral {α : Type} (reader : InputStream → α × InputStream) (terminator : Char)
    (w : List Char) : Prop :=
  (reader (InputStreamInit (w ++ [terminator]))).2.parse_error = false ∧
    (reader (InputStreamInit (w ++ [terminator]))).2.unread = [terminator]

instance {α : Type} (reader : InputStream → α × InputStream) (terminator : Char)
    (w : List Char) : Decidable (AcceptsLiteral reader terminator w) := by
  unfold AcceptsLiteral; infer_instance

/-- The grammar of the specification,
`poly ::= coefficient | mono ('+' mono)*` and `mono ::= '(' poly ',' exponent ')'`,
where a coefficient is a literal accepted by `ReadPolyCoefficient` and an
exponent a literal accepted by `ReadExponent`. `PolyGrammar false w` says that
the text `w` is a `poly`, and `PolyGrammar true w` that it is a `mono` followed
by any number of `'+' mono`. -/
inductive PolyGrammar : Bool → List Char → Prop
  | coefficient {w : List Char} :
      AcceptsLiteral ReadPolyCoefficient ',' w → PolyGrammar false w
  | monos {w : List Char} : PolyGrammar true w → PolyGrammar false w
  | mono {p e : List Char} :
      PolyGrammar false p → AcceptsLiteral ReadExponent ')' e →
      PolyGrammar true ('(' :: p ++ ',' :: e ++ [')'])
  | plus {p e ms : List Char} :
      PolyGrammar false p → AcceptsLiteral ReadExponent ')' e → PolyGrammar true ms →
      PolyGrammar true ('(' :: p ++ ',' :: e ++ ')' :: '+' :: ms)

/-- The outcome of a rejected line: the parse-error flag is set and the zero
polynomial is returned. -/
def ParseRejected (r : Poly × InputStream) : Prop := r.2.parse_error = true ∧ r.1 = PolyZero

/-- What the loop of `ReadPolynomial` does from the start of a text, with
`result` what it returns on the characters `u` with `fuel` rounds: either the
line is rejected, or the loop reads a text `w` of the grammar (a `poly` for
`b = false`, monomials joined by `+` for `b = true`) and goes on right after it,
at `,` or a newline, with the stack as deep as before, no monomial expected, in
the same line and with nothing reported. -/
def LoopOutcome (b : Bool) (result : Poly × InputStream) (fuel : Nat) (u : List Char)
    (col line : Nat) (err : List String) (below : List (List Mono)) : Prop :=
  ParseRejected result ∨
    ∃ w u' top' fuel', PolyGrammar b w ∧ u = w ++ u' ∧
      (u'.head? = some ',' ∨ u'.head? = some '\n') ∧ u'.length < fuel' ∧ fuel' ≤ fuel ∧
      result = ReadPolynomialLoop fuel' ⟨u', col + w.length, line, false, err⟩ false top' below

/-! ## The exponent-0 terms, as the code keeps them -/

/-- Test at one polynomial: a monomial with exponent 0 has a coefficient whose
constant is 0 and which has at least one monomial of its own. -/
def zeroExpHeldNode (_constant : Int) (monos : List Mono) : Bool :=
  monos.all (fun m => m.2 != 0 || (m.1.constant == 0 && !m.1.first_mono.isEmpty))

/-- At every nesting level a monomial with exponent 0 has a coefficient whose
constant is 0 and which has at least one monomial: the constant part of an
exponent-0 coefficient is held only in the constant of the enclosing
polynomial. -/
def ZeroExpHeld (p : Poly) : Prop := p.all zeroExpHeldNode = true

instance (p : Poly) : Decidable (ZeroExpHeld p) := by
  unfold ZeroExpHeld; infer_instance

/-- The array `monos` that `PolyMul(p, q)` fills and passes to `PolyAddMonos`:
the products of the monomials of `p` with the monomials of `q`, at the index
`q_mono_count * p_id + q_id`, then the monomials of `p` multiplied by the
constant of `q`, then the monomials of `q` multiplied by the constant of `p`. -/
def PolyMulArray (p q : Poly) : List Mono :=
  p.first_mono.flatMap (fun mp => q.first_mono.map (fun mq => (PolyMul mp.1 mq.1, mp.2 + mq.2)))
    ++ (CloneMonosMultipliedByAConstant PolyMul p.first_mono q.constant
    ++ CloneMonosMultipliedByAConstant PolyMul q.first_mono p.constant)

/-! ## Digit-wise comparison with a bound -/

/-- Some digit of `digits` is greater than the digit of `bound` at the same
position, the positions counted from the first digit of both. -/
def SomeDigitExceeds (digits bound : List Char) : Bool :=
  (digits.zip bound).any (fun t => decide (digitValue t.1 > digitValue t.2))

/-! ## The commands of the calculator -/

/-- Function `IsValidCommandStartingCharacter` of `parse.h`; `EOF` is not a letter. -/
def IsValidCommandStartingCharacter : Option Char → Bool
  | some c => (decide ('a' ≤ c) && decide (c ≤ 'z')) || (decide ('A' ≤ c) && decide (c ≤ 'Z'))
  | none => false

/-- Function `IsValidCommandCharacter` of `parse.h`. -/
def IsValidCommandCharacter (c : Option Char) : Bool :=
  IsValidCommandStartingCharacter c || c == some '_'

/-- Constant `MAX_COMMAND_LENGTH` of `parse.h`. -/
def MAX_COMMAND_LENGTH : Nat := 10

/-- The state of `main` in `calc_poly.c`: the input stream (which holds the text
written to the standard error stream), the stack `poly_stack` of polynomials
with its top first, and the text written with `printf`, one entry for each
call. The field `size` of the stack is an `unsigned`; a stack holds fewer than
`2^32` polynomials (`StackPush` cannot grow the array beyond `2^31` entries). -/
structure Calculator where
  /-- The input stream. -/
  stream : InputStream
  /-- The stack of polynomials, top first. -/
  poly_stack : List Poly
  /-- Text written to the standard output. -/
  stdout : List String

/-- The body of the macro `REQUIRES_N_POLYNOMIALS` when the stack is too small:
the diagnostic with `stream->line_number`; the command returns after it. -/
def stackUnderflow (st : Calculator) : Calculator :=
  { st with
    stream := { st.stream with
      stderr := st.stream.stderr
        ++ ["ERROR " ++ toString st.stream.line_number ++ " STACK UNDERFLOW\n"] } }

/-- Function `CommandZero`. -/
def CommandZero (st : Calculator) : Calculator :=
  { st with poly_stack := PolyZero :: st.poly_stack }

/-- Function `CommandIsCoefficient`. -/
def CommandIsCoefficient (st : Calculator) : Calculator :=
  if st.poly_stack.length < 1 then stackUnderflow st
  else
    match st.poly_stack with
    | top :: _ =>
      { st with stdout := st.stdout ++ [if PolyIsCoeff top then "1\n" else "0\n"] }
    | [] => st

/-- Function `CommandIsZero`. -/
def CommandIsZero (st : Calculator) : Calculator :=
  if st.poly_stack.length < 1 then stackUnderflow st
  else
    match st.poly_stack with
    | top :: _ =>
      { st with stdout := st.stdout ++ [if PolyIsZero top then "1\n" else "0\n"] }
    | [] => st

/-- Function `CommandClone`: a copy of the top is pushed. -/
def CommandClone (st : Calculator) : Calculator :=
  if st.poly_stack.length < 1 then stackUnderflow st
  else
    match st.poly_stack with
    | top :: rest => { st with poly_stack := top :: top :: rest }
    | [] => st

/-- Function `CommandAdd`: `q` is the top, `p` the polynomial below it;
`PolyAddInPlace(p, q)` and the top is popped. -/
def CommandAdd (st : Calculator) : Calculator :=
  if st.poly_stack.length < 2 then stackUnderflow st
  else
    match st.poly_stack with
    | q :: p :: rest => { st with poly_stack := PolyAddInPlace p q :: rest }
    | _ => st

/-- Function `CommandMul`: `q` is the top, `p` the polynomial below it; both are
popped and `PolyMul(p, q)` is pushed. -/
def CommandMul (st : Calculator) : Calculator :=
  if st.poly_stack.length < 2 then stackUnderflow st
  else
    match st.poly_stack with
    | q :: p :: rest => { st with poly_stack := PolyMul p q :: rest }
    | _ => st

/-- Function `CommandNeg`: the top is replaced by `PolyNeg` of it. -/
def CommandNeg (st : Calculator) : Calculator :=
  if st.poly_stack.length < 1 then stackUnderflow st
  else
    match st.poly_stack with
    | old_poly :: rest => { st with poly_stack := PolyNeg old_poly :: rest }
    | [] => st

/-- Function `CommandSub`: `q` is the top, `p` the polynomial below it; both are
popped and `PolySub(q, p)` is pushed. -/
def CommandSub (st : Calculator) : Calculator :=
  if st.poly_stack.length < 2 then stackUnderflow st
  else
    match st.poly_stack with
    | q :: p :: rest => { st with poly_stack := PolySub q p :: rest }
    | _ => st

/-- Function `CommandIsEq`: `PolyIsEq` of the top and the polynomial below it. -/
def CommandIsEq (st : Calculator) : Calculator :=
  if st.poly_stack.length < 2 then stackUnderflow st
  else
    match st.poly_stack with
    | top :: peek :: _ =>
      { st with stdout := st.stdout ++ [if PolyIsEq top peek then "1\n" else "0\n"] }
    | _ => st

/-- Function `CommandDeg`. -/
def CommandDeg (st : Calculator) : Calculator :=
  if st.poly_stack.length < 1 then stackUnderflow st
  else
    match st.poly_stack with
    | p :: _ => { st with stdout := st.stdout ++ [toString (PolyDeg p) ++ "\n"] }
    | [] => st

/-- Function `CommandDegBy`. -/
def CommandDegBy (st : Calculator) (var : Nat) : Calculator :=
  if st.poly_stack.length < 1 then stackUnderflow st
  else
    match st.poly_stack with
    | top :: _ => { st with stdout := st.stdout ++ [toString (PolyDegBy top var) ++ "\n"] }
    | [] => st

/-- The loop `for (i = 0; i < count; ++i)` of `CommandCompose` that moves the
top of the stack into `tab[i]`: the array `tab` and the stack that is left, or
`none` when `StackTop` is called on an empty stack (a failed `assert`). -/
def composePopLoop : Nat → List Poly → Option (List Poly × List Poly)
  | 0, stack => some ([], stack)
  | _ + 1, [] => none
  | n + 1, top :: stack =>
    match composePopLoop n stack with
    | some (tab, stack) => some (top :: tab, stack)
    | none => none

/-- Function `CommandCompose`, for a `count` of type `unsigned`: `count + 1` is
computed modulo `2^32`. The result is `none` when an `assert` fails. -/
def CommandCompose (st : Calculator) (count : Nat) : Option Calculator :=
  if st.poly_stack.length < count then some (stackUnderflow st)
  else if st.poly_stack.length < (count + 1) % 4294967296 then some (stackUnderflow st)
  else
    match st.poly_stack with
    | [] => none
    | target_poly :: stack =>
      match composePopLoop count stack with
      | none => none
      | some (tab, stack) =>
        match PolyCompose target_poly count tab with
        | .ok result => some { st with poly_stack := result :: stack }
        | .error _ => none

/-- Function `CommandAt`: the top is replaced by `PolyAt` of it. -/
def CommandAt (st : Calculator) (value : Int) : Calculator :=
  if st.poly_stack.length < 1 then stackUnderflow st
  else
    match st.poly_stack with
    | last_poly :: rest => { st with poly_stack := PolyAt last_poly value :: rest }
    | [] => st

/-- Function `CommandPrint`. -/
def CommandPrint (st : Calculator) : Calculator :=
  if st.poly_stack.length < 1 then stackUnderflow st
  else
    match st.poly_stack with
    | top :: _ => { st with stdout := st.stdout ++ [PolyPrint top, "\n"] }
    | [] => st

/-- Function `CommandPop`. -/
def CommandPop (st : Calculator) : Calculator :=
  if st.poly_stack.length < 1 then stackUnderflow st
  else { st with poly_stack := st.poly_stack.tail }

/-- The loop of `ReadAndExecuteCommand` that reads the name of the command,
`while (EOF != (c = ReadCharacter(stream)))`. The first argument is the list of
unread characters of the stream, on which the recursion runs; the third is the
name read so far. The result is the name, the character `c` that ended the loop
(`none` for `EOF`) and the stream, or, after the diagnostic `WRONG COMMAND` for
a name that is too long or a character that is not allowed, the stream alone. -/
def readCommandLoop :
    List Char → InputStream → List Char → Except InputStream (List Char × Option Char × InputStream)
  | [], stream, command => .ok (command, none, (ReadCharacter stream).2)
  | c :: rest, stream, command =>
    let stream := (ReadCharacter stream).2
    if c = ' ' ∨ c = '\n' then .ok (command, some c, stream)
    else if command.length ≥ MAX_COMMAND_LENGTH ∨ IsValidCommandCharacter (some c) = false then
      .error (SkipLine { stream with
        stderr := stream.stderr
          ++ ["ERROR " ++ toString (stream.line_number + 1) ++ " WRONG COMMAND\n"] })
    else readCommandLoop rest stream (command ++ [c])

/-- The `else` branches of `ReadAndExecuteCommand` for a command without its
argument and for an unknown command: the rest of the line is skipped unless `c`
is the newline, and the diagnostic is written with `stream->line_number`. -/
def wrongCommandLine (c : Option Char) (stream : InputStream) (what : String) : InputStream :=
  let stream := if c ≠ some '\n' then SkipLine stream else stream
  { stream with stderr := stream.stderr ++ ["ERROR " ++ toString stream.line_number ++ what] }

/-- Function `ReadAndExecuteCommand`; `none` when an `assert` fails. -/
def ReadAndExecuteCommand (st : Calculator) : Option Calculator :=
  match readCommandLoop st.stream.unread st.stream [] with
  | .error stream => some { st with stream := stream }
  | .ok (command, c, stream) =>
    let st := { st with stream := stream }
    if command = "ZERO".toList ∧ c = some '\n' then some (CommandZero st)
    else if command = "IS_COEFF".toList ∧ c = some '\n' then some (CommandIsCoefficient st)
    else if command = "IS_ZERO".toList ∧ c = some '\n' then some (CommandIsZero st)
    else if command = "CLONE".toList ∧ c = some '\n' then some (CommandClone st)
    else if command = "ADD".toList ∧ c = some '\n' then some (CommandAdd st)
    else if command = "MUL".toList ∧ c = some '\n' then some (CommandMul st)
    else if command = "NEG".toList ∧ c = some '\n' then some (CommandNeg st)
    else if command = "SUB".toList ∧ c = some '\n' then some (CommandSub st)
    else if command = "IS_EQ".toList ∧ c = some '\n' then some (CommandIsEq st)
    else if command = "DEG".toList ∧ c = some '\n' then some (CommandDeg st)
    else if command = "DEG_BY".toList then
      if c = some ' ' then
        let var := (ReadDegByCommandArgument st.stream).1
        let st := { st with stream := (ReadDegByCommandArgument st.stream).2 }
        if st.stream.parse_error = false then some (CommandDegBy st var) else some st
      else some { st with stream := wrongCommandLine c st.stream " WRONG VARIABLE\n" }
    else if command = "COMPOSE".toList then
      if c = some ' ' then
        let var := (ReadComposeCommandArgument st.stream).1
        let st := { st with stream := (ReadComposeCommandArgument st.stream).2 }
        if st.stream.parse_error = false then CommandCompose st var else some st
      else some { st with stream := wrongCommandLine c st.stream " WRONG COUNT\n" }
    else if command = "AT".toList then
      if c = some ' ' then
        let value := (ReadAtCommandArgument st.stream).1
        let st := { st with stream := (ReadAtCommandArgument st.stream).2 }
        if st.stream.parse_error = false then
          some (CommandAt { st with stream := (ReadCharacter st.stream).2 } value)
        else some st
      else
        some { st with
          stream := { wrongCommandLine c st.stream " WRONG VALUE\n" with parse_error := true } }
    else if command = "PRINT".toList ∧ c = some '\n' then some (CommandPrint st)
    else if command = "POP".toList ∧ c = some '\n' then some (CommandPop st)
    else some { st with stream := wrongCommandLine c st.stream " WRONG COMMAND\n" }

/-- The `while` loop of `main` in `calc_poly.c`: a line that starts with a
letter or `_` is a command, every other line a polynomial, which is pushed
unless the parse-error flag is set. Every round reads a character, and the first
argument bounds the number of rounds. -/
def calcLoop : Nat → Calculator → Option Calculator
  | 0, st => some st
  | fuel + 1, st =>
    if (PeekCharacter st.stream).1 = none then
      some { st with stream := (PeekCharacter st.stream).2 }
    else if IsValidCommandCharacter (PeekCharacter st.stream).1 then
      match ReadAndExecuteCommand { st with stream := (PeekCharacter st.stream).2 } with
      | some st => calcLoop fuel st
      | none => none
    else
      let p := (ReadPolynomial (PeekCharacter st.stream).2).1
      let stream := (ReadPolynomial (PeekCharacter st.stream).2).2
      if stream.parse_error then calcLoop fuel { st with stream := stream }
      else calcLoop fuel { st with stream := stream, poly_stack := p :: st.poly_stack }

/-- Function `main` of `calc_poly.c` on the text of the standard input. -/
def calcMain (input : List Char) : Option Calculator :=
  calcLoop (input.length + 1) { stream := InputStreamInit input, poly_stack := [], stdout := [] }

/-! ## The meaning of the polynomial literals -/

/-- The meaning of the text of a polynomial literal, as a function of the values
of the variables: a coefficient literal (an optional `-` and digits) means the
constant it writes; a monomial `(P,E)` means the first variable to the power `E`
times the meaning of `P` read one variable deeper; and `+` means addition.
`LiteralMeaning false w m` is for a text `w` read as a `poly`,
`LiteralMeaning true w m` for monomials joined by `+`. The exponent of `-0` is
0. -/
inductive LiteralMeaning : Bool → List Char → ((Nat → Int) → Int) → Prop
  | coefficient (negative : Bool) (ds : List Char) :
      ds ≠ [] → AllDigits ds →
      LiteralMeaning false (literalText negative ds) (fun _ => literalValue negative ds)
  | monos {w : List Char} {m : (Nat → Int) → Int} :
      LiteralMeaning true w m → LiteralMeaning false w m
  | mono {p : List Char} {mp : (Nat → Int) → Int} (negative : Bool) (ds : List Char) :
      LiteralMeaning false p mp → ds ≠ [] → AllDigits ds →
      LiteralMeaning true ('(' :: p ++ ',' :: literalText negative ds ++ [')'])
        (fun v => v 0 ^ (literalValue negative ds).toNat * mp (fun i => v (i + 1)))
  | plus {p ms : List Char} {mp mms : (Nat → Int) → Int} (negative : Bool) (ds : List Char) :
      LiteralMeaning false p mp → ds ≠ [] → AllDigits ds → LiteralMeaning true ms mms →
      LiteralMeaning true ('(' :: p ++ ',' :: literalText negative ds ++ ')' :: '+' :: ms)
        (fun v => v 0 ^ (literalValue negative ds).toNat * mp (fun i => v (i + 1)) + mms v)

/-! ## The first offending character of a line -/

/-- The text is accepted as the start of an input: `ReadPolynomial` leaves the
parse-error flag clear on it. -/
def AcceptsText (text : List Char) : Prop :=
  (ReadPolynomial (InputStreamInit text)).2.parse_error = false

instance (text : List Char) : Decidable (AcceptsText text) := by
  unfold AcceptsText; infer_instance

/-- The text has, with its `0` at column `c`, an exponent written `-0` and
followed by a digit. -/
def NegativeZeroDigitAt (text : List Char) (c : Nat) : Prop :=
  ∃ (a : List Char) (d : Char), IsValidDigit (some d) = true ∧ '\n' ∉ a ∧
    (a ++ [',', '-', '0', d]) <+: text ∧ c = a.length + 3

/-- The text has a number of 19 digits (after `-` when `negative`) that fails
the bound loop of `ReadPolyCoefficient`, followed at column `c` by a character
that is neither `,` nor a newline. -/
def FailedBoundFollowedAt (text : List Char) (c : Nat) : Prop :=
  ∃ (a : List Char) (negative : Bool) (ds : List Char) (k : Char), AllDigits ds ∧
    ds.length = MAX_VALUE_AND_COEFF_LENGTH ∧
    SomeDigitExceeds ds (if negative then "9223372036854775808".toList
      else "9223372036854775807".toList) = true ∧
    k ≠ ',' ∧ k ≠ '\n' ∧ '\n' ∉ a ∧
    (a ++ literalText negative ds ++ [k]) <+: text ∧
    c = a.length + (literalText negative ds).length + 1

/-- The diagnostic `ERROR l c` of the readers, for the line counter `line` (the
number of newlines read) and the column `c`. -/
def errorMessage (line c : Nat) : String :=
  "ERROR " ++ toString (line + 1) ++ " " ++ toString c ++ "\n"

/-- Every text that starts with `y` is rejected by `ReadPolyCoefficient`. -/
def CoefRejectsAll (y : List Char) : Prop :=
  ∀ (s : List Char) (col line : Nat) (pe : Bool) (err : List String),
    (ReadPolyCoefficient ⟨y ++ s, col, line, pe, err⟩).2.parse_error = true

/-- The text starts a coefficient that `ReadPolyCoefficient` accepts. -/
def CoefViable (x : List Char) : Prop :=
  ∃ s, AcceptsLiteral ReadPolyCoefficient ',' (x ++ s)

/-- Every text that starts with `y` is rejected by `ReadExponent`. -/
def ExpRejectsAll (y : List Char) : Prop :=
  ∀ (s : List Char) (col line : Nat) (pe : Bool) (err : List String),
    (ReadExponent ⟨y ++ s, col, line, pe, err⟩).2.parse_error = true

/-- The text starts an exponent that `ReadExponent` accepts. -/
def ExpViable (x : List Char) : Prop :=
  ∃ s, AcceptsLiteral ReadExponent ')' (x ++ s)

/-- On every text that starts with `ex` and the character `k`, `ReadExponent`
reads `ex` without an error and stops at `k`. -/
def ExpStopsAt (ex : List Char) (k : Char) : Prop :=
  ∀ (s : List Char) (col line : Nat) (pe : Bool) (err : List String),
    ∃ v, ReadExponent ⟨ex ++ k :: s, col, line, pe, err⟩
      = (v, ⟨k :: s, col + ex.length, line, false, err⟩)

/-- Every text that starts with `y` is rejected by the loop of `ReadPolynomial`
when it is entered with `depth + 1` accumulators on the stack and with a
monomial expected exactly when `b` holds (at `(` the flag is reset, so that
there it can have any value). -/
def RejectsAll (y : List Char) (b : Bool) (depth : Nat) : Prop :=
  ∀ (s : List Char) (fuel col line : Nat) (pe : Bool) (err : List String) (e : Bool)
    (top : List Mono) (below : List (List Mono)),
    below.length = depth → (e = b ∨ (y ++ s).head? = some '(') → (y ++ s).length < fuel →
    (ReadPolynomialLoop fuel ⟨y ++ s, col, line, pe, err⟩ e top below).2.parse_error = true

/-- The text `u` is the rest of a line that is followed by `rest`: it has a
newline, and `rest` is what follows the first one. -/
def LineOf (u rest : List Char) : Prop :=
  ∃ pre, u = pre ++ '\n' :: rest ∧ '\n' ∉ pre

/-- After the text `ctx` every text of the grammar (a `poly` for `b = false`,
monomials joined by `+` for `b = true`) can follow and be continued to a
`poly`. -/
def CanFollow (b : Bool) (ctx : List Char) : Prop :=
  ∀ w, PolyGrammar b w → ∃ s, PolyGrammar false (ctx ++ w ++ s)

/-- The text `x` can be continued to a `poly` wherever a text of the grammar can
follow. -/
def ViableAfter (b : Bool) (x : List Char) : Prop :=
  ∀ ctx, CanFollow b ctx → ∃ s, PolyGrammar false (ctx ++ x ++ s)

/-- The character with index `k` of `u` is the first offending character for
`ReadPolyCoefficient`: the text before it starts a coefficient that is accepted,
and no text that goes on with that character does. -/
def CoefOffending (u : List Char) (k : Nat) : Prop :=
  ∃ (x : List Char) (c : Char) (y : List Char), u = x ++ c :: y ∧ x.length = k ∧ '\n' ∉ x ∧
    CoefRejectsAll (x ++ [c]) ∧ CoefViable x

/-- The character with index `k` of `u` is the first offending character for
`ReadPolyCoefficient`, or it follows 19 digits that fail the bound loop, the last
of which is the first offending character. -/
def CoefLocated (u : List Char) (k : Nat) : Prop :=
  (FailedBoundFollowedAt u (k + 1) ∧ ∃ k', k = k' + 1 ∧ CoefOffending u k') ∨ CoefOffending u k

/-- The character with index `k` of `u` is the first offending character for
`ReadExponent`. -/
def ExpOffending (u : List Char) (k : Nat) : Prop :=
  ∃ (x : List Char) (c : Char) (y : List Char), u = x ++ c :: y ∧ x.length = k ∧ '\n' ∉ x ∧
    ExpRejectsAll (x ++ [c]) ∧ ExpViable x

/-- The character with index `k` of `u` is the first offending character for
`ReadExponent`, or it is the `0` of `-0` followed by a digit, and that digit is
the first offending character. -/
def ExpLocated (u : List Char) (k : Nat) : Prop :=
  (∃ d s, IsValidDigit (some d) = true ∧ u = '-' :: '0' :: d :: s ∧ k = 1 ∧
      ExpOffending u (k + 1)) ∨ ExpOffending u k

/-- The character with index `k` of `u` is the first offending character for
the loop of `ReadPolynomial`, entered as for `RejectsAll`. -/
def Offending (b : Bool) (depth : Nat) (u : List Char) (k : Nat) : Prop :=
  ∃ (x : List Char) (c : Char) (y : List Char), u = x ++ c :: y ∧ x.length = k ∧ '\n' ∉ x ∧
    RejectsAll (x ++ [c]) b depth ∧ ViableAfter b x

/-- The exceptions to the location of the diagnostic, at the character with
index `k` of the text `u`: the `0` of an exponent `-0` that is followed by a
digit, which is the first offending character; and the character after 19
digits that fail the bound loop, the last of which is the first offending
character. -/
def LocatedException (b : Bool) (depth : Nat) (u : List Char) (k : Nat) : Prop :=
  (NegativeZeroDigitAt u (k + 1) ∧ Offending b depth u (k + 1)) ∨
    (FailedBoundFollowedAt u (k + 1) ∧ ∃ k', k = k' + 1 ∧ Offending b depth u k')

/-- The character with index `k` of `u` is the first offending character for
the loop of `ReadPolynomial`, entered as for `RejectsAll`, or one of the
exceptions. -/
def Located (b : Bool) (depth : Nat) (u : List Char) (k : Nat) : Prop :=
  LocatedException b depth u k ∨ Offending b depth u k

/-- The character with index `k` of `u` is the first offending character for
`ReadPolynomial`: the text before it starts a `poly` of the grammar, and no
text that goes on with that character is accepted. -/
def TextOffending (u : List Char) (k : Nat) : Prop :=
  ∃ (x : List Char) (c : Char) (y : List Char), u = x ++ c :: y ∧ x.length = k ∧ '\n' ∉ x ∧
    (∀ s, ¬ AcceptsText (x ++ c :: s)) ∧ ∃ s, PolyGrammar false (x ++ s)

/-- What the loop of `ReadPolynomial` does on the rest `u` of a line that is
followed by `rest`: either the line is rejected with the diagnostic for the
character with index `k` of `u`, the stream is left after the newline of the
line, and that character is located; or the loop reads a text of the grammar and
goes on right after it, as in `LoopOutcome`. -/
def LoopDiagnosis (b : Bool) (result : Poly × InputStream) (fuel : Nat) (u rest : List Char)
    (col line : Nat) (err : List String) (below : List (List Mono)) : Prop :=
  (∃ k, result = (PolyZero, ⟨rest, 0, line + 1, true, err ++ [errorMessage line (col + k + 1)]⟩)
      ∧ Located b below.length u k) ∨
    ∃ w u' top' fuel', PolyGrammar b w ∧ u = w ++ u' ∧
      (u'.head? = some ',' ∨ u'.head? = some '\n') ∧ u'.length < fuel' ∧ fuel' ≤ fuel ∧
      result = ReadPolynomialLoop fuel' ⟨u', col + w.length, line, false, err⟩ false top' below

/-! ## Exponents as the machine holds them -/

/-- Modelled from the spec: the type `poly_exp_t` of the absent `poly.h` is the
32-bit `int` ("`[0, INT_MAX]` for exponents"; `PolyDeg` returns -1). An exponent
field holds the 32-bit pattern of the `int`; this is the value of the `int` with
the pattern `e`: the patterns from `2 ^ 31` on are the negative values. -/
def expInt (e : Nat) : Int := if e < 2147483648 then (e : Int) else (e : Int) - 4294967296

/-- Reduction of a mathematical integer to `poly_exp_t` (two's complement
wrap-around into `[INT_MIN, INT_MAX]`), as the compiled program computes a sum
that leaves the range. -/
def wrapExp (x : Int) : Int := (x + 2147483648) % 4294967296 - 2147483648

/-- The 32-bit pattern of the sum of two `int` exponents given by their
patterns: the sum wraps around. -/
def expAdd (a b : Nat) : Nat := (a + b) % 4294967296

/-- Comparison `a < b` of two `int` exponents given by their patterns: a pattern
without the sign bit (below `2 ^ 31`) is below the larger patterns without the
sign bit, a pattern with the sign bit is below every pattern without it and below
the larger patterns with it. -/
def expLt (a b : Nat) : Bool :=
  if a < 2147483648 then decide (b < 2147483648 ∧ a < b)
  else decide (b < 2147483648 ∨ a < b)

namespace Machine

/-! ## The engine on 32-bit exponents

The functions of `poly.c` with `poly_exp_t` as the machine holds it: exponents
are compared as `int`s (`expLt`) and the sum of two exponents wraps around
(`expAdd`). -/

/-- The `while` loop of `PolyAddInPlace` for one monomial `q_mono` of `q`, as
`PolyCalc.mergeMono`, the exponents compared as `int`s. -/
def mergeMono (q_mono : Mono) (q_next : List Mono) (addInto : Poly → Poly)
    (next : List Mono → List Mono) : List Mono → List Mono
  | [] => q_mono :: q_next
  | p_mono :: p_next =>
    if expLt p_mono.2 q_mono.2 then
      p_mono :: mergeMono q_mono q_next addInto next p_next
    else if expLt q_mono.2 p_mono.2 then
      q_mono :: next (p_mono :: p_next)
    else
      next ((addInto p_mono.1, p_mono.2) :: p_next)

mutual
/-- Function `PolyAddInPlace(p, q)`: the new value of `p`. -/
def PolyAddInPlace (p : Poly) : Poly → Poly
  | .mk q_constant [] => .mk (wrapCoeff (p.constant + q_constant)) p.first_mono
  | .mk q_constant (q_first :: q_next) =>
    match p.first_mono with
    | [] => .mk (wrapCoeff (p.constant + q_constant)) (q_first :: q_next)
    | p_first :: p_next =>
      let merged :=
        if expLt q_first.2 p_first.2 then
          mergeLoop (q_first :: p_first :: p_next) q_next
        else
          mergeLoop (p_first :: p_next) (q_first :: q_next)
      let folded := foldFirstConstant (wrapCoeff (p.constant + q_constant)) merged
      .mk folded.1 (RemoveEmptyMonos folded.2)
/-- The merge loop of `PolyAddInPlace`: `p_monos` is the list of `p` from
`p_mono` on, the second argument the list of `q` from `q_mono` on. -/
def mergeLoop (p_monos : List (Poly × Nat)) : List (Poly × Nat) → List (Poly × Nat)
  | [] => p_monos
  | (q_p, q_exp) :: q_next =>
    mergeMono (q_p, q_exp) q_next (fun c => PolyAddInPlace c q_p)
      (fun ps => mergeLoop ps q_next) p_monos
end

/-- Function `PolyAdd(p, q)`: `PolyAddInPlace` on clones of `p` and `q`. -/
def PolyAdd (p q : Poly) : Poly := PolyAddInPlace p q

/-- Comparison `MonoCompare(a, b) <= 0`: the exponent of `a` is not above that of
`b`, as `int`s. -/
def MonoLe (a b : Mono) : Prop := expLt b.2 a.2 = false

instance : DecidableRel MonoLe := fun a b => by
  unfold MonoLe; infer_instance

/-- Function `MonosAreSorted`: no monomial of the array has an exponent above that of
its successor. -/
def MonosAreSorted : List Mono → Bool
  | [] => true
  | [_] => true
  | a :: b :: rest => if expLt b.2 a.2 then false else MonosAreSorted (b :: rest)

/-- Modelled from the spec: `qsort` of the C library with `MonoCompare`, as a
stable sort on the exponent ("stable key-only sort"). -/
def qsortMonos (monos : List Mono) : List Mono := monos.insertionSort MonoLe

/-- The `for` loop of `PolyAddMonos` over `monos[i]`, `i >= 1`. -/
def addMonosLoop (constant : Int) (last_mono : Mono) : List Mono → Int × List Mono
  | [] => (constant, [last_mono])
  | m :: rest =>
    if last_mono.2 = m.2 then
      let st := foldLastConstant constant (PolyAddInPlace last_mono.1 m.1, last_mono.2)
      addMonosLoop st.1 st.2 rest
    else
      let st := foldLastConstant constant m
      let r := addMonosLoop st.1 st.2 rest
      (r.1, last_mono :: r.2)

/-- The array after the first `if` of `PolyAddMonos`: sorted by `qsort` when
`MonosAreSorted` is false. -/
def sortMonosIfNeeded (monos : List Mono) : List Mono :=
  if MonosAreSorted monos = false then qsortMonos monos else monos

/-- Function `PolyAddMonos(count, monos)`, the array given as a list. -/
def PolyAddMonos (monos : List Mono) : Poly :=
  match monos with
  | [] => PolyZero
  | _ :: _ =>
    match sortMonosIfNeeded monos with
    | [] => PolyZero
    | first :: rest =>
      let st := foldLastConstant 0 first
      let r := addMonosLoop st.1 st.2 rest
      .mk r.1 (RemoveEmptyMonos r.2)

/-- Function `PolyMul` with a bound on the depth of the recursion; the exponent of
a product of two monomials is `current_mono_p->exp + current_mono_q->exp` in
`int`. -/
def PolyMulFuel : Nat → Poly → Poly → Poly
  | 0, _, _ => PolyZero
  | fuel + 1, p, q =>
    let cross := p.first_mono.flatMap (fun mp =>
      q.first_mono.map (fun mq => (PolyMulFuel fuel mp.1 mq.1, expAdd mp.2 mq.2)))
    let first_p_mono := CloneMonosMultipliedByAConstant (PolyMulFuel fuel) p.first_mono q.constant
    let first_q_mono := CloneMonosMultipliedByAConstant (PolyMulFuel fuel) q.first_mono p.constant
    let result := PolyAddMonos (cross ++ (first_p_mono ++ first_q_mono))
    .mk (wrapCoeff (p.constant * q.constant)) result.first_mono

/-- Function `PolyMul(p, q)`, with a bound that the recursion cannot reach. -/
def PolyMul (p q : Poly) : Poly := PolyMulFuel (p.nodes + q.nodes) p q

/-- The `while (n != 0)` loop of `FastCoeffPow` on the `int` `n`, at most `fuel`
rounds: `n % 2` and `n / 2` round towards zero. -/
def FastCoeffPowLoop : Nat → Int → Int → Int → Int
  | 0, result, _, _ => result
  | fuel + 1, result, x, n =>
    if n = 0 then result
    else
      FastCoeffPowLoop fuel (if Int.tmod n 2 = 1 then wrapCoeff (result * x) else result)
        (wrapCoeff (x * x)) (Int.tdiv n 2)

/-- Function `FastCoeffPow(x, n)`, `n` given by its pattern; an `int` is 0 after
32 halvings. -/
def FastCoeffPow (x : Int) (n : Nat) : Int := FastCoeffPowLoop 32 1 x (expInt n)

/-- The `while (n != 0)` loop of `FastPolyPow` on the `int` `n`, at most `fuel`
rounds. -/
def FastPolyPowLoop : Nat → Poly → Poly → Int → Poly
  | 0, result, _, _ => result
  | fuel + 1, result, x, n =>
    if n = 0 then result
    else
      FastPolyPowLoop fuel (if Int.tmod n 2 = 1 then PolyMul result x else result)
        (PolyMul x x) (Int.tdiv n 2)

/-- Function `FastPolyPow(p, n)`, `n` given by its pattern. -/
def FastPolyPow (p : Poly) (n : Nat) : Poly :=
  if PolyIsCoeff p then PolyFromCoeff (FastCoeffPow p.constant n)
  else FastPolyPowLoop 32 (PolyFromCoeff 1) p (expInt n)

/-- Function `PolyAt(p, x)`. -/
def PolyAt (p : Poly) (x : Int) : Poly :=
  let result := p.first_mono.foldl
    (fun result m => PolyAddInPlace result (PolyMul (PolyFromCoeff (FastCoeffPow x m.2)) m.1))
    PolyZero
  .mk (wrapCoeff (result.constant + p.constant)) result.first_mono

/-- The `while` loop of `PolyCompose` and the statements after it; the stack is
a list with its top at the head. -/
def composeLoop (count : Nat) (x : List Poly) :
    Nat → List ComposeState → Except ComposeFault Poly
  | 0, _ => .error .outOfFuel
  | _ + 1, [] => .error .emptyStack
  | fuel + 1, current_state :: below =>
    if below.length + 1 > 1 || !current_state.mono.isEmpty then
      if current_state.mono.isEmpty || below.length + 1 > count then
        let lower_result := current_state.result
        match below with
        | [] => .ok lower_result
        | next_state :: rest =>
          match next_state.mono with
          | [] => .error .nullMono
          | m :: next_mono =>
            if below.length - 1 < count then
              match x[below.length - 1]? with
              | none => .error .outOfBounds
              | some x_i =>
                let poly_power := FastPolyPow x_i m.2
                let result := PolyMul lower_result poly_power
                composeLoop count x fuel
                  ({ result := PolyAddInPlace next_state.result result,
                     mono := next_mono } :: rest)
            else .error .outOfBounds
      else
        match current_state.mono with
        | [] => .error .nullMono
        | m :: _ =>
          composeLoop count x fuel
            (NewComposeState m.1.first_mono m.1.constant :: current_state :: below)
    else
      .ok current_state.result

/-- Function `PolyCompose(p, count, x)`; every monomial of `p` is pushed and popped at
most once, which bounds the number of rounds. -/
def PolyCompose (p : Poly) (count : Nat) (x : List Poly) : Except ComposeFault Poly :=
  composeLoop count x (2 * p.nodes + 1) [NewComposeState p.first_mono p.constant]

mutual
/-- Function `PolyDeg(p)`: -1, or 0 when the constant is not 0, raised by the loop
over the monomials; the results are `int`s. -/
def PolyDeg : Poly → Int
  | .mk c ms => PolyDegLoop (if c ≠ 0 then 0 else -1) ms
/-- The `while` loop of `PolyDeg`: `result` becomes the larger of `result` and
`PolyDeg(&current_mono->p) + current_mono->exp`, a sum of two `int`s. -/
def PolyDegLoop : Int → List (Poly × Nat) → Int
  | result, [] => result
  | result, (p, e) :: rest => PolyDegLoop (Max result (wrapExp (PolyDeg p + expInt e))) rest
end

mutual
/-- The result that the frame of a polynomial `p` holds when the loop of
`PolyCompose` pops it, as `PolyCalc.composeRec`, with the operations of the
machine. -/
def composeRec (count : Nat) (x : List Poly) : Nat → Poly → Poly
  | k, .mk c ms =>
    if k + 1 > count then PolyFromCoeff c else composeMonos count x k (PolyFromCoeff c) ms
/-- The frame result after the monomials of the list were processed, starting
from the result `acc`. -/
def composeMonos (count : Nat) (x : List Poly) : Nat → Poly → List (Poly × Nat) → Poly
  | _, acc, [] => acc
  | k, acc, (p, e) :: rest =>
    composeMonos count x k
      (PolyAddInPlace acc (PolyMul (composeRec count x (k + 1) p)
        (FastPolyPow (x.getD k PolyZero) e))) rest
end

/-- The array `monos` that `PolyMul(p, q)` fills and passes to `PolyAddMonos`, as
`PolyCalc.PolyMulArray`, the exponents of the products added in `int`. -/
def PolyMulArray (p q : Poly) : List Mono :=
  p.first_mono.flatMap (fun mp => q.first_mono.map (fun mq => (PolyMul mp.1 mq.1, expAdd mp.2 mq.2)))
    ++ (CloneMonosMultipliedByAConstant PolyMul p.first_mono q.constant
    ++ CloneMonosMultipliedByAConstant PolyMul q.first_mono p.constant)

end Machine

/-! ## Exponents within a bound -/

/-- Test at one polynomial: no exponent of a monomial is above `n`. -/
def expsLeNode (n : Nat) (_constant : Int) (monos : List Mono) : Bool :=
  monos.all (fun m => decide (m.2 ≤ n))

/-- Every exponent of the tree, at every nesting level, is at most `n`. With
`n = INT_MAX` these are the polynomials of the data model, whose exponents are
the values `[0, INT_MAX]` that `ReadExponent` accepts. -/
def ExpsLe (n : Nat) (p : Poly) : Prop := p.all (expsLeNode n) = true

instance (n : Nat) (p : Poly) : Decidable (ExpsLe n p) := by
  unfold ExpsLe; infer_instance

/-- Every monomial of the expansion has a sum of exponents of at most `n`: the
total degree is at most `n`. -/
def TotalDegreeAtMost (n : Nat) (p : Poly) : Prop :=
  ∀ t ∈ expansion p, exponentSum t.1 ≤ (n : Int)

instance (n : Nat) (p : Poly) : Decidable (TotalDegreeAtMost n p) := by
  unfold TotalDegreeAtMost; infer_instance

namespace Machine

/-! ## The canonical form as the machine keeps it -/

instance : IsTrans Mono MonoLe := ⟨fun a b c h1 h2 => by
  unfold MonoLe expLt at h1 h2 ⊢
  split_ifs at h1 h2 ⊢ <;> simp at h1 h2 ⊢ <;> omega⟩

instance : IsTotal Mono MonoLe := ⟨fun a b => by
  unfold MonoLe expLt
  split_ifs <;> simp <;> omega⟩

/-- Exponents of a monomial list strictly ascending as `int`s (so no exponent
twice). -/
def ExpsAscending (monos : List Mono) : Prop :=
  (monos.map Prod.snd).Pairwise (fun a b => expLt a b = true)

instance (monos : List Mono) : Decidable (ExpsAscending monos) := by
  unfold ExpsAscending; infer_instance

/-- Test at one polynomial: exponents strictly ascending as `int`s and no
monomial with the zero polynomial as coefficient. -/
def orderedNode (_constant : Int) (monos : List Mono) : Bool :=
  decide (ExpsAscending monos) && monos.all (fun m => !PolyIsZero m.1)

/-- Ordering and non-zero invariant at every nesting level, the exponents
compared as the engine compares them. -/
def TermsOrdered (p : Poly) : Prop := p.all orderedNode = true

/-- The canonical form of the engine on the machine: what `PolyAddMonos` and
the operations build, also when an exponent has wrapped around. For exponents in
`[0, INT_MAX]` this is `PolyCalc.Canonical`. -/
def Canonical (p : Poly) : Prop := TermsOrdered p ∧ ZeroExpFolded p ∧ CoeffsInRange p

instance (p : Poly) : Decidable (TermsOrdered p) := by
  unfold TermsOrdered; infer_instance

instance (p : Poly) : Decidable (Canonical p) := by
  unfold Canonical; infer_instance

end Machine

/-! ## The input stream on the bytes of the file -/

/-- The value `(char)EOF`: `PeekCharacter` returns a `char`, and in a `char` the
constant `EOF` (-1) is the byte `0xFF`. A file is read as the list of the
characters with the codes of its bytes. -/
def EOF : Char := Char.ofNat 255

namespace Machine

/-! ## The functions of `input.h` and the reader of polynomials on the bytes

Here the field `unread` of a stream holds all the bytes of the file that are
left. `PeekCharacter` returns a `char`, and `ReadCharacter` and `SkipLine` compare
it with `EOF`: the byte `0xFF` is taken for the end of the file and is never
passed. The functions of the same names outside `Machine` return `EOF` at the end
of the input only; the two `ReadPolynomial` are compared in the theorems
`machine_ReadPolynomial_outcome` and `machine_ReadPolynomial_eq`. -/

/-- Function `PeekCharacter`: clears `parse_error` and returns the current byte
as a `char`; the result `none` stands for the `char` that equals `EOF`, which is
returned at the end of the file and for the byte `0xFF`. -/
def PeekCharacter (stream : InputStream) : Option Char × InputStream :=
  (match stream.unread.head? with
    | some c => if c = EOF then none else some c
    | none => none,
   { stream with parse_error := false })

/-- Function `ReadCharacter`: returns the current character and, when it is not
`EOF`, moves past it; the column grows by one, and a newline starts the next line
at column 0. -/
def ReadCharacter (stream : InputStream) : Option Char × InputStream :=
  match PeekCharacter stream with
  | (none, stream) => (none, stream)
  | (some c, stream) =>
    let stream := { stream with unread := stream.unread.tail,
                                column_number := stream.column_number + 1 }
    if c = '\n' then
      (some c, { stream with line_number := stream.line_number + 1, column_number := 0 })
    else (some c, stream)

/-- The loop of `SkipLine`: `c = ReadCharacter(stream)` until `c` is a newline
or `EOF`, at most `fuel` times. -/
def SkipLineLoop : Nat → InputStream → InputStream
  | 0, stream => stream
  | fuel + 1, stream =>
    match ReadCharacter stream with
    | (some c, stream) => if c = '\n' then stream else SkipLineLoop fuel stream
    | (none, stream) => stream

/-- Function `SkipLine`: reads up to and including the next newline, or up to
`EOF`; every round but the last reads a byte, which bounds the rounds. -/
def SkipLine (stream : InputStream) : InputStream :=
  SkipLineLoop (stream.unread.length + 1) stream

/-- Function `ReadDigitsIntoAnArray`: reads digits while the current character
is a digit and the array has room. The first argument is the room that is left,
`max_length - length`; the result is the filled part of the array (its length
is the returned `length`) and the stream. -/
def ReadDigitsIntoAnArray : Nat → InputStream → List Char × InputStream
  | 0, stream => ([], (PeekCharacter stream).2)
  | room + 1, stream =>
    match PeekCharacter stream with
    | (some c, stream) =>
      if IsValidDigit (some c) then
        let r := ReadDigitsIntoAnArray room (ReadCharacter stream).2
        (c :: r.1, r.2)
      else ([], stream)
    | (none, stream) => ([], stream)

/-- The error exit of the readers: `fprintf(stderr, ...)`, `SkipLine(stream)`,
`stream->parse_error = true`. -/
def reportError (stream : InputStream) (message : String) : InputStream :=
  let stream := { stream with stderr := stream.stderr ++ [message] }
  let stream := SkipLine stream
  { stream with parse_error := true }

/-- Function `ReadValueOrCoefficient`. The result of the `poly_coeff_t`
arithmetic wraps around. -/
def ReadValueOrCoefficient (stream : InputStream) (isValue : Bool) : Int × InputStream :=
  let negative : Bool := (PeekCharacter stream).1 == some '-'
  let stream := (PeekCharacter stream).2
  let stream := if negative then (ReadCharacter stream).2 else stream
  let (value, stream) := ReadDigitsIntoAnArray MAX_VALUE_AND_COEFF_LENGTH stream
  let length := value.length
  let c := (PeekCharacter stream).1
  let stream := (PeekCharacter stream).2
  if isValue && (c != some '\n' || length == 0) then
    (0, reportError stream ("ERROR " ++ toString (stream.line_number + 1) ++ " WRONG VALUE\n"))
  else if !isValue && ((c != some ',' && c != some '\n') || length == 0) then
    (0, reportError stream ("ERROR " ++ toString (stream.line_number + 1) ++ " "
      ++ toString (stream.column_number + 1) ++ "\n"))
  else if length == MAX_VALUE_AND_COEFF_LENGTH
      && coeffDigitExceeds value.reverse (if negative then LONG_MIN else LONG_MAX) then
    if isValue then
      (0, reportError stream ("ERROR " ++ toString (stream.line_number + 1) ++ " WRONG VALUE\n"))
    else
      (0, reportError stream ("ERROR " ++ toString (stream.line_number + 1) ++ " "
        ++ toString stream.column_number ++ "\n"))
  else
    let result : Int :=
      value.foldl (fun result d => wrapCoeff (wrapCoeff (result * 10) + (digitValue d : Int))) 0
    let result : Int := if negative then wrapCoeff (result * (-1)) else result
    (result, stream)

/-- Function `ReadPolyCoefficient`. -/
def ReadPolyCoefficient (stream : InputStream) : Int × InputStream :=
  ReadValueOrCoefficient stream false

/-- Function `ReadExponent`. The result is a `poly_exp_t`; it is computed only
after the bound loop has passed, so it is at most `INT_MAX` and the natural
number here is the value of the `int`. -/
def ReadExponent (stream : InputStream) : Nat × InputStream :=
  let last_column := stream.column_number + 2
  let negative_zero_expected : Bool := (PeekCharacter stream).1 == some '-'
  let stream := (PeekCharacter stream).2
  let stream := if negative_zero_expected then (ReadCharacter stream).2 else stream
  let (value, stream) := ReadDigitsIntoAnArray MAX_EXPONENT_LENGTH stream
  let length := value.length
  if negative_zero_expected && (length != 1 || value.head? != some '0') then
    (0, reportError stream ("ERROR " ++ toString (stream.line_number + 1) ++ " "
      ++ toString last_column ++ "\n"))
  else if length == 0 then
    (0, reportError stream ("ERROR " ++ toString (stream.line_number + 1) ++ " "
      ++ toString (stream.column_number + 1) ++ "\n"))
  else if length == MAX_EXPONENT_LENGTH && unsignedDigitExceeds value.reverse INT_MAX then
    (0, reportError stream ("ERROR " ++ toString (stream.line_number + 1) ++ " "
      ++ toString stream.column_number ++ "\n"))
  else
    (value.foldl (fun result d => result * 10 + digitValue d) 0, stream)

/-- Function `CollapseMonoStackIntoAPoly`: the stack, given with its top first,
is copied into an array from the bottom to the top and summed. -/
def CollapseMonoStackIntoAPoly (s : List Mono) : Poly :=
  if s.length = 0 then PolyZero else PolyAddMonos s.reverse

/-- The failing exit of `PARSE_POLY_EXPECT`: the diagnostic with the 1-based
line and column, `SkipLine`, the flag, and the zero polynomial as the result. -/
def parsePolyFail (stream : InputStream) : Poly × InputStream :=
  (PolyZero, reportError stream ("ERROR " ++ toString (stream.line_number + 1) ++ " "
    ++ toString (stream.column_number + 1) ++ "\n"))

/-- The `while` loop of `ReadPolynomial` together with the statements after it.
The stack `parse_stack` is never empty and is given as its top accumulator `top`
and the list `below` of the others, so that `StackSize(&parse_stack)` is
`below.length + 1`; an accumulator is a stack of monomials with its top first.
Every round that goes on reads a character, and the first argument bounds the
number of rounds. -/
def ReadPolynomialLoop :
    Nat → InputStream → Bool → List Mono → List (List Mono) → Poly × InputStream
  | 0, stream, _, _, _ => (PolyZero, stream)
  | fuel + 1, stream, expecting_mono, top, below =>
    let c := (PeekCharacter stream).1
    let stream := (PeekCharacter stream).2
    if c == some '\n' then
      -- the loop is left
      if below.length + 1 == 1 && expecting_mono == false then
        (CollapseMonoStackIntoAPoly top, (ReadCharacter stream).2)
      else parsePolyFail stream
    else if c == some '(' then
      let stream := (ReadCharacter stream).2
      let c := (PeekCharacter stream).1
      let stream := (PeekCharacter stream).2
      if IsValidNumberCharacter c || c == some '(' then
        ReadPolynomialLoop fuel stream false [] (top :: below)
      else parsePolyFail stream
    else if IsValidNumberCharacter c && expecting_mono == false then
      let (coeff, stream) := ReadPolyCoefficient stream
      if stream.parse_error then (PolyZero, stream)
      else if coeff != 0 then
        ReadPolynomialLoop fuel stream expecting_mono
          (MonoFromPoly (PolyFromCoeff coeff) 0 :: top) below
      else ReadPolynomialLoop fuel stream expecting_mono top below
    else if c == some ',' && expecting_mono == false && below.length + 1 > 1 then
      let stream := (ReadCharacter stream).2
      let (exponent, stream) := ReadExponent stream
      if stream.parse_error then (PolyZero, stream)
      else
        match below with
        | [] => parsePolyFail stream
        | next :: below =>
          let p := CollapseMonoStackIntoAPoly top
          let top := if !PolyIsZero p then MonoFromPoly p exponent :: next else next
          let c := (PeekCharacter stream).1
          let stream := (PeekCharacter stream).2
          if c == some ')' then
            let stream := (ReadCharacter stream).2
            let c := (PeekCharacter stream).1
            let stream := (PeekCharacter stream).2
            if c == some '+' then
              ReadPolynomialLoop fuel (ReadCharacter stream).2 true top below
            else if c == some '\n' || c == some ',' then
              ReadPolynomialLoop fuel stream expecting_mono top below
            else parsePolyFail stream
          else parsePolyFail stream
    else parsePolyFail stream

/-- Function `ReadPolynomial`: the polynomial read and the stream after it. -/
def ReadPolynomial (stream : InputStream) : Poly × InputStream :=
  let c := (PeekCharacter stream).1
  let stream := (PeekCharacter stream).2
  if IsValidNumberCharacter c || c == some '(' then
    ReadPolynomialLoop (stream.unread.length + 1) stream false [] []
  else parsePolyFail stream

end Machine

/-! ## Comparing the readers -/

/-- The current line of the input can be read to its end: a newline comes before
the end of the input and before every byte `0xFF`. -/
def lineReadable : List Char → Bool
  | [] => false
  | c :: rest => c == '\n' || (c != EOF && lineReadable rest)

/-- Two results of a reader that a caller cannot tell apart by the value, the
diagnostics and the flag `parse_error`. -/
def SameOutcome {α : Type} (a b : α × InputStream) : Prop :=
  a.1 = b.1 ∧ a.2.stderr = b.2.stderr ∧ a.2.parse_error = b.2.parse_error

/-! ## Induction over the tree -/

/-- Induction over a polynomial: a property that holds for a polynomial whenever
it holds for the coefficients of its monomials holds for all polynomials. -/
theorem Poly.induct {P : Poly → Prop}
    (h : ∀ c ms, (∀ m ∈ ms, P m.1) → P (Poly.mk c ms)) : ∀ p, P p := by
  intro p
  refine @Poly.rec P (fun ms => ∀ m ∈ ms, P m.1) (fun m => P m.1) ?_ ?_ ?_ ?_ p
  · intro c ms ih
    exact h c ms ih
  · intro m hm
    cases hm
  · intro hd tl ihd itl m hm
    rcases List.mem_cons.mp hm with rfl | hm
    · exact ihd
    · exact itl m hm
  · intro a b ih
    exact ih

@[simp] theorem constant_mk (c : Int) (ms : List Mono) : (Poly.mk c ms).constant = c := rfl

@[simp] theorem first_mono_mk (c : Int) (ms : List Mono) : (Poly.mk c ms).first_mono = ms := rfl

theorem Poly.eta (p : Poly) : Poly.mk p.constant p.first_mono = p := by
  cases p; rfl

/-! ## Coefficient arithmetic -/

theorem wrapCoeff_eq_sub (x : Int) :
    wrapCoeff x = x - coeffModulus * ((x + coeffHalf) / coeffModulus) := by
  unfold wrapCoeff
  rw [Int.emod_def]
  ring

theorem wrapCoeff_inRange (x : Int) : CoeffInRange (wrapCoeff x) := by
  unfold CoeffInRange wrapCoeff
  have h1 : 0 ≤ (x + coeffHalf) % coeffModulus := Int.emod_nonneg _ (by decide)
  have h2 : (x + coeffHalf) % coeffModulus < coeffModulus := Int.emod_lt_of_pos _ (by decide)
  have h3 : coeffModulus = 2 * coeffHalf := by decide
  constructor <;> omega

theorem wrapCoeff_of_inRange {x : Int} (h : CoeffInRange x) : wrapCoeff x = x := by
  unfold CoeffInRange at h
  unfold wrapCoeff
  have h3 : coeffModulus = 2 * coeffHalf := by decide
  rw [Int.emod_eq_of_lt (by omega) (by omega)]
  ring

theorem wrapCoeff_zero : wrapCoeff 0 = 0 := by decide

theorem wrapCoeff_eq_iff (a b : Int) :
    wrapCoeff a = wrapCoeff b ↔ ((a : ZMod (2 ^ 64)) = (b : ZMod (2 ^ 64))) := by
  rw [ZMod.intCast_eq_intCast_iff]
  have hM : ((2 ^ 64 : ℕ) : ℤ) = coeffModulus := by decide
  rw [hM]
  unfold wrapCoeff Int.ModEq
  constructor
  · intro h
    have h' : (a + coeffHalf) % coeffModulus = (b + coeffHalf) % coeffModulus := by omega
    have h2 : (a + coeffHalf - coeffHalf) % coeffModulus = (b + coeffHalf - coeffHalf) % coeffModulus := by
      rw [Int.sub_emod, h', ← Int.sub_emod]
    simpa using h2
  · intro h
    have h2 : (a + coeffHalf) % coeffModulus = (b + coeffHalf) % coeffModulus := by
      rw [Int.add_emod, h, ← Int.add_emod]
    rw [h2]

section Ring

variable {R : Type} [CommRing R]

theorem cast_wrapCoeff (hR : WrapsIn R) (x : Int) : ((wrapCoeff x : Int) : R) = (x : R) := by
  rw [wrapCoeff_eq_sub]
  unfold WrapsIn at hR
  push_cast
  rw [hR]
  ring

theorem wrapsIn_zmod : WrapsIn (ZMod (2 ^ 64)) := by
  unfold WrapsIn
  have hM : coeffModulus = ((2 ^ 64 : ℕ) : ℤ) := by decide
  rw [hM, Int.cast_natCast]
  exact ZMod.natCast_self _

@[simp] theorem evalIn_mk (c : Int) (ms : List Mono) (v : Nat → R) :
    evalIn (Poly.mk c ms) v = (c : R) + evalMonosIn ms v := by
  simp [evalIn]

@[simp] theorem evalMonosIn_nil (v : Nat → R) : evalMonosIn [] v = 0 := by
  simp [evalMonosIn]

@[simp] theorem evalMonosIn_cons (m : Mono) (rest : List Mono) (v : Nat → R) :
    evalMonosIn (m :: rest) v
      = v 0 ^ m.2 * evalIn m.1 (fun i => v (i + 1)) + evalMonosIn rest v := by
  obtain ⟨p, e⟩ := m
  simp [evalMonosIn]

theorem evalIn_eq (p : Poly) (v : Nat → R) :
    evalIn p v = (p.constant : R) + evalMonosIn p.first_mono v := by
  cases p; simp

theorem evalMonosIn_eq_sum (ms : List Mono) (v : Nat → R) :
    evalMonosIn ms v = (ms.map (fun m => v 0 ^ m.2 * evalIn m.1 (fun i => v (i + 1)))).sum := by
  induction ms with
  | nil => simp
  | cons m rest ih => simp [ih]

theorem evalMonosIn_append (a b : List Mono) (v : Nat → R) :
    evalMonosIn (a ++ b) v = evalMonosIn a v + evalMonosIn b v := by
  simp [evalMonosIn_eq_sum]

theorem evalMonosIn_perm {a b : List Mono} (h : a.Perm b) (v : Nat → R) :
    evalMonosIn a v = evalMonosIn b v := by
  rw [evalMonosIn_eq_sum, evalMonosIn_eq_sum]
  exact (h.map _).sum_eq

theorem evalIn_of_isZero {p : Poly} (h : PolyIsZero p = true) (v : Nat → R) :
    evalIn p v = 0 := by
  cases p with
  | mk c ms =>
    simp [PolyIsZero] at h
    obtain ⟨hc, hms⟩ := h
    subst hc
    cases ms with
    | nil => simp
    | cons a b => simp at hms

theorem evalMonosIn_removeEmpty (ms : List Mono) (v : Nat → R) :
    evalMonosIn (RemoveEmptyMonos ms) v = evalMonosIn ms v := by
  induction ms with
  | nil => simp [RemoveEmptyMonos]
  | cons m rest ih =>
    unfold RemoveEmptyMonos at ih ⊢
    rw [List.filter_cons]
    by_cases hz : PolyIsZero m.1 = true
    · simp [hz, ih, evalIn_of_isZero hz]
    · simp [hz, ih]

end Ring

theorem value_eq_evalIn (p : Poly) : ∀ v : Nat → Int, value p v = evalIn p v := by
  induction p using Poly.induct with
  | h c ms ih =>
    intro v
    have hl : ∀ (l : List Mono), (∀ m ∈ l, ∀ v : Nat → Int, value m.1 v = evalIn m.1 v) →
        ∀ v : Nat → Int, valueMonos l v = evalMonosIn l v := by
      intro l
      induction l with
      | nil => intro _ v; simp [valueMonos]
      | cons m rest ihl =>
        intro hm v
        obtain ⟨a, e⟩ := m
        simp only [valueMonos, evalMonosIn_cons]
        rw [hm (a, e) (List.mem_cons_self _ _), ihl (fun m h => hm m (List.mem_cons_of_mem _ h))]
    simp [value, hl ms ih v]

/-! ## Unfolding of the addition -/

theorem mergeLoop_nil (ps : List Mono) : mergeLoop ps [] = ps := by
  simp [mergeLoop]

theorem mergeLoop_nil_cons (q : Mono) (qs : List Mono) : mergeLoop [] (q :: qs) = q :: qs := by
  obtain ⟨a, b⟩ := q
  simp [mergeLoop, mergeMono]

theorem mergeLoop_cons_cons (p q : Mono) (ps qs : List Mono) :
    mergeLoop (p :: ps) (q :: qs) =
      if p.2 < q.2 then p :: mergeLoop ps (q :: qs)
      else if p.2 > q.2 then q :: mergeLoop (p :: ps) qs
      else mergeLoop ((PolyAddInPlace p.1 q.1, p.2) :: ps) qs := by
  obtain ⟨a, b⟩ := q
  simp [mergeLoop, mergeMono]

theorem PolyAddInPlace_nil (p : Poly) (qc : Int) :
    PolyAddInPlace p (Poly.mk qc []) = Poly.mk (wrapCoeff (p.constant + qc)) p.first_mono := by
  simp [PolyAddInPlace]

theorem PolyAddInPlace_nil_cons (pc qc : Int) (q1 : Mono) (qs : List Mono) :
    PolyAddInPlace (Poly.mk pc []) (Poly.mk qc (q1 :: qs))
      = Poly.mk (wrapCoeff (pc + qc)) (q1 :: qs) := by
  simp [PolyAddInPlace]

theorem PolyAddInPlace_cons_cons (pc qc : Int) (p1 q1 : Mono) (ps qs : List Mono) :
    PolyAddInPlace (Poly.mk pc (p1 :: ps)) (Poly.mk qc (q1 :: qs))
      = Poly.mk
          (foldFirstConstant (wrapCoeff (pc + qc))
            (if p1.2 > q1.2 then mergeLoop (q1 :: p1 :: ps) qs
             else mergeLoop (p1 :: ps) (q1 :: qs))).1
          (RemoveEmptyMonos (foldFirstConstant (wrapCoeff (pc + qc))
            (if p1.2 > q1.2 then mergeLoop (q1 :: p1 :: ps) qs
             else mergeLoop (p1 :: ps) (q1 :: qs))).2) := by
  simp [PolyAddInPlace]

theorem foldFirstConstant_zero (c : Int) (p : Poly) (rest : List Mono) :
    foldFirstConstant c ((p, 0) :: rest)
      = (wrapCoeff (c + p.constant), (Poly.mk 0 p.first_mono, 0) :: rest) := by
  simp [foldFirstConstant]

theorem foldFirstConstant_nil (c : Int) : foldFirstConstant c [] = (c, []) := by
  simp [foldFirstConstant]

theorem foldFirstConstant_pos (c : Int) (p : Poly) (e : Nat) (rest : List Mono) (he : e ≠ 0) :
    foldFirstConstant c ((p, e) :: rest) = (c, (p, e) :: rest) := by
  cases e with
  | zero => exact absurd rfl he
  | succ n => simp [foldFirstConstant]

section Ring

variable {R : Type} [CommRing R]

theorem evalMonosIn_mergeLoop (qs : List Mono)
    (ih : ∀ m ∈ qs, ∀ (c : Poly) (v : Nat → R),
      evalIn (PolyAddInPlace c m.1) v = evalIn c v + evalIn m.1 v) :
    ∀ (ps : List Mono) (v : Nat → R),
      evalMonosIn (mergeLoop ps qs) v = evalMonosIn ps v + evalMonosIn qs v := by
  induction qs with
  | nil => intro ps v; simp [mergeLoop_nil]
  | cons q qs ihq =>
    have ihq' := ihq (fun m hm => ih m (List.mem_cons_of_mem _ hm))
    have hq := ih q (List.mem_cons_self _ _)
    intro ps
    induction ps with
    | nil => intro v; simp [mergeLoop_nil_cons]
    | cons p ps ihp =>
      intro v
      rw [mergeLoop_cons_cons]
      split_ifs with h1 h2
      · simp only [evalMonosIn_cons, ihp v]
        ring
      · simp only [evalMonosIn_cons, ihq' (p :: ps) v]
        ring
      · have he : p.2 = q.2 := by omega
        rw [ihq']
        simp only [evalMonosIn_cons, hq, he]
        ring

theorem evalIn_foldFirstConstant (hR : WrapsIn R) (c : Int) (ms : List Mono) (v : Nat → R) :
    (((foldFirstConstant c ms).1 : Int) : R) + evalMonosIn (foldFirstConstant c ms).2 v
      = (c : R) + evalMonosIn ms v := by
  match ms with
  | [] => simp [foldFirstConstant_nil]
  | (p, 0) :: rest =>
    rw [foldFirstConstant_zero]
    simp only [evalMonosIn_cons, cast_wrapCoeff hR, evalIn_mk, evalIn_eq p]
    push_cast
    ring
  | (p, e + 1) :: rest =>
    rw [foldFirstConstant_pos _ _ _ _ (Nat.succ_ne_zero e)]

theorem evalIn_PolyAddInPlace (hR : WrapsIn R) (q : Poly) :
    ∀ (p : Poly) (v : Nat → R), evalIn (PolyAddInPlace p q) v = evalIn p v + evalIn q v := by
  induction q using Poly.induct with
  | h qc qms ih =>
    intro p v
    have hmerge := evalMonosIn_mergeLoop (R := R) qms ih
    cases qms with
    | nil =>
      rw [PolyAddInPlace_nil, evalIn_mk, cast_wrapCoeff hR, evalIn_eq p]
      simp
      ring
    | cons q1 qs =>
      cases p with
      | mk pc pms =>
        cases pms with
        | nil =>
          rw [PolyAddInPlace_nil_cons, evalIn_mk, cast_wrapCoeff hR]
          simp
          ring
        | cons p1 ps =>
          rw [PolyAddInPlace_cons_cons, evalIn_mk, evalMonosIn_removeEmpty,
            evalIn_foldFirstConstant hR, cast_wrapCoeff hR]
          have hq1 := ih q1 (List.mem_cons_self _ _)
          have hmerge' := evalMonosIn_mergeLoop (R := R) qs
            (fun m hm => ih m (List.mem_cons_of_mem _ hm))
          split_ifs with h1
          · rw [hmerge']
            simp
            ring
          · rw [hmerge]
            simp
            ring

end Ring

/-! ## The invariants, one level at a time -/

theorem allList_iff (ok : Int → List Mono → Bool) (ms : List Mono) :
    allList ok ms = true ↔ ∀ m ∈ ms, m.1.all ok = true := by
  induction ms with
  | nil => simp [allList]
  | cons m rest ih =>
    obtain ⟨p, e⟩ := m
    simp [allList, ih]

theorem all_mk (ok : Int → List Mono → Bool) (c : Int) (ms : List Mono) :
    (Poly.mk c ms).all ok = true ↔ ok c ms = true ∧ ∀ m ∈ ms, m.1.all ok = true := by
  simp [Poly.all, allList_iff]

theorem termsOrdered_mk (c : Int) (ms : List Mono) :
    TermsOrdered (Poly.mk c ms) ↔
      ExpsAscending ms ∧ (∀ m ∈ ms, PolyIsZero m.1 = false) ∧ ∀ m ∈ ms, TermsOrdered m.1 := by
  unfold TermsOrdered
  rw [all_mk]
  simp [orderedNode, and_assoc]

theorem zeroExpFolded_mk (c : Int) (ms : List Mono) :
    ZeroExpFolded (Poly.mk c ms) ↔
      (∀ m ∈ ms, m.2 = 0 → m.1.constant = 0) ∧ ∀ m ∈ ms, ZeroExpFolded m.1 := by
  unfold ZeroExpFolded
  rw [all_mk]
  simp only [zeroExpNode, List.all_eq_true, Bool.or_eq_true, bne_iff_ne, ne_eq, beq_iff_eq]
  constructor
  · rintro ⟨h1, h2⟩
    refine ⟨fun m hm he => ?_, h2⟩
    rcases h1 m hm with h | h
    · exact absurd he h
    · exact h
  · rintro ⟨h1, h2⟩
    refine ⟨fun m hm => ?_, h2⟩
    by_cases he : m.2 = 0
    · exact Or.inr (h1 m hm he)
    · exact Or.inl he

theorem coeffsInRange_mk (c : Int) (ms : List Mono) :
    CoeffsInRange (Poly.mk c ms) ↔ CoeffInRange c ∧ ∀ m ∈ ms, CoeffsInRange m.1 := by
  unfold CoeffsInRange
  rw [all_mk]
  simp [rangeNode]

theorem termsOrdered_iff (p : Poly) :
    TermsOrdered p ↔ ExpsAscending p.first_mono ∧ (∀ m ∈ p.first_mono, PolyIsZero m.1 = false)
      ∧ ∀ m ∈ p.first_mono, TermsOrdered m.1 := by
  cases p; exact termsOrdered_mk _ _

theorem zeroExpFolded_iff (p : Poly) :
    ZeroExpFolded p ↔ (∀ m ∈ p.first_mono, m.2 = 0 → m.1.constant = 0)
      ∧ ∀ m ∈ p.first_mono, ZeroExpFolded m.1 := by
  cases p; exact zeroExpFolded_mk _ _

theorem coeffsInRange_iff (p : Poly) :
    CoeffsInRange p ↔ CoeffInRange p.constant ∧ ∀ m ∈ p.first_mono, CoeffsInRange m.1 := by
  cases p; exact coeffsInRange_mk _ _

theorem termsOrdered_const (c : Int) : TermsOrdered (PolyFromCoeff c) := by
  unfold PolyFromCoeff
  rw [termsOrdered_mk]
  simp [ExpsAscending]

theorem zeroExpFolded_const (c : Int) : ZeroExpFolded (PolyFromCoeff c) := by
  unfold PolyFromCoeff
  rw [zeroExpFolded_mk]
  simp

theorem coeffsInRange_const {c : Int} (h : CoeffInRange c) : CoeffsInRange (PolyFromCoeff c) := by
  unfold PolyFromCoeff
  rw [coeffsInRange_mk]
  simp [h]

theorem termsOrdered_zero : TermsOrdered PolyZero := termsOrdered_const 0

theorem zeroExpFolded_zero : ZeroExpFolded PolyZero := zeroExpFolded_const 0

theorem coeffsInRange_zero : CoeffsInRange PolyZero := coeffsInRange_const (by decide)

theorem canonical_zero : Canonical PolyZero :=
  ⟨termsOrdered_zero, zeroExpFolded_zero, coeffsInRange_zero⟩

theorem canonical_const {c : Int} (h : CoeffInRange c) : Canonical (PolyFromCoeff c) :=
  ⟨termsOrdered_const c, zeroExpFolded_const c, coeffsInRange_const h⟩

/-- The constant of a polynomial does not matter for the ordering invariant. -/
theorem termsOrdered_setConstant {c : Int} {ms : List Mono} (c' : Int)
    (h : TermsOrdered (Poly.mk c ms)) : TermsOrdered (Poly.mk c' ms) := by
  rw [termsOrdered_mk] at h ⊢
  exact h

theorem zeroExpFolded_setConstant {c : Int} {ms : List Mono} (c' : Int)
    (h : ZeroExpFolded (Poly.mk c ms)) : ZeroExpFolded (Poly.mk c' ms) := by
  rw [zeroExpFolded_mk] at h ⊢
  exact h

theorem coeffsInRange_setConstant {c : Int} {ms : List Mono} {c' : Int} (hc : CoeffInRange c')
    (h : CoeffsInRange (Poly.mk c ms)) : CoeffsInRange (Poly.mk c' ms) := by
  rw [coeffsInRange_mk] at h ⊢
  exact ⟨hc, h.2⟩

/-! ## Monomial lists -/

theorem expsAscending_cons (m : Mono) (ms : List Mono) :
    ExpsAscending (m :: ms) ↔ (∀ a ∈ ms, m.2 < a.2) ∧ ExpsAscending ms := by
  unfold ExpsAscending
  rw [List.map_cons, List.pairwise_cons]
  constructor
  · rintro ⟨h1, h2⟩
    exact ⟨fun a ha => h1 a.2 (List.mem_map_of_mem _ ha), h2⟩
  · rintro ⟨h1, h2⟩
    refine ⟨fun e he => ?_, h2⟩
    obtain ⟨a, ha, rfl⟩ := List.mem_map.mp he
    exact h1 a ha

theorem expsAscending_nil : ExpsAscending [] := by
  simp [ExpsAscending]

theorem expsAscending_of_exps_sublist {a b : List Mono}
    (h : (a.map Prod.snd).Sublist (b.map Prod.snd)) (hb : ExpsAscending b) : ExpsAscending a :=
  List.Pairwise.sublist h hb

theorem expsAscending_removeEmpty {ms : List Mono} (h : ExpsAscending ms) :
    ExpsAscending (RemoveEmptyMonos ms) :=
  expsAscending_of_exps_sublist (List.Sublist.map _ (List.filter_sublist _)) h

theorem mem_removeEmpty {ms : List Mono} {m : Mono} :
    m ∈ RemoveEmptyMonos ms ↔ m ∈ ms ∧ PolyIsZero m.1 = false := by
  simp [RemoveEmptyMonos, List.mem_filter]

theorem foldFirstConstant_exps (c : Int) (ms : List Mono) :
    (foldFirstConstant c ms).2.map Prod.snd = ms.map Prod.snd := by
  match ms with
  | [] => simp [foldFirstConstant_nil]
  | (p, 0) :: rest => simp [foldFirstConstant_zero]
  | (p, e + 1) :: rest => rw [foldFirstConstant_pos _ _ _ _ (Nat.succ_ne_zero e)]

/-- Every monomial left by `foldFirstConstant` is a monomial of the list or the
first monomial of the list with the constant of its coefficient set to 0. -/
theorem mem_foldFirstConstant {c : Int} {ms : List Mono} {m : Mono}
    (h : m ∈ (foldFirstConstant c ms).2) :
    m ∈ ms ∨ ∃ p, (p, 0) ∈ ms ∧ m = (Poly.mk 0 p.first_mono, 0) := by
  match ms, h with
  | [], h => simp [foldFirstConstant_nil] at h
  | (p, 0) :: rest, h =>
    rw [foldFirstConstant_zero] at h
    rcases List.mem_cons.mp h with h | h
    · exact Or.inr ⟨p, List.mem_cons_self _ _, h⟩
    · exact Or.inl (List.mem_cons_of_mem _ h)
  | (p, e + 1) :: rest, h =>
    rw [foldFirstConstant_pos _ _ _ _ (Nat.succ_ne_zero e)] at h
    exact Or.inl h

/-- A property of monomials that holds in both lists and survives
`PolyAddInPlace` into the coefficient holds in the merged list. -/
theorem mergeLoop_forall (P : Mono → Prop) (qs : List Mono)
    (hadd : ∀ q ∈ qs, ∀ c : Poly, P (c, q.2) → P (PolyAddInPlace c q.1, q.2))
    (hq : ∀ m ∈ qs, P m) :
    ∀ ps : List Mono, (∀ m ∈ ps, P m) → ∀ m ∈ mergeLoop ps qs, P m := by
  induction qs with
  | nil => intro ps hp; simpa [mergeLoop_nil] using hp
  | cons q qs ihq =>
    have ihq' := ihq (fun m hm => hadd m (List.mem_cons_of_mem _ hm))
      (fun m hm => hq m (List.mem_cons_of_mem _ hm))
    intro ps
    induction ps with
    | nil => intro _; simpa [mergeLoop_nil_cons] using hq
    | cons p ps ihp =>
      intro hp
      rw [mergeLoop_cons_cons]
      split_ifs with h1 h2
      · intro m hm
        rcases List.mem_cons.mp hm with rfl | hm
        · exact hp _ (List.mem_cons_self _ _)
        · exact ihp (fun m hm => hp m (List.mem_cons_of_mem _ hm)) m hm
      · intro m hm
        rcases List.mem_cons.mp hm with rfl | hm
        · exact hq _ (List.mem_cons_self _ _)
        · exact ihq' (p :: ps) hp m hm
      · have he : p.2 = q.2 := by omega
        apply ihq'
        intro m hm
        rcases List.mem_cons.mp hm with rfl | hm
        · rw [he]
          apply hadd q (List.mem_cons_self _ _)
          rw [← he]
          exact hp _ (List.mem_cons_self _ _)
        · exact hp m (List.mem_cons_of_mem _ hm)

theorem mergeLoop_ascending (qs : List Mono) (hq : ExpsAscending qs) :
    ∀ ps : List Mono, ExpsAscending ps → ExpsAscending (mergeLoop ps qs) := by
  induction qs with
  | nil => intro ps hp; simpa [mergeLoop_nil] using hp
  | cons q qs ihq =>
    rw [expsAscending_cons] at hq
    have ihq' := ihq hq.2
    intro ps
    induction ps with
    | nil => intro _; rw [mergeLoop_nil_cons, expsAscending_cons]; exact hq
    | cons p ps ihp =>
      intro hp
      rw [expsAscending_cons] at hp
      rw [mergeLoop_cons_cons]
      split_ifs with h1 h2
      · rw [expsAscending_cons]
        refine ⟨?_, ihp hp.2⟩
        apply mergeLoop_forall (fun m => p.2 < m.2) (q :: qs) (fun _ _ _ h => h) _ ps hp.1
        intro m hm
        rcases List.mem_cons.mp hm with rfl | hm
        · exact h1
        · exact lt_trans h1 (hq.1 m hm)
      · rw [expsAscending_cons]
        refine ⟨?_, ihq' (p :: ps) ((expsAscending_cons _ _).mpr hp)⟩
        apply mergeLoop_forall (fun m => q.2 < m.2) qs (fun _ _ _ h => h) hq.1 (p :: ps)
        intro m hm
        rcases List.mem_cons.mp hm with rfl | hm
        · exact h2
        · exact lt_trans h2 (hp.1 m hm)
      · apply ihq'
        rw [expsAscending_cons]
        exact hp

/-! ## `PolyAddInPlace` keeps the invariants -/

theorem foldFirstConstant_fst_inRange {c : Int} (hc : CoeffInRange c) (ms : List Mono) :
    CoeffInRange (foldFirstConstant c ms).1 := by
  match ms with
  | [] => simpa [foldFirstConstant_nil] using hc
  | (p, 0) :: rest => rw [foldFirstConstant_zero]; exact wrapCoeff_inRange _
  | (p, e + 1) :: rest => rw [foldFirstConstant_pos _ _ _ _ (Nat.succ_ne_zero e)]; exact hc

theorem foldFirstConstant_fst_of_folded {c : Int} (hc : CoeffInRange c) {ms : List Mono}
    (h : ∀ m ∈ ms, m.2 = 0 → m.1.constant = 0) : (foldFirstConstant c ms).1 = c := by
  match ms, h with
  | [], _ => simp [foldFirstConstant_nil]
  | (p, 0) :: rest, h =>
    rw [foldFirstConstant_zero]
    have h0 : p.constant = 0 := h (p, 0) (List.mem_cons_self _ _) rfl
    simp [h0, wrapCoeff_of_inRange hc]
  | (p, e + 1) :: rest, _ => rw [foldFirstConstant_pos _ _ _ _ (Nat.succ_ne_zero e)]

/-- The merged list of `PolyAddInPlace` before the fold of the constant. -/
theorem mergeStart_forall (P : Mono → Prop) (p1 q1 : Mono) (ps qs : List Mono)
    (hadd : ∀ q ∈ q1 :: qs, ∀ c : Poly, P (c, q.2) → P (PolyAddInPlace c q.1, q.2))
    (hp : ∀ m ∈ p1 :: ps, P m) (hq : ∀ m ∈ q1 :: qs, P m) :
    ∀ m ∈ (if p1.2 > q1.2 then mergeLoop (q1 :: p1 :: ps) qs
            else mergeLoop (p1 :: ps) (q1 :: qs)), P m := by
  split_ifs with h
  · apply mergeLoop_forall P qs (fun q hq' => hadd q (List.mem_cons_of_mem _ hq'))
      (fun m hm => hq m (List.mem_cons_of_mem _ hm))
    intro m hm
    rcases List.mem_cons.mp hm with rfl | hm
    · exact hq _ (List.mem_cons_self _ _)
    · exact hp m hm
  · exact mergeLoop_forall P (q1 :: qs) hadd hq (p1 :: ps) hp

theorem mergeStart_ascending (p1 q1 : Mono) (ps qs : List Mono)
    (hp : ExpsAscending (p1 :: ps)) (hq : ExpsAscending (q1 :: qs)) :
    ExpsAscending (if p1.2 > q1.2 then mergeLoop (q1 :: p1 :: ps) qs
            else mergeLoop (p1 :: ps) (q1 :: qs)) := by
  split_ifs with h
  · apply mergeLoop_ascending qs ((expsAscending_cons _ _).mp hq).2
    rw [expsAscending_cons]
    refine ⟨?_, hp⟩
    intro a ha
    rcases List.mem_cons.mp ha with rfl | ha
    · exact h
    · exact lt_trans h (((expsAscending_cons _ _).mp hp).1 a ha)
  · exact mergeLoop_ascending (q1 :: qs) hq (p1 :: ps) hp

/-- The monomials of a sum of two polynomials with monomials. -/
theorem add_monos_forall (P : Mono → Prop) (pc qc : Int) (p1 q1 : Mono) (ps qs : List Mono)
    (hadd : ∀ q ∈ q1 :: qs, ∀ c : Poly, P (c, q.2) → P (PolyAddInPlace c q.1, q.2))
    (hset : ∀ c : Poly, P (c, 0) → P (Poly.mk 0 c.first_mono, 0))
    (hp : ∀ m ∈ p1 :: ps, P m) (hq : ∀ m ∈ q1 :: qs, P m) :
    ∀ m ∈ (PolyAddInPlace (Poly.mk pc (p1 :: ps)) (Poly.mk qc (q1 :: qs))).first_mono, P m := by
  rw [PolyAddInPlace_cons_cons]
  intro m hm
  rw [first_mono_mk, mem_removeEmpty] at hm
  have hmerged := mergeStart_forall P p1 q1 ps qs hadd hp hq
  rcases mem_foldFirstConstant hm.1 with h | ⟨c, hc, rfl⟩
  · exact hmerged m h
  · exact hset c (hmerged _ hc)

theorem add_monos_ascending (pc qc : Int) (p1 q1 : Mono) (ps qs : List Mono)
    (hp : ExpsAscending (p1 :: ps)) (hq : ExpsAscending (q1 :: qs)) :
    ExpsAscending (PolyAddInPlace (Poly.mk pc (p1 :: ps)) (Poly.mk qc (q1 :: qs))).first_mono := by
  rw [PolyAddInPlace_cons_cons, first_mono_mk]
  apply expsAscending_removeEmpty
  unfold ExpsAscending
  rw [foldFirstConstant_exps]
  exact mergeStart_ascending p1 q1 ps qs hp hq

theorem add_monos_nonzero (pc qc : Int) (p1 q1 : Mono) (ps qs : List Mono) :
    ∀ m ∈ (PolyAddInPlace (Poly.mk pc (p1 :: ps)) (Poly.mk qc (q1 :: qs))).first_mono,
      PolyIsZero m.1 = false := by
  rw [PolyAddInPlace_cons_cons]
  intro m hm
  rw [first_mono_mk, mem_removeEmpty] at hm
  exact hm.2

theorem termsOrdered_PolyAddInPlace (q : Poly) :
    ∀ p : Poly, TermsOrdered p → TermsOrdered q → TermsOrdered (PolyAddInPlace p q) := by
  induction q using Poly.induct with
  | h qc qms ih =>
    intro p hp hq
    cases qms with
    | nil =>
      rw [PolyAddInPlace_nil]
      rw [termsOrdered_iff] at hp
      rw [termsOrdered_mk]
      exact hp
    | cons q1 qs =>
      cases p with
      | mk pc pms =>
        cases pms with
        | nil =>
          rw [PolyAddInPlace_nil_cons]
          exact termsOrdered_setConstant _ hq
        | cons p1 ps =>
          rw [termsOrdered_mk] at hp hq
          rw [termsOrdered_iff]
          refine ⟨add_monos_ascending _ _ _ _ _ _ hp.1 hq.1, add_monos_nonzero _ _ _ _ _ _, ?_⟩
          apply add_monos_forall (fun m => TermsOrdered m.1)
          · intro q hq' c hc
            exact ih q hq' c hc (hq.2.2 q hq')
          · intro c hc
            rw [termsOrdered_iff] at hc
            rw [termsOrdered_mk]
            exact hc
          · exact hp.2.2
          · exact hq.2.2

theorem zeroExpFolded_PolyAddInPlace_aux (q : Poly) :
    ∀ p : Poly, ZeroExpFolded p → ZeroExpFolded q →
      ZeroExpFolded (PolyAddInPlace p q)
        ∧ (PolyAddInPlace p q).constant = wrapCoeff (p.constant + q.constant) := by
  induction q using Poly.induct with
  | h qc qms ih =>
    intro p hp hq
    cases qms with
    | nil =>
      rw [PolyAddInPlace_nil]
      rw [zeroExpFolded_iff] at hp
      rw [zeroExpFolded_mk]
      exact ⟨hp, rfl⟩
    | cons q1 qs =>
      cases p with
      | mk pc pms =>
        cases pms with
        | nil =>
          rw [PolyAddInPlace_nil_cons]
          exact ⟨zeroExpFolded_setConstant _ hq, rfl⟩
        | cons p1 ps =>
          rw [zeroExpFolded_mk] at hp hq
          have hadd : ∀ q ∈ q1 :: qs, ∀ c : Poly,
              (ZeroExpFolded c ∧ (q.2 = 0 → c.constant = 0)) →
              (ZeroExpFolded (PolyAddInPlace c q.1)
                ∧ (q.2 = 0 → (PolyAddInPlace c q.1).constant = 0)) := by
            intro q hq' c hc
            have h := ih q hq' c hc.1 (hq.2 q hq')
            refine ⟨h.1, fun he => ?_⟩
            rw [h.2, hc.2 he, hq.1 q hq' he]
            exact wrapCoeff_zero
          have hpP : ∀ m ∈ p1 :: ps, ZeroExpFolded m.1 ∧ (m.2 = 0 → m.1.constant = 0) :=
            fun m hm => ⟨hp.2 m hm, hp.1 m hm⟩
          have hqP : ∀ m ∈ q1 :: qs, ZeroExpFolded m.1 ∧ (m.2 = 0 → m.1.constant = 0) :=
            fun m hm => ⟨hq.2 m hm, hq.1 m hm⟩
          constructor
          · have hall := add_monos_forall
              (fun m => ZeroExpFolded m.1 ∧ (m.2 = 0 → m.1.constant = 0)) pc qc p1 q1 ps qs hadd
              (fun c hc => ⟨by
                have h1 := hc.1
                rw [zeroExpFolded_iff] at h1
                rw [zeroExpFolded_mk]
                exact h1, fun _ => rfl⟩) hpP hqP
            rw [zeroExpFolded_iff]
            exact ⟨fun m hm => (hall m hm).2, fun m hm => (hall m hm).1⟩
          · rw [PolyAddInPlace_cons_cons, constant_mk]
            apply foldFirstConstant_fst_of_folded (wrapCoeff_inRange _)
            intro m hm
            exact (mergeStart_forall
              (fun m => ZeroExpFolded m.1 ∧ (m.2 = 0 → m.1.constant = 0))
              p1 q1 ps qs hadd hpP hqP m hm).2

theorem zeroExpFolded_PolyAddInPlace {p q : Poly} (hp : ZeroExpFolded p) (hq : ZeroExpFolded q) :
    ZeroExpFolded (PolyAddInPlace p q) :=
  (zeroExpFolded_PolyAddInPlace_aux q p hp hq).1

theorem constant_PolyAddInPlace {p q : Poly} (hp : ZeroExpFolded p) (hq : ZeroExpFolded q) :
    (PolyAddInPlace p q).constant = wrapCoeff (p.constant + q.constant) :=
  (zeroExpFolded_PolyAddInPlace_aux q p hp hq).2

theorem coeffsInRange_PolyAddInPlace (q : Poly) :
    ∀ p : Poly, CoeffsInRange p → CoeffsInRange q → CoeffsInRange (PolyAddInPlace p q) := by
  induction q using Poly.induct with
  | h qc qms ih =>
    intro p hp hq
    cases qms with
    | nil =>
      rw [PolyAddInPlace_nil]
      rw [coeffsInRange_iff] at hp
      rw [coeffsInRange_mk]
      exact ⟨wrapCoeff_inRange _, hp.2⟩
    | cons q1 qs =>
      cases p with
      | mk pc pms =>
        cases pms with
        | nil =>
          rw [PolyAddInPlace_nil_cons]
          exact coeffsInRange_setConstant (wrapCoeff_inRange _) hq
        | cons p1 ps =>
          rw [coeffsInRange_mk] at hp hq
          rw [coeffsInRange_iff]
          constructor
          · rw [PolyAddInPlace_cons_cons, constant_mk]
            exact foldFirstConstant_fst_inRange (wrapCoeff_inRange _) _
          · apply add_monos_forall (fun m => CoeffsInRange m.1)
            · intro q hq' c hc
              exact ih q hq' c hc (hq.2 q hq')
            · intro c hc
              rw [coeffsInRange_iff] at hc
              rw [coeffsInRange_mk]
              exact ⟨by decide, hc.2⟩
            · exact hp.2
            · exact hq.2

theorem canonical_PolyAddInPlace {p q : Poly} (hp : Canonical p) (hq : Canonical q) :
    Canonical (PolyAddInPlace p q) :=
  ⟨termsOrdered_PolyAddInPlace q p hp.1 hq.1, zeroExpFolded_PolyAddInPlace hp.2.1 hq.2.1,
    coeffsInRange_PolyAddInPlace q p hp.2.2 hq.2.2⟩

/-! ## `PolyAddMonos` -/

theorem monosAreSorted_sorted : ∀ ms : List Mono, MonosAreSorted ms = true → ms.Sorted MonoLe
  | [], _ => List.sorted_nil
  | [_], _ => List.sorted_singleton _
  | a :: b :: rest, h => by
    unfold MonosAreSorted at h
    split_ifs at h with h1
    have ih := monosAreSorted_sorted (b :: rest) h
    unfold List.Sorted at ih ⊢
    rw [← List.chain'_iff_pairwise] at ih ⊢
    rw [List.chain'_cons]
    exact ⟨Nat.le_of_not_lt h1, ih⟩

theorem sortMonosIfNeeded_sorted (ms : List Mono) : (sortMonosIfNeeded ms).Sorted MonoLe := by
  unfold sortMonosIfNeeded
  split_ifs with h
  · exact List.sorted_insertionSort MonoLe ms
  · exact monosAreSorted_sorted ms (by simpa using h)

theorem sortMonosIfNeeded_perm (ms : List Mono) : (sortMonosIfNeeded ms).Perm ms := by
  unfold sortMonosIfNeeded
  split_ifs with h
  · exact List.perm_insertionSort MonoLe ms
  · exact List.Perm.refl _

theorem foldLastConstant_exp (c : Int) (m : Mono) : (foldLastConstant c m).2.2 = m.2 := by
  unfold foldLastConstant
  split_ifs <;> rfl

theorem foldLastConstant_zero (c : Int) (m : Mono) (h : m.2 = 0) :
    foldLastConstant c m
      = (wrapCoeff (c + m.1.constant), (Poly.mk 0 m.1.first_mono, m.2)) := by
  simp [foldLastConstant, h]

theorem foldLastConstant_pos (c : Int) (m : Mono) (h : m.2 ≠ 0) :
    foldLastConstant c m = (c, m) := by
  simp [foldLastConstant, h]

theorem foldLastConstant_folded (c : Int) (m : Mono) :
    (foldLastConstant c m).2.2 = 0 → (foldLastConstant c m).2.1.constant = 0 := by
  by_cases h : m.2 = 0
  · rw [foldLastConstant_zero c m h]
    intro _
    rfl
  · rw [foldLastConstant_pos c m h]
    intro h'
    exact absurd h' h

theorem addMonosLoop_nil (c : Int) (last : Mono) : addMonosLoop c last [] = (c, [last]) := by
  simp [addMonosLoop]

theorem addMonosLoop_cons_eq (c : Int) (last m : Mono) (rest : List Mono) (h : last.2 = m.2) :
    addMonosLoop c last (m :: rest)
      = addMonosLoop (foldLastConstant c (PolyAddInPlace last.1 m.1, last.2)).1
          (foldLastConstant c (PolyAddInPlace last.1 m.1, last.2)).2 rest := by
  simp [addMonosLoop, h]

theorem addMonosLoop_cons_ne (c : Int) (last m : Mono) (rest : List Mono) (h : last.2 ≠ m.2) :
    addMonosLoop c last (m :: rest)
      = ((addMonosLoop (foldLastConstant c m).1 (foldLastConstant c m).2 rest).1,
          last :: (addMonosLoop (foldLastConstant c m).1 (foldLastConstant c m).2 rest).2) := by
  simp [addMonosLoop, h]

/-- Every monomial of the list built by the loop satisfies `Q`, when `Q` holds
after every fold of the constant and what is folded satisfies `P`. -/
theorem addMonosLoop_forall (P Q : Mono → Prop)
    (hadd : ∀ a b : Mono, Q a → P b → a.2 = b.2 → P (PolyAddInPlace a.1 b.1, a.2))
    (hfold : ∀ (c : Int) (m : Mono), P m → Q (foldLastConstant c m).2) :
    ∀ (rest : List Mono) (c : Int) (last : Mono), Q last → (∀ m ∈ rest, P m) →
      ∀ m ∈ (addMonosLoop c last rest).2, Q m := by
  intro rest
  induction rest with
  | nil =>
    intro c last hl _ m hm
    rw [addMonosLoop_nil] at hm
    simp at hm
    rw [hm]
    exact hl
  | cons a rest ih =>
    intro c last hl hr m hm
    have ha := hr a (List.mem_cons_self _ _)
    have hr' : ∀ m ∈ rest, P m := fun m hm => hr m (List.mem_cons_of_mem _ hm)
    by_cases he : last.2 = a.2
    · rw [addMonosLoop_cons_eq _ _ _ _ he] at hm
      exact ih _ _ (hfold _ _ (hadd last a hl ha he)) hr' m hm
    · rw [addMonosLoop_cons_ne _ _ _ _ he] at hm
      rcases List.mem_cons.mp hm with rfl | hm
      · exact hl
      · exact ih _ _ (hfold _ _ ha) hr' m hm

theorem addMonosLoop_ascending :
    ∀ (rest : List Mono) (c : Int) (last : Mono), (last :: rest).Sorted MonoLe →
      ExpsAscending (addMonosLoop c last rest).2 := by
  intro rest
  induction rest with
  | nil =>
    intro c last _
    rw [addMonosLoop_nil]
    simp [ExpsAscending]
  | cons a rest ih =>
    intro c last hs
    have hs' : (a :: rest).Sorted MonoLe := (List.sorted_cons.mp hs).2
    have hla : last.2 ≤ a.2 := (List.sorted_cons.mp hs).1 a (List.mem_cons_self _ _)
    have har : ∀ m ∈ rest, a.2 ≤ m.2 := (List.sorted_cons.mp hs').1
    by_cases he : last.2 = a.2
    · rw [addMonosLoop_cons_eq _ _ _ _ he]
      apply ih
      refine List.sorted_cons.mpr ⟨?_, (List.sorted_cons.mp hs').2⟩
      intro m hm
      show (foldLastConstant c (PolyAddInPlace last.1 a.1, last.2)).2.2 ≤ m.2
      rw [foldLastConstant_exp]
      show last.2 ≤ m.2
      rw [he]
      exact har m hm
    · rw [addMonosLoop_cons_ne _ _ _ _ he, expsAscending_cons]
      have hsort : ((foldLastConstant c a).2 :: rest).Sorted MonoLe := by
        refine List.sorted_cons.mpr ⟨?_, (List.sorted_cons.mp hs').2⟩
        intro m hm
        show (foldLastConstant c a).2.2 ≤ m.2
        rw [foldLastConstant_exp]
        exact har m hm
      refine ⟨?_, ih _ _ hsort⟩
      apply addMonosLoop_forall (fun m => last.2 < m.2) (fun m => last.2 < m.2)
      · intro x y hx _ _
        exact hx
      · intro c' m hm
        show last.2 < (foldLastConstant c' m).2.2
        rw [foldLastConstant_exp]
        exact hm
      · show last.2 < (foldLastConstant c a).2.2
        rw [foldLastConstant_exp]
        omega
      · intro m hm
        have := har m hm
        show last.2 < m.2
        omega

theorem sortMonosIfNeeded_ne_nil {ms : List Mono} (h : ms ≠ []) : sortMonosIfNeeded ms ≠ [] := by
  intro h'
  have := (sortMonosIfNeeded_perm ms).length_eq
  rw [h'] at this
  exact h (List.length_eq_zero.mp this.symm)

theorem PolyAddMonos_eq {ms : List Mono} {first : Mono} {rest : List Mono}
    (h : sortMonosIfNeeded ms = first :: rest) :
    PolyAddMonos ms
      = Poly.mk (addMonosLoop (foldLastConstant 0 first).1 (foldLastConstant 0 first).2 rest).1
          (RemoveEmptyMonos
            (addMonosLoop (foldLastConstant 0 first).1 (foldLastConstant 0 first).2 rest).2) := by
  cases ms with
  | nil => simp [sortMonosIfNeeded, MonosAreSorted] at h
  | cons a l =>
    unfold PolyAddMonos
    simp only [h]

/-- Case analysis for `PolyAddMonos`: the empty array, or a sorted rearrangement
`first :: rest` of the array on which the loop runs. -/
theorem PolyAddMonos_cases (ms : List Mono) :
    (ms = [] ∧ PolyAddMonos ms = PolyZero) ∨
    ∃ first rest, (first :: rest).Perm ms ∧ (first :: rest).Sorted MonoLe ∧
      PolyAddMonos ms
        = Poly.mk (addMonosLoop (foldLastConstant 0 first).1 (foldLastConstant 0 first).2 rest).1
            (RemoveEmptyMonos
              (addMonosLoop (foldLastConstant 0 first).1 (foldLastConstant 0 first).2 rest).2) := by
  by_cases hms : ms = []
  · left
    exact ⟨hms, by rw [hms]; rfl⟩
  · right
    have hne := sortMonosIfNeeded_ne_nil hms
    obtain ⟨first, rest, h⟩ := List.exists_cons_of_ne_nil hne
    refine ⟨first, rest, ?_, ?_, PolyAddMonos_eq h⟩
    · rw [← h]; exact sortMonosIfNeeded_perm ms
    · rw [← h]; exact sortMonosIfNeeded_sorted ms

section Ring

variable {R : Type} [CommRing R]

theorem evalIn_foldLastConstant (hR : WrapsIn R) (c : Int) (m : Mono) (v : Nat → R) :
    (((foldLastConstant c m).1 : Int) : R)
        + v 0 ^ (foldLastConstant c m).2.2 * evalIn (foldLastConstant c m).2.1 (fun i => v (i + 1))
      = (c : R) + v 0 ^ m.2 * evalIn m.1 (fun i => v (i + 1)) := by
  by_cases h : m.2 = 0
  · rw [foldLastConstant_zero c m h]
    simp only [cast_wrapCoeff hR, evalIn_mk, evalIn_eq m.1, h]
    push_cast
    ring
  · rw [foldLastConstant_pos c m h]

theorem evalIn_addMonosLoop (hR : WrapsIn R) (v : Nat → R) :
    ∀ (rest : List Mono) (c : Int) (last : Mono),
      (((addMonosLoop c last rest).1 : Int) : R) + evalMonosIn (addMonosLoop c last rest).2 v
        = (c : R) + evalMonosIn (last :: rest) v := by
  intro rest
  induction rest with
  | nil =>
    intro c last
    rw [addMonosLoop_nil]
  | cons a rest ih =>
    intro c last
    by_cases he : last.2 = a.2
    · rw [addMonosLoop_cons_eq _ _ _ _ he, ih]
      have h := evalIn_foldLastConstant hR c (PolyAddInPlace last.1 a.1, last.2) v
      simp only [evalMonosIn_cons]
      rw [← add_assoc, h]
      simp only [evalIn_PolyAddInPlace hR, he]
      ring
    · rw [addMonosLoop_cons_ne _ _ _ _ he]
      have h := evalIn_foldLastConstant hR c a v
      have h2 := ih (foldLastConstant c a).1 (foldLastConstant c a).2
      simp only [evalMonosIn_cons] at h2 ⊢
      linear_combination h2 + h

theorem evalIn_PolyAddMonos (hR : WrapsIn R) (ms : List Mono) (v : Nat → R) :
    evalIn (PolyAddMonos ms) v = evalMonosIn ms v := by
  rcases PolyAddMonos_cases ms with ⟨h1, h2⟩ | ⟨first, rest, hperm, _, heq⟩
  · rw [h2, h1]
    simp [PolyZero]
  · rw [heq, evalIn_mk, evalMonosIn_removeEmpty, evalIn_addMonosLoop hR, ← evalMonosIn_perm hperm]
    have h := evalIn_foldLastConstant hR 0 first v
    simp only [evalMonosIn_cons]
    rw [← add_assoc, h]
    simp

end Ring

/-- The monomials of `PolyAddMonos`: a property `Q` that holds after every fold of
the constant, where what is folded satisfies `P`. -/
theorem PolyAddMonos_forall (P Q : Mono → Prop)
    (hadd : ∀ a b : Mono, Q a → P b → a.2 = b.2 → P (PolyAddInPlace a.1 b.1, a.2))
    (hfold : ∀ (c : Int) (m : Mono), P m → Q (foldLastConstant c m).2)
    (ms : List Mono) (hms : ∀ m ∈ ms, P m) :
    ∀ m ∈ (PolyAddMonos ms).first_mono, Q m := by
  rcases PolyAddMonos_cases ms with ⟨_, h2⟩ | ⟨first, rest, hperm, _, heq⟩
  · rw [h2]
    intro m hm
    simp [PolyZero] at hm
  · rw [heq, first_mono_mk]
    intro m hm
    rw [mem_removeEmpty] at hm
    refine addMonosLoop_forall P Q hadd hfold rest _ _ ?_ ?_ m hm.1
    · exact hfold 0 first (hms first (hperm.subset (List.mem_cons_self _ _)))
    · intro a ha
      exact hms a (hperm.subset (List.mem_cons_of_mem _ ha))

theorem PolyAddMonos_ascending (ms : List Mono) :
    ExpsAscending (PolyAddMonos ms).first_mono := by
  rcases PolyAddMonos_cases ms with ⟨_, h2⟩ | ⟨first, rest, _, hsorted, heq⟩
  · rw [h2]
    simp [PolyZero, ExpsAscending]
  · rw [heq, first_mono_mk]
    apply expsAscending_removeEmpty
    apply addMonosLoop_ascending
    refine List.sorted_cons.mpr ⟨?_, (List.sorted_cons.mp hsorted).2⟩
    intro m hm
    show (foldLastConstant 0 first).2.2 ≤ m.2
    rw [foldLastConstant_exp]
    exact (List.sorted_cons.mp hsorted).1 m hm

theorem PolyAddMonos_nonzero (ms : List Mono) :
    ∀ m ∈ (PolyAddMonos ms).first_mono, PolyIsZero m.1 = false := by
  rcases PolyAddMonos_cases ms with ⟨_, h2⟩ | ⟨first, rest, _, _, heq⟩
  · rw [h2]
    intro m hm
    simp [PolyZero] at hm
  · rw [heq, first_mono_mk]
    intro m hm
    exact (mem_removeEmpty.mp hm).2

/-- Every monomial with exponent 0 that `PolyAddMonos` leaves has a coefficient
with constant 0, whatever the array. -/
theorem PolyAddMonos_zeroExp (ms : List Mono) :
    ∀ m ∈ (PolyAddMonos ms).first_mono, m.2 = 0 → m.1.constant = 0 := by
  apply PolyAddMonos_forall (fun _ => True) (fun m => m.2 = 0 → m.1.constant = 0)
  · intros; trivial
  · intro c m _
    exact foldLastConstant_folded c m
  · intros; trivial

theorem foldLastConstant_termsOrdered (c : Int) (m : Mono) (h : TermsOrdered m.1) :
    TermsOrdered (foldLastConstant c m).2.1 := by
  by_cases he : m.2 = 0
  · rw [foldLastConstant_zero c m he]
    rw [termsOrdered_iff] at h
    rw [termsOrdered_mk]
    exact h
  · rw [foldLastConstant_pos c m he]
    exact h

theorem foldLastConstant_zeroExpFolded (c : Int) (m : Mono) (h : ZeroExpFolded m.1) :
    ZeroExpFolded (foldLastConstant c m).2.1 := by
  by_cases he : m.2 = 0
  · rw [foldLastConstant_zero c m he]
    rw [zeroExpFolded_iff] at h
    rw [zeroExpFolded_mk]
    exact h
  · rw [foldLastConstant_pos c m he]
    exact h

theorem foldLastConstant_coeffsInRange (c : Int) (m : Mono) (h : CoeffsInRange m.1) :
    CoeffsInRange (foldLastConstant c m).2.1 := by
  by_cases he : m.2 = 0
  · rw [foldLastConstant_zero c m he]
    rw [coeffsInRange_iff] at h
    rw [coeffsInRange_mk]
    exact ⟨by decide, h.2⟩
  · rw [foldLastConstant_pos c m he]
    exact h

theorem termsOrdered_PolyAddMonos (ms : List Mono) (h : ∀ m ∈ ms, TermsOrdered m.1) :
    TermsOrdered (PolyAddMonos ms) := by
  rw [termsOrdered_iff]
  refine ⟨PolyAddMonos_ascending ms, PolyAddMonos_nonzero ms, ?_⟩
  apply PolyAddMonos_forall (fun m => TermsOrdered m.1) (fun m => TermsOrdered m.1)
  · intro a b ha hb _
    exact termsOrdered_PolyAddInPlace b.1 a.1 ha hb
  · intro c m hm
    exact foldLastConstant_termsOrdered c m hm
  · exact h

theorem zeroExpFolded_PolyAddMonos (ms : List Mono) (h : ∀ m ∈ ms, ZeroExpFolded m.1) :
    ZeroExpFolded (PolyAddMonos ms) := by
  rw [zeroExpFolded_iff]
  refine ⟨PolyAddMonos_zeroExp ms, ?_⟩
  apply PolyAddMonos_forall (fun m => ZeroExpFolded m.1) (fun m => ZeroExpFolded m.1)
  · intro a b ha hb _
    exact zeroExpFolded_PolyAddInPlace ha hb
  · intro c m hm
    exact foldLastConstant_zeroExpFolded c m hm
  · exact h

theorem foldLastConstant_fst_inRange {c : Int} (hc : CoeffInRange c) (m : Mono) :
    CoeffInRange (foldLastConstant c m).1 := by
  by_cases he : m.2 = 0
  · rw [foldLastConstant_zero c m he]
    exact wrapCoeff_inRange _
  · rw [foldLastConstant_pos c m he]
    exact hc

theorem addMonosLoop_fst_inRange :
    ∀ (rest : List Mono) (c : Int) (last : Mono), CoeffInRange c →
      CoeffInRange (addMonosLoop c last rest).1 := by
  intro rest
  induction rest with
  | nil => intro c last hc; rw [addMonosLoop_nil]; exact hc
  | cons a rest ih =>
    intro c last hc
    by_cases he : last.2 = a.2
    · rw [addMonosLoop_cons_eq _ _ _ _ he]
      exact ih _ _ (foldLastConstant_fst_inRange hc _)
    · rw [addMonosLoop_cons_ne _ _ _ _ he]
      exact ih _ _ (foldLastConstant_fst_inRange hc _)

theorem coeffsInRange_PolyAddMonos (ms : List Mono) (h : ∀ m ∈ ms, CoeffsInRange m.1) :
    CoeffsInRange (PolyAddMonos ms) := by
  rw [coeffsInRange_iff]
  constructor
  · rcases PolyAddMonos_cases ms with ⟨_, h2⟩ | ⟨first, rest, _, _, heq⟩
    · rw [h2]; decide
    · rw [heq, constant_mk]
      exact addMonosLoop_fst_inRange _ _ _ (foldLastConstant_fst_inRange (by decide) _)
  · apply PolyAddMonos_forall (fun m => CoeffsInRange m.1) (fun m => CoeffsInRange m.1)
    · intro a b ha hb _
      exact coeffsInRange_PolyAddInPlace b.1 a.1 ha hb
    · intro c m hm
      exact foldLastConstant_coeffsInRange c m hm
    · exact h

/-- The constant that `PolyAddMonos` folds out of an array whose exponent-0
monomials have coefficients with constant 0 is 0. -/
theorem foldLastConstant_fst_of_folded {c : Int} (hc : CoeffInRange c) (m : Mono)
    (h : m.2 = 0 → m.1.constant = 0) : (foldLastConstant c m).1 = c := by
  by_cases he : m.2 = 0
  · rw [foldLastConstant_zero c m he]
    simp [h he, wrapCoeff_of_inRange hc]
  · rw [foldLastConstant_pos c m he]

theorem addMonosLoop_fst_of_folded :
    ∀ (rest : List Mono) (c : Int) (last : Mono), CoeffInRange c →
      (ZeroExpFolded last.1 ∧ (last.2 = 0 → last.1.constant = 0)) →
      (∀ m ∈ rest, ZeroExpFolded m.1 ∧ (m.2 = 0 → m.1.constant = 0)) →
      (addMonosLoop c last rest).1 = c := by
  intro rest
  induction rest with
  | nil => intro c last _ _ _; rw [addMonosLoop_nil]
  | cons a rest ih =>
    intro c last hc hl hr
    have ha := hr a (List.mem_cons_self _ _)
    have hr' := fun m hm => hr m (List.mem_cons_of_mem a hm)
    by_cases he : last.2 = a.2
    · rw [addMonosLoop_cons_eq _ _ _ _ he]
      have hsum : (last.2 = 0 → (PolyAddInPlace last.1 a.1).constant = 0) := by
        intro h0
        rw [constant_PolyAddInPlace hl.1 ha.1, hl.2 h0, ha.2 (he ▸ h0)]
        exact wrapCoeff_zero
      have hfst := foldLastConstant_fst_of_folded hc (PolyAddInPlace last.1 a.1, last.2) hsum
      rw [ih _ _ (foldLastConstant_fst_inRange hc _) ?_ hr', hfst]
      exact ⟨foldLastConstant_zeroExpFolded _ _ (zeroExpFolded_PolyAddInPlace hl.1 ha.1),
        foldLastConstant_folded _ _⟩
    · rw [addMonosLoop_cons_ne _ _ _ _ he]
      have hfst := foldLastConstant_fst_of_folded hc a ha.2
      rw [ih _ _ (foldLastConstant_fst_inRange hc _) ?_ hr', hfst]
      exact ⟨foldLastConstant_zeroExpFolded _ _ ha.1, foldLastConstant_folded _ _⟩

theorem constant_PolyAddMonos (ms : List Mono)
    (h : ∀ m ∈ ms, ZeroExpFolded m.1 ∧ (m.2 = 0 → m.1.constant = 0)) :
    (PolyAddMonos ms).constant = 0 := by
  rcases PolyAddMonos_cases ms with ⟨_, h2⟩ | ⟨first, rest, hperm, _, heq⟩
  · rw [h2]; rfl
  · rw [heq, constant_mk]
    have hf := h first (hperm.subset (List.mem_cons_self _ _))
    rw [addMonosLoop_fst_of_folded rest _ _ (foldLastConstant_fst_inRange (by decide) _)
      ⟨foldLastConstant_zeroExpFolded _ _ hf.1, foldLastConstant_folded _ _⟩
      (fun m hm => h m (hperm.subset (List.mem_cons_of_mem _ hm)))]
    exact foldLastConstant_fst_of_folded (by decide) first hf.2

/-! ## Unfolding of `PolyMul` -/

theorem nodes_mk (c : Int) (ms : List Mono) :
    (Poly.mk c ms).nodes = 1 + nodesList ms := by
  simp [Poly.nodes]

theorem nodesList_cons (m : Mono) (ms : List Mono) :
    nodesList (m :: ms) = m.1.nodes + nodesList ms := by
  obtain ⟨p, e⟩ := m
  simp [nodesList]

theorem nodes_pos (p : Poly) : 1 ≤ p.nodes := by
  cases p; rw [nodes_mk]; omega

theorem nodes_le_nodesList {m : Mono} {ms : List Mono} (h : m ∈ ms) :
    m.1.nodes ≤ nodesList ms := by
  induction ms with
  | nil => cases h
  | cons a l ih =>
    rw [nodesList_cons]
    rcases List.mem_cons.mp h with rfl | h
    · omega
    · have := ih h; omega

theorem nodes_lt_of_mem {m : Mono} {p : Poly} (h : m ∈ p.first_mono) : m.1.nodes < p.nodes := by
  cases p with
  | mk c ms =>
    rw [nodes_mk]
    have := nodes_le_nodesList h
    simp only [first_mono_mk] at h
    have := nodes_le_nodesList h
    omega

theorem nodes_const (c : Int) : (PolyFromCoeff c).nodes = 1 := by
  simp [PolyFromCoeff, Poly.nodes, nodesList]

theorem PolyMulFuel_succ (fuel : Nat) (p q : Poly) :
    PolyMulFuel (fuel + 1) p q
      = Poly.mk (wrapCoeff (p.constant * q.constant))
          (PolyAddMonos
            (p.first_mono.flatMap (fun mp =>
                q.first_mono.map (fun mq => (PolyMulFuel fuel mp.1 mq.1, mp.2 + mq.2)))
              ++ (CloneMonosMultipliedByAConstant (PolyMulFuel fuel) p.first_mono q.constant
              ++ CloneMonosMultipliedByAConstant (PolyMulFuel fuel) q.first_mono p.constant))
          ).first_mono := by
  simp [PolyMulFuel]

theorem PolyMulFuel_congr : ∀ (n m : Nat) (p q : Poly),
    p.nodes + q.nodes ≤ n → p.nodes + q.nodes ≤ m → PolyMulFuel n p q = PolyMulFuel m p q := by
  intro n
  induction n with
  | zero =>
    intro m p q h
    have := nodes_pos p
    omega
  | succ n ih =>
    intro m p q hn hm
    have hp := nodes_pos p
    have hq := nodes_pos q
    cases m with
    | zero => omega
    | succ m =>
      rw [PolyMulFuel_succ, PolyMulFuel_succ]
      have h1 : (p.first_mono.flatMap (fun mp =>
            q.first_mono.map (fun mq => (PolyMulFuel n mp.1 mq.1, mp.2 + mq.2))))
          = (p.first_mono.flatMap (fun mp =>
            q.first_mono.map (fun mq => (PolyMulFuel m mp.1 mq.1, mp.2 + mq.2)))) := by
        apply List.flatMap_congr
        intro mp hmp
        apply List.map_congr_left
        intro mq hmq
        have := nodes_lt_of_mem hmp
        have := nodes_lt_of_mem hmq
        rw [ih m mp.1 mq.1 (by omega) (by omega)]
      have h2 : ∀ (l : List Mono) (c : Int), (∀ a ∈ l, a.1.nodes + 1 ≤ n ∧ a.1.nodes + 1 ≤ m) →
          CloneMonosMultipliedByAConstant (PolyMulFuel n) l c
            = CloneMonosMultipliedByAConstant (PolyMulFuel m) l c := by
        intro l c hl
        unfold CloneMonosMultipliedByAConstant
        apply List.map_congr_left
        intro a ha
        have := hl a ha
        rw [ih m a.1 (PolyFromCoeff c) (by rw [nodes_const]; omega) (by rw [nodes_const]; omega)]
      rw [h1, h2 p.first_mono, h2 q.first_mono]
      · intro a ha
        have := nodes_lt_of_mem ha
        omega
      · intro a ha
        have := nodes_lt_of_mem ha
        omega

/-- Unfolding of `PolyMul` in terms of itself: the bound on the recursion is never reached. -/
theorem PolyMul_eq (p q : Poly) :
    PolyMul p q
      = Poly.mk (wrapCoeff (p.constant * q.constant))
          (PolyAddMonos
            (p.first_mono.flatMap (fun mp =>
                q.first_mono.map (fun mq => (PolyMul mp.1 mq.1, mp.2 + mq.2)))
              ++ (CloneMonosMultipliedByAConstant PolyMul p.first_mono q.constant
              ++ CloneMonosMultipliedByAConstant PolyMul q.first_mono p.constant))
          ).first_mono := by
  have hp := nodes_pos p
  have hq := nodes_pos q
  obtain ⟨k, hk⟩ : ∃ k, p.nodes + q.nodes = k + 1 := ⟨p.nodes + q.nodes - 1, by omega⟩
  unfold PolyMul
  rw [hk, PolyMulFuel_succ]
  have h1 : (p.first_mono.flatMap (fun mp =>
        q.first_mono.map (fun mq => (PolyMulFuel k mp.1 mq.1, mp.2 + mq.2))))
      = (p.first_mono.flatMap (fun mp =>
        q.first_mono.map (fun mq =>
          (PolyMulFuel (mp.1.nodes + mq.1.nodes) mp.1 mq.1, mp.2 + mq.2)))) := by
    apply List.flatMap_congr
    intro mp hmp
    apply List.map_congr_left
    intro mq hmq
    have := nodes_lt_of_mem hmp
    have := nodes_lt_of_mem hmq
    rw [PolyMulFuel_congr k (mp.1.nodes + mq.1.nodes) mp.1 mq.1 (by omega) (le_refl _)]
  have h2 : ∀ (l : List Mono) (c : Int), (∀ a ∈ l, a.1.nodes + 1 ≤ k) →
      CloneMonosMultipliedByAConstant (PolyMulFuel k) l c
        = CloneMonosMultipliedByAConstant
            (fun a b => PolyMulFuel (a.nodes + b.nodes) a b) l c := by
    intro l c hl
    unfold CloneMonosMultipliedByAConstant
    apply List.map_congr_left
    intro a ha
    have := hl a ha
    rw [PolyMulFuel_congr k (a.1.nodes + (PolyFromCoeff c).nodes) a.1 (PolyFromCoeff c)
      (by rw [nodes_const]; omega) (le_refl _)]
  rw [h1, h2 p.first_mono, h2 q.first_mono]
  · intro a ha
    have := nodes_lt_of_mem ha
    omega
  · intro a ha
    have := nodes_lt_of_mem ha
    omega

theorem constant_PolyMul (p q : Poly) :
    (PolyMul p q).constant = wrapCoeff (p.constant * q.constant) := by
  rw [PolyMul_eq]; rfl

/-- Induction along the recursive calls of `PolyMul`. -/
theorem PolyMul_induct (P : Poly → Poly → Prop)
    (h : ∀ p q : Poly,
      (∀ mp ∈ p.first_mono, ∀ mq ∈ q.first_mono, P mp.1 mq.1) →
      (∀ mp ∈ p.first_mono, P mp.1 (PolyFromCoeff q.constant)) →
      (∀ mq ∈ q.first_mono, P mq.1 (PolyFromCoeff p.constant)) → P p q) :
    ∀ p q : Poly, P p q := by
  have key : ∀ (n : Nat) (p q : Poly), p.nodes + q.nodes ≤ n → P p q := by
    intro n
    induction n with
    | zero =>
      intro p q hn
      have := nodes_pos p
      omega
    | succ n ih =>
      intro p q hn
      have hp := nodes_pos p
      have hq := nodes_pos q
      apply h
      · intro mp hmp mq hmq
        have := nodes_lt_of_mem hmp
        have := nodes_lt_of_mem hmq
        exact ih _ _ (by omega)
      · intro mp hmp
        have := nodes_lt_of_mem hmp
        exact ih _ _ (by rw [nodes_const]; omega)
      · intro mq hmq
        have := nodes_lt_of_mem hmq
        exact ih _ _ (by rw [nodes_const]; omega)
  intro p q
  exact key _ p q (le_refl _)

/-- Membership in the array that `PolyMul` hands to `PolyAddMonos`. -/
theorem mem_mulArray {p q : Poly} {m : Mono}
    (h : m ∈ p.first_mono.flatMap (fun mp =>
                q.first_mono.map (fun mq => (PolyMul mp.1 mq.1, mp.2 + mq.2)))
              ++ (CloneMonosMultipliedByAConstant PolyMul p.first_mono q.constant
              ++ CloneMonosMultipliedByAConstant PolyMul q.first_mono p.constant)) :
    (∃ mp ∈ p.first_mono, ∃ mq ∈ q.first_mono, m = (PolyMul mp.1 mq.1, mp.2 + mq.2))
    ∨ (∃ mp ∈ p.first_mono, m = (PolyMul mp.1 (PolyFromCoeff q.constant), mp.2))
    ∨ (∃ mq ∈ q.first_mono, m = (PolyMul mq.1 (PolyFromCoeff p.constant), mq.2)) := by
  simp only [List.mem_append, List.mem_flatMap, List.mem_map,
    CloneMonosMultipliedByAConstant] at h
  rcases h with ⟨mp, hmp, mq, hmq, rfl⟩ | ⟨mp, hmp, rfl⟩ | ⟨mq, hmq, rfl⟩
  · exact Or.inl ⟨mp, hmp, mq, hmq, rfl⟩
  · exact Or.inr (Or.inl ⟨mp, hmp, rfl⟩)
  · exact Or.inr (Or.inr ⟨mq, hmq, rfl⟩)

/-- A property of polynomials that constants have, that passes to the
coefficients, and that `PolyAddMonos` and the change of the constant keep, is kept
by `PolyMul`. -/
theorem PolyMul_keeps (I : Poly → Prop)
    (hconst : ∀ p : Poly, I p → I (PolyFromCoeff p.constant))
    (hcoef : ∀ p : Poly, I p → ∀ m ∈ p.first_mono, I m.1)
    (hsum : ∀ (ms : List Mono) (c : Int), (∀ m ∈ ms, I m.1) →
      I (Poly.mk (wrapCoeff c) (PolyAddMonos ms).first_mono)) :
    ∀ p q : Poly, I p → I q → I (PolyMul p q) := by
  apply PolyMul_induct (fun p q => I p → I q → I (PolyMul p q))
  intro p q h1 h2 h3 hp hq
  rw [PolyMul_eq]
  apply hsum
  intro m hm
  rcases mem_mulArray hm with ⟨mp, hmp, mq, hmq, rfl⟩ | ⟨mp, hmp, rfl⟩ | ⟨mq, hmq, rfl⟩
  · exact h1 mp hmp mq hmq (hcoef p hp mp hmp) (hcoef q hq mq hmq)
  · exact h2 mp hmp (hcoef p hp mp hmp) (hconst q hq)
  · exact h3 mq hmq (hcoef q hq mq hmq) (hconst p hp)

theorem termsOrdered_PolyMul {p q : Poly} (hp : TermsOrdered p) (hq : TermsOrdered q) :
    TermsOrdered (PolyMul p q) := by
  refine PolyMul_keeps TermsOrdered (fun p _ => termsOrdered_const _) ?_ ?_ p q hp hq
  · intro p hp m hm
    exact ((termsOrdered_iff p).mp hp).2.2 m hm
  · intro ms c hms
    have := termsOrdered_PolyAddMonos ms hms
    rw [termsOrdered_iff] at this
    rw [termsOrdered_mk]
    exact this

theorem zeroExpFolded_PolyMul {p q : Poly} (hp : ZeroExpFolded p) (hq : ZeroExpFolded q) :
    ZeroExpFolded (PolyMul p q) := by
  refine PolyMul_keeps ZeroExpFolded (fun p _ => zeroExpFolded_const _) ?_ ?_ p q hp hq
  · intro p hp m hm
    exact ((zeroExpFolded_iff p).mp hp).2 m hm
  · intro ms c hms
    have := zeroExpFolded_PolyAddMonos ms hms
    rw [zeroExpFolded_iff] at this
    rw [zeroExpFolded_mk]
    exact this

theorem coeffsInRange_PolyMul {p q : Poly} (hp : CoeffsInRange p) (hq : CoeffsInRange q) :
    CoeffsInRange (PolyMul p q) := by
  refine PolyMul_keeps CoeffsInRange ?_ ?_ ?_ p q hp hq
  · intro p hp
    exact coeffsInRange_const ((coeffsInRange_iff p).mp hp).1
  · intro p hp m hm
    exact ((coeffsInRange_iff p).mp hp).2 m hm
  · intro ms c hms
    have := coeffsInRange_PolyAddMonos ms hms
    rw [coeffsInRange_iff] at this
    rw [coeffsInRange_mk]
    exact ⟨wrapCoeff_inRange _, this.2⟩

theorem canonical_PolyMul {p q : Poly} (hp : Canonical p) (hq : Canonical q) :
    Canonical (PolyMul p q) :=
  ⟨termsOrdered_PolyMul hp.1 hq.1, zeroExpFolded_PolyMul hp.2.1 hq.2.1,
    coeffsInRange_PolyMul hp.2.2 hq.2.2⟩

section Ring

variable {R : Type} [CommRing R]

theorem evalIn_const (c : Int) (v : Nat → R) : evalIn (PolyFromCoeff c) v = (c : R) := by
  simp [PolyFromCoeff]

theorem evalMonosIn_map_scaled (f : Mono → Poly) (g : Mono → Nat) (k s : R) (v : Nat → R)
    (ms : List Mono)
    (hf : ∀ m ∈ ms, evalIn (f m) (fun i => v (i + 1)) = evalIn m.1 (fun i => v (i + 1)) * k)
    (hg : ∀ m ∈ ms, v 0 ^ g m = s * v 0 ^ m.2) :
    evalMonosIn (ms.map (fun m => (f m, g m))) v = s * k * evalMonosIn ms v := by
  induction ms with
  | nil => simp
  | cons a l ih =>
    rw [List.map_cons, evalMonosIn_cons, evalMonosIn_cons,
      ih (fun m hm => hf m (List.mem_cons_of_mem _ hm)) (fun m hm => hg m (List.mem_cons_of_mem _ hm))]
    simp only [hf a (List.mem_cons_self _ _), hg a (List.mem_cons_self _ _)]
    ring

theorem evalMonosIn_cross (f : Mono → Mono → Poly) (v : Nat → R) (qs : List Mono) (ps : List Mono)
    (hf : ∀ mp ∈ ps, ∀ mq ∈ qs, evalIn (f mp mq) (fun i => v (i + 1))
      = evalIn mp.1 (fun i => v (i + 1)) * evalIn mq.1 (fun i => v (i + 1))) :
    evalMonosIn (ps.flatMap (fun mp => qs.map (fun mq => (f mp mq, mp.2 + mq.2)))) v
      = evalMonosIn ps v * evalMonosIn qs v := by
  induction ps with
  | nil => simp
  | cons a l ih =>
    rw [List.flatMap_cons, evalMonosIn_append, evalMonosIn_cons,
      ih (fun mp hmp => hf mp (List.mem_cons_of_mem _ hmp))]
    rw [evalMonosIn_map_scaled (fun mq => f a mq) (fun mq => a.2 + mq.2)
      (evalIn a.1 (fun i => v (i + 1))) (v 0 ^ a.2) v qs]
    · ring
    · intro m hm
      rw [hf a (List.mem_cons_self _ _) m hm]
      ring
    · intro m _
      rw [pow_add]

theorem evalIn_PolyMul (hR : WrapsIn R) :
    ∀ p q : Poly, ZeroExpFolded p → ZeroExpFolded q →
      ∀ v : Nat → R, evalIn (PolyMul p q) v = evalIn p v * evalIn q v := by
  apply PolyMul_induct
  intro p q h1 h2 h3 hp hq v
  have hpc := (zeroExpFolded_iff p).mp hp
  have hqc := (zeroExpFolded_iff q).mp hq
  rw [PolyMul_eq, evalIn_mk, cast_wrapCoeff hR]
  have hsum := evalIn_PolyAddMonos hR
    (p.first_mono.flatMap (fun mp =>
                q.first_mono.map (fun mq => (PolyMul mp.1 mq.1, mp.2 + mq.2)))
              ++ (CloneMonosMultipliedByAConstant PolyMul p.first_mono q.constant
              ++ CloneMonosMultipliedByAConstant PolyMul q.first_mono p.constant)) v
  rw [evalIn_eq, constant_PolyAddMonos] at hsum
  · simp only [Int.cast_zero, zero_add] at hsum
    rw [hsum, evalMonosIn_append, evalMonosIn_append]
    rw [evalMonosIn_cross (fun mp mq => PolyMul mp.1 mq.1) v q.first_mono p.first_mono
      (fun mp hmp mq hmq => h1 mp hmp mq hmq (hpc.2 mp hmp) (hqc.2 mq hmq) _)]
    unfold CloneMonosMultipliedByAConstant
    rw [evalMonosIn_map_scaled (fun m => PolyMul m.1 (PolyFromCoeff q.constant)) (fun m => m.2)
      (q.constant : R) 1 v p.first_mono
      (fun m hm => by
        rw [h2 m hm (hpc.2 m hm) (zeroExpFolded_const _), evalIn_const])
      (fun m _ => by ring)]
    rw [evalMonosIn_map_scaled (fun m => PolyMul m.1 (PolyFromCoeff p.constant)) (fun m => m.2)
      (p.constant : R) 1 v q.first_mono
      (fun m hm => by
        rw [h3 m hm (hqc.2 m hm) (zeroExpFolded_const _), evalIn_const])
      (fun m _ => by ring)]
    rw [evalIn_eq p, evalIn_eq q]
    push_cast
    ring
  · intro m hm
    rcases mem_mulArray hm with ⟨mp, hmp, mq, hmq, rfl⟩ | ⟨mp, hmp, rfl⟩ | ⟨mq, hmq, rfl⟩
    · refine ⟨zeroExpFolded_PolyMul (hpc.2 mp hmp) (hqc.2 mq hmq), fun he => ?_⟩
      have he1 : mp.2 = 0 := by simp only at he; omega
      have he2 : mq.2 = 0 := by simp only at he; omega
      rw [constant_PolyMul, hpc.1 mp hmp he1, hqc.1 mq hmq he2]
      decide
    · refine ⟨zeroExpFolded_PolyMul (hpc.2 mp hmp) (zeroExpFolded_const _), fun he => ?_⟩
      rw [constant_PolyMul, hpc.1 mp hmp he, zero_mul]
      decide
    · refine ⟨zeroExpFolded_PolyMul (hqc.2 mq hmq) (zeroExpFolded_const _), fun he => ?_⟩
      rw [constant_PolyMul, hqc.1 mq hmq he, zero_mul]
      decide

end Ring

/-! ## Powers -/

theorem pow_halving {R : Type} [CommRing R] (x : R) (n : Nat) :
    x ^ n = (x * x) ^ (n / 2) * x ^ (n % 2) := by
  rw [← pow_two, ← pow_mul, ← pow_add, Nat.div_add_mod]

section Ring

variable {R : Type} [CommRing R]

theorem cast_FastCoeffPowLoop (hR : WrapsIn R) :
    ∀ (fuel : Nat) (result x : Int) (n : Nat), n ≤ fuel →
      ((FastCoeffPowLoop fuel result x n : Int) : R) = (result : R) * (x : R) ^ n := by
  intro fuel
  induction fuel with
  | zero =>
    intro result x n hn
    have : n = 0 := by omega
    subst this
    simp [FastCoeffPowLoop]
  | succ fuel ih =>
    intro result x n hn
    unfold FastCoeffPowLoop
    split_ifs with h0 h1
    · subst h0; simp
    · rw [ih _ _ _ (by omega), cast_wrapCoeff hR, cast_wrapCoeff hR, pow_halving (x : R) n, h1]
      push_cast
      ring
    · have h2 : n % 2 = 0 := by omega
      rw [ih _ _ _ (by omega), cast_wrapCoeff hR, pow_halving (x : R) n, h2]
      push_cast
      ring

theorem cast_FastCoeffPow (hR : WrapsIn R) (x : Int) (n : Nat) :
    ((FastCoeffPow x n : Int) : R) = (x : R) ^ n := by
  unfold FastCoeffPow
  rw [cast_FastCoeffPowLoop hR n 1 x n (le_refl _)]
  simp

end Ring

theorem FastCoeffPowLoop_inRange :
    ∀ (fuel : Nat) (result x : Int) (n : Nat), CoeffInRange result →
      CoeffInRange (FastCoeffPowLoop fuel result x n) := by
  intro fuel
  induction fuel with
  | zero => intro result x n h; simpa [FastCoeffPowLoop] using h
  | succ fuel ih =>
    intro result x n h
    unfold FastCoeffPowLoop
    split_ifs with h0 h1
    · exact h
    · exact ih _ _ _ (wrapCoeff_inRange _)
    · exact ih _ _ _ h

theorem FastCoeffPow_inRange (x : Int) (n : Nat) : CoeffInRange (FastCoeffPow x n) :=
  FastCoeffPowLoop_inRange n 1 x n (by decide)

/-- A property kept by `PolyMul` is kept by the loop of `FastPolyPow`. -/
theorem FastPolyPowLoop_keeps (I : Poly → Prop) (hmul : ∀ p q, I p → I q → I (PolyMul p q)) :
    ∀ (fuel : Nat) (result x : Poly) (n : Nat), I result → I x →
      I (FastPolyPowLoop fuel result x n) := by
  intro fuel
  induction fuel with
  | zero => intro result x n h _; simpa [FastPolyPowLoop] using h
  | succ fuel ih =>
    intro result x n h hx
    unfold FastPolyPowLoop
    split_ifs with h0 h1
    · exact h
    · exact ih _ _ _ (hmul _ _ h hx) (hmul _ _ hx hx)
    · exact ih _ _ _ h (hmul _ _ hx hx)

theorem termsOrdered_FastPolyPow {p : Poly} (hp : TermsOrdered p) (n : Nat) :
    TermsOrdered (FastPolyPow p n) := by
  unfold FastPolyPow
  split_ifs
  · exact termsOrdered_const _
  · exact FastPolyPowLoop_keeps TermsOrdered (fun _ _ => termsOrdered_PolyMul) n _ _ n
      (termsOrdered_const _) hp

theorem zeroExpFolded_FastPolyPow {p : Poly} (hp : ZeroExpFolded p) (n : Nat) :
    ZeroExpFolded (FastPolyPow p n) := by
  unfold FastPolyPow
  split_ifs
  · exact zeroExpFolded_const _
  · exact FastPolyPowLoop_keeps ZeroExpFolded (fun _ _ => zeroExpFolded_PolyMul) n _ _ n
      (zeroExpFolded_const _) hp

theorem coeffsInRange_FastPolyPow {p : Poly} (hp : CoeffsInRange p) (n : Nat) :
    CoeffsInRange (FastPolyPow p n) := by
  unfold FastPolyPow
  split_ifs
  · exact coeffsInRange_const (FastCoeffPow_inRange _ _)
  · exact FastPolyPowLoop_keeps CoeffsInRange (fun _ _ => coeffsInRange_PolyMul) n _ _ n
      (coeffsInRange_const (by decide)) hp

theorem canonical_FastPolyPow {p : Poly} (hp : Canonical p) (n : Nat) :
    Canonical (FastPolyPow p n) :=
  ⟨termsOrdered_FastPolyPow hp.1 n, zeroExpFolded_FastPolyPow hp.2.1 n,
    coeffsInRange_FastPolyPow hp.2.2 n⟩

section Ring

variable {R : Type} [CommRing R]

theorem evalIn_FastPolyPowLoop (hR : WrapsIn R) (v : Nat → R) :
    ∀ (fuel : Nat) (result x : Poly) (n : Nat), n ≤ fuel → ZeroExpFolded result →
      ZeroExpFolded x →
      evalIn (FastPolyPowLoop fuel result x n) v = evalIn result v * evalIn x v ^ n := by
  intro fuel
  induction fuel with
  | zero =>
    intro result x n hn _ _
    have : n = 0 := by omega
    subst this
    simp [FastPolyPowLoop]
  | succ fuel ih =>
    intro result x n hn hr hx
    unfold FastPolyPowLoop
    split_ifs with h0 h1
    · subst h0; simp
    · rw [ih _ _ _ (by omega) (zeroExpFolded_PolyMul hr hx) (zeroExpFolded_PolyMul hx hx),
        evalIn_PolyMul hR _ _ hr hx, evalIn_PolyMul hR _ _ hx hx, pow_halving (evalIn x v) n, h1]
      ring
    · have h2 : n % 2 = 0 := by omega
      rw [ih _ _ _ (by omega) hr (zeroExpFolded_PolyMul hx hx),
        evalIn_PolyMul hR _ _ hx hx, pow_halving (evalIn x v) n, h2]
      ring

theorem evalIn_FastPolyPow (hR : WrapsIn R) {p : Poly} (hp : ZeroExpFolded p) (n : Nat)
    (v : Nat → R) : evalIn (FastPolyPow p n) v = evalIn p v ^ n := by
  unfold FastPolyPow
  split_ifs with h
  · rw [evalIn_const, cast_FastCoeffPow hR, evalIn_eq p]
    unfold PolyIsCoeff at h
    rw [List.isEmpty_iff] at h
    rw [h]
    simp
  · rw [evalIn_FastPolyPowLoop hR v n _ _ n (le_refl _) (zeroExpFolded_const _) hp, evalIn_const]
    simp

end Ring

/-! ## `PolyAt` -/

/-- A property that constants have and that `PolyAddInPlace` and `PolyMul` keep
holds for the polynomial accumulated by the loop of `PolyAt`. -/
theorem PolyAt_loop_keeps (I : Poly → Prop) (hconst : ∀ c, CoeffInRange c → I (PolyFromCoeff c))
    (hadd : ∀ p q, I p → I q → I (PolyAddInPlace p q))
    (hmul : ∀ p q, I p → I q → I (PolyMul p q)) (x : Int) :
    ∀ (ms : List Mono) (acc : Poly), I acc → (∀ m ∈ ms, I m.1) →
      I (ms.foldl (fun result m =>
        PolyAddInPlace result (PolyMul (PolyFromCoeff (FastCoeffPow x m.2)) m.1)) acc) := by
  intro ms
  induction ms with
  | nil => intro acc h _; simpa using h
  | cons a l ih =>
    intro acc h hl
    rw [List.foldl_cons]
    apply ih
    · exact hadd _ _ h (hmul _ _ (hconst _ (FastCoeffPow_inRange _ _)) (hl a (List.mem_cons_self _ _)))
    · exact fun m hm => hl m (List.mem_cons_of_mem _ hm)

theorem PolyAt_eq (p : Poly) (x : Int) :
    PolyAt p x
      = Poly.mk (wrapCoeff ((p.first_mono.foldl (fun result m =>
          PolyAddInPlace result (PolyMul (PolyFromCoeff (FastCoeffPow x m.2)) m.1))
            PolyZero).constant + p.constant))
          (p.first_mono.foldl (fun result m =>
          PolyAddInPlace result (PolyMul (PolyFromCoeff (FastCoeffPow x m.2)) m.1))
            PolyZero).first_mono := rfl

theorem termsOrdered_PolyAt {p : Poly} (hp : TermsOrdered p) (x : Int) :
    TermsOrdered (PolyAt p x) := by
  rw [PolyAt_eq]
  have h := PolyAt_loop_keeps TermsOrdered (fun c _ => termsOrdered_const c)
    (fun p q hp hq => termsOrdered_PolyAddInPlace q p hp hq)
    (fun _ _ => termsOrdered_PolyMul) x p.first_mono PolyZero termsOrdered_zero
    ((termsOrdered_iff p).mp hp).2.2
  rw [termsOrdered_iff] at h
  rw [termsOrdered_mk]
  exact h

theorem zeroExpFolded_PolyAt {p : Poly} (hp : ZeroExpFolded p) (x : Int) :
    ZeroExpFolded (PolyAt p x) := by
  rw [PolyAt_eq]
  have h := PolyAt_loop_keeps ZeroExpFolded (fun c _ => zeroExpFolded_const c)
    (fun _ _ => zeroExpFolded_PolyAddInPlace)
    (fun _ _ => zeroExpFolded_PolyMul) x p.first_mono PolyZero zeroExpFolded_zero
    ((zeroExpFolded_iff p).mp hp).2
  rw [zeroExpFolded_iff] at h
  rw [zeroExpFolded_mk]
  exact h

theorem coeffsInRange_PolyAt {p : Poly} (hp : CoeffsInRange p) (x : Int) :
    CoeffsInRange (PolyAt p x) := by
  rw [PolyAt_eq]
  have h := PolyAt_loop_keeps CoeffsInRange (fun c hc => coeffsInRange_const hc)
    (fun p q hp hq => coeffsInRange_PolyAddInPlace q p hp hq)
    (fun _ _ => coeffsInRange_PolyMul) x p.first_mono PolyZero coeffsInRange_zero
    ((coeffsInRange_iff p).mp hp).2
  rw [coeffsInRange_iff] at h
  rw [coeffsInRange_mk]
  exact ⟨wrapCoeff_inRange _, h.2⟩

section Ring

variable {R : Type} [CommRing R]

end Ring

/-! ## The loop of `PolyCompose` -/

theorem composeLoop_push (count : Nat) (x : List Poly) (fuel : Nat) (acc : Poly) (m : Mono)
    (ms : List Mono) (below : List ComposeState) (h : below.length + 1 ≤ count) :
    composeLoop count x (fuel + 1) ({ result := acc, mono := m :: ms } :: below)
      = composeLoop count x fuel
          (NewComposeState m.1.first_mono m.1.constant
            :: { result := acc, mono := m :: ms } :: below) := by
  have h' : ¬ (count < below.length + 1) := by omega
  simp [composeLoop, h']

theorem composeLoop_pop (count : Nat) (x : List Poly) (fuel : Nat) (current : ComposeState)
    (acc : Poly) (m : Mono) (ms : List Mono) (rest : List ComposeState) (x_k : Poly)
    (hcur : current.mono = [] ∨ rest.length + 2 > count)
    (hk : rest.length < count) (hx : x[rest.length]? = some x_k) :
    composeLoop count x (fuel + 1) (current :: { result := acc, mono := m :: ms } :: rest)
      = composeLoop count x fuel
          ({ result := PolyAddInPlace acc (PolyMul current.result (FastPolyPow x_k m.2)),
             mono := ms } :: rest) := by
  have h1 : (current.mono.isEmpty || decide (count < rest.length + 1 + 1)) = true := by
    rcases hcur with h | h
    · simp [h]
    · simp; right; omega
  simp only [composeLoop, List.length_cons]
  simp [h1, hk, hx]

theorem composeLoop_exit (count : Nat) (x : List Poly) (fuel : Nat) (r : Poly) :
    composeLoop count x (fuel + 1) [{ result := r, mono := [] }] = .ok r := by
  simp [composeLoop]

theorem composeLoop_rootPop (x : List Poly) (fuel : Nat) (r : Poly) (ms : List Mono) :
    composeLoop 0 x (fuel + 1) [{ result := r, mono := ms }] = .ok r := by
  cases ms <;> simp [composeLoop]

theorem composeRec_mk (count : Nat) (x : List Poly) (k : Nat) (c : Int) (ms : List Mono) :
    composeRec count x k (Poly.mk c ms)
      = if k + 1 > count then PolyFromCoeff c
        else composeMonos count x k (PolyFromCoeff c) ms := by
  simp [composeRec]

theorem composeMonos_nil (count : Nat) (x : List Poly) (k : Nat) (acc : Poly) :
    composeMonos count x k acc [] = acc := by
  simp [composeMonos]

theorem composeMonos_cons (count : Nat) (x : List Poly) (k : Nat) (acc : Poly) (m : Mono)
    (ms : List Mono) :
    composeMonos count x k acc (m :: ms)
      = composeMonos count x k
          (PolyAddInPlace acc (PolyMul (composeRec count x (k + 1) m.1)
            (FastPolyPow (x.getD k PolyZero) m.2))) ms := by
  obtain ⟨p, e⟩ := m
  simp [composeMonos]

theorem nodes_eq (p : Poly) : p.nodes = 1 + nodesList p.first_mono := by
  cases p; rw [nodes_mk]; rfl

/-- Running the loop on a frame that is within `count`: after at most twice as
many rounds as there are polynomials below the monomials of the frame, the frame
holds the result of `composeMonos` and has no monomial left. -/
theorem composeLoop_frame (count : Nat) (x : List Poly) (hx : count ≤ x.length) (p : Poly) :
    ∀ (acc : Poly) (rest : List ComposeState), rest.length + 1 ≤ count →
      ∃ n, n ≤ 2 * nodesList p.first_mono ∧ ∀ fuel,
        composeLoop count x (fuel + n) ({ result := acc, mono := p.first_mono } :: rest)
          = composeLoop count x fuel
              ({ result := composeMonos count x rest.length acc p.first_mono,
                 mono := [] } :: rest) := by
  induction p using Poly.induct with
  | h c ms ih =>
    simp only [first_mono_mk]
    induction ms with
    | nil =>
      intro acc rest _
      exact ⟨0, by simp, fun fuel => by rw [composeMonos_nil]; rfl⟩
    | cons m ms ihl =>
      intro acc rest hrest
      have hk : rest.length < count := by omega
      have hget : x[rest.length]? = some (x.getD rest.length PolyZero) := by
        rw [List.getD_eq_getElem?_getD]
        have : rest.length < x.length := by omega
        simp [List.getElem?_eq_getElem this]
      obtain ⟨n2, hn2, hrun2⟩ := ihl (fun a ha => ih a (List.mem_cons_of_mem _ ha))
        (PolyAddInPlace acc (PolyMul (composeRec count x (rest.length + 1) m.1)
            (FastPolyPow (x.getD rest.length PolyZero) m.2))) rest hrest
      rw [nodesList_cons]
      by_cases hdeep : rest.length + 2 > count
      · -- the frame of the coefficient is past `count`: pushed and popped at once
        refine ⟨n2 + 2, by have := nodes_pos m.1; omega, fun fuel => ?_⟩
        rw [show fuel + (n2 + 2) = (fuel + n2 + 1) + 1 by omega, composeLoop_push _ _ _ _ _ _ _ hrest,
          composeLoop_pop count x (fuel + n2) _ acc m ms rest _ (Or.inr hdeep) hk hget,
          composeMonos_cons]
        have hrec : composeRec count x (rest.length + 1) m.1 = PolyFromCoeff m.1.constant := by
          cases hm : m.1 with
          | mk c1 ms1 => rw [composeRec_mk, if_pos (by omega)]; rfl
        rw [hrec] at hrun2 ⊢
        exact hrun2 fuel
      · -- the frame of the coefficient is processed first
        have hm := ih m (List.mem_cons_self _ _) (PolyFromCoeff m.1.constant)
          ({ result := acc, mono := m :: ms } :: rest)
          (by show rest.length + 1 + 1 ≤ count; omega)
        obtain ⟨n1, hn1, hrun1⟩ := hm
        refine ⟨n2 + 1 + n1 + 1, by have := nodes_eq m.1; omega, fun fuel => ?_⟩
        rw [show fuel + (n2 + 1 + n1 + 1) = (fuel + n2 + 1 + n1) + 1 by omega,
          composeLoop_push _ _ _ _ _ _ _ hrest]
        have h1 := hrun1 (fuel + n2 + 1)
        unfold NewComposeState
        rw [h1]
        rw [composeLoop_pop count x (fuel + n2) _ acc m ms rest _ (Or.inl rfl) hk hget,
          composeMonos_cons]
        have hrec : composeRec count x (rest.length + 1) m.1
            = composeMonos count x (rest.length + 1) (PolyFromCoeff m.1.constant)
                m.1.first_mono := by
          cases hm : m.1 with
          | mk c1 ms1 => rw [composeRec_mk, if_neg (by omega)]; rfl
        rw [hrec]
        simp only [List.length_cons] at hrun2 ⊢
        rw [hrec] at hrun2
        exact hrun2 fuel

/-- The loop of `PolyCompose` returns, and what it returns is `composeRec`. -/
theorem PolyCompose_eq (p : Poly) (count : Nat) (x : List Poly) (hx : count ≤ x.length) :
    PolyCompose p count x = .ok (composeRec count x 0 p) := by
  unfold PolyCompose NewComposeState
  by_cases hc : count = 0
  · subst hc
    rw [composeLoop_rootPop]
    cases p with
    | mk c ms => rw [composeRec_mk, if_pos (by omega)]; rfl
  · obtain ⟨n, hn, hrun⟩ := composeLoop_frame count x hx p (PolyFromCoeff p.constant) []
      (by simp; omega)
    have hnodes := nodes_eq p
    rw [show 2 * p.nodes + 1 = (2 * p.nodes - n) + 1 + n by omega, hrun, composeLoop_exit]
    cases p with
    | mk c ms => rw [composeRec_mk, if_neg (by simp; omega)]; rfl

/-! ## Properties of the result of `PolyCompose` -/

/-- A property `I` that `PolyAddInPlace` and `PolyMul` keep, that the powers of
the substitutes have and that the constants of `p` have, holds for `composeRec`. -/
theorem composeRec_keeps (I J : Poly → Prop) (count : Nat) (x : List Poly)
    (hconst : ∀ p, J p → I (PolyFromCoeff p.constant))
    (hcoef : ∀ p, J p → ∀ m ∈ p.first_mono, J m.1)
    (hadd : ∀ p q, I p → I q → I (PolyAddInPlace p q))
    (hmul : ∀ p q, I p → I q → I (PolyMul p q))
    (hx : ∀ k e, I (FastPolyPow (x.getD k PolyZero) e)) (p : Poly) :
    ∀ k, J p → I (composeRec count x k p) := by
  induction p using Poly.induct with
  | h c ms ih =>
    intro k hJ
    rw [composeRec_mk]
    split_ifs with hk
    · exact hconst _ hJ
    · have hl : ∀ (l : List Mono) (acc : Poly), (∀ m ∈ l, ∀ k, J m.1 → I (composeRec count x k m.1)) →
          (∀ m ∈ l, J m.1) → I acc → I (composeMonos count x k acc l) := by
        intro l
        induction l with
        | nil => intro acc _ _ h; rw [composeMonos_nil]; exact h
        | cons a l ihl =>
          intro acc h1 h2 h
          rw [composeMonos_cons]
          apply ihl _ (fun m hm => h1 m (List.mem_cons_of_mem _ hm))
            (fun m hm => h2 m (List.mem_cons_of_mem _ hm))
          exact hadd _ _ h (hmul _ _ (h1 a (List.mem_cons_self _ _) _ (h2 a (List.mem_cons_self _ _)))
            (hx _ _))
      exact hl ms _ ih (hcoef _ hJ) (hconst _ hJ)

theorem getD_forall {I : Poly → Prop} {x : List Poly} (h0 : I PolyZero) (hx : ∀ q ∈ x, I q)
    (k : Nat) : I (x.getD k PolyZero) := by
  rw [List.getD_eq_getElem?_getD]
  cases h : x[k]? with
  | none => simpa using h0
  | some q =>
    simp only [Option.getD_some]
    exact hx q (List.getElem?_mem h)

theorem termsOrdered_composeRec (count : Nat) (x : List Poly) (hx : ∀ q ∈ x, TermsOrdered q)
    (p : Poly) (k : Nat) : TermsOrdered (composeRec count x k p) :=
  composeRec_keeps TermsOrdered (fun _ => True) count x (fun _ _ => termsOrdered_const _)
    (fun _ _ _ _ => trivial) (fun p q hp hq => termsOrdered_PolyAddInPlace q p hp hq)
    (fun _ _ => termsOrdered_PolyMul)
    (fun k e => termsOrdered_FastPolyPow (getD_forall termsOrdered_zero hx k) e) p k trivial

theorem zeroExpFolded_composeRec (count : Nat) (x : List Poly) (hx : ∀ q ∈ x, ZeroExpFolded q)
    (p : Poly) (k : Nat) : ZeroExpFolded (composeRec count x k p) :=
  composeRec_keeps ZeroExpFolded (fun _ => True) count x (fun _ _ => zeroExpFolded_const _)
    (fun _ _ _ _ => trivial) (fun _ _ => zeroExpFolded_PolyAddInPlace)
    (fun _ _ => zeroExpFolded_PolyMul)
    (fun k e => zeroExpFolded_FastPolyPow (getD_forall zeroExpFolded_zero hx k) e) p k trivial

theorem coeffsInRange_composeRec (count : Nat) (x : List Poly) (hx : ∀ q ∈ x, CoeffsInRange q)
    (p : Poly) (hp : CoeffsInRange p) (k : Nat) : CoeffsInRange (composeRec count x k p) :=
  composeRec_keeps CoeffsInRange CoeffsInRange count x
    (fun p hp => coeffsInRange_const ((coeffsInRange_iff p).mp hp).1)
    (fun p hp => ((coeffsInRange_iff p).mp hp).2)
    (fun p q hp hq => coeffsInRange_PolyAddInPlace q p hp hq)
    (fun _ _ => coeffsInRange_PolyMul)
    (fun k e => coeffsInRange_FastPolyPow (getD_forall coeffsInRange_zero hx k) e) p k hp

section Ring

variable {R : Type} [CommRing R]

/-- With every variable at 0, a polynomial whose exponent-0 terms are folded
has the value of its constant. -/
theorem evalIn_zero_assignment (p : Poly) :
    ZeroExpFolded p → evalIn p (fun _ => (0 : R)) = (p.constant : R) := by
  induction p using Poly.induct with
  | h c ms ih =>
    intro hp
    rw [zeroExpFolded_mk] at hp
    rw [evalIn_mk, constant_mk]
    have hl : ∀ l : List Mono, (∀ m ∈ l, m ∈ ms) → evalMonosIn l (fun _ => (0 : R)) = 0 := by
      intro l
      induction l with
      | nil => intro _; simp
      | cons a l ihl =>
        intro hsub
        have ha := hsub a (List.mem_cons_self _ _)
        rw [evalMonosIn_cons, ihl (fun m hm => hsub m (List.mem_cons_of_mem _ hm)),
          ih a ha (hp.2 a ha)]
        by_cases he : a.2 = 0
        · rw [hp.1 a ha he]; simp
        · simp [he]
    rw [hl ms (fun _ h => h)]
    simp

theorem evalIn_composeRec (hR : WrapsIn R) (count : Nat) (x : List Poly)
    (hx : ∀ q ∈ x, ZeroExpFolded q) (a : Nat → R) (p : Poly) :
    ∀ k, ZeroExpFolded p →
      evalIn (composeRec count x k p) a
        = evalIn p (fun i => if k + i < count then evalIn (x.getD (k + i) PolyZero) a else 0) := by
  induction p using Poly.induct with
  | h c ms ih =>
    intro k hp
    rw [composeRec_mk]
    split_ifs with hk
    · have hzero : (fun i => if k + i < count then evalIn (x.getD (k + i) PolyZero) a else 0)
          = fun _ => (0 : R) := by
        funext i
        rw [if_neg (by omega)]
      rw [hzero, evalIn_zero_assignment _ hp, evalIn_const]
      rfl
    · rw [zeroExpFolded_mk] at hp
      have hshift : (fun i => (fun j => if k + j < count then evalIn (x.getD (k + j) PolyZero) a
            else (0 : R)) (i + 1))
          = fun i => if k + 1 + i < count then evalIn (x.getD (k + 1 + i) PolyZero) a else 0 := by
        funext i
        simp only
        rw [show k + (i + 1) = k + 1 + i by omega]
      have hl : ∀ (l : List Mono) (acc : Poly), (∀ m ∈ l, m ∈ ms) → ZeroExpFolded acc →
          evalIn (composeMonos count x k acc l) a
            = evalIn acc a + evalMonosIn l
                (fun i => if k + i < count then evalIn (x.getD (k + i) PolyZero) a else 0) := by
        intro l
        induction l with
        | nil => intro acc _ _; rw [composeMonos_nil]; simp
        | cons b l ihl =>
          intro acc hsub hacc
          have hb := hsub b (List.mem_cons_self _ _)
          have hpow := zeroExpFolded_FastPolyPow (getD_forall zeroExpFolded_zero hx k) b.2
          have hrec := zeroExpFolded_composeRec count x hx b.1 (k + 1)
          rw [composeMonos_cons, ihl _ (fun m hm => hsub m (List.mem_cons_of_mem _ hm))
            (zeroExpFolded_PolyAddInPlace hacc (zeroExpFolded_PolyMul hrec hpow)),
            evalIn_PolyAddInPlace hR, evalIn_PolyMul hR _ _ hrec hpow,
            evalIn_FastPolyPow hR (getD_forall zeroExpFolded_zero hx k),
            ih b hb (k + 1) (hp.2 b hb), evalMonosIn_cons, hshift]
          simp only [Nat.add_zero]
          rw [if_pos (by omega)]
          ring
      rw [hl ms _ (fun _ h => h) (zeroExpFolded_const _), evalIn_const, evalIn_mk]

end Ring

/-! ## `PolyIsEq` is equality of the trees -/

theorem PolyIsEq_mk (pc qc : Int) (pms qms : List Mono) :
    PolyIsEq (Poly.mk pc pms) (Poly.mk qc qms)
      = if pc != qc then false else MonoListIsEq pms qms := by
  simp [PolyIsEq]

theorem PolyIsEq_iff_eq (p : Poly) : ∀ q : Poly, PolyIsEq p q = true ↔ p = q := by
  induction p using Poly.induct with
  | h pc pms ih =>
    have hl : ∀ (ps : List Mono), (∀ m ∈ ps, ∀ q : Poly, PolyIsEq m.1 q = true ↔ m.1 = q) →
        ∀ qs : List Mono, MonoListIsEq ps qs = true ↔ ps = qs := by
      intro ps
      induction ps with
      | nil =>
        intro _ qs
        cases qs <;> simp [MonoListIsEq]
      | cons a l ihl =>
        intro h qs
        cases qs with
        | nil => simp [MonoListIsEq]
        | cons b l' =>
          obtain ⟨ap, ae⟩ := a
          obtain ⟨bp, be⟩ := b
          have h1 := h (ap, ae) (List.mem_cons_self _ _) bp
          have h2 := ihl (fun m hm => h m (List.mem_cons_of_mem _ hm)) l'
          simp only at h1
          simp only [MonoListIsEq, List.cons.injEq, Prod.mk.injEq]
          by_cases he : ae = be
          · by_cases hp : ap = bp
            · have hb := h1.mpr hp
              subst hp
              simp [he, hb, h2]
            · have hb : ¬ PolyIsEq ap bp = true := fun h' => hp (h1.mp h')
              simp [he, hp, hb]
          · simp [he]
    intro q
    cases q with
    | mk qc qms =>
      rw [PolyIsEq_mk]
      by_cases hc : pc = qc
      · simp [hc, hl pms ih qms]
      · simp [hc]

/-! ## Transport of values along ring homomorphisms -/

theorem map_evalIn {R S : Type} [CommRing R] [CommRing S] (f : R →+* S) (p : Poly) :
    ∀ v : Nat → R, f (evalIn p v) = evalIn p (fun i => f (v i)) := by
  induction p using Poly.induct with
  | h c ms ih =>
    intro v
    have hl : ∀ l : List Mono, (∀ m ∈ l, m ∈ ms) →
        f (evalMonosIn l v) = evalMonosIn l (fun i => f (v i)) := by
      intro l
      induction l with
      | nil => intro _; simp
      | cons a l ihl =>
        intro hsub
        rw [evalMonosIn_cons, evalMonosIn_cons, map_add, map_mul, map_pow,
          ihl (fun m hm => hsub m (List.mem_cons_of_mem _ hm)),
          ih a (hsub a (List.mem_cons_self _ _))]
    rw [evalIn_mk, evalIn_mk, map_add, map_intCast, hl ms (fun _ h => h)]

/-! ## The canonical form determines the polynomial

The formal polynomial of `p` over a coefficient ring `K` is the value of `p` in
`MvPolynomial Nat K` with the variables for themselves. Two canonical polynomials
with the same formal polynomial are the same tree. -/

section Formal

variable {K : Type} [CommRing K]

theorem constantCoeff_formal (p : Poly) (hp : ZeroExpFolded p) :
    MvPolynomial.constantCoeff (evalIn p (MvPolynomial.X : Nat → MvPolynomial Nat K))
      = (p.constant : K) := by
  rw [map_evalIn (MvPolynomial.constantCoeff (R := K) (σ := Nat))]
  simp only [MvPolynomial.constantCoeff_X]
  exact evalIn_zero_assignment p hp

theorem formal_to_univariate (p q : Poly)
    (h : evalIn p (MvPolynomial.X : Nat → MvPolynomial Nat K) = evalIn q MvPolynomial.X) :
    evalIn p (consAssign (Polynomial.X : Polynomial (MvPolynomial Nat K))
        (fun j => Polynomial.C (MvPolynomial.X j)))
      = evalIn q (consAssign (Polynomial.X : Polynomial (MvPolynomial Nat K))
        (fun j => Polynomial.C (MvPolynomial.X j))) := by
  have key : ∀ r : Poly,
      (MvPolynomial.eval₂Hom ((Polynomial.C).comp MvPolynomial.C)
        (consAssign (Polynomial.X : Polynomial (MvPolynomial Nat K))
          (fun j => Polynomial.C (MvPolynomial.X j))))
        (evalIn r (MvPolynomial.X : Nat → MvPolynomial Nat K))
      = evalIn r (consAssign (Polynomial.X : Polynomial (MvPolynomial Nat K))
          (fun j => Polynomial.C (MvPolynomial.X j))) := by
    intro r
    rw [map_evalIn]
    congr 1
    funext i
    exact MvPolynomial.eval₂Hom_X' _ _ i
  rw [← key p, ← key q, h]

theorem evalIn_univariate (c : Int) (ms : List Mono) :
    evalIn (Poly.mk c ms) (consAssign (Polynomial.X : Polynomial (MvPolynomial Nat K))
        (fun j => Polynomial.C (MvPolynomial.X j)))
      = Polynomial.C ((c : Int) : MvPolynomial Nat K)
        + (ms.map (fun m => Polynomial.monomial m.2
            (evalIn m.1 (MvPolynomial.X : Nat → MvPolynomial Nat K)))).sum := by
  rw [evalIn_mk, evalMonosIn_eq_sum, map_intCast]
  congr 2
  apply List.map_congr_left
  intro m _
  have h0 : consAssign (Polynomial.X : Polynomial (MvPolynomial Nat K))
        (fun j => Polynomial.C (MvPolynomial.X j)) 0 = Polynomial.X := rfl
  have h1 : (fun i => consAssign (Polynomial.X : Polynomial (MvPolynomial Nat K))
        (fun j => Polynomial.C (MvPolynomial.X j)) (i + 1))
      = fun j => Polynomial.C (MvPolynomial.X j) := rfl
  rw [h0, h1, ← map_evalIn (Polynomial.C) m.1 (MvPolynomial.X : Nat → MvPolynomial Nat K),
    mul_comm, Polynomial.C_mul_X_pow_eq_monomial]

theorem coeff_monomialSum_cons (f : Mono → MvPolynomial Nat K) (a : Mono) (l : List Mono)
    (n : Nat) :
    ((List.map (fun m => Polynomial.monomial m.2 (f m)) (a :: l)).sum).coeff n
      = (if a.2 = n then f a else 0)
        + ((List.map (fun m => Polynomial.monomial m.2 (f m)) l).sum).coeff n := by
  rw [List.map_cons, List.sum_cons, Polynomial.coeff_add, Polynomial.coeff_monomial]

theorem coeff_monomialSum_of_ne (f : Mono → MvPolynomial Nat K) (l : List Mono) (n : Nat)
    (h : ∀ m ∈ l, m.2 ≠ n) :
    ((List.map (fun m => Polynomial.monomial m.2 (f m)) l).sum).coeff n = 0 := by
  induction l with
  | nil => simp
  | cons a l ih =>
    rw [coeff_monomialSum_cons, ih (fun m hm => h m (List.mem_cons_of_mem _ hm)),
      if_neg (h a (List.mem_cons_self _ _))]
    simp

theorem coeff_monomialSum_head (f : Mono → MvPolynomial Nat K) (a : Mono) (l : List Mono)
    (h : ExpsAscending (a :: l)) :
    ((List.map (fun m => Polynomial.monomial m.2 (f m)) (a :: l)).sum).coeff a.2 = f a := by
  rw [coeff_monomialSum_cons, if_pos rfl, coeff_monomialSum_of_ne]
  · simp
  · intro m hm
    have := ((expsAscending_cons a l).mp h).1 m hm
    omega

/-- Two ascending lists of monomials whose coefficients are not the zero formal
polynomial and are told apart by their formal polynomials are equal when their
sums agree. -/
theorem monos_eq_of_sum_eq (f : Mono → MvPolynomial Nat K) :
    ∀ (ms ms' : List Mono), ExpsAscending ms → ExpsAscending ms' →
      (∀ m ∈ ms, f m ≠ 0) → (∀ m ∈ ms', f m ≠ 0) →
      (∀ m ∈ ms, ∀ m' ∈ ms', m.2 = m'.2 → f m = f m' → m = m') →
      (List.map (fun m => Polynomial.monomial m.2 (f m)) ms).sum
        = (List.map (fun m => Polynomial.monomial m.2 (f m)) ms').sum →
      ms = ms' := by
  intro ms
  induction ms with
  | nil =>
    intro ms' _ h' _ hnz' _ hsum
    cases ms' with
    | nil => rfl
    | cons b l' =>
      exfalso
      have := congrArg (fun P => Polynomial.coeff P b.2) hsum
      simp only [List.map_nil, List.sum_nil, Polynomial.coeff_zero] at this
      rw [coeff_monomialSum_head f b l' h'] at this
      exact hnz' b (List.mem_cons_self _ _) this.symm
  | cons a l ih =>
    intro ms' h h' hnz hnz' hinj hsum
    cases ms' with
    | nil =>
      exfalso
      have := congrArg (fun P => Polynomial.coeff P a.2) hsum
      simp only [List.map_nil, List.sum_nil, Polynomial.coeff_zero] at this
      rw [coeff_monomialSum_head f a l h] at this
      exact hnz a (List.mem_cons_self _ _) this
    | cons b l' =>
      have ha := (expsAscending_cons a l).mp h
      have hb := (expsAscending_cons b l').mp h'
      rcases Nat.lt_trichotomy a.2 b.2 with hlt | heq | hgt
      · exfalso
        have := congrArg (fun P => Polynomial.coeff P a.2) hsum
        simp only at this
        rw [coeff_monomialSum_head f a l h, coeff_monomialSum_of_ne f (b :: l') a.2] at this
        · exact hnz a (List.mem_cons_self _ _) this
        · intro m hm
          rcases List.mem_cons.mp hm with rfl | hm
          · omega
          · have := hb.1 m hm; omega
      · have hc := congrArg (fun P => Polynomial.coeff P a.2) hsum
        simp only at hc
        rw [coeff_monomialSum_head f a l h] at hc
        have hc' := coeff_monomialSum_head f b l' h'
        rw [← heq] at hc'
        rw [hc'] at hc
        have hab : a = b := hinj a (List.mem_cons_self _ _) b (List.mem_cons_self _ _) heq hc
        subst hab
        have htail : (List.map (fun m => Polynomial.monomial m.2 (f m)) l).sum
            = (List.map (fun m => Polynomial.monomial m.2 (f m)) l').sum := by
          simp only [List.map_cons, List.sum_cons] at hsum
          exact add_left_cancel hsum
        rw [ih l' ha.2 hb.2 (fun m hm => hnz m (List.mem_cons_of_mem _ hm))
          (fun m hm => hnz' m (List.mem_cons_of_mem _ hm))
          (fun m hm m' hm' => hinj m (List.mem_cons_of_mem _ hm) m' (List.mem_cons_of_mem _ hm'))
          htail]
      · exfalso
        have := congrArg (fun P => Polynomial.coeff P b.2) hsum
        simp only at this
        rw [coeff_monomialSum_head f b l' h', coeff_monomialSum_of_ne f (a :: l) b.2] at this
        · exact hnz' b (List.mem_cons_self _ _) this.symm
        · intro m hm
          rcases List.mem_cons.mp hm with rfl | hm
          · omega
          · have := ha.1 m hm; omega

end Formal

theorem canonical_mk (c : Int) (ms : List Mono) :
    Canonical (Poly.mk c ms) ↔
      CoeffInRange c ∧ ExpsAscending ms ∧
        ∀ m ∈ ms, Canonical m.1 ∧ PolyIsZero m.1 = false ∧ (m.2 = 0 → m.1.constant = 0) := by
  unfold Canonical
  rw [termsOrdered_mk, zeroExpFolded_mk, coeffsInRange_mk]
  constructor
  · rintro ⟨⟨h1, h2, h3⟩, ⟨h4, h5⟩, h6, h7⟩
    exact ⟨h6, h1, fun m hm => ⟨⟨h3 m hm, h5 m hm, h7 m hm⟩, h2 m hm, h4 m hm⟩⟩
  · rintro ⟨h1, h2, h3⟩
    exact ⟨⟨h2, fun m hm => (h3 m hm).2.1, fun m hm => (h3 m hm).1.1⟩,
      ⟨fun m hm => (h3 m hm).2.2, fun m hm => (h3 m hm).1.2.1⟩,
      h1, fun m hm => (h3 m hm).1.2.2⟩

section Formal

variable {K : Type} [CommRing K]

/-- The sum part of the formal polynomials of two polynomials with the same
formal polynomial and the same constant. -/
theorem monomialSum_eq_of_formal_eq (c : Int) (ms ms' : List Mono)
    (h : evalIn (Poly.mk c ms) (MvPolynomial.X : Nat → MvPolynomial Nat K)
      = evalIn (Poly.mk c ms') MvPolynomial.X) :
    (ms.map (fun m => Polynomial.monomial m.2
        (evalIn m.1 (MvPolynomial.X : Nat → MvPolynomial Nat K)))).sum
      = (ms'.map (fun m => Polynomial.monomial m.2
        (evalIn m.1 (MvPolynomial.X : Nat → MvPolynomial Nat K)))).sum := by
  have h2 := formal_to_univariate _ _ h
  rw [evalIn_univariate, evalIn_univariate] at h2
  exact add_left_cancel h2

/-- A canonical polynomial whose formal polynomial over `K` is 0 is `PolyZero`. -/
theorem eq_zero_of_formal_eq_zero
    (hK : ∀ a b : Int, CoeffInRange a → CoeffInRange b → (a : K) = (b : K) → a = b)
    (p : Poly) :
    Canonical p → evalIn p (MvPolynomial.X : Nat → MvPolynomial Nat K) = 0 → p = PolyZero := by
  induction p using Poly.induct with
  | h c ms ih =>
    intro hp hF
    have hp' := (canonical_mk c ms).mp hp
    have hc : c = 0 := by
      apply hK c 0 hp'.1 (by decide)
      have h1 := constantCoeff_formal (K := K) (Poly.mk c ms) hp.2.1
      rw [hF] at h1
      simpa using h1.symm
    subst hc
    have hsum := monomialSum_eq_of_formal_eq (K := K) 0 ms []
      (by rw [hF]; simp)
    have hms : ms = [] := by
      apply monos_eq_of_sum_eq
        (fun m => evalIn m.1 (MvPolynomial.X : Nat → MvPolynomial Nat K)) ms [] hp'.2.1
        expsAscending_nil
      · intro m hm h0
        have hz := ih m hm (hp'.2.2 m hm).1 h0
        have hnz := (hp'.2.2 m hm).2.1
        rw [hz] at hnz
        simp [PolyZero, PolyIsZero] at hnz
      · intro m hm
        cases hm
      · intro m _ m' hm'
        cases hm'
      · exact hsum
    rw [hms]
    rfl

/-- Two canonical polynomials with the same formal polynomial over `K` are the same
tree, when the values of `poly_coeff_t` are told apart in `K`. -/
theorem eq_of_formal_eq
    (hK : ∀ a b : Int, CoeffInRange a → CoeffInRange b → (a : K) = (b : K) → a = b)
    (p : Poly) :
    ∀ q : Poly, Canonical p → Canonical q →
      evalIn p (MvPolynomial.X : Nat → MvPolynomial Nat K) = evalIn q MvPolynomial.X → p = q := by
  induction p using Poly.induct with
  | h c ms ih =>
    intro q hp hq hF
    cases q with
    | mk c' ms' =>
      have hp' := (canonical_mk c ms).mp hp
      have hq' := (canonical_mk c' ms').mp hq
      have hc : c = c' := by
        apply hK c c' hp'.1 hq'.1
        have h1 := constantCoeff_formal (K := K) (Poly.mk c ms) hp.2.1
        have h2 := constantCoeff_formal (K := K) (Poly.mk c' ms') hq.2.1
        rw [hF, h2] at h1
        exact h1.symm
      subst hc
      have hsum := monomialSum_eq_of_formal_eq c ms ms' hF
      have hnz : ∀ (l : List Mono),
          (∀ m ∈ l, Canonical m.1 ∧ PolyIsZero m.1 = false ∧ (m.2 = 0 → m.1.constant = 0)) →
          ∀ m ∈ l, evalIn m.1 (MvPolynomial.X : Nat → MvPolynomial Nat K) ≠ 0 := by
        intro l hl m hm h0
        have hz := eq_zero_of_formal_eq_zero hK m.1 (hl m hm).1 h0
        have hnz := (hl m hm).2.1
        rw [hz] at hnz
        simp [PolyZero, PolyIsZero] at hnz
      have hms : ms = ms' := by
        apply monos_eq_of_sum_eq
          (fun m => evalIn m.1 (MvPolynomial.X : Nat → MvPolynomial Nat K)) ms ms'
          hp'.2.1 hq'.2.1 (hnz ms hp'.2.2) (hnz ms' hq'.2.2)
        · intro m hm m' hm' he hf
          have := ih m hm m'.1 (hp'.2.2 m hm).1 (hq'.2.2 m' hm').1 hf
          exact Prod.ext this he
        · exact hsum
      rw [hms]

end Formal

/-! ## The two coefficient rings used -/

theorem coeff_injective_int :
    ∀ a b : Int, CoeffInRange a → CoeffInRange b → ((a : Int) : Int) = ((b : Int) : Int) → a = b := by
  intro a b _ _ h
  simpa using h

theorem coeff_injective_zmod :
    ∀ a b : Int, CoeffInRange a → CoeffInRange b →
      (a : ZMod (2 ^ 64)) = (b : ZMod (2 ^ 64)) → a = b := by
  intro a b ha hb h
  have := (wrapCoeff_eq_iff a b).mpr h
  rwa [wrapCoeff_of_inRange ha, wrapCoeff_of_inRange hb] at this

theorem wrapsIn_mvPolynomial {K : Type} [CommRing K] (h : WrapsIn K) :
    WrapsIn (MvPolynomial Nat K) := by
  unfold WrapsIn at h ⊢
  rw [← map_intCast (MvPolynomial.C (R := K) (σ := Nat)), h, map_zero]

theorem wrapsIn_formal : WrapsIn (MvPolynomial Nat (ZMod (2 ^ 64))) :=
  wrapsIn_mvPolynomial wrapsIn_zmod

theorem cast_value {R : Type} [CommRing R] (p : Poly) (v : Nat → Int) :
    ((value p v : Int) : R) = evalIn p (fun i => ((v i : Int) : R)) := by
  rw [value_eq_evalIn]
  exact map_evalIn (Int.castRingHom R) p v

/-- Two canonical polynomials with the same formal polynomial over the 64-bit
coefficients are `PolyIsEq`. -/
theorem PolyIsEq_of_formal_eq {p q : Poly} (hp : Canonical p) (hq : Canonical q)
    (h : evalIn p (MvPolynomial.X : Nat → MvPolynomial Nat (ZMod (2 ^ 64)))
      = evalIn q MvPolynomial.X) : PolyIsEq p q = true :=
  (PolyIsEq_iff_eq p q).mpr (eq_of_formal_eq coeff_injective_zmod p q hp hq h)

/-- Two canonical polynomials with the same value under every assignment of
integers are the same tree. -/
theorem eq_of_value_eq {p q : Poly} (hp : Canonical p) (hq : Canonical q)
    (h : ∀ v : Nat → Int, value p v = value q v) : p = q := by
  apply eq_of_formal_eq coeff_injective_int p q hp hq
  apply MvPolynomial.funext
  intro v
  rw [map_evalIn (MvPolynomial.eval v), map_evalIn (MvPolynomial.eval v)]
  simp only [MvPolynomial.eval_X]
  rw [← value_eq_evalIn, ← value_eq_evalIn]
  exact h v

/-! ## Values as 64-bit coefficients -/

/-- Two integers are the same `poly_coeff_t` when their values agree in every
ring in which `2 ^ 64` is zero; the ring used is `ZMod (2 ^ 64)`. -/
theorem wrapCoeff_eq_of_cast_eq {a b : Int}
    (h : (a : ZMod (2 ^ 64)) = (b : ZMod (2 ^ 64))) : wrapCoeff a = wrapCoeff b :=
  (wrapCoeff_eq_iff a b).mpr h

theorem wrapCoeff_wrapCoeff (x : Int) : wrapCoeff (wrapCoeff x) = wrapCoeff x :=
  wrapCoeff_of_inRange (wrapCoeff_inRange x)

/-- C1: `PolyAdd` computes the sum. For all canonical polynomials `p` and `q` and
every assignment `v` of integers to the variables, the value of `PolyAdd(p, q)`
and the sum of the values of `p` and `q` are the same coefficient (equal after
reduction to `poly_coeff_t`). -/
theorem PolyAdd_computes_sum (p q : Poly) (_hp : Canonical p) (_hq : Canonical q)
    (v : Nat → Int) :
    wrapCoeff (value (PolyAdd p q) v) = wrapCoeff (value p v + value q v) := by
  apply wrapCoeff_eq_of_cast_eq
  unfold PolyAdd
  rw [cast_value, evalIn_PolyAddInPlace wrapsIn_zmod]
  push_cast
  rw [cast_value, cast_value]

/-- Witness of C1 at `3 + x0^2` and `x1 + 5 * x0`. -/
theorem PolyAdd_computes_sum_witness :
    Canonical (Poly.mk 3 [(Poly.mk 1 [], 2)])
      ∧ Canonical (Poly.mk 0 [(Poly.mk 0 [(Poly.mk 1 [], 1)], 0), (Poly.mk 5 [], 1)])
      ∧ wrapCoeff (value (PolyAdd (Poly.mk 3 [(Poly.mk 1 [], 2)])
          (Poly.mk 0 [(Poly.mk 0 [(Poly.mk 1 [], 1)], 0), (Poly.mk 5 [], 1)]))
            (fun i => (i : Int) + 2))
        = wrapCoeff (value (Poly.mk 3 [(Poly.mk 1 [], 2)]) (fun i => (i : Int) + 2)
            + value (Poly.mk 0 [(Poly.mk 0 [(Poly.mk 1 [], 1)], 0), (Poly.mk 5 [], 1)])
              (fun i => (i : Int) + 2)) :=
  ⟨by decide, by decide, PolyAdd_computes_sum _ _ (by decide) (by decide) _⟩

/-- With the sums of exponents taken exactly (`PolyMul` outside `Machine`), the
product is computed: for all canonical polynomials `p` and `q` and every
assignment `v` of integers to the variables, the value of `PolyMul p q` and the
product of the values of `p` and `q` are the same coefficient (equal after
reduction to `poly_coeff_t`). -/
theorem PolyMul_computes_product (p q : Poly) (hp : Canonical p) (hq : Canonical q)
    (v : Nat → Int) :
    wrapCoeff (value (PolyMul p q) v) = wrapCoeff (value p v * value q v) := by
  apply wrapCoeff_eq_of_cast_eq
  rw [cast_value, evalIn_PolyMul wrapsIn_zmod p q hp.2.1 hq.2.1]
  push_cast
  rw [cast_value, cast_value]

/-- With the sums of exponents taken exactly (`PolyCompose` outside `Machine`),
the composition substitutes depth by depth: for every canonical polynomial `p`,
every `count`, every array `x` of (at least) `count` canonical polynomials and
every assignment `a`, `PolyCompose p count x` returns a polynomial, and its value
under `a` is, as a coefficient, the value of `p` under the assignment that gives
variable `i` the value of `x[i]` under `a` when `i < count` and 0 otherwise. -/
theorem PolyCompose_substitutes (p : Poly) (count : Nat) (x : List Poly)
    (hlen : count ≤ x.length) (hp : Canonical p) (hx : ∀ q ∈ x, Canonical q)
    (a : Nat → Int) :
    ∃ r, PolyCompose p count x = .ok r ∧
      wrapCoeff (value r a)
        = wrapCoeff (value p
            (fun i => if i < count then value (x.getD i PolyZero) a else 0)) := by
  refine ⟨composeRec count x 0 p, PolyCompose_eq p count x hlen, ?_⟩
  apply wrapCoeff_eq_of_cast_eq
  rw [cast_value, cast_value,
    evalIn_composeRec wrapsIn_zmod count x (fun q hq => (hx q hq).2.1) _ p 0 hp.2.1]
  congr 1
  funext i
  rw [Nat.zero_add]
  split_ifs
  · rw [cast_value]
  · simp

/-- C6, the claim as stated fails: `PolyAddMonos` of the single monomial
`(x, 0)`, `x` the polynomial "variable 0" (the literal `((1,1),0)`), returns a
polynomial with a term of exponent 0. -/
theorem PolyAddMonos_leaves_zero_exponent_term :
    ¬ NoZeroExpTerm
        (PolyAddMonos [MonoFromPoly (PolyAddMonos [MonoFromPoly (PolyFromCoeff 1) 1]) 0]) := by
  decide

/-- C6 as amended: in a polynomial returned by `PolyAddMonos` or by `PolyMul`, a
term with exponent 0 has a coefficient whose constant is 0: only the constant of
an exponent-0 term is folded into the constant of the polynomial, the rest of its
coefficient stays as a term with exponent 0. `PolyAdd` returns a polynomial with
this property at every nesting level when both operands have it. -/
theorem zero_exponent_constant_folded (monos : List Mono) (p q r s : Poly)
    (hr : ZeroExpFolded r) (hs : ZeroExpFolded s) :
    (∀ m ∈ (PolyAddMonos monos).first_mono, m.2 = 0 → m.1.constant = 0)
      ∧ (∀ m ∈ (PolyMul p q).first_mono, m.2 = 0 → m.1.constant = 0)
      ∧ ZeroExpFolded (PolyAdd r s) := by
  refine ⟨PolyAddMonos_zeroExp monos, ?_, zeroExpFolded_PolyAddInPlace hr hs⟩
  rw [PolyMul_eq]
  exact PolyAddMonos_zeroExp _

/-- Witness of the amended C6: the array `[(4 + x0, 0)]`, the factors `2 + x0` and
`x1 + 5 * x0`, the operands `3 + x0^2` and `x1 + 5 * x0`. -/
theorem zero_exponent_constant_folded_witness :
    ZeroExpFolded (Poly.mk 3 [(Poly.mk 1 [], 2)])
      ∧ ZeroExpFolded (Poly.mk 0 [(Poly.mk 0 [(Poly.mk 1 [], 1)], 0), (Poly.mk 5 [], 1)])
      ∧ (∀ m ∈ (PolyAddMonos [(Poly.mk 4 [(Poly.mk 1 [], 1)], 0)]).first_mono,
          m.2 = 0 → m.1.constant = 0)
      ∧ (∀ m ∈ (PolyMul (Poly.mk 2 [(Poly.mk 1 [], 1)])
            (Poly.mk 0 [(Poly.mk 0 [(Poly.mk 1 [], 1)], 0), (Poly.mk 5 [], 1)])).first_mono,
          m.2 = 0 → m.1.constant = 0)
      ∧ ZeroExpFolded (PolyAdd (Poly.mk 3 [(Poly.mk 1 [], 2)])
          (Poly.mk 0 [(Poly.mk 0 [(Poly.mk 1 [], 1)], 0), (Poly.mk 5 [], 1)])) :=
  ⟨by decide, by decide, zero_exponent_constant_folded _ _ _ _ _ (by decide) (by decide)⟩

/-- C7: `PolyIsEq` is exact value equality on canonical polynomials. For all
canonical `p` and `q`, `PolyIsEq(p, q)` is true if and only if `p` and `q` have
the same value under every assignment of integers to the variables (coefficients
read as exact integers); and two canonical polynomials with the same value under
every assignment are the same tree. -/
theorem PolyIsEq_is_value_equality (p q : Poly) (hp : Canonical p) (hq : Canonical q) :
    (PolyIsEq p q = true ↔ ∀ v : Nat → Int, value p v = value q v)
      ∧ ((∀ v : Nat → Int, value p v = value q v) → p = q) := by
  refine ⟨⟨fun h v => ?_, fun h => ?_⟩, fun h => eq_of_value_eq hp hq h⟩
  · rw [(PolyIsEq_iff_eq p q).mp h]
  · exact (PolyIsEq_iff_eq p q).mpr (eq_of_value_eq hp hq h)

/-- Witness of C7 at `3 + x0^2` and `x1 + 5 * x0`. -/
theorem PolyIsEq_is_value_equality_witness :
    Canonical (Poly.mk 3 [(Poly.mk 1 [], 2)])
      ∧ Canonical (Poly.mk 0 [(Poly.mk 0 [(Poly.mk 1 [], 1)], 0), (Poly.mk 5 [], 1)])
      ∧ ((PolyIsEq (Poly.mk 3 [(Poly.mk 1 [], 2)])
            (Poly.mk 0 [(Poly.mk 0 [(Poly.mk 1 [], 1)], 0), (Poly.mk 5 [], 1)]) = true
          ↔ ∀ v : Nat → Int, value (Poly.mk 3 [(Poly.mk 1 [], 2)]) v
              = value (Poly.mk 0 [(Poly.mk 0 [(Poly.mk 1 [], 1)], 0), (Poly.mk 5 [], 1)]) v)
        ∧ ((∀ v : Nat → Int, value (Poly.mk 3 [(Poly.mk 1 [], 2)]) v
              = value (Poly.mk 0 [(Poly.mk 0 [(Poly.mk 1 [], 1)], 0), (Poly.mk 5 [], 1)]) v)
            → Poly.mk 3 [(Poly.mk 1 [], 2)]
              = Poly.mk 0 [(Poly.mk 0 [(Poly.mk 1 [], 1)], 0), (Poly.mk 5 [], 1)])) :=
  ⟨by decide, by decide, PolyIsEq_is_value_equality _ _ (by decide) (by decide)⟩

/-- C10: zero is the additive identity. For every canonical polynomial `p`,
`PolyAdd(p, PolyZero())` and `PolyAdd(PolyZero(), p)` are both `PolyIsEq` to `p`. -/
theorem PolyAdd_zero_identity (p : Poly) (hp : Canonical p) :
    PolyIsEq (PolyAdd p PolyZero) p = true ∧ PolyIsEq (PolyAdd PolyZero p) p = true := by
  have hc : CoeffInRange p.constant := ((coeffsInRange_iff p).mp hp.2.2).1
  constructor
  · rw [PolyIsEq_iff_eq]
    unfold PolyAdd PolyZero
    rw [PolyAddInPlace_nil, add_zero, wrapCoeff_of_inRange hc, Poly.eta]
  · rw [PolyIsEq_iff_eq]
    unfold PolyAdd PolyZero
    cases p with
    | mk c ms =>
      simp only [constant_mk] at hc
      cases ms with
      | nil => rw [PolyAddInPlace_nil, constant_mk, zero_add, wrapCoeff_of_inRange hc]; rfl
      | cons a l => rw [PolyAddInPlace_nil_cons, zero_add, wrapCoeff_of_inRange hc]

/-- Witness of C10 at `x1 + 5 * x0`. -/
theorem PolyAdd_zero_identity_witness :
    Canonical (Poly.mk 0 [(Poly.mk 0 [(Poly.mk 1 [], 1)], 0), (Poly.mk 5 [], 1)])
      ∧ PolyIsEq (PolyAdd
          (Poly.mk 0 [(Poly.mk 0 [(Poly.mk 1 [], 1)], 0), (Poly.mk 5 [], 1)]) PolyZero)
          (Poly.mk 0 [(Poly.mk 0 [(Poly.mk 1 [], 1)], 0), (Poly.mk 5 [], 1)]) = true
      ∧ PolyIsEq (PolyAdd PolyZero
          (Poly.mk 0 [(Poly.mk 0 [(Poly.mk 1 [], 1)], 0), (Poly.mk 5 [], 1)]))
          (Poly.mk 0 [(Poly.mk 0 [(Poly.mk 1 [], 1)], 0), (Poly.mk 5 [], 1)]) = true :=
  ⟨by decide, PolyAdd_zero_identity _ (by decide)⟩

/-! ## `PolyNeg` -/

theorem MonoNeg_eq (m : Mono) : MonoNeg m = (PolyNeg m.1, m.2) := by
  obtain ⟨p, e⟩ := m
  simp [MonoNeg]

theorem MonoListNeg_eq_map (ms : List Mono) : MonoListNeg ms = ms.map MonoNeg := by
  induction ms with
  | nil => simp [MonoListNeg]
  | cons a l ih => simp [MonoListNeg, ih]

theorem PolyNeg_mk (c : Int) (ms : List Mono) :
    PolyNeg (Poly.mk c ms) = Poly.mk (wrapCoeff (-1 * c)) (ms.map MonoNeg) := by
  simp [PolyNeg, MonoListNeg_eq_map]

theorem constant_PolyNeg (p : Poly) : (PolyNeg p).constant = wrapCoeff (-1 * p.constant) := by
  cases p; rw [PolyNeg_mk]; rfl

theorem first_mono_PolyNeg (p : Poly) : (PolyNeg p).first_mono = p.first_mono.map MonoNeg := by
  cases p; rw [PolyNeg_mk]; rfl

theorem wrapCoeff_neg_eq_zero {c : Int} (hc : CoeffInRange c) (h : wrapCoeff (-1 * c) = 0) :
    c = 0 := by
  apply coeff_injective_zmod c 0 hc (by decide)
  have h2 : wrapCoeff (-1 * c) = wrapCoeff 0 := by rw [h, wrapCoeff_zero]
  have h3 := (wrapCoeff_eq_iff _ _).mp h2
  push_cast at h3 ⊢
  simpa using h3

theorem isZero_PolyNeg {p : Poly} (hc : CoeffInRange p.constant) (h : PolyIsZero p = false) :
    PolyIsZero (PolyNeg p) = false := by
  cases p with
  | mk c ms =>
    rw [PolyNeg_mk]
    simp only [constant_mk] at hc
    simp only [PolyIsZero, constant_mk, first_mono_mk, Bool.and_eq_false_imp, beq_iff_eq,
      List.isEmpty_eq_false] at h ⊢
    intro h0
    have hms := h (wrapCoeff_neg_eq_zero hc h0)
    cases ms with
    | nil => simp at hms
    | cons a l => simp

theorem canonical_PolyNeg (p : Poly) : Canonical p → Canonical (PolyNeg p) := by
  induction p using Poly.induct with
  | h c ms ih =>
    intro hp
    rw [canonical_mk] at hp
    rw [PolyNeg_mk, canonical_mk]
    refine ⟨wrapCoeff_inRange _, ?_, ?_⟩
    · have hexps : (ms.map MonoNeg).map Prod.snd = ms.map Prod.snd := by
        rw [List.map_map]
        apply List.map_congr_left
        intro m _
        simp [MonoNeg_eq]
      unfold ExpsAscending
      rw [hexps]
      exact hp.2.1
    · intro m' hm'
      obtain ⟨m, hm, rfl⟩ := List.mem_map.mp hm'
      have h := hp.2.2 m hm
      rw [MonoNeg_eq]
      refine ⟨ih m hm h.1, isZero_PolyNeg ((coeffsInRange_iff m.1).mp h.1.2.2).1 h.2.1, ?_⟩
      intro he
      rw [constant_PolyNeg, h.2.2 he]
      decide

section Ring

variable {R : Type} [CommRing R]

theorem evalIn_PolyNeg (hR : WrapsIn R) (p : Poly) :
    ∀ v : Nat → R, evalIn (PolyNeg p) v = - evalIn p v := by
  induction p using Poly.induct with
  | h c ms ih =>
    intro v
    have hl : ∀ l : List Mono, (∀ m ∈ l, m ∈ ms) →
        evalMonosIn (l.map MonoNeg) v = - evalMonosIn l v := by
      intro l
      induction l with
      | nil => intro _; simp
      | cons a l ihl =>
        intro hsub
        rw [List.map_cons, evalMonosIn_cons, evalMonosIn_cons,
          ihl (fun m hm => hsub m (List.mem_cons_of_mem _ hm)), MonoNeg_eq,
          ih a (hsub a (List.mem_cons_self _ _))]
        ring
    rw [PolyNeg_mk, evalIn_mk, evalIn_mk, cast_wrapCoeff hR, hl ms (fun _ h => h)]
    push_cast
    ring

end Ring

/-- Equality of trees from equality of formal polynomials over the 64-bit
coefficients. -/
theorem eq_of_formal_eq_zmod {p q : Poly} (hp : Canonical p) (hq : Canonical q)
    (h : evalIn p (MvPolynomial.X : Nat → MvPolynomial Nat (ZMod (2 ^ 64)))
      = evalIn q MvPolynomial.X) : p = q :=
  eq_of_formal_eq coeff_injective_zmod p q hp hq h

theorem PolyAdd_PolyNeg_eq_zero {p : Poly} (hp : Canonical p) :
    PolyAddInPlace p (PolyNeg p) = PolyZero := by
  apply eq_of_formal_eq_zmod (canonical_PolyAddInPlace hp (canonical_PolyNeg p hp)) canonical_zero
  rw [evalIn_PolyAddInPlace wrapsIn_formal, evalIn_PolyNeg wrapsIn_formal]
  simp [PolyZero]

/-! ## The identity chain -/

theorem canonical_composeRec (count : Nat) (x : List Poly) (hx : ∀ q ∈ x, Canonical q)
    {p : Poly} (hp : Canonical p) (k : Nat) : Canonical (composeRec count x k p) :=
  ⟨termsOrdered_composeRec count x (fun q hq => (hx q hq).1) p k,
    zeroExpFolded_composeRec count x (fun q hq => (hx q hq).2.1) p k,
    coeffsInRange_composeRec count x (fun q hq => (hx q hq).2.2) p hp.2.2 k⟩

/-- Composition of "variable 0" with one substitute gives the substitute. -/
theorem composeRec_variable0 {q : Poly} (hq : Canonical q) :
    composeRec 1 [q] 0 (PolyAddMonos [MonoFromPoly (PolyFromCoeff 1) 1]) = q := by
  have hx : ∀ r ∈ [q], Canonical r := by
    intro r hr
    simp only [List.mem_singleton] at hr
    rw [hr]
    exact hq
  have hp : Canonical (PolyAddMonos [MonoFromPoly (PolyFromCoeff 1) 1]) := by decide
  apply eq_of_formal_eq_zmod (canonical_composeRec 1 _ hx hp 0) hq
  rw [evalIn_composeRec wrapsIn_formal 1 _ (fun r hr => (hx r hr).2.1) _ _ 0 hp.2.1]
  have h0 : PolyAddMonos [MonoFromPoly (PolyFromCoeff 1) 1] = Poly.mk 0 [(Poly.mk 1 [], 1)] := rfl
  rw [h0]
  simp

/-! ## `PolyDeg` -/

theorem Max_eq_max (a b : Int) : Max a b = max a b := by
  unfold Max
  split_ifs with h
  · exact (max_eq_left (le_of_lt h)).symm
  · exact (max_eq_right (not_lt.mp h)).symm

theorem PolyDegLoop_nil (r : Int) : PolyDegLoop r [] = r := by
  simp [PolyDegLoop]

theorem PolyDegLoop_cons (r : Int) (m : Mono) (rest : List Mono) :
    PolyDegLoop r (m :: rest) = PolyDegLoop (max r (PolyDeg m.1 + (m.2 : Int))) rest := by
  obtain ⟨p, e⟩ := m
  simp [PolyDegLoop, Max_eq_max]

theorem PolyDeg_mk (c : Int) (ms : List Mono) :
    PolyDeg (Poly.mk c ms) = PolyDegLoop (if c ≠ 0 then 0 else -1) ms := by
  simp [PolyDeg]

/-- The loop of `PolyDeg` computes a maximum: it is at most `B` exactly when the
start value and every monomial are. -/
theorem PolyDegLoop_le_iff (B : Int) (ms : List Mono) :
    ∀ r : Int, PolyDegLoop r ms ≤ B ↔ r ≤ B ∧ ∀ m ∈ ms, PolyDeg m.1 + (m.2 : Int) ≤ B := by
  induction ms with
  | nil => intro r; simp [PolyDegLoop_nil]
  | cons a l ih =>
    intro r
    rw [PolyDegLoop_cons, ih]
    simp only [max_le_iff, List.mem_cons, forall_eq_or_imp]
    tauto

theorem PolyDeg_le_iff (B : Int) (p : Poly) :
    PolyDeg p ≤ B ↔
      -1 ≤ B ∧ (p.constant ≠ 0 → 0 ≤ B) ∧ ∀ m ∈ p.first_mono, PolyDeg m.1 + (m.2 : Int) ≤ B := by
  cases p with
  | mk c ms =>
    rw [PolyDeg_mk, PolyDegLoop_le_iff]
    simp only [constant_mk, first_mono_mk]
    by_cases hc : c = 0
    · simp [hc]
    · simp only [hc, ne_eq, not_false_eq_true, if_true, true_implies]
      constructor
      · rintro ⟨h1, h2⟩
        exact ⟨by omega, h1, h2⟩
      · rintro ⟨_, h1, h2⟩
        exact ⟨h1, h2⟩

theorem PolyDeg_ge_neg_one (p : Poly) : -1 ≤ PolyDeg p :=
  ((PolyDeg_le_iff (PolyDeg p) p).mp (le_refl _)).1

theorem PolyDeg_nonneg_of_constant {p : Poly} (h : p.constant ≠ 0) : 0 ≤ PolyDeg p :=
  ((PolyDeg_le_iff (PolyDeg p) p).mp (le_refl _)).2.1 h

theorem PolyDeg_mono_le {p : Poly} {m : Mono} (h : m ∈ p.first_mono) :
    PolyDeg m.1 + (m.2 : Int) ≤ PolyDeg p :=
  ((PolyDeg_le_iff (PolyDeg p) p).mp (le_refl _)).2.2 m h

/-- A polynomial with the ordering invariant that is not zero has a degree of
at least 0. -/
theorem PolyDeg_nonneg (p : Poly) : TermsOrdered p → PolyIsZero p = false → 0 ≤ PolyDeg p := by
  induction p using Poly.induct with
  | h c ms ih =>
    intro hp hnz
    by_cases hc : c = 0
    · subst hc
      cases ms with
      | nil => simp [PolyIsZero] at hnz
      | cons a l =>
        rw [termsOrdered_mk] at hp
        have ha := ih a (List.mem_cons_self _ _) (hp.2.2 a (List.mem_cons_self _ _))
          (hp.2.1 a (List.mem_cons_self _ _))
        have hle := PolyDeg_mono_le (p := Poly.mk 0 (a :: l)) (m := a)
          (by simp)
        omega
    · exact PolyDeg_nonneg_of_constant (by simpa using hc)

theorem isZero_const_of_isZero {p : Poly} (h : PolyIsZero p = true) :
    p.constant = 0 := by
  simp [PolyIsZero] at h
  exact h.1

/-- C11: negation is the additive inverse. For every canonical polynomial `p`,
`PolyAdd(p, PolyNeg(p))` is the canonical zero polynomial (constant 0 and no
terms), and so is `PolySub(p, p)`. -/
theorem PolyNeg_additive_inverse (p : Poly) (hp : Canonical p) :
    PolyAdd p (PolyNeg p) = PolyZero ∧ PolySub p p = PolyZero :=
  ⟨PolyAdd_PolyNeg_eq_zero hp, PolyAdd_PolyNeg_eq_zero hp⟩

/-- Witness of C11 at `LONG_MIN + x0 * (3 + x1^2)`. -/
theorem PolyNeg_additive_inverse_witness :
    Canonical (Poly.mk (-9223372036854775808) [(Poly.mk 3 [(Poly.mk 1 [], 2)], 1)])
      ∧ PolyAdd (Poly.mk (-9223372036854775808) [(Poly.mk 3 [(Poly.mk 1 [], 2)], 1)])
          (PolyNeg (Poly.mk (-9223372036854775808) [(Poly.mk 3 [(Poly.mk 1 [], 2)], 1)]))
        = PolyZero
      ∧ PolySub (Poly.mk (-9223372036854775808) [(Poly.mk 3 [(Poly.mk 1 [], 2)], 1)])
          (Poly.mk (-9223372036854775808) [(Poly.mk 3 [(Poly.mk 1 [], 2)], 1)]) = PolyZero :=
  ⟨by decide, PolyNeg_additive_inverse _ (by decide)⟩

/-- With the sums of exponents taken exactly (`PolyMul` outside `Machine`),
multiplication is associative up to `PolyIsEq` on canonical polynomials. -/
theorem PolyMul_associative (p q r : Poly) (hp : Canonical p) (hq : Canonical q)
    (hr : Canonical r) :
    PolyIsEq (PolyMul (PolyMul p q) r) (PolyMul p (PolyMul q r)) = true := by
  have hpq := canonical_PolyMul hp hq
  have hqr := canonical_PolyMul hq hr
  apply PolyIsEq_of_formal_eq (canonical_PolyMul hpq hr) (canonical_PolyMul hp hqr)
  rw [evalIn_PolyMul wrapsIn_formal _ r hpq.2.1 hr.2.1,
    evalIn_PolyMul wrapsIn_formal p q hp.2.1 hq.2.1,
    evalIn_PolyMul wrapsIn_formal p _ hp.2.1 hqr.2.1,
    evalIn_PolyMul wrapsIn_formal q r hq.2.1 hr.2.1, mul_assoc]

/-- C15: the zeroth power is one. For every polynomial `p`, the zero polynomial
included, `FastPolyPow(p, 0)` is the constant polynomial 1 (constant 1, no terms);
and `FastCoeffPow(x, 0) = 1` for every coefficient `x`, 0 included. -/
theorem zeroth_power_is_one (p : Poly) (x : Int) :
    FastPolyPow p 0 = Poly.mk 1 [] ∧ FastCoeffPow x 0 = 1 := by
  constructor
  · unfold FastPolyPow
    split_ifs <;> rfl
  · rfl

/-- With the sums of exponents taken exactly (`FastPolyPow` and `PolyMul`
outside `Machine`), the power of a canonical polynomial is additive in the
exponent up to `PolyIsEq`. -/
theorem FastPolyPow_add (p : Poly) (a b : Nat) (hp : Canonical p) :
    PolyIsEq (FastPolyPow p (a + b)) (PolyMul (FastPolyPow p a) (FastPolyPow p b)) = true := by
  have ha := canonical_FastPolyPow hp a
  have hb := canonical_FastPolyPow hp b
  apply PolyIsEq_of_formal_eq (canonical_FastPolyPow hp (a + b)) (canonical_PolyMul ha hb)
  rw [evalIn_PolyMul wrapsIn_formal _ _ ha.2.1 hb.2.1, evalIn_FastPolyPow wrapsIn_formal hp.2.1,
    evalIn_FastPolyPow wrapsIn_formal hp.2.1, evalIn_FastPolyPow wrapsIn_formal hp.2.1, pow_add]

/-- C18: composing the polynomial "variable 0" returns the substitute. For every
canonical polynomial `q` (zero, a constant, or with terms), `PolyCompose(p, 1, [q])`
with `p = PolyAddMonos` of the single monomial (coefficient 1, exponent 1) returns a
polynomial that is `PolyIsEq` to `q`. -/
theorem PolyCompose_variable0 (q : Poly) (hq : Canonical q) :
    ∃ r, PolyCompose (PolyAddMonos [MonoFromPoly (PolyFromCoeff 1) 1]) 1 [q] = .ok r
      ∧ PolyIsEq r q = true := by
  refine ⟨composeRec 1 [q] 0 (PolyAddMonos [MonoFromPoly (PolyFromCoeff 1) 1]),
    PolyCompose_eq _ 1 _ (by simp), ?_⟩
  rw [composeRec_variable0 hq]
  exact (PolyIsEq_iff_eq q q).mpr rfl

/-- Witness of C18 at `q = x1 + 5 * x0`. -/
theorem PolyCompose_variable0_witness :
    Canonical (Poly.mk 0 [(Poly.mk 0 [(Poly.mk 1 [], 1)], 0), (Poly.mk 5 [], 1)])
      ∧ ∃ r, PolyCompose (PolyAddMonos [MonoFromPoly (PolyFromCoeff 1) 1]) 1
            [Poly.mk 0 [(Poly.mk 0 [(Poly.mk 1 [], 1)], 0), (Poly.mk 5 [], 1)]] = .ok r
          ∧ PolyIsEq r (Poly.mk 0 [(Poly.mk 0 [(Poly.mk 1 [], 1)], 0), (Poly.mk 5 [], 1)])
            = true :=
  ⟨by decide, PolyCompose_variable0 _ (by decide)⟩

/-- C19: composing a constant leaves it unchanged. For every coefficient `c`
(0 included), every `count` and every array `x`, `PolyCompose(PolyFromCoeff(c),
count, x)` returns a polynomial that is `PolyIsEq` to `PolyFromCoeff(c)`; and for
every polynomial `p`, `PolyCompose(p, 0, x)` returns the constant polynomial
`p.constant`. -/
theorem PolyCompose_constant (c : Int) (count : Nat) (x : List Poly) (p : Poly) :
    (∃ r, PolyCompose (PolyFromCoeff c) count x = .ok r
        ∧ PolyIsEq r (PolyFromCoeff c) = true)
      ∧ PolyCompose p 0 x = .ok (PolyFromCoeff p.constant) := by
  constructor
  · refine ⟨PolyFromCoeff c, ?_, (PolyIsEq_iff_eq _ _).mpr rfl⟩
    unfold PolyCompose NewComposeState
    exact composeLoop_exit count x _ _
  · unfold PolyCompose NewComposeState
    exact composeLoop_rootPop x _ _ _

/-! ## The expansion -/

theorem expansion_mk (c : Int) (ms : List Mono) :
    expansion (Poly.mk c ms) = (if c ≠ 0 then [([], c)] else []) ++ expansionMonos ms := by
  simp [expansion]

theorem expansionMonos_nil : expansionMonos [] = [] := by
  simp [expansionMonos]

theorem expansionMonos_cons (m : Mono) (rest : List Mono) :
    expansionMonos (m :: rest)
      = (expansion m.1).map (fun t => (m.2 :: t.1, t.2)) ++ expansionMonos rest := by
  obtain ⟨p, e⟩ := m
  simp [expansionMonos]

theorem mem_expansionMonos (ms : List Mono) (t : List Nat × Int) :
    t ∈ expansionMonos ms ↔ ∃ m ∈ ms, ∃ u ∈ expansion m.1, t = (m.2 :: u.1, u.2) := by
  induction ms with
  | nil => simp [expansionMonos_nil]
  | cons a l ih =>
    rw [expansionMonos_cons, List.mem_append, ih]
    simp only [List.mem_map, List.mem_cons, exists_eq_or_imp]
    constructor
    · rintro (⟨u, hu, rfl⟩ | h)
      · exact Or.inl ⟨u, hu, rfl⟩
      · exact Or.inr h
    · rintro (⟨u, hu, rfl⟩ | h)
      · exact Or.inl ⟨u, hu, rfl⟩
      · exact Or.inr h

theorem mem_expansion (p : Poly) (t : List Nat × Int) :
    t ∈ expansion p ↔ (p.constant ≠ 0 ∧ t = ([], p.constant)) ∨
      ∃ m ∈ p.first_mono, ∃ u ∈ expansion m.1, t = (m.2 :: u.1, u.2) := by
  cases p with
  | mk c ms =>
    rw [expansion_mk, List.mem_append, mem_expansionMonos]
    simp only [constant_mk, first_mono_mk]
    by_cases hc : c = 0
    · simp [hc]
    · simp [hc]

/-- Every monomial of the expansion has a coefficient that is not 0. -/
theorem expansion_coeff_ne_zero (p : Poly) : ∀ t ∈ expansion p, t.2 ≠ 0 := by
  induction p using Poly.induct with
  | h c ms ih =>
    intro t ht
    rcases (mem_expansion _ t).mp ht with ⟨hc, rfl⟩ | ⟨m, hm, u, hu, rfl⟩
    · exact hc
    · exact ih m hm u hu

section Ring

variable {R : Type} [CommRing R]

theorem monomialValue_nil (v : Nat → R) : monomialValue [] v = 1 := rfl

theorem monomialValue_cons (e : Nat) (es : List Nat) (v : Nat → R) :
    monomialValue (e :: es) v = v 0 ^ e * monomialValue es (fun i => v (i + 1)) := rfl

/-- The value of a polynomial is the sum of the values of the monomials of its
expansion. -/
theorem evalIn_eq_expansion (p : Poly) : ∀ v : Nat → R,
    evalIn p v = ((expansion p).map (fun t => ((t.2 : Int) : R) * monomialValue t.1 v)).sum := by
  induction p using Poly.induct with
  | h c ms ih =>
    intro v
    rw [evalIn_mk, expansion_mk, List.map_append, List.sum_append]
    have hc : ((c : Int) : R)
        = ((if c ≠ 0 then [(([] : List Nat), c)] else []).map
            (fun t => ((t.2 : Int) : R) * monomialValue t.1 v)).sum := by
      by_cases h0 : c = 0
      · simp [h0]
      · simp [h0, monomialValue_nil]
    rw [← hc]
    congr 1
    clear hc
    induction ms with
    | nil => simp [evalMonosIn_nil, expansionMonos_nil]
    | cons a l ihl =>
      rw [evalMonosIn_cons, expansionMonos_cons, List.map_append, List.sum_append,
        ihl (fun m hm => ih m (List.mem_cons_of_mem _ hm)), ih a (List.mem_cons_self _ _)]
      congr 1
      rw [List.map_map, ← List.sum_map_mul_left]
      congr 1
      apply List.map_congr_left
      intro t _
      simp only [Function.comp, monomialValue_cons]
      ring

end Ring

/-- A polynomial with the ordering invariant that is not zero has a monomial. -/
theorem expansion_ne_nil (p : Poly) :
    TermsOrdered p → PolyIsZero p = false → expansion p ≠ [] := by
  induction p using Poly.induct with
  | h c ms ih =>
    intro hp hnz
    rw [expansion_mk]
    by_cases hc : c = 0
    · subst hc
      cases ms with
      | nil => simp [PolyIsZero] at hnz
      | cons a l =>
        rw [termsOrdered_mk] at hp
        have ha := ih a (List.mem_cons_self _ _) (hp.2.2 a (List.mem_cons_self _ _))
          (hp.2.1 a (List.mem_cons_self _ _))
        rw [expansionMonos_cons]
        simp [ha]
    · simp [hc]

theorem exponentSum_nil : exponentSum [] = 0 := rfl

theorem exponentSum_cons (e : Nat) (es : List Nat) :
    exponentSum (e :: es) = (e : Int) + exponentSum es := by
  simp [exponentSum]

/-- No monomial of the expansion has a sum of exponents above `PolyDeg`. -/
theorem exponentSum_le_PolyDeg (p : Poly) :
    ∀ t ∈ expansion p, exponentSum t.1 ≤ PolyDeg p := by
  induction p using Poly.induct with
  | h c ms ih =>
    intro t ht
    rcases (mem_expansion _ t).mp ht with ⟨hc, rfl⟩ | ⟨m, hm, u, hu, rfl⟩
    · rw [exponentSum_nil]
      exact PolyDeg_nonneg_of_constant hc
    · have h1 := ih m hm u hu
      have h2 := PolyDeg_mono_le (p := Poly.mk c ms) (m := m) hm
      rw [exponentSum_cons]
      omega

/-- The loop of `PolyDeg` returns its start value or the value of a monomial. -/
theorem PolyDegLoop_attained (ms : List Mono) : ∀ r : Int,
    PolyDegLoop r ms = r ∨ ∃ m ∈ ms, PolyDegLoop r ms = PolyDeg m.1 + (m.2 : Int) := by
  induction ms with
  | nil => intro r; exact Or.inl (PolyDegLoop_nil r)
  | cons a l ih =>
    intro r
    rw [PolyDegLoop_cons]
    rcases ih (max r (PolyDeg a.1 + (a.2 : Int))) with h | ⟨m, hm, h⟩
    · rcases max_cases r (PolyDeg a.1 + (a.2 : Int)) with ⟨h1, _⟩ | ⟨h1, _⟩
      · exact Or.inl (by rw [h, h1])
      · exact Or.inr ⟨a, List.mem_cons_self _ _, by rw [h, h1]⟩
    · exact Or.inr ⟨m, List.mem_cons_of_mem _ hm, h⟩

/-- The loop of `PolyDeg` is a maximum over the list. -/
theorem PolyDegLoop_eq_foldr (ms : List Mono) : ∀ r : Int,
    PolyDegLoop r ms = (ms.map (fun m => PolyDeg m.1 + (m.2 : Int))).foldr max r := by
  induction ms with
  | nil => intro r; simp [PolyDegLoop_nil]
  | cons a l ih =>
    intro r
    rw [PolyDegLoop_cons, ih]
    simp only [List.map_cons, List.foldr_cons]
    generalize l.map (fun m => PolyDeg m.1 + (m.2 : Int)) = xs
    induction xs with
    | nil => simp [max_comm]
    | cons x xs ihx =>
      simp only [List.foldr_cons]
      rw [ihx, max_left_comm]

/-- A polynomial with the ordering invariant that is not zero has a monomial
whose sum of exponents is `PolyDeg`. -/
theorem PolyDeg_attained (p : Poly) :
    TermsOrdered p → PolyIsZero p = false → ∃ t ∈ expansion p, exponentSum t.1 = PolyDeg p := by
  induction p using Poly.induct with
  | h c ms ih =>
    intro hp hnz
    rw [termsOrdered_mk] at hp
    rcases PolyDegLoop_attained ms (if c ≠ 0 then 0 else -1) with h | ⟨m, hm, h⟩
    · by_cases hc : c = 0
      · -- the degree would be -1
        have hge := PolyDeg_nonneg (Poly.mk c ms) ((termsOrdered_mk c ms).mpr hp) hnz
        rw [PolyDeg_mk, h] at hge
        simp [hc] at hge
      · refine ⟨([], c), ?_, ?_⟩
        · rw [mem_expansion]
          exact Or.inl ⟨by simpa using hc, rfl⟩
        · rw [PolyDeg_mk, h, exponentSum_nil]
          simp [hc]
    · obtain ⟨u, hu, hsum⟩ := ih m hm (hp.2.2 m hm) (hp.2.1 m hm)
      refine ⟨(m.2 :: u.1, u.2), ?_, ?_⟩
      · rw [mem_expansion]
        exact Or.inr ⟨m, hm, u, hu, rfl⟩
      · rw [PolyDeg_mk, h, exponentSum_cons, hsum]
        ring

theorem PolyDeg_zero_iff (p : Poly) (hp : TermsOrdered p) :
    PolyDeg p = -1 ↔ PolyIsZero p = true := by
  constructor
  · intro h
    by_contra hz
    have := PolyDeg_nonneg p hp (by simpa using hz)
    omega
  · intro h
    cases p with
    | mk c ms =>
      simp only [PolyIsZero, constant_mk, first_mono_mk, Bool.and_eq_true, beq_iff_eq,
        List.isEmpty_iff] at h
      obtain ⟨rfl, rfl⟩ := h
      simp [PolyDeg_mk, PolyDegLoop_nil]

/-! ## `PolyDegBy` -/

theorem isValidDigit_iff (c : Char) :
    IsValidDigit (some c) = true ↔ 48 ≤ c.toNat ∧ c.toNat ≤ 57 := by
  simp only [IsValidDigit, Bool.and_eq_true, decide_eq_true_eq]
  have h0 : ('0' : Char).toNat = 48 := by decide
  have h9 : ('9' : Char).toNat = 57 := by decide
  constructor
  · rintro ⟨h1, h2⟩
    have h1' : ('0' : Char).toNat ≤ c.toNat := h1
    have h2' : c.toNat ≤ ('9' : Char).toNat := h2
    omega
  · rintro ⟨h1, h2⟩
    constructor
    · show ('0' : Char).toNat ≤ c.toNat
      omega
    · show c.toNat ≤ ('9' : Char).toNat
      omega

theorem digitValue_le {c : Char} (h : IsValidDigit (some c) = true) : digitValue c ≤ 9 := by
  rw [isValidDigit_iff] at h
  have h0 : ('0' : Char).toNat = 48 := by decide
  unfold digitValue
  omega

/-- A digit is different from every character that is not a digit. -/
theorem digit_ne {c k : Char} (hc : IsValidDigit (some c) = true)
    (hk : IsValidDigit (some k) = false) : c ≠ k := by
  rintro rfl
  rw [hc] at hk
  cases hk

theorem allDigits_nil : AllDigits [] := by
  intro d hd
  cases hd

theorem allDigits_cons (d : Char) (ds : List Char) :
    AllDigits (d :: ds) ↔ IsValidDigit (some d) = true ∧ AllDigits ds := by
  unfold AllDigits
  simp

theorem allDigits_append (xs ys : List Char) :
    AllDigits (xs ++ ys) ↔ AllDigits xs ∧ AllDigits ys := by
  unfold AllDigits
  simp only [List.mem_append]
  constructor
  · intro h
    exact ⟨fun d hd => h d (Or.inl hd), fun d hd => h d (Or.inr hd)⟩
  · rintro ⟨h1, h2⟩ d (hd | hd)
    · exact h1 d hd
    · exact h2 d hd

theorem PeekCharacter_mk (u : List Char) (col line : Nat) (pe : Bool) (err : List String) :
    PeekCharacter ⟨u, col, line, pe, err⟩ = (u.head?, ⟨u, col, line, false, err⟩) := rfl

theorem ReadCharacter_nil (col line : Nat) (pe : Bool) (err : List String) :
    ReadCharacter ⟨[], col, line, pe, err⟩ = (none, ⟨[], col, line, false, err⟩) := rfl

theorem ReadCharacter_newline (u : List Char) (col line : Nat) (pe : Bool)
    (err : List String) :
    ReadCharacter ⟨'\n' :: u, col, line, pe, err⟩ = (some '\n', ⟨u, 0, line + 1, false, err⟩) := rfl

theorem ReadCharacter_cons {c : Char} (hc : c ≠ '\n') (u : List Char) (col line : Nat)
    (pe : Bool) (err : List String) :
    ReadCharacter ⟨c :: u, col, line, pe, err⟩ = (some c, ⟨u, col + 1, line, false, err⟩) := by
  simp [ReadCharacter, PeekCharacter, hc]

/-- Function `SkipLine` on a stream in which a newline occurs: the characters
up to and including the first newline are read. -/
theorem SkipLine_newline (pre : List Char) (hpre : '\n' ∉ pre) (u : List Char) :
    ∀ (col line : Nat) (pe : Bool) (err : List String),
      SkipLine ⟨pre ++ '\n' :: u, col, line, pe, err⟩ = ⟨u, 0, line + 1, false, err⟩ := by
  unfold SkipLine
  simp only
  induction pre with
  | nil =>
    intro col line pe err
    simp [SkipLineLoop, ReadCharacter_newline]
  | cons c pre ih =>
    intro col line pe err
    have hc : c ≠ '\n' := fun h => hpre (by simp [h])
    have hpre' : '\n' ∉ pre := fun h => hpre (List.mem_cons_of_mem _ h)
    simp only [List.cons_append, SkipLineLoop, hc, if_false, ReadCharacter_cons hc]
    exact ih hpre' (col + 1) line false err

/-- Function `SkipLine` on a stream without a newline: everything is read. -/
theorem SkipLine_eof (pre : List Char) (hpre : '\n' ∉ pre) :
    ∀ (col line : Nat) (pe : Bool) (err : List String),
      SkipLine ⟨pre, col, line, pe, err⟩ = ⟨[], col + pre.length, line, false, err⟩ := by
  unfold SkipLine
  simp only
  induction pre with
  | nil =>
    intro col line pe err
    simp [SkipLineLoop, ReadCharacter_nil]
  | cons c pre ih =>
    intro col line pe err
    have hc : c ≠ '\n' := fun h => hpre (by simp [h])
    have hpre' : '\n' ∉ pre := fun h => hpre (List.mem_cons_of_mem _ h)
    simp only [SkipLineLoop, hc, if_false, ReadCharacter_cons hc]
    rw [ih hpre' (col + 1) line false err]
    simp only [List.length_cons]
    congr 1
    omega

/-- Every list of characters splits at its first newline. -/
theorem split_at_newline (u : List Char) :
    (∃ pre rest, u = pre ++ '\n' :: rest ∧ '\n' ∉ pre) ∨ '\n' ∉ u := by
  induction u with
  | nil => exact Or.inr (by simp)
  | cons c u ih =>
    by_cases hc : c = '\n'
    · subst hc
      exact Or.inl ⟨[], u, rfl, by simp⟩
    · rcases ih with ⟨pre, rest, rfl, hpre⟩ | h
      · refine Or.inl ⟨c :: pre, rest, rfl, ?_⟩
        simp only [List.mem_cons, not_or]
        exact ⟨fun h => hc h.symm, hpre⟩
      · refine Or.inr ?_
        simp only [List.mem_cons, not_or]
        exact ⟨fun h => hc h.symm, h⟩

theorem SkipLine_stderr (s : InputStream) : (SkipLine s).stderr = s.stderr := by
  obtain ⟨u, col, line, pe, err⟩ := s
  rcases split_at_newline u with ⟨pre, rest, rfl, hpre⟩ | h
  · rw [SkipLine_newline pre hpre]
  · rw [SkipLine_eof u h]

theorem reportError_parse_error (s : InputStream) (msg : String) :
    (reportError s msg).parse_error = true := rfl

theorem reportError_stderr (s : InputStream) (msg : String) :
    (reportError s msg).stderr = s.stderr ++ [msg] := by
  simp [reportError, SkipLine_stderr]

theorem reportError_newline (pre : List Char) (hpre : '\n' ∉ pre) (u : List Char)
    (col line : Nat) (pe : Bool) (err : List String) (msg : String) :
    reportError ⟨pre ++ '\n' :: u, col, line, pe, err⟩ msg
      = ⟨u, 0, line + 1, true, err ++ [msg]⟩ := by
  simp only [reportError]
  rw [SkipLine_newline pre hpre]

/-- Function `ReadDigitsIntoAnArray` on a stream that starts with the digits
`ds`, followed by something that is not a digit: the first `room` digits are
read. -/
theorem ReadDigitsIntoAnArray_spec (rest : List Char) (hrest : IsValidDigit rest.head? = false)
    (err : List String) (line : Nat) :
    ∀ (room : Nat) (ds : List Char), AllDigits ds → ∀ (col : Nat) (pe : Bool),
      ReadDigitsIntoAnArray room ⟨ds ++ rest, col, line, pe, err⟩
        = (ds.take room, ⟨ds.drop room ++ rest, col + min room ds.length, line, false, err⟩) := by
  intro room
  induction room with
  | zero =>
    intro ds _ col pe
    simp [ReadDigitsIntoAnArray, PeekCharacter]
  | succ n ih =>
    intro ds hds col pe
    cases ds with
    | nil =>
      cases rest with
      | nil => simp [ReadDigitsIntoAnArray, PeekCharacter]
      | cons r rest =>
        simp only [List.head?_cons] at hrest
        simp [ReadDigitsIntoAnArray, PeekCharacter, hrest]
    | cons d ds =>
      rw [allDigits_cons] at hds
      have hd : d ≠ '\n' := digit_ne hds.1 (by decide)
      simp only [ReadDigitsIntoAnArray, PeekCharacter_mk, List.cons_append, List.head?_cons,
        hds.1, if_true, ReadCharacter_cons hd, ih ds hds.2 (col + 1) false, List.take_succ_cons,
        List.drop_succ_cons, List.length_cons]
      congr 2
      omega

/-! ## Decimal values -/

theorem decimalValue_nil : decimalValue [] = 0 := rfl

theorem decimalValue_append_singleton (ds : List Char) (d : Char) :
    decimalValue (ds ++ [d]) = decimalValue ds * 10 + digitValue d := by
  simp [decimalValue, List.foldl_append]

theorem decimalValue_lt (ds : List Char) (hds : AllDigits ds) :
    decimalValue ds < 10 ^ ds.length := by
  induction ds using List.reverseRecOn with
  | nil => simp [decimalValue_nil]
  | append_singleton ds d ih =>
    rw [allDigits_append] at hds
    have h1 := ih hds.1
    have h2 := digitValue_le (hds.2 d (by simp))
    rw [decimalValue_append_singleton, List.length_append, List.length_singleton, pow_succ]
    omega

/-- When the bound loop finds no digit above the digit of the reference, the
number is at most the reference. -/
theorem decimalValue_le_of_not_exceeds (digits : List Char) : ∀ reference : Nat,
    unsignedDigitExceeds digits reference = false → decimalValue digits.reverse ≤ reference := by
  induction digits with
  | nil => intro reference _; simp [decimalValue_nil]
  | cons d digits ih =>
    intro reference h
    simp only [unsignedDigitExceeds] at h
    split_ifs at h with hgt
    have h1 := ih _ h
    rw [List.reverse_cons, decimalValue_append_singleton]
    have := Nat.div_add_mod reference 10
    omega


theorem int_neg_tmod (a b : Int) : (-a).tmod b = -(a.tmod b) := by
  rw [Int.tmod_def, Int.tmod_def, Int.neg_tdiv]
  ring

/-- On a reference that is not negative the bound loop of the coefficients is
the unsigned one. -/
theorem coeffDigitExceeds_natCast (digits : List Char) : ∀ reference : Nat,
    coeffDigitExceeds digits (reference : Int) = unsignedDigitExceeds digits reference := by
  induction digits with
  | nil => intro reference; rfl
  | cons d digits ih =>
    intro reference
    simp only [coeffDigitExceeds, unsignedDigitExceeds]
    have h10 : (10 : Int) = ((10 : Nat) : Int) := rfl
    rw [h10, ← Int.ofNat_tmod, ← Int.ofNat_tdiv, ih]
    have hnn : ¬ (((reference % 10 : Nat) : Int) < 0) := by omega
    simp only [hnn, if_false]
    have hiff : ((digitValue d : Int) > ((reference % 10 : Nat) : Int))
        ↔ digitValue d > reference % 10 := by omega
    by_cases hgt : digitValue d > reference % 10
    · rw [if_pos hgt, if_pos (hiff.mpr hgt)]
    · rw [if_neg hgt, if_neg (fun h => hgt (hiff.mp h))]

/-- On a negative reference the bound loop of the coefficients compares with
the digits of the magnitude. -/
theorem coeffDigitExceeds_neg_natCast (digits : List Char) : ∀ reference : Nat,
    coeffDigitExceeds digits (-(reference : Int)) = unsignedDigitExceeds digits reference := by
  induction digits with
  | nil => intro reference; rfl
  | cons d digits ih =>
    intro reference
    simp only [coeffDigitExceeds, unsignedDigitExceeds]
    have h10 : (10 : Int) = ((10 : Nat) : Int) := rfl
    rw [int_neg_tmod, Int.neg_tdiv, h10, ← Int.ofNat_tmod, ← Int.ofNat_tdiv, ih]
    have hval : (if -((reference % 10 : Nat) : Int) < 0 then -((reference % 10 : Nat) : Int) * -1
        else -((reference % 10 : Nat) : Int)) = ((reference % 10 : Nat) : Int) := by
      split_ifs with h
      · ring
      · omega
    rw [hval]
    have hiff : ((digitValue d : Int) > ((reference % 10 : Nat) : Int))
        ↔ digitValue d > reference % 10 := by omega
    by_cases hgt : digitValue d > reference % 10
    · rw [if_pos hgt, if_pos (hiff.mpr hgt)]
    · rw [if_neg hgt, if_neg (fun h => hgt (hiff.mp h))]

/-- The magnitude against which the bound loop of the coefficients compares. -/
theorem coeffDigitExceeds_bound (negative : Bool) (digits : List Char) :
    coeffDigitExceeds digits (if negative then LONG_MIN else LONG_MAX)
      = unsignedDigitExceeds digits
          (if negative then 9223372036854775808 else 9223372036854775807) := by
  cases negative with
  | true =>
    have h : LONG_MIN = -((9223372036854775808 : Nat) : Int) := by decide
    simp only [if_true, h]
    exact coeffDigitExceeds_neg_natCast digits _
  | false =>
    have h : LONG_MAX = ((9223372036854775807 : Nat) : Int) := by decide
    simp only [Bool.false_eq_true, if_false, h]
    exact coeffDigitExceeds_natCast digits _

theorem wrapCoeff_step (a d : Int) :
    wrapCoeff (wrapCoeff (wrapCoeff a * 10) + d) = wrapCoeff (a * 10 + d) := by
  unfold wrapCoeff coeffModulus coeffHalf
  omega

/-- The `poly_coeff_t` accumulation of the digits is the wrapped number. -/
theorem coeffAccumulate_eq (digits : List Char) :
    digits.foldl (fun result d => wrapCoeff (wrapCoeff (result * 10) + (digitValue d : Int))) 0
      = wrapCoeff ((decimalValue digits : Nat) : Int) := by
  induction digits using List.reverseRecOn with
  | nil =>
    show (0 : Int) = wrapCoeff ((0 : Nat) : Int)
    exact wrapCoeff_zero.symm
  | append_singleton ds d ih =>
    rw [List.foldl_append, ih, decimalValue_append_singleton, List.foldl_cons, List.foldl_nil,
      wrapCoeff_step, Nat.cast_add, Nat.cast_mul, Nat.cast_ofNat]

theorem unsignedStep (a d : Nat) :
    ((a % 4294967296) * 10 % 4294967296 + d) % 4294967296 = (a * 10 + d) % 4294967296 := by
  omega

/-- The `unsigned` accumulation of the digits is the number modulo `2^32`. -/
theorem unsignedAccumulate_eq (digits : List Char) :
    digits.foldl (fun result d => (result * 10 % 4294967296 + digitValue d) % 4294967296) 0
      = decimalValue digits % 4294967296 := by
  induction digits using List.reverseRecOn with
  | nil => rfl
  | append_singleton ds d ih =>
    rw [List.foldl_append, ih, decimalValue_append_singleton, List.foldl_cons, List.foldl_nil,
      unsignedStep]

theorem wrapCoeff_neg_wrap (a : Int) :
    wrapCoeff (wrapCoeff a * (-1)) = wrapCoeff (-a) := by
  unfold wrapCoeff coeffModulus coeffHalf
  omega

theorem wrapCoeff_of_bounds {x : Int} (h1 : -9223372036854775808 ≤ x)
    (h2 : x ≤ 9223372036854775807) : wrapCoeff x = x := by
  unfold wrapCoeff coeffModulus coeffHalf
  omega

/-- The value of a literal whose magnitude is within the bound is in the range
of `poly_coeff_t` and is what the reader computes. -/
theorem coeffResult_eq (negative : Bool) (digits : List Char)
    (h : decimalValue digits ≤ (if negative then 9223372036854775808 else 9223372036854775807)) :
    (if negative then wrapCoeff (wrapCoeff ((decimalValue digits : Nat) : Int) * (-1))
      else wrapCoeff ((decimalValue digits : Nat) : Int)) = literalValue negative digits
    ∧ LONG_MIN ≤ literalValue negative digits ∧ literalValue negative digits ≤ LONG_MAX := by
  cases negative with
  | true =>
    rw [if_pos rfl] at h
    rw [if_pos rfl]
    unfold literalValue LONG_MIN LONG_MAX
    rw [if_pos rfl, wrapCoeff_neg_wrap]
    refine ⟨wrapCoeff_of_bounds ?_ ?_, ?_, ?_⟩ <;> omega
  | false =>
    rw [if_neg Bool.false_ne_true] at h
    rw [if_neg Bool.false_ne_true]
    unfold literalValue LONG_MIN LONG_MAX
    rw [if_neg Bool.false_ne_true]
    refine ⟨wrapCoeff_of_bounds ?_ ?_, ?_, ?_⟩ <;> omega

/-! ## The readers of numbers, unfolded -/

theorem literalText_append (negative : Bool) (ds rest : List Char) :
    literalText negative ds ++ rest = if negative then '-' :: (ds ++ rest) else ds ++ rest := by
  cases negative <;> rfl

/-- Function `ReadValueOrCoefficient` on a stream that starts with an optional
`-` and the digits `ds`, followed by something that is not a digit: what is left
of the function once the sign and the digits are read. -/
theorem ReadValueOrCoefficient_mk (isValue negative : Bool) (ds rest : List Char)
    (hds : AllDigits ds) (hrest : IsValidDigit rest.head? = false)
    (hneg : negative = false → (ds ++ rest).head? ≠ some '-')
    (col line : Nat) (pe : Bool) (err : List String) :
    ReadValueOrCoefficient ⟨literalText negative ds ++ rest, col, line, pe, err⟩ isValue
      = (let value := ds.take MAX_VALUE_AND_COEFF_LENGTH
         let stream : InputStream :=
          ⟨ds.drop MAX_VALUE_AND_COEFF_LENGTH ++ rest,
            col + (if negative then 1 else 0) + min MAX_VALUE_AND_COEFF_LENGTH ds.length,
            line, false, err⟩
         let c := (ds.drop MAX_VALUE_AND_COEFF_LENGTH ++ rest).head?
         if isValue && (c != some '\n' || value.length == 0) then
           (0, reportError stream ("ERROR " ++ toString (line + 1) ++ " WRONG VALUE\n"))
         else if !isValue && ((c != some ',' && c != some '\n') || value.length == 0) then
           (0, reportError stream ("ERROR " ++ toString (line + 1) ++ " "
             ++ toString (stream.column_number + 1) ++ "\n"))
         else if value.length == MAX_VALUE_AND_COEFF_LENGTH
             && coeffDigitExceeds value.reverse (if negative then LONG_MIN else LONG_MAX) then
           if isValue then
             (0, reportError stream ("ERROR " ++ toString (line + 1) ++ " WRONG VALUE\n"))
           else
             (0, reportError stream ("ERROR " ++ toString (line + 1) ++ " "
               ++ toString stream.column_number ++ "\n"))
         else
           (if negative then wrapCoeff (wrapCoeff ((decimalValue value : Nat) : Int) * (-1))
             else wrapCoeff ((decimalValue value : Nat) : Int), stream)) := by
  have hread := fun (c : Nat) (p : Bool) =>
    ReadDigitsIntoAnArray_spec rest hrest err line MAX_VALUE_AND_COEFF_LENGTH ds hds c p
  cases negative with
  | true =>
    have h1 : (PeekCharacter ⟨literalText true ds ++ rest, col, line, pe, err⟩).1 = some '-' := rfl
    have h2 : (PeekCharacter ⟨literalText true ds ++ rest, col, line, pe, err⟩).2
        = ⟨'-' :: (ds ++ rest), col, line, false, err⟩ := rfl
    have h3 : (ReadCharacter ⟨'-' :: (ds ++ rest), col, line, false, err⟩).2
        = ⟨ds ++ rest, col + 1, line, false, err⟩ := by
      rw [ReadCharacter_cons (by decide)]
    unfold ReadValueOrCoefficient
    rw [h1, h2]
    simp only [beq_self_eq_true, if_true]
    rw [h3, hread]
    simp only [PeekCharacter_mk, coeffAccumulate_eq]
  | false =>
    have hne : (ds ++ rest).head? ≠ some '-' := hneg rfl
    have h1 : ((PeekCharacter ⟨literalText false ds ++ rest, col, line, pe, err⟩).1 == some '-')
        = false := by
      show ((ds ++ rest).head? == some '-') = false
      exact beq_false_of_ne hne
    have h2 : (PeekCharacter ⟨literalText false ds ++ rest, col, line, pe, err⟩).2
        = ⟨ds ++ rest, col, line, false, err⟩ := rfl
    unfold ReadValueOrCoefficient
    rw [h1, h2]
    simp only [Bool.false_eq_true, if_false]
    rw [hread]
    simp only [PeekCharacter_mk, coeffAccumulate_eq, Nat.add_zero]


/-- Function `ReadDegByOrComposeCommandArgument` on a stream that starts with
the digits `ds`, followed by something that is not a digit: what is left of the
function once the digits are read. -/
theorem ReadDegByOrComposeCommandArgument_mk (isDegBy : Bool) (ds rest : List Char)
    (hds : AllDigits ds) (hrest : IsValidDigit rest.head? = false)
    (col line : Nat) (pe : Bool) (err : List String) :
    ReadDegByOrComposeCommandArgument ⟨ds ++ rest, col, line, pe, err⟩ isDegBy
      = (let value := ds.take MAX_VARIABLE_LENGTH
         let stream : InputStream :=
          ⟨ds.drop MAX_VARIABLE_LENGTH ++ rest, col + min MAX_VARIABLE_LENGTH ds.length,
            line, false, err⟩
         let wrong : Bool := value.length == 0 || (ReadCharacter stream).1 != some '\n'
         let stream := if value.length == 0 then stream else (ReadCharacter stream).2
         if wrong then
           if isDegBy then
             (0, reportError stream
               ("ERROR " ++ toString (stream.line_number + 1) ++ " WRONG VARIABLE\n"))
           else
             (0, reportError stream
               ("ERROR " ++ toString (stream.line_number + 1) ++ " WRONG COUNT\n"))
         else if value.length == MAX_VARIABLE_LENGTH
             && unsignedDigitExceeds value.reverse UINT_MAX then
           if isDegBy then
             (0, { stream with
                     stderr := stream.stderr
                       ++ ["ERROR " ++ toString stream.line_number ++ " WRONG VARIABLE\n"],
                     parse_error := true })
           else
             (0, { stream with
                     stderr := stream.stderr
                       ++ ["ERROR " ++ toString stream.line_number ++ " WRONG COUNT\n"],
                     parse_error := true })
         else (decimalValue value % 4294967296, stream)) := by
  unfold ReadDegByOrComposeCommandArgument
  rw [ReadDigitsIntoAnArray_spec rest hrest err line MAX_VARIABLE_LENGTH ds hds col pe]
  simp only [unsignedAccumulate_eq]

/-- Function `ReadExponent` on a stream that starts with an optional `-` and
the digits `ds`, followed by something that is not a digit: what is left of the
function once the sign and the digits are read. -/
theorem ReadExponent_mk (negative : Bool) (ds rest : List Char)
    (hds : AllDigits ds) (hrest : IsValidDigit rest.head? = false)
    (hneg : negative = false → (ds ++ rest).head? ≠ some '-')
    (col line : Nat) (pe : Bool) (err : List String) :
    ReadExponent ⟨literalText negative ds ++ rest, col, line, pe, err⟩
      = (let value := ds.take MAX_EXPONENT_LENGTH
         let stream : InputStream :=
          ⟨ds.drop MAX_EXPONENT_LENGTH ++ rest,
            col + (if negative then 1 else 0) + min MAX_EXPONENT_LENGTH ds.length,
            line, false, err⟩
         if negative && (value.length != 1 || value.head? != some '0') then
           (0, reportError stream ("ERROR " ++ toString (line + 1) ++ " "
             ++ toString (col + 2) ++ "\n"))
         else if value.length == 0 then
           (0, reportError stream ("ERROR " ++ toString (line + 1) ++ " "
             ++ toString (stream.column_number + 1) ++ "\n"))
         else if value.length == MAX_EXPONENT_LENGTH
             && unsignedDigitExceeds value.reverse INT_MAX then
           (0, reportError stream ("ERROR " ++ toString (line + 1) ++ " "
             ++ toString stream.column_number ++ "\n"))
         else (decimalValue value, stream)) := by
  have hread := fun (c : Nat) (p : Bool) =>
    ReadDigitsIntoAnArray_spec rest hrest err line MAX_EXPONENT_LENGTH ds hds c p
  cases negative with
  | true =>
    have h1 : (PeekCharacter ⟨literalText true ds ++ rest, col, line, pe, err⟩).1 = some '-' := rfl
    have h2 : (PeekCharacter ⟨literalText true ds ++ rest, col, line, pe, err⟩).2
        = ⟨'-' :: (ds ++ rest), col, line, false, err⟩ := rfl
    have h3 : (ReadCharacter ⟨'-' :: (ds ++ rest), col, line, false, err⟩).2
        = ⟨ds ++ rest, col + 1, line, false, err⟩ := by
      rw [ReadCharacter_cons (by decide)]
    unfold ReadExponent
    rw [h1, h2]
    simp only [beq_self_eq_true, if_true]
    rw [h3, hread]
    rfl
  | false =>
    have hne : (ds ++ rest).head? ≠ some '-' := hneg rfl
    have h1 : ((PeekCharacter ⟨literalText false ds ++ rest, col, line, pe, err⟩).1 == some '-')
        = false := by
      show ((ds ++ rest).head? == some '-') = false
      exact beq_false_of_ne hne
    have h2 : (PeekCharacter ⟨literalText false ds ++ rest, col, line, pe, err⟩).2
        = ⟨ds ++ rest, col, line, false, err⟩ := rfl
    unfold ReadExponent
    rw [h1, h2]
    simp only [Bool.false_eq_true, if_false]
    rw [hread]
    simp only [Nat.add_zero]
    rfl

/-- Every list of characters is a run of digits followed by something that does
not start with a digit. -/
theorem digits_decomposition (u : List Char) :
    ∃ ds rest, u = ds ++ rest ∧ AllDigits ds ∧ IsValidDigit rest.head? = false := by
  induction u with
  | nil => exact ⟨[], [], rfl, allDigits_nil, rfl⟩
  | cons c u ih =>
    by_cases hc : IsValidDigit (some c) = true
    · obtain ⟨ds, rest, rfl, hds, hrest⟩ := ih
      exact ⟨c :: ds, rest, rfl, (allDigits_cons c ds).mpr ⟨hc, hds⟩, hrest⟩
    · exact ⟨[], c :: u, rfl, allDigits_nil, by simpa using hc⟩

/-- Every list of characters is an optional `-`, a run of digits and something
that does not start with a digit. -/
theorem literal_decomposition (u : List Char) :
    ∃ negative ds rest, u = literalText negative ds ++ rest ∧ AllDigits ds ∧
      IsValidDigit rest.head? = false ∧ (negative = false → (ds ++ rest).head? ≠ some '-') := by
  by_cases hu : u.head? = some '-'
  · cases u with
    | nil => cases hu
    | cons c u =>
      simp only [List.head?_cons, Option.some.injEq] at hu
      subst hu
      obtain ⟨ds, rest, rfl, hds, hrest⟩ := digits_decomposition u
      exact ⟨true, ds, rest, rfl, hds, hrest, fun h => by cases h⟩
  · obtain ⟨ds, rest, rfl, hds, hrest⟩ := digits_decomposition u
    exact ⟨false, ds, rest, rfl, hds, hrest, fun _ => hu⟩

/-- After more digits than the array holds, the next character is a digit. -/
theorem head_drop_digit {ds : List Char} (hds : AllDigits ds) {n : Nat} (hn : n < ds.length)
    (rest : List Char) :
    ∃ d, (ds.drop n ++ rest).head? = some d ∧ IsValidDigit (some d) = true := by
  have hne : ds.drop n ≠ [] := by
    intro h
    have := congrArg List.length h
    simp only [List.length_drop, List.length_nil] at this
    omega
  obtain ⟨d, tl, hd⟩ := List.exists_cons_of_ne_nil hne
  refine ⟨d, by rw [hd]; rfl, hds d ?_⟩
  exact List.mem_of_mem_drop (by rw [hd]; exact List.mem_cons_self _ _)

theorem take_drop_short {ds : List Char} {n : Nat} (h : ds.length ≤ n) (rest : List Char) :
    ds.take n = ds ∧ ds.drop n ++ rest = rest ∧ min n ds.length = ds.length := by
  refine ⟨List.take_of_length_le h, ?_, by omega⟩
  rw [List.drop_of_length_le h, List.nil_append]

/-- A literal of more than 19 digits is rejected by `ReadValueOrCoefficient`. -/
theorem ReadValueOrCoefficient_long (isValue negative : Bool) (ds rest : List Char)
    (hds : AllDigits ds) (hrest : IsValidDigit rest.head? = false)
    (hneg : negative = false → (ds ++ rest).head? ≠ some '-')
    (col line : Nat) (pe : Bool) (err : List String)
    (hlen : MAX_VALUE_AND_COEFF_LENGTH < ds.length) :
    (ReadValueOrCoefficient ⟨literalText negative ds ++ rest, col, line, pe, err⟩ isValue).1 = 0 ∧
    (ReadValueOrCoefficient ⟨literalText negative ds ++ rest, col, line, pe, err⟩
      isValue).2.parse_error = true := by
  rw [ReadValueOrCoefficient_mk isValue negative ds rest hds hrest hneg]
  obtain ⟨d, hd, hdd⟩ := head_drop_digit hds hlen rest
  have h1 : d ≠ '\n' := digit_ne hdd (by decide)
  have h2 : d ≠ ',' := digit_ne hdd (by decide)
  simp only [hd]
  cases isValue with
  | true =>
    have hc : ((some d != some '\n') = true) := by simpa using h1
    simp only [hc, Bool.true_or, Bool.and_self, if_true]
    constructor <;> first | rfl | trivial
  | false =>
    have hc1 : ((some d != some '\n') = true) := by simpa using h1
    have hc2 : ((some d != some ',') = true) := by simpa using h2
    simp only [hc1, hc2, Bool.false_and, Bool.false_eq_true, if_false, Bool.not_false,
      Bool.and_self, Bool.true_or, if_true]
    constructor <;> first | rfl | trivial

/-- Function `ReadValueOrCoefficient` on a literal of at most 19 digits. -/
theorem ReadValueOrCoefficient_short (isValue negative : Bool) (ds rest : List Char)
    (hds : AllDigits ds) (hrest : IsValidDigit rest.head? = false)
    (hneg : negative = false → (ds ++ rest).head? ≠ some '-')
    (col line : Nat) (pe : Bool) (err : List String)
    (hlen : ds.length ≤ MAX_VALUE_AND_COEFF_LENGTH) :
    ReadValueOrCoefficient ⟨literalText negative ds ++ rest, col, line, pe, err⟩ isValue
      = (let stream : InputStream :=
          ⟨rest, col + (if negative then 1 else 0) + ds.length, line, false, err⟩
         if isValue && (rest.head? != some '\n' || ds.length == 0) then
           (0, reportError stream ("ERROR " ++ toString (line + 1) ++ " WRONG VALUE\n"))
         else if !isValue && ((rest.head? != some ',' && rest.head? != some '\n')
             || ds.length == 0) then
           (0, reportError stream ("ERROR " ++ toString (line + 1) ++ " "
             ++ toString (stream.column_number + 1) ++ "\n"))
         else if ds.length == MAX_VALUE_AND_COEFF_LENGTH
             && unsignedDigitExceeds ds.reverse
                  (if negative then 9223372036854775808 else 9223372036854775807) then
           if isValue then
             (0, reportError stream ("ERROR " ++ toString (line + 1) ++ " WRONG VALUE\n"))
           else
             (0, reportError stream ("ERROR " ++ toString (line + 1) ++ " "
               ++ toString stream.column_number ++ "\n"))
         else
           (if negative then wrapCoeff (wrapCoeff ((decimalValue ds : Nat) : Int) * (-1))
             else wrapCoeff ((decimalValue ds : Nat) : Int), stream)) := by
  rw [ReadValueOrCoefficient_mk isValue negative ds rest hds hrest hneg]
  obtain ⟨h1, h2, h3⟩ := take_drop_short hlen rest
  simp only [h1, h2, h3, coeffDigitExceeds_bound]

theorem length_eq_zero_beq (ds : List Char) : (ds.length == 0) = true ↔ ds = [] := by
  simp [List.length_eq_zero]

/-- When `ReadValueOrCoefficient` accepts a literal of at most 19 digits. -/
theorem ReadValueOrCoefficient_accept_iff (isValue negative : Bool) (ds rest : List Char)
    (hds : AllDigits ds) (hrest : IsValidDigit rest.head? = false)
    (hneg : negative = false → (ds ++ rest).head? ≠ some '-')
    (col line : Nat) (pe : Bool) (err : List String)
    (hlen : ds.length ≤ MAX_VALUE_AND_COEFF_LENGTH) :
    (ReadValueOrCoefficient ⟨literalText negative ds ++ rest, col, line, pe, err⟩
      isValue).2.parse_error = false ↔
    (ds ≠ [] ∧ (rest.head? = some '\n' ∨ (isValue = false ∧ rest.head? = some ',')) ∧
      ¬ (ds.length = MAX_VALUE_AND_COEFF_LENGTH ∧
          unsignedDigitExceeds ds.reverse
            (if negative then 9223372036854775808 else 9223372036854775807) = true)) := by
  rw [ReadValueOrCoefficient_short isValue negative ds rest hds hrest hneg col line pe err hlen]
  simp only []
  have hA : ∀ A B C : Bool, ∀ x y z1 z2 w : Int × InputStream,
      x.2.parse_error = true → y.2.parse_error = true → z1.2.parse_error = true →
      z2.2.parse_error = true → w.2.parse_error = false →
      ((if A = true then x else if B = true then y
          else if C = true then (if isValue = true then z1 else z2) else w).2.parse_error = false
        ↔ A = false ∧ B = false ∧ C = false) := by
    intro A B C x y z1 z2 w hx hy hz1 hz2 hw
    cases A <;> cases B <;> cases C <;> cases isValue <;> simp [hx, hy, hz1, hz2, hw]
  rw [hA _ _ _ _ _ _ _ _ (reportError_parse_error _ _) (reportError_parse_error _ _)
    (reportError_parse_error _ _) (reportError_parse_error _ _) rfl]
  have hl : (ds.length == 0) = true ↔ ds = [] := length_eq_zero_beq ds
  cases isValue with
  | true =>
    simp only [Bool.true_and, Bool.not_true, Bool.false_and, Bool.or_eq_false_iff,
      bne_eq_false_iff_eq, true_and, Bool.true_eq_false, false_and, or_false]
    rw [← Bool.not_eq_true, hl, ← Bool.not_eq_true, Bool.and_eq_true, beq_iff_eq]
    tauto
  | false =>
    simp only [Bool.false_and, Bool.not_false, Bool.true_and, Bool.or_eq_false_iff,
      Bool.and_eq_false_iff, bne_eq_false_iff_eq, true_and]
    generalize unsignedDigitExceeds ds.reverse
      (if negative = true then 9223372036854775808 else 9223372036854775807) = e
    clear hA hl hneg
    cases e <;> simp <;> tauto

theorem literalText_length (negative : Bool) (ds : List Char) :
    (literalText negative ds).length = (if negative then 1 else 0) + ds.length := by
  cases negative
  · simp [literalText]
  · simp [literalText]; omega

/-- A number of at most 18 digits is below both bounds of `poly_coeff_t`, and a
number of 19 digits that passed the bound loop is within its bound. -/
theorem decimalValue_le_coeff_bound (negative : Bool) (ds : List Char) (hds : AllDigits ds)
    (hlen : ds.length ≤ MAX_VALUE_AND_COEFF_LENGTH)
    (hex : ¬ (ds.length = MAX_VALUE_AND_COEFF_LENGTH ∧
          unsignedDigitExceeds ds.reverse
            (if negative then 9223372036854775808 else 9223372036854775807) = true)) :
    decimalValue ds ≤ (if negative then 9223372036854775808 else 9223372036854775807) := by
  by_cases h19 : ds.length = MAX_VALUE_AND_COEFF_LENGTH
  · have hf : unsignedDigitExceeds ds.reverse
        (if negative then 9223372036854775808 else 9223372036854775807) = false := by
      rw [← Bool.not_eq_true]
      exact fun h => hex ⟨h19, h⟩
    have := decimalValue_le_of_not_exceeds ds.reverse _ hf
    rwa [List.reverse_reverse] at this
  · have hlt : ds.length ≤ 18 := by
      unfold MAX_VALUE_AND_COEFF_LENGTH at hlen h19
      omega
    have h1 := decimalValue_lt ds hds
    have h2 : 10 ^ ds.length ≤ 10 ^ 18 := Nat.pow_le_pow_right (by decide) hlt
    have h3 : (10 : Nat) ^ 18 = 1000000000000000000 := by norm_num
    cases negative
    · rw [if_neg Bool.false_ne_true]; omega
    · rw [if_pos rfl]; omega

/-- What `ReadValueOrCoefficient` returns when it accepts: the value of the
literal, which is in the range of `poly_coeff_t`, and the stream right after the
literal. -/
theorem ReadValueOrCoefficient_accepted (isValue negative : Bool) (ds rest : List Char)
    (hds : AllDigits ds) (hrest : IsValidDigit rest.head? = false)
    (hneg : negative = false → (ds ++ rest).head? ≠ some '-')
    (col line : Nat) (pe : Bool) (err : List String)
    (hlen : ds.length ≤ MAX_VALUE_AND_COEFF_LENGTH)
    (hok : (ReadValueOrCoefficient ⟨literalText negative ds ++ rest, col, line, pe, err⟩
      isValue).2.parse_error = false) :
    ReadValueOrCoefficient ⟨literalText negative ds ++ rest, col, line, pe, err⟩ isValue
      = (literalValue negative ds,
          ⟨rest, col + (literalText negative ds).length, line, false, err⟩) ∧
    LONG_MIN ≤ literalValue negative ds ∧ literalValue negative ds ≤ LONG_MAX := by
  have hacc := (ReadValueOrCoefficient_accept_iff isValue negative ds rest hds hrest hneg col line
    pe err hlen).mp hok
  have hval := coeffResult_eq negative ds (decimalValue_le_coeff_bound negative ds hds hlen hacc.2.2)
  refine ⟨?_, hval.2⟩
  rw [ReadValueOrCoefficient_short isValue negative ds rest hds hrest hneg col line pe err hlen]
    at hok ⊢
  simp only [] at hok ⊢
  have hA : ∀ A B C : Bool, ∀ x y z1 z2 w : Int × InputStream,
      x.2.parse_error = true → y.2.parse_error = true → z1.2.parse_error = true →
      z2.2.parse_error = true →
      (if A = true then x else if B = true then y
          else if C = true then (if isValue = true then z1 else z2) else w).2.parse_error = false →
      (if A = true then x else if B = true then y
          else if C = true then (if isValue = true then z1 else z2) else w) = w := by
    intro A B C x y z1 z2 w hx hy hz1 hz2
    cases A <;> cases B <;> cases C <;> cases isValue <;> simp [hx, hy, hz1, hz2]
  rw [hA _ _ _ _ _ _ _ _ (reportError_parse_error _ _) (reportError_parse_error _ _)
    (reportError_parse_error _ _) (reportError_parse_error _ _) hok, hval.1, literalText_length,
    Nat.add_assoc]

theorem head_ne_minus_of_digits {ds : List Char} (hne : ds ≠ []) (hds : AllDigits ds)
    (rest : List Char) : (ds ++ rest).head? ≠ some '-' := by
  cases ds with
  | nil => exact absurd rfl hne
  | cons d ds =>
    rw [allDigits_cons] at hds
    simp only [List.cons_append, List.head?_cons, ne_eq, Option.some.injEq]
    exact digit_ne hds.1 (by decide)

/-- Function `ReadValueOrCoefficient` rejects every literal of more than 19
digits and every literal whose value is outside the range of `poly_coeff_t`. -/
theorem ReadValueOrCoefficient_rejects (isValue negative : Bool) (ds rest : List Char)
    (hds : AllDigits ds) (hrest : IsValidDigit rest.head? = false)
    (hneg : negative = false → (ds ++ rest).head? ≠ some '-')
    (col line : Nat) (pe : Bool) (err : List String)
    (h : MAX_VALUE_AND_COEFF_LENGTH < ds.length ∨ literalValue negative ds < LONG_MIN ∨
      LONG_MAX < literalValue negative ds) :
    (ReadValueOrCoefficient ⟨literalText negative ds ++ rest, col, line, pe, err⟩
      isValue).2.parse_error = true := by
  by_cases hlen : MAX_VALUE_AND_COEFF_LENGTH < ds.length
  · exact (ReadValueOrCoefficient_long isValue negative ds rest hds hrest hneg col line pe err
      hlen).2
  · rcases h with h | h
    · exact absurd h hlen
    · rw [← Bool.not_eq_false]
      intro hok
      have hacc := ReadValueOrCoefficient_accepted isValue negative ds rest hds hrest hneg col
        line pe err (by omega) hok
      omega

/-- Function `ReadValueOrCoefficient` accepts every literal of at most 18
digits that is followed by its terminator. -/
theorem ReadValueOrCoefficient_accepts_short (isValue negative : Bool) (ds rest : List Char)
    (hne : ds ≠ []) (hds : AllDigits ds)
    (hterm : rest.head? = some '\n' ∨ (isValue = false ∧ rest.head? = some ','))
    (col line : Nat) (pe : Bool) (err : List String)
    (hlen : ds.length < MAX_VALUE_AND_COEFF_LENGTH) :
    (ReadValueOrCoefficient ⟨literalText negative ds ++ rest, col, line, pe, err⟩
      isValue).2.parse_error = false := by
  have hrest : IsValidDigit rest.head? = false := by
    rcases hterm with h | ⟨_, h⟩ <;> rw [h] <;> decide
  rw [ReadValueOrCoefficient_accept_iff isValue negative ds rest hds hrest
    (fun _ => head_ne_minus_of_digits hne hds rest) col line pe err (by omega)]
  exact ⟨hne, hterm, fun h => by omega⟩

/-- C25 as stated fails: the literal of twenty zeros has the value 0, which is
in `[LONG_MIN, LONG_MAX]`, and so has the 19-digit literal 1999999999999999999,
yet `ReadPolyCoefficient` and `ReadAtCommandArgument` report a parse error for
both. -/
theorem coefficient_in_range_rejected :
    (AllDigits "00000000000000000000".toList ∧
      LONG_MIN ≤ literalValue false "00000000000000000000".toList ∧
      literalValue false "00000000000000000000".toList ≤ LONG_MAX ∧
      (ReadPolyCoefficient (InputStreamInit "00000000000000000000,".toList)).2.parse_error = true ∧
      (ReadAtCommandArgument
        (InputStreamInit "00000000000000000000\n".toList)).2.parse_error = true) ∧
    (AllDigits "1999999999999999999".toList ∧
      LONG_MIN ≤ literalValue false "1999999999999999999".toList ∧
      literalValue false "1999999999999999999".toList ≤ LONG_MAX ∧
      (ReadPolyCoefficient (InputStreamInit "1999999999999999999,".toList)).2.parse_error = true ∧
      (ReadAtCommandArgument
        (InputStreamInit "1999999999999999999\n".toList)).2.parse_error = true) := by
  decide

/-- C25, amended: for every input made of an optional `-`, one or more digits
and a terminator (`,` or a newline for `ReadPolyCoefficient`, a newline for
`ReadAtCommandArgument`), the reader reports a parse error when the literal has
more than 19 digits or its value is outside `[LONG_MIN, LONG_MAX]`; it accepts
the literal and returns its value when it has at most 18 digits; and whenever it
accepts a literal, the returned value is the value of the literal, which lies in
`[LONG_MIN, LONG_MAX]`. -/
theorem coefficient_range (reader : InputStream → Int × InputStream) (terminators : List Char)
    (hreader : (reader = ReadPolyCoefficient ∧ terminators = [',', '\n']) ∨
      (reader = ReadAtCommandArgument ∧ terminators = ['\n']))
    (stream : InputStream) (negative : Bool) (ds : List Char) (t : Char) (rest : List Char)
    (hin : stream.unread = literalText negative ds ++ t :: rest)
    (hne : ds ≠ []) (hds : AllDigits ds) (ht : t ∈ terminators) :
    ((19 < ds.length ∨ literalValue negative ds < LONG_MIN ∨ LONG_MAX < literalValue negative ds) →
      (reader stream).2.parse_error = true) ∧
    (ds.length ≤ 18 →
      (reader stream).2.parse_error = false ∧ (reader stream).1 = literalValue negative ds) ∧
    ((reader stream).2.parse_error = false →
      (reader stream).1 = literalValue negative ds ∧
        LONG_MIN ≤ literalValue negative ds ∧ literalValue negative ds ≤ LONG_MAX) := by
  obtain ⟨isValue, rfl, hterm⟩ : ∃ isValue, reader = (fun s => ReadValueOrCoefficient s isValue) ∧
      ((t :: rest).head? = some '\n' ∨ (isValue = false ∧ (t :: rest).head? = some ',')) := by
    rcases hreader with ⟨rfl, rfl⟩ | ⟨rfl, rfl⟩
    · refine ⟨false, rfl, ?_⟩
      simp only [List.mem_cons, List.mem_singleton, List.not_mem_nil, or_false] at ht
      rcases ht with rfl | rfl
      · exact Or.inr ⟨rfl, rfl⟩
      · exact Or.inl rfl
    · refine ⟨true, rfl, ?_⟩
      simp only [List.mem_singleton] at ht
      subst ht
      exact Or.inl rfl
  obtain ⟨u, col, line, pe, err⟩ := stream
  have hu : u = literalText negative ds ++ t :: rest := hin
  subst hu
  have hrest : IsValidDigit (t :: rest).head? = false := by
    rcases hterm with h | ⟨_, h⟩ <;> rw [h] <;> decide
  have hneg : negative = false → (ds ++ t :: rest).head? ≠ some '-' :=
    fun _ => head_ne_minus_of_digits hne hds _
  have hacc : (ReadValueOrCoefficient
      ⟨literalText negative ds ++ t :: rest, col, line, pe, err⟩ isValue).2.parse_error = false →
      (ReadValueOrCoefficient
        ⟨literalText negative ds ++ t :: rest, col, line, pe, err⟩ isValue).1
          = literalValue negative ds ∧
        LONG_MIN ≤ literalValue negative ds ∧ literalValue negative ds ≤ LONG_MAX := by
    intro hok
    have hlen : ds.length ≤ MAX_VALUE_AND_COEFF_LENGTH := by
      by_contra hlong
      have := (ReadValueOrCoefficient_long isValue negative ds _ hds hrest hneg col line pe
        err (by omega)).2
      rw [this] at hok
      cases hok
    have hres := ReadValueOrCoefficient_accepted isValue negative ds _ hds hrest hneg col line
      pe err hlen hok
    exact ⟨congrArg Prod.fst hres.1, hres.2⟩
  refine ⟨fun h => ?_, fun hlen => ?_, hacc⟩
  · exact ReadValueOrCoefficient_rejects isValue negative ds _ hds hrest hneg col line pe err h
  · have hok := ReadValueOrCoefficient_accepts_short isValue negative ds _ hne hds hterm col line
      pe err (by unfold MAX_VALUE_AND_COEFF_LENGTH; omega)
    exact ⟨hok, (hacc hok).1⟩

theorem coefficient_range_witness :
    (InputStreamInit "-12,7".toList).unread = literalText true "12".toList ++ ',' :: "7".toList ∧
    "12".toList ≠ [] ∧ AllDigits "12".toList ∧ ',' ∈ [',', '\n'] ∧
    (ReadPolyCoefficient (InputStreamInit "-12,7".toList)).2.parse_error = false ∧
    (ReadPolyCoefficient (InputStreamInit "-12,7".toList)).1 = literalValue true "12".toList :=
  ⟨rfl, by decide, by decide, by decide,
    (coefficient_range ReadPolyCoefficient [',', '\n'] (Or.inl ⟨rfl, rfl⟩)
      (InputStreamInit "-12,7".toList) true "12".toList ',' "7".toList rfl (by decide)
      (by decide) (by decide)).2.1 (by decide)⟩

/-- C26: whenever `ReadPolyCoefficient` or `ReadAtCommandArgument` returns
without the parse-error flag, the stream started with a literal (an optional `-`
and at least one digit, up to the first character that is not a digit), the
returned value is the exact value of that literal and lies in
`[LONG_MIN, LONG_MAX]`; the literal `-9223372036854775808` yields `LONG_MIN`;
and every literal of more than 19 digits and every 19-digit literal whose value
is outside the range is rejected. -/
theorem readers_never_wrap (reader : InputStream → Int × InputStream)
    (hreader : reader = ReadPolyCoefficient ∨ reader = ReadAtCommandArgument)
    (stream : InputStream) :
    ((reader stream).2.parse_error = false →
      ∃ negative ds rest, stream.unread = literalText negative ds ++ rest ∧ ds ≠ [] ∧
        AllDigits ds ∧ IsValidDigit rest.head? = false ∧
        (reader stream).2.unread = rest ∧
        (reader stream).1 = literalValue negative ds ∧
        LONG_MIN ≤ (reader stream).1 ∧ (reader stream).1 ≤ LONG_MAX) ∧
    (∀ rest, stream.unread = "-9223372036854775808".toList ++ '\n' :: rest →
      (reader stream).2.parse_error = false ∧ (reader stream).1 = LONG_MIN) ∧
    (∀ negative ds rest, stream.unread = literalText negative ds ++ rest → AllDigits ds →
      IsValidDigit rest.head? = false →
      (19 < ds.length ∨
        (ds.length = 19 ∧
          (literalValue negative ds < LONG_MIN ∨ LONG_MAX < literalValue negative ds))) →
      (reader stream).2.parse_error = true) := by
  obtain ⟨isValue, rfl⟩ : ∃ isValue, reader = fun s => ReadValueOrCoefficient s isValue := by
    rcases hreader with rfl | rfl
    · exact ⟨false, rfl⟩
    · exact ⟨true, rfl⟩
  obtain ⟨u, col, line, pe, err⟩ := stream
  refine ⟨?_, ?_, ?_⟩
  · intro hok
    obtain ⟨negative, ds, rest, hu, hds, hrest, hneg⟩ := literal_decomposition u
    subst hu
    have hlen : ds.length ≤ MAX_VALUE_AND_COEFF_LENGTH := by
      by_contra hlong
      have := (ReadValueOrCoefficient_long isValue negative ds rest hds hrest hneg col line pe
        err (by omega)).2
      rw [this] at hok
      cases hok
    have hacc := (ReadValueOrCoefficient_accept_iff isValue negative ds rest hds hrest hneg col
      line pe err hlen).mp hok
    have hres := ReadValueOrCoefficient_accepted isValue negative ds rest hds hrest hneg col line
      pe err hlen hok
    refine ⟨negative, ds, rest, rfl, hacc.1, hds, hrest, ?_, ?_, ?_, ?_⟩
    · simp only [hres.1]
    · simp only [hres.1]
    · simp only [hres.1]; exact hres.2.1
    · simp only [hres.1]; exact hres.2.2
  · intro rest hu
    have hu' : u = "-9223372036854775808".toList ++ '\n' :: rest := hu
    subst hu'
    have hds : AllDigits "9223372036854775808".toList := by decide
    have hrest : IsValidDigit ('\n' :: rest).head? = false := rfl
    have hok : (ReadValueOrCoefficient
        ⟨literalText true "9223372036854775808".toList ++ '\n' :: rest, col, line, pe, err⟩
        isValue).2.parse_error = false := by
      rw [ReadValueOrCoefficient_accept_iff isValue true _ _ hds hrest (fun h => by cases h) col
        line pe err (by decide)]
      refine ⟨by decide, Or.inl rfl, ?_⟩
      rintro ⟨_, h⟩
      revert h
      decide
    have hres := ReadValueOrCoefficient_accepted isValue true _ _ hds hrest (fun h => by cases h)
      col line pe err (by decide) hok
    have hval : literalValue true "9223372036854775808".toList = LONG_MIN := by decide
    exact ⟨hok, (congrArg Prod.fst hres.1).trans hval⟩
  · intro negative ds rest hu hds hrest h
    have hu' : u = literalText negative ds ++ rest := hu
    subst hu'
    have hne : ds ≠ [] := by
      intro h0
      subst h0
      simp only [List.length_nil] at h
      omega
    apply ReadValueOrCoefficient_rejects isValue negative ds rest hds hrest
      (fun _ => head_ne_minus_of_digits hne hds rest)
    unfold MAX_VALUE_AND_COEFF_LENGTH
    tauto

theorem readers_never_wrap_witness :
    (ReadPolyCoefficient (InputStreamInit "-12,".toList)).2.parse_error = false ∧
      ∃ negative ds rest, (InputStreamInit "-12,".toList).unread = literalText negative ds ++ rest ∧
        ds ≠ [] ∧ AllDigits ds ∧ IsValidDigit rest.head? = false ∧
        (ReadPolyCoefficient (InputStreamInit "-12,".toList)).2.unread = rest ∧
        (ReadPolyCoefficient (InputStreamInit "-12,".toList)).1 = literalValue negative ds ∧
        LONG_MIN ≤ (ReadPolyCoefficient (InputStreamInit "-12,".toList)).1 ∧
        (ReadPolyCoefficient (InputStreamInit "-12,".toList)).1 ≤ LONG_MAX :=
  ⟨by decide,
    (readers_never_wrap ReadPolyCoefficient (Or.inl rfl) (InputStreamInit "-12,".toList)).1
      (by decide)⟩

/-! ## The reader of the unsigned arguments -/

theorem ReadCharacter_fst (u : List Char) (col line : Nat) (pe : Bool) (err : List String) :
    (ReadCharacter ⟨u, col, line, pe, err⟩).1 = u.head? := by
  cases u with
  | nil => rfl
  | cons c u =>
    by_cases hc : c = '\n'
    · subst hc; rfl
    · rw [ReadCharacter_cons hc]; rfl

theorem ReadCharacter_snd_newline (u : List Char) (col line : Nat) (pe : Bool)
    (err : List String) (h : u.head? = some '\n') :
    (ReadCharacter ⟨u, col, line, pe, err⟩).2 = ⟨u.tail, 0, line + 1, false, err⟩ := by
  cases u with
  | nil => cases h
  | cons c u =>
    simp only [List.head?_cons, Option.some.injEq] at h
    subst h
    rfl

theorem ReadCharacter_snd_other (u : List Char) (col line : Nat) (pe : Bool)
    (err : List String) (h : u.head? ≠ some '\n') :
    (ReadCharacter ⟨u, col, line, pe, err⟩).2.line_number = line ∧
    (ReadCharacter ⟨u, col, line, pe, err⟩).2.stderr = err := by
  cases u with
  | nil => exact ⟨rfl, rfl⟩
  | cons c u =>
    have hc : c ≠ '\n' := by simpa using h
    rw [ReadCharacter_cons hc]
    exact ⟨rfl, rfl⟩

/-- The part of `ReadDegByOrComposeCommandArgument` after the digits `value`
are read, with `u` the characters that follow them: a failure reports the line
of the argument; the argument is accepted exactly when there is a digit, a
newline follows and the bound loop passes; and then the number modulo `2^32` is
returned and the newline is read. -/
theorem unsignedArgument_tail (isDegBy : Bool) (value u : List Char) (col line : Nat)
    (err : List String) (E : Nat × InputStream)
    (hE : E = (let stream : InputStream := ⟨u, col, line, false, err⟩
         let wrong : Bool := value.length == 0 || (ReadCharacter stream).1 != some '\n'
         let stream := if value.length == 0 then stream else (ReadCharacter stream).2
         if wrong then
           if isDegBy then
             (0, reportError stream
               ("ERROR " ++ toString (stream.line_number + 1) ++ " WRONG VARIABLE\n"))
           else
             (0, reportError stream
               ("ERROR " ++ toString (stream.line_number + 1) ++ " WRONG COUNT\n"))
         else if value.length == MAX_VARIABLE_LENGTH
             && unsignedDigitExceeds value.reverse UINT_MAX then
           if isDegBy then
             (0, { stream with
                     stderr := stream.stderr
                       ++ ["ERROR " ++ toString stream.line_number ++ " WRONG VARIABLE\n"],
                     parse_error := true })
           else
             (0, { stream with
                     stderr := stream.stderr
                       ++ ["ERROR " ++ toString stream.line_number ++ " WRONG COUNT\n"],
                     parse_error := true })
         else (decimalValue value % 4294967296, stream))) :
    (E.2.parse_error = true →
      E.1 = 0 ∧ E.2.stderr = err ++ ["ERROR " ++ toString (line + 1)
          ++ (if isDegBy then " WRONG VARIABLE\n" else " WRONG COUNT\n")]) ∧
    (E.2.parse_error = false ↔
      value ≠ [] ∧ u.head? = some '\n' ∧
        ¬ (value.length = MAX_VARIABLE_LENGTH ∧
            unsignedDigitExceeds value.reverse UINT_MAX = true)) ∧
    (E.2.parse_error = false →
      E = (decimalValue value % 4294967296, ⟨u.tail, 0, line + 1, false, err⟩)) := by
  subst hE
  simp only [ReadCharacter_fst]
  by_cases h0 : value = []
  · subst h0
    simp only [List.length_nil, beq_self_eq_true, Bool.true_or, if_true]
    cases isDegBy <;>
      simp [reportError_parse_error, reportError_stderr]
  · have hl : (value.length == 0) = false := by
      rw [← Bool.not_eq_true, beq_iff_eq, List.length_eq_zero]; exact h0
    simp only [hl, Bool.false_or, Bool.false_eq_true, if_false]
    by_cases hn : u.head? = some '\n'
    · have hb : (u.head? != some '\n') = false := by simp [hn]
      rw [ReadCharacter_snd_newline u col line false err hn]
      simp only [hb, Bool.false_eq_true, if_false]
      by_cases hex : value.length = MAX_VARIABLE_LENGTH ∧
            unsignedDigitExceeds value.reverse UINT_MAX = true
      · have hc : (value.length == MAX_VARIABLE_LENGTH
            && unsignedDigitExceeds value.reverse UINT_MAX) = true := by
          rw [Bool.and_eq_true, beq_iff_eq]; exact hex
        simp only [hc, if_true]
        cases isDegBy <;> simp [h0, hn, hex]
      · have hc : (value.length == MAX_VARIABLE_LENGTH
            && unsignedDigitExceeds value.reverse UINT_MAX) = false := by
          rw [← Bool.not_eq_true, Bool.and_eq_true, beq_iff_eq]; exact hex
        simp only [hc, Bool.false_eq_true, if_false]
        simp [h0, hn, hex]
    · have hb : (u.head? != some '\n') = true := by simpa using hn
      obtain ⟨h1, h2⟩ := ReadCharacter_snd_other u col line false err hn
      simp only [hb, if_true]
      cases isDegBy <;>
        simp [reportError_parse_error, reportError_stderr, h1, h2, hn]

/-- A failure of `ReadDegByOrComposeCommandArgument` returns 0 and reports the
line of the argument. -/
theorem ReadDegByOrComposeCommandArgument_rejected (isDegBy : Bool) (stream : InputStream)
    (h : (ReadDegByOrComposeCommandArgument stream isDegBy).2.parse_error = true) :
    (ReadDegByOrComposeCommandArgument stream isDegBy).1 = 0 ∧
    (ReadDegByOrComposeCommandArgument stream isDegBy).2.stderr
      = stream.stderr ++ ["ERROR " ++ toString (stream.line_number + 1)
          ++ (if isDegBy then " WRONG VARIABLE\n" else " WRONG COUNT\n")] := by
  obtain ⟨u, col, line, pe, err⟩ := stream
  obtain ⟨ds, rest, rfl, hds, hrest⟩ := digits_decomposition u
  exact (unsignedArgument_tail isDegBy _ _ _ line err _
    (ReadDegByOrComposeCommandArgument_mk isDegBy ds rest hds hrest col line pe err)).1 h

/-- A number of at most 9 digits is below `10^9`, and a number of 10 digits
that passed the bound loop is at most the reference. -/
theorem decimalValue_le_unsigned_bound (reference : Nat) (href : 999999999 ≤ reference)
    (ds : List Char) (hds : AllDigits ds) (hlen : ds.length ≤ 10)
    (hex : ¬ (ds.length = 10 ∧ unsignedDigitExceeds ds.reverse reference = true)) :
    decimalValue ds ≤ reference := by
  by_cases h10 : ds.length = 10
  · have hf : unsignedDigitExceeds ds.reverse reference = false := by
      rw [← Bool.not_eq_true]
      exact fun h => hex ⟨h10, h⟩
    have := decimalValue_le_of_not_exceeds ds.reverse _ hf
    rwa [List.reverse_reverse] at this
  · have hlt : ds.length ≤ 9 := by omega
    have h1 := decimalValue_lt ds hds
    have h2 : 10 ^ ds.length ≤ 10 ^ 9 := Nat.pow_le_pow_right (by decide) hlt
    have h3 : (10 : Nat) ^ 9 = 1000000000 := by norm_num
    omega

/-- When `ReadDegByOrComposeCommandArgument` accepts, and what it returns. -/
theorem ReadDegByOrComposeCommandArgument_accept_iff (isDegBy : Bool) (ds rest : List Char)
    (hds : AllDigits ds) (hrest : IsValidDigit rest.head? = false)
    (col line : Nat) (pe : Bool) (err : List String) :
    ((ReadDegByOrComposeCommandArgument ⟨ds ++ rest, col, line, pe, err⟩ isDegBy).2.parse_error
        = false ↔
      ds ≠ [] ∧ ds.length ≤ MAX_VARIABLE_LENGTH ∧ rest.head? = some '\n' ∧
        ¬ (ds.length = MAX_VARIABLE_LENGTH ∧
            unsignedDigitExceeds ds.reverse UINT_MAX = true)) ∧
    ((ReadDegByOrComposeCommandArgument ⟨ds ++ rest, col, line, pe, err⟩ isDegBy).2.parse_error
        = false →
      ReadDegByOrComposeCommandArgument ⟨ds ++ rest, col, line, pe, err⟩ isDegBy
        = (decimalValue ds, ⟨rest.tail, 0, line + 1, false, err⟩) ∧
      decimalValue ds ≤ UINT_MAX) := by
  have htail := unsignedArgument_tail isDegBy _ _ _ line err _
    (ReadDegByOrComposeCommandArgument_mk isDegBy ds rest hds hrest col line pe err)
  by_cases hlen : ds.length ≤ MAX_VARIABLE_LENGTH
  · obtain ⟨h1, h2, _⟩ := take_drop_short hlen rest
    rw [h1, h2] at htail
    have hiff : (ReadDegByOrComposeCommandArgument ⟨ds ++ rest, col, line, pe, err⟩
        isDegBy).2.parse_error = false ↔
        ds ≠ [] ∧ ds.length ≤ MAX_VARIABLE_LENGTH ∧ rest.head? = some '\n' ∧
          ¬ (ds.length = MAX_VARIABLE_LENGTH ∧
              unsignedDigitExceeds ds.reverse UINT_MAX = true) := by
      rw [htail.2.1]
      tauto
    refine ⟨hiff, fun hok => ?_⟩
    have hle : decimalValue ds ≤ UINT_MAX :=
      decimalValue_le_unsigned_bound UINT_MAX (by decide) ds hds hlen (hiff.mp hok).2.2.2
    refine ⟨?_, hle⟩
    rw [htail.2.2 hok, Nat.mod_eq_of_lt]
    unfold UINT_MAX at hle
    omega
  · -- more than 10 digits: the character after the tenth digit is a digit
    obtain ⟨d, hd, hdd⟩ := head_drop_digit hds (not_le.mp hlen) rest
    have hdn : d ≠ '\n' := digit_ne hdd (by decide)
    have hno : ¬ (ReadDegByOrComposeCommandArgument ⟨ds ++ rest, col, line, pe, err⟩
        isDegBy).2.parse_error = false := by
      rw [htail.2.1, hd]
      simp only [Option.some.injEq]
      tauto
    exact ⟨⟨fun h => absurd h hno, fun h => absurd h.2.1 hlen⟩, fun h => absurd h hno⟩

/-- C27 as stated fails: the digits `00000000001` (value 1) and `1999999999`
are followed by a newline and their values lie in `[0, UINT_MAX]`, yet
`ReadComposeCommandArgument` and `ReadDegByCommandArgument` set the parse-error
flag for both. -/
theorem unsigned_argument_in_range_rejected :
    (AllDigits "00000000001".toList ∧ decimalValue "00000000001".toList ≤ UINT_MAX ∧
      (ReadComposeCommandArgument (InputStreamInit "00000000001\n".toList)).2.parse_error = true ∧
      (ReadDegByCommandArgument (InputStreamInit "00000000001\n".toList)).2.parse_error = true) ∧
    (AllDigits "1999999999".toList ∧ decimalValue "1999999999".toList ≤ UINT_MAX ∧
      (ReadComposeCommandArgument (InputStreamInit "1999999999\n".toList)).2.parse_error = true ∧
      (ReadDegByCommandArgument (InputStreamInit "1999999999\n".toList)).2.parse_error = true) := by
  decide

/-- C27, amended: `ReadComposeCommandArgument` and `ReadDegByCommandArgument`
return without error only for an input of one to ten digits with a value in
`[0, UINT_MAX]` immediately followed by a newline, and then return that value;
they do so for every input of one to nine digits followed by a newline and for
`4294967295` followed by a newline; and for every input that is not accepted
the parse-error flag is set, 0 is returned and the diagnostic
`ERROR <line> WRONG COUNT` (respectively `WRONG VARIABLE`) with the 1-based line
of the command is printed. -/
theorem unsigned_argument_range (reader : InputStream → Nat × InputStream) (message : String)
    (hreader : (reader = ReadComposeCommandArgument ∧ message = " WRONG COUNT\n") ∨
      (reader = ReadDegByCommandArgument ∧ message = " WRONG VARIABLE\n"))
    (stream : InputStream) :
    ((reader stream).2.parse_error = false →
      ∃ ds rest, stream.unread = ds ++ '\n' :: rest ∧ ds ≠ [] ∧ AllDigits ds ∧
        ds.length ≤ 10 ∧ decimalValue ds ≤ UINT_MAX ∧ (reader stream).1 = decimalValue ds) ∧
    (∀ ds rest, stream.unread = ds ++ '\n' :: rest → ds ≠ [] → AllDigits ds → ds.length ≤ 9 →
      (reader stream).2.parse_error = false ∧ (reader stream).1 = decimalValue ds) ∧
    (∀ rest, stream.unread = "4294967295".toList ++ '\n' :: rest →
      (reader stream).2.parse_error = false ∧ (reader stream).1 = 4294967295) ∧
    ((reader stream).2.parse_error = true →
      (reader stream).1 = 0 ∧
        (reader stream).2.stderr
          = stream.stderr ++ ["ERROR " ++ toString (stream.line_number + 1) ++ message]) := by
  obtain ⟨isDegBy, rfl, rfl⟩ : ∃ isDegBy,
      reader = (fun s => ReadDegByOrComposeCommandArgument s isDegBy) ∧
      message = (if isDegBy then " WRONG VARIABLE\n" else " WRONG COUNT\n") := by
    rcases hreader with ⟨rfl, rfl⟩ | ⟨rfl, rfl⟩
    · exact ⟨false, rfl, rfl⟩
    · exact ⟨true, rfl, rfl⟩
  refine ⟨?_, ?_, ?_, ReadDegByOrComposeCommandArgument_rejected isDegBy stream⟩
  · intro hok
    obtain ⟨u, col, line, pe, err⟩ := stream
    obtain ⟨ds, rest, rfl, hds, hrest⟩ := digits_decomposition u
    obtain ⟨hiff, hres⟩ := ReadDegByOrComposeCommandArgument_accept_iff isDegBy ds rest hds hrest
      col line pe err
    obtain ⟨hne, hlen, hnl, _⟩ := hiff.mp hok
    obtain ⟨heq, hle⟩ := hres hok
    obtain ⟨tl, rfl⟩ : ∃ tl, rest = '\n' :: tl := by
      cases rest with
      | nil => cases hnl
      | cons c tl =>
        simp only [List.head?_cons, Option.some.injEq] at hnl
        exact ⟨tl, by rw [hnl]⟩
    exact ⟨ds, tl, rfl, hne, hds, hlen, hle, congrArg Prod.fst heq⟩
  · intro ds rest hu hne hds hlen
    obtain ⟨u, col, line, pe, err⟩ := stream
    have hu' : u = ds ++ '\n' :: rest := hu
    subst hu'
    obtain ⟨hiff, hres⟩ := ReadDegByOrComposeCommandArgument_accept_iff isDegBy ds
      ('\n' :: rest) hds rfl col line pe err
    have hok := hiff.mpr ⟨hne, by unfold MAX_VARIABLE_LENGTH; omega, rfl,
      fun h => by unfold MAX_VARIABLE_LENGTH at h; omega⟩
    exact ⟨hok, congrArg Prod.fst (hres hok).1⟩
  · intro rest hu
    obtain ⟨u, col, line, pe, err⟩ := stream
    have hu' : u = "4294967295".toList ++ '\n' :: rest := hu
    subst hu'
    obtain ⟨hiff, hres⟩ := ReadDegByOrComposeCommandArgument_accept_iff isDegBy
      "4294967295".toList ('\n' :: rest) (by decide) rfl col line pe err
    have hok := hiff.mpr ⟨by decide, by decide, rfl, by decide⟩
    have hval : decimalValue "4294967295".toList = 4294967295 := by decide
    exact ⟨hok, (congrArg Prod.fst (hres hok).1).trans hval⟩

theorem unsigned_argument_range_witness :
    (ReadComposeCommandArgument (InputStreamInit "7\n4294967296\n".toList)).2.parse_error = false ∧
    (ReadComposeCommandArgument (InputStreamInit "7\n4294967296\n".toList)).1 = 7 ∧
    (ReadComposeCommandArgument
      (ReadComposeCommandArgument (InputStreamInit "7\n4294967296\n".toList)).2).2.parse_error
        = true ∧
    (ReadComposeCommandArgument
      (ReadComposeCommandArgument (InputStreamInit "7\n4294967296\n".toList)).2).2.stderr
        = ["ERROR 2 WRONG COUNT\n"] :=
  ⟨by decide, by decide, by decide,
    ((unsigned_argument_range ReadComposeCommandArgument " WRONG COUNT\n" (Or.inl ⟨rfl, rfl⟩)
      (ReadComposeCommandArgument (InputStreamInit "7\n4294967296\n".toList)).2).2.2.2
        (by decide)).2⟩

/-! ## The reader of the exponents -/

/-- The part of `ReadExponent` after the sign and the digits `value` are read:
the exponent is accepted exactly when a `-` is followed by the single digit 0,
there is a digit and the bound loop passes; and then the number is returned and
the stream stays right after the digits. -/
theorem exponent_tail (negative : Bool) (value : List Char) (stream : InputStream)
    (hstream : stream.parse_error = false) (m1 m2 m3 : String) (E : Nat × InputStream)
    (hE : E = (if negative && (value.length != 1 || value.head? != some '0') then
           (0, reportError stream m1)
         else if value.length == 0 then (0, reportError stream m2)
         else if value.length == MAX_EXPONENT_LENGTH
             && unsignedDigitExceeds value.reverse INT_MAX then
           (0, reportError stream m3)
         else (decimalValue value, stream))) :
    (E.2.parse_error = false ↔
      (negative = true → value = ['0']) ∧ value ≠ [] ∧
        ¬ (value.length = MAX_EXPONENT_LENGTH ∧
            unsignedDigitExceeds value.reverse INT_MAX = true)) ∧
    (E.2.parse_error = false → E = (decimalValue value, stream)) ∧
    (E.2.parse_error = true → E.1 = 0) := by
  subst hE
  have hsingle : (value.length != 1 || value.head? != some '0') = false ↔ value = ['0'] := by
    cases value with
    | nil => simp
    | cons a tl =>
      cases tl with
      | nil => simp
      | cons b tl => simp
  have hA : ∀ A B C : Bool, ∀ x y z w : Nat × InputStream,
      x.2.parse_error = true → y.2.parse_error = true → z.2.parse_error = true →
      w.2.parse_error = false → x.1 = 0 → y.1 = 0 → z.1 = 0 →
      (((if A = true then x else if B = true then y else if C = true then z else w).2.parse_error
          = false ↔ A = false ∧ B = false ∧ C = false) ∧
       ((if A = true then x else if B = true then y else if C = true then z else w).2.parse_error
          = false → (if A = true then x else if B = true then y else if C = true then z else w)
            = w) ∧
       ((if A = true then x else if B = true then y else if C = true then z else w).2.parse_error
          = true → (if A = true then x else if B = true then y else if C = true then z else w).1
            = 0)) := by
    intro A B C x y z w hx hy hz hw hx1 hy1 hz1
    cases A <;> cases B <;> cases C <;> simp [hx, hy, hz, hw, hx1, hy1, hz1]
  obtain ⟨h1, h2, h3⟩ := hA (negative && (value.length != 1 || value.head? != some '0'))
    (value.length == 0)
    (value.length == MAX_EXPONENT_LENGTH && unsignedDigitExceeds value.reverse INT_MAX)
    (0, reportError stream m1) (0, reportError stream m2) (0, reportError stream m3)
    (decimalValue value, stream) (reportError_parse_error _ _) (reportError_parse_error _ _)
    (reportError_parse_error _ _) hstream rfl rfl rfl
  refine ⟨?_, h2, h3⟩
  rw [h1]
  have hl : (value.length == 0) = false ↔ value ≠ [] := by
    rw [← Bool.not_eq_true, beq_iff_eq, List.length_eq_zero]
  have hc : (value.length == MAX_EXPONENT_LENGTH
      && unsignedDigitExceeds value.reverse INT_MAX) = false ↔
      ¬ (value.length = MAX_EXPONENT_LENGTH ∧
          unsignedDigitExceeds value.reverse INT_MAX = true) := by
    rw [← Bool.not_eq_true, Bool.and_eq_true, beq_iff_eq]
  rw [hl, hc]
  clear h1 h2 h3 hA
  cases negative with
  | true =>
    rw [Bool.true_and, hsingle]
    constructor
    · rintro ⟨a, b, c⟩
      exact ⟨fun _ => a, b, c⟩
    · rintro ⟨a, b, c⟩
      exact ⟨a rfl, b, c⟩
  | false =>
    rw [Bool.false_and]
    constructor
    · rintro ⟨_, b, c⟩
      exact ⟨fun h => Bool.noConfusion h, b, c⟩
    · rintro ⟨_, b, c⟩
      exact ⟨rfl, b, c⟩

/-- When `ReadExponent` accepts, and what it returns, in terms of the digits
that the array holds. -/
theorem ReadExponent_accept (negative : Bool) (ds rest : List Char)
    (hds : AllDigits ds) (hrest : IsValidDigit rest.head? = false)
    (hneg : negative = false → (ds ++ rest).head? ≠ some '-')
    (col line : Nat) (pe : Bool) (err : List String) :
    ((ReadExponent ⟨literalText negative ds ++ rest, col, line, pe, err⟩).2.parse_error = false ↔
      (negative = true → ds.take MAX_EXPONENT_LENGTH = ['0']) ∧
        ds.take MAX_EXPONENT_LENGTH ≠ [] ∧
        ¬ ((ds.take MAX_EXPONENT_LENGTH).length = MAX_EXPONENT_LENGTH ∧
            unsignedDigitExceeds (ds.take MAX_EXPONENT_LENGTH).reverse INT_MAX = true)) ∧
    ((ReadExponent ⟨literalText negative ds ++ rest, col, line, pe, err⟩).2.parse_error = false →
      ReadExponent ⟨literalText negative ds ++ rest, col, line, pe, err⟩
        = (decimalValue (ds.take MAX_EXPONENT_LENGTH),
            ⟨ds.drop MAX_EXPONENT_LENGTH ++ rest,
              col + (if negative then 1 else 0) + min MAX_EXPONENT_LENGTH ds.length,
              line, false, err⟩)) ∧
    ((ReadExponent ⟨literalText negative ds ++ rest, col, line, pe, err⟩).2.parse_error = true →
      (ReadExponent ⟨literalText negative ds ++ rest, col, line, pe, err⟩).1 = 0) :=
  exponent_tail negative _ _ rfl _ _ _ _
    (ReadExponent_mk negative ds rest hds hrest hneg col line pe err)

/-- Function `ReadExponent` on a literal of at most 10 digits: when it accepts
and what it returns. -/
theorem ReadExponent_short (negative : Bool) (ds rest : List Char)
    (hds : AllDigits ds) (hrest : IsValidDigit rest.head? = false)
    (hneg : negative = false → (ds ++ rest).head? ≠ some '-')
    (col line : Nat) (pe : Bool) (err : List String)
    (hlen : ds.length ≤ MAX_EXPONENT_LENGTH) :
    ((ReadExponent ⟨literalText negative ds ++ rest, col, line, pe, err⟩).2.parse_error = false ↔
      (negative = true → ds = ['0']) ∧ ds ≠ [] ∧
        ¬ (ds.length = MAX_EXPONENT_LENGTH ∧
            unsignedDigitExceeds ds.reverse INT_MAX = true)) ∧
    ((ReadExponent ⟨literalText negative ds ++ rest, col, line, pe, err⟩).2.parse_error = false →
      ReadExponent ⟨literalText negative ds ++ rest, col, line, pe, err⟩
        = (decimalValue ds, ⟨rest, col + (literalText negative ds).length, line, false, err⟩) ∧
      decimalValue ds ≤ INT_MAX) := by
  obtain ⟨hiff, hres, _⟩ := ReadExponent_accept negative ds rest hds hrest hneg col line pe err
  obtain ⟨h1, h2, h3⟩ := take_drop_short hlen rest
  rw [h1] at hiff hres
  rw [h2, h3] at hres
  refine ⟨hiff, fun hok => ⟨?_, ?_⟩⟩
  · rw [hres hok, literalText_length, Nat.add_assoc]
  · exact decimalValue_le_unsigned_bound INT_MAX (by decide) ds hds hlen (hiff.mp hok).2.2

/-- C28 as stated fails: for the eleven digits `10000000000`, a value above
`INT_MAX`, `ReadExponent` reports no error (it returns the value of the first
ten digits and leaves the eleventh to its caller), and for `1999999999`, a value
in `[0, INT_MAX]`, it reports a parse error. -/
theorem exponent_range_fails :
    (AllDigits "10000000000".toList ∧ INT_MAX < decimalValue "10000000000".toList ∧
      (ReadExponent (InputStreamInit "10000000000)".toList)).2.parse_error = false ∧
      (ReadExponent (InputStreamInit "10000000000)".toList)).1 = 1000000000 ∧
      (ReadExponent (InputStreamInit "10000000000)".toList)).2.unread = "0)".toList) ∧
    (AllDigits "1999999999".toList ∧ decimalValue "1999999999".toList ≤ INT_MAX ∧
      (ReadExponent (InputStreamInit "1999999999)".toList)).2.parse_error = true) := by
  decide

/-- C28, amended: for every input made of one to ten digits (no sign) followed
by `)`, `ReadExponent` reports a parse error when the value of the literal is
greater than `INT_MAX`; it accepts the literal and returns its value when it has
at most nine digits; and whenever it accepts the literal, the returned value is
the value of the literal, which lies in `[0, INT_MAX]`. -/
theorem exponent_range (stream : InputStream) (ds rest : List Char)
    (hin : stream.unread = ds ++ ')' :: rest) (hne : ds ≠ []) (hds : AllDigits ds)
    (hlen : ds.length ≤ 10) :
    (INT_MAX < decimalValue ds → (ReadExponent stream).2.parse_error = true) ∧
    (ds.length ≤ 9 →
      (ReadExponent stream).2.parse_error = false ∧ (ReadExponent stream).1 = decimalValue ds) ∧
    ((ReadExponent stream).2.parse_error = false →
      (ReadExponent stream).1 = decimalValue ds ∧ decimalValue ds ≤ INT_MAX) := by
  obtain ⟨u, col, line, pe, err⟩ := stream
  have hu : u = literalText false ds ++ ')' :: rest := hin
  subst hu
  obtain ⟨hiff, hres⟩ := ReadExponent_short false ds (')' :: rest) hds rfl
    (fun _ => head_ne_minus_of_digits hne hds _) col line pe err hlen
  have hacc : (ReadExponent ⟨literalText false ds ++ ')' :: rest, col, line, pe, err⟩).2.parse_error
      = false →
      (ReadExponent ⟨literalText false ds ++ ')' :: rest, col, line, pe, err⟩).1 = decimalValue ds
        ∧ decimalValue ds ≤ INT_MAX :=
    fun hok => ⟨congrArg Prod.fst (hres hok).1, (hres hok).2⟩
  refine ⟨fun hgt => ?_, fun h9 => ?_, hacc⟩
  · rw [← Bool.not_eq_false]
    intro hok
    have := (hacc hok).2
    omega
  · have hok := hiff.mpr ⟨fun h => Bool.noConfusion h, hne,
      fun h => by unfold MAX_EXPONENT_LENGTH at h; omega⟩
    exact ⟨hok, (hacc hok).1⟩

theorem exponent_range_witness :
    (InputStreamInit "2147483647)+".toList).unread = "2147483647".toList ++ ')' :: "+".toList ∧
    "2147483647".toList ≠ [] ∧ AllDigits "2147483647".toList ∧
    "2147483647".toList.length ≤ 10 ∧
    (ReadExponent (InputStreamInit "2147483647)+".toList)).2.parse_error = false ∧
    (ReadExponent (InputStreamInit "2147483647)+".toList)).1 = decimalValue "2147483647".toList ∧
    decimalValue "2147483647".toList ≤ INT_MAX :=
  ⟨rfl, by decide, by decide, by decide, by decide,
    (exponent_range (InputStreamInit "2147483647)+".toList) "2147483647".toList "+".toList rfl
      (by decide) (by decide) (by decide)).2.2 (by decide)⟩

/-- C29: when the exponent text starts with `-`, `ReadExponent` succeeds exactly
when the digits that follow are the single digit 0; it then returns 0, and in
every other case the parse-error flag is set. -/
theorem negative_zero_exponent (stream : InputStream) (ds rest : List Char)
    (hin : stream.unread = '-' :: ds ++ rest) (hds : AllDigits ds)
    (hrest : IsValidDigit rest.head? = false) :
    ((ReadExponent stream).2.parse_error = false ↔ ds = ['0']) ∧
    (ds = ['0'] → (ReadExponent stream).1 = 0) ∧
    (ds ≠ ['0'] → (ReadExponent stream).2.parse_error = true) := by
  obtain ⟨u, col, line, pe, err⟩ := stream
  have hu : u = literalText true ds ++ rest := hin
  subst hu
  obtain ⟨hiff, hres, _⟩ := ReadExponent_accept true ds rest hds hrest
    (fun h => Bool.noConfusion h) col line pe err
  have htake : ds.take MAX_EXPONENT_LENGTH = ['0'] ↔ ds = ['0'] := by
    constructor
    · intro h
      have hl := congrArg List.length h
      rw [List.length_take, List.length_singleton] at hl
      have hle : ds.length ≤ MAX_EXPONENT_LENGTH := by
        unfold MAX_EXPONENT_LENGTH at hl ⊢
        omega
      rwa [List.take_of_length_le hle] at h
    · intro h
      rw [h]
      rfl
  have hmain : (ReadExponent ⟨literalText true ds ++ rest, col, line, pe, err⟩).2.parse_error
      = false ↔ ds = ['0'] := by
    rw [hiff, htake]
    constructor
    · intro h
      exact h.1 rfl
    · intro h
      subst h
      exact ⟨fun _ => rfl, by decide, by decide⟩
  refine ⟨hmain, fun h => ?_, fun h => ?_⟩
  · have hok := hmain.mpr h
    rw [hres hok, htake.mpr h]
    rfl
  · rw [← Bool.not_eq_false]
    exact fun hok => h (hmain.mp hok)

theorem negative_zero_exponent_witness :
    (InputStreamInit "-0)".toList).unread = '-' :: "0".toList ++ ")".toList ∧
    AllDigits "0".toList ∧ IsValidDigit (")".toList).head? = false ∧
    ((ReadExponent (InputStreamInit "-0)".toList)).2.parse_error = false ↔ "0".toList = ['0']) ∧
    (ReadExponent (InputStreamInit "-0)".toList)).1 = 0 ∧
    (ReadExponent (InputStreamInit "-01)".toList)).2.parse_error = true :=
  ⟨rfl, by decide, by decide,
    (negative_zero_exponent (InputStreamInit "-0)".toList) "0".toList ")".toList rfl (by decide)
      (by decide)).1, by decide, by decide⟩

/-! ## `PolyPrint` -/

theorem PolyPrintWithConstant_nil (c constant : Int) :
    PolyPrintWithConstant (Poly.mk c []) constant = toString (wrapCoeff (constant + c)) := by
  simp [PolyPrintWithConstant]

theorem PolyPrintWithConstant_cons (c constant : Int) (m : Mono) (rest : List Mono) :
    PolyPrintWithConstant (Poly.mk c (m :: rest)) constant
      = (if wrapCoeff (constant + c) ≠ 0 ∧ m.2 ≠ 0 then
            "(" ++ toString (wrapCoeff (constant + c)) ++ ",0)+" else "")
          ++ PolyPrintLoop (m :: rest) (wrapCoeff (constant + c)) := by
  obtain ⟨p, e⟩ := m
  simp [PolyPrintWithConstant]

theorem PolyPrintLoop_nil (constant : Int) : PolyPrintLoop [] constant = "" := by
  simp [PolyPrintLoop]

theorem PolyPrintLoop_cons (m : Mono) (rest : List Mono) (constant : Int) :
    PolyPrintLoop (m :: rest) constant
      = "(" ++ (if m.2 = 0 then PolyPrintWithConstant m.1 constant
            else PolyPrintWithConstant m.1 0)
          ++ "," ++ toString m.2 ++ ")" ++ (if rest.isEmpty then "" else "+")
          ++ PolyPrintLoop rest constant := by
  obtain ⟨p, e⟩ := m
  simp [PolyPrintLoop]

/-- The constant handed down by `PolyPrintWithConstant` acts as if it were
added to the constant of the polynomial. -/
theorem PolyPrintWithConstant_eq_PolyPrint (c constant : Int) (ms : List Mono) :
    PolyPrintWithConstant (Poly.mk c ms) constant
      = PolyPrint (Poly.mk (wrapCoeff (constant + c)) ms) := by
  have hw : wrapCoeff (0 + wrapCoeff (constant + c)) = wrapCoeff (constant + c) := by
    rw [Int.zero_add, wrapCoeff_wrapCoeff]
  unfold PolyPrint
  cases ms with
  | nil => rw [PolyPrintWithConstant_nil, PolyPrintWithConstant_nil, hw]
  | cons m rest => rw [PolyPrintWithConstant_cons, PolyPrintWithConstant_cons, hw]

/-- The loop of `PolyPrintWithConstant` prints the terms joined by `+`. -/
theorem PolyPrintLoop_eq_joinPlus (constant : Int) (ms : List Mono) :
    PolyPrintLoop ms constant
      = joinPlus (ms.map (fun m =>
          "(" ++ (if m.2 = 0 then PolyPrintWithConstant m.1 constant
            else PolyPrintWithConstant m.1 0) ++ "," ++ toString m.2 ++ ")")) := by
  induction ms with
  | nil => rw [PolyPrintLoop_nil]; rfl
  | cons m rest ih =>
    rw [PolyPrintLoop_cons, ih]
    cases rest with
    | nil =>
      simp only [List.isEmpty_nil, if_true, List.map_nil, List.map_cons, joinPlus,
        String.append_empty]
    | cons m2 rest =>
      simp only [List.isEmpty_cons, Bool.false_eq_true, if_false, List.map_cons, joinPlus]

/-- C24 as stated fails: the polynomial read from `((3,0)+(1,1),0)`, with the
constant 3 and one term of exponent 0, is printed as `((3,0)+(1,1),0)`, while
the rendering described by the claim is `((1,1),0)`, which loses the constant. -/
theorem PolyPrint_differs_from_claimed_rendering :
    (ReadPolynomial (InputStreamInit "((3,0)+(1,1),0)\n".toList)).1
      = Poly.mk 3 [(Poly.mk 0 [(Poly.mk 1 [], 1)], 0)] ∧
    Canonical (Poly.mk 3 [(Poly.mk 0 [(Poly.mk 1 [], 1)], 0)]) ∧
    PolyPrint (Poly.mk 3 [(Poly.mk 0 [(Poly.mk 1 [], 1)], 0)]) = "((3,0)+(1,1),0)" ∧
    renderClaimed (Poly.mk 3 [(Poly.mk 0 [(Poly.mk 1 [], 1)], 0)]) = "((1,1),0)" ∧
    PolyPrint (Poly.mk 3 [(Poly.mk 0 [(Poly.mk 1 [], 1)], 0)])
      ≠ renderClaimed (Poly.mk 3 [(Poly.mk 0 [(Poly.mk 1 [], 1)], 0)]) :=
  ⟨rfl, by decide, rfl, rfl, by decide⟩

/-- C24, amended: a canonical polynomial with no terms prints exactly its
constant in decimal; otherwise the output is the terms in ascending exponent
order, each as `(`, the rendering of the coefficient, `,`, the exponent and `)`,
joined by `+`, where the coefficient of a term with exponent 0 is rendered with
the constant of the polynomial as its constant, and the output is preceded by
`(constant,0)+` exactly when the constant is not 0 and the exponent of the first
term is not 0. The polynomial read from `(1,2)+(3,0)` prints as `(3,0)+(1,2)`. -/
theorem PolyPrint_renders (p : Poly) (hp : Canonical p) :
    (p.first_mono = [] → PolyPrint p = toString p.constant) ∧
    (∀ m rest, p.first_mono = m :: rest →
      PolyPrint p
        = (if p.constant ≠ 0 ∧ m.2 ≠ 0 then "(" ++ toString p.constant ++ ",0)+" else "")
          ++ joinPlus (p.first_mono.map (fun t =>
              "(" ++ PolyPrint (if t.2 = 0 then Poly.mk p.constant t.1.first_mono else t.1)
                ++ "," ++ toString t.2 ++ ")"))) ∧
    ExpsAscending p.first_mono ∧
    PolyPrint (ReadPolynomial (InputStreamInit "(1,2)+(3,0)\n".toList)).1 = "(3,0)+(1,2)" := by
  cases p with
  | mk c ms =>
    obtain ⟨hc, hasc, hms⟩ := (canonical_mk c ms).mp hp
    have hw : wrapCoeff (0 + c) = c := by
      rw [Int.zero_add]; exact wrapCoeff_of_inRange hc
    refine ⟨?_, ?_, hasc, rfl⟩
    · intro h
      simp only [first_mono_mk] at h
      subst h
      unfold PolyPrint
      rw [PolyPrintWithConstant_nil, hw]
      rfl
    · intro m rest h
      simp only [first_mono_mk] at h
      subst h
      simp only [constant_mk, first_mono_mk]
      unfold PolyPrint
      rw [PolyPrintWithConstant_cons, hw, PolyPrintLoop_eq_joinPlus]
      congr 2
      apply List.map_congr_left
      intro t ht
      congr 4
      by_cases h0 : t.2 = 0
      · rw [if_pos h0, if_pos h0]
        have htc : t.1.constant = 0 := (hms t ht).2.2 h0
        have := PolyPrintWithConstant_eq_PolyPrint t.1.constant c t.1.first_mono
        rw [Poly.eta, htc, Int.add_zero, wrapCoeff_of_inRange hc] at this
        exact this
      · rw [if_neg h0, if_neg h0]

theorem PolyPrint_renders_witness :
    Canonical (Poly.mk 3 [(Poly.mk 0 [(Poly.mk 1 [], 1)], 0), (Poly.mk 2 [], 5)]) ∧
    PolyPrint (Poly.mk 3 [(Poly.mk 0 [(Poly.mk 1 [], 1)], 0), (Poly.mk 2 [], 5)])
      = "((3,0)+(1,1),0)+(2,5)" ∧
    ExpsAscending
      (Poly.mk 3 [(Poly.mk 0 [(Poly.mk 1 [], 1)], 0), (Poly.mk 2 [], 5)]).first_mono :=
  ⟨by decide, rfl,
    (PolyPrint_renders (Poly.mk 3 [(Poly.mk 0 [(Poly.mk 1 [], 1)], 0), (Poly.mk 2 [], 5)])
      (by decide)).2.2.1⟩

section RoundTrip

set_option maxRecDepth 100000

/-- C23 fails on the code: the constant polynomial 1999999999999999999 is
canonical, its coefficient lies in `[LONG_MIN, LONG_MAX]`, and it is the sum of
the polynomials read from `1000000000000000000` and `999999999999999999`;
`PolyPrint` prints it as `1999999999999999999`, and `ReadPolynomial` applied to
that text and a newline sets the parse-error flag, prints `ERROR 1 19` and
returns the zero polynomial, which is not `PolyIsEq` to it. -/
theorem round_trip_fails_on_in_range_coefficient :
    Canonical (PolyFromCoeff 1999999999999999999) ∧
    LONG_MIN ≤ 1999999999999999999 ∧ (1999999999999999999 : Int) ≤ LONG_MAX ∧
    (ReadPolynomial (InputStreamInit "1000000000000000000\n".toList)).2.parse_error = false ∧
    (ReadPolynomial (InputStreamInit "999999999999999999\n".toList)).2.parse_error = false ∧
    PolyAdd (ReadPolynomial (InputStreamInit "1000000000000000000\n".toList)).1
        (ReadPolynomial (InputStreamInit "999999999999999999\n".toList)).1
      = PolyFromCoeff 1999999999999999999 ∧
    PolyPrint (PolyFromCoeff 1999999999999999999) = "1999999999999999999" ∧
    (ReadPolynomial (InputStreamInit
      ((PolyPrint (PolyFromCoeff 1999999999999999999)).toList ++ ['\n']))).2.parse_error = true ∧
    (ReadPolynomial (InputStreamInit
      ((PolyPrint (PolyFromCoeff 1999999999999999999)).toList ++ ['\n']))).2.stderr
        = ["ERROR 1 19\n"] ∧
    (ReadPolynomial (InputStreamInit
      ((PolyPrint (PolyFromCoeff 1999999999999999999)).toList ++ ['\n']))).1 = PolyZero ∧
    PolyIsEq (ReadPolynomial (InputStreamInit
      ((PolyPrint (PolyFromCoeff 1999999999999999999)).toList ++ ['\n']))).1
        (PolyFromCoeff 1999999999999999999) = false :=
  ⟨by decide, by decide, by decide, rfl, rfl, rfl, rfl, rfl, rfl, rfl, rfl⟩

end RoundTrip

/-! ## One round of the loop of `ReadPolynomial` -/

/-- At a newline the loop is left: the line is accepted when one accumulator is
on the stack and no monomial is expected. -/
theorem ReadPolynomialLoop_newline (fuel : Nat) (r : List Char) (col line : Nat) (pe : Bool)
    (err : List String) (e : Bool) (top : List Mono) (below : List (List Mono)) :
    ReadPolynomialLoop (fuel + 1) ⟨'\n' :: r, col, line, pe, err⟩ e top below
      = if below.length = 0 ∧ e = false then
          (CollapseMonoStackIntoAPoly top, ⟨r, 0, line + 1, false, err⟩)
        else parsePolyFail ⟨'\n' :: r, col, line, false, err⟩ := by
  rw [ReadPolynomialLoop]
  simp only [PeekCharacter_mk, List.head?_cons, beq_self_eq_true, if_true]
  by_cases h : below.length = 0 ∧ e = false
  · rw [if_pos h]
    obtain ⟨h1, rfl⟩ := h
    simp [h1, ReadCharacter_newline]
  · rw [if_neg h]
    have : (below.length + 1 == 1 && e == false) = false := by
      rw [← Bool.not_eq_true, Bool.and_eq_true, beq_iff_eq, beq_iff_eq]
      intro hh
      exact h ⟨by omega, hh.2⟩
    rw [this]
    rfl

/-- At `(` a new accumulator is pushed, and a number or `(` must follow. -/
theorem ReadPolynomialLoop_open (fuel : Nat) (r : List Char) (col line : Nat) (pe : Bool)
    (err : List String) (e : Bool) (top : List Mono) (below : List (List Mono)) :
    ReadPolynomialLoop (fuel + 1) ⟨'(' :: r, col, line, pe, err⟩ e top below
      = if IsValidNumberCharacter r.head? = true ∨ r.head? = some '(' then
          ReadPolynomialLoop fuel ⟨r, col + 1, line, false, err⟩ false [] (top :: below)
        else parsePolyFail ⟨r, col + 1, line, false, err⟩ := by
  rw [ReadPolynomialLoop]
  have h1 : ((some '(' : Option Char) == some '\n') = false := by decide
  simp only [PeekCharacter_mk, List.head?_cons, h1, Bool.false_eq_true, if_false,
    beq_self_eq_true, if_true, ReadCharacter_cons (show '(' ≠ '\n' by decide)]
  by_cases h : IsValidNumberCharacter r.head? = true ∨ r.head? = some '('
  · rw [if_pos h]
    have : (IsValidNumberCharacter r.head? || r.head? == some '(') = true := by
      rw [Bool.or_eq_true, beq_iff_eq]; exact h
    simp [this]
  · rw [if_neg h]
    have : (IsValidNumberCharacter r.head? || r.head? == some '(') = false := by
      rw [← Bool.not_eq_true, Bool.or_eq_true, beq_iff_eq]; exact h
    simp [this]

theorem numberCharacter_ne {c : Option Char} (h : IsValidNumberCharacter c = true) {k : Char}
    (hk : IsValidNumberCharacter (some k) = false) : (c == some k) = false := by
  rw [← Bool.not_eq_true, beq_iff_eq]
  rintro rfl
  rw [h] at hk
  cases hk

/-- At the start of a number, when no monomial is expected, a coefficient is
read and pushed as a monomial of exponent 0 unless it is 0. -/
theorem ReadPolynomialLoop_coefficient (fuel : Nat) (u : List Char) (col line : Nat) (pe : Bool)
    (err : List String) (top : List Mono) (below : List (List Mono))
    (hu : IsValidNumberCharacter u.head? = true) :
    ReadPolynomialLoop (fuel + 1) ⟨u, col, line, pe, err⟩ false top below
      = if (ReadPolyCoefficient ⟨u, col, line, false, err⟩).2.parse_error = true then
          (PolyZero, (ReadPolyCoefficient ⟨u, col, line, false, err⟩).2)
        else if (ReadPolyCoefficient ⟨u, col, line, false, err⟩).1 ≠ 0 then
          ReadPolynomialLoop fuel (ReadPolyCoefficient ⟨u, col, line, false, err⟩).2 false
            (MonoFromPoly (PolyFromCoeff (ReadPolyCoefficient ⟨u, col, line, false, err⟩).1) 0
              :: top) below
        else
          ReadPolynomialLoop fuel (ReadPolyCoefficient ⟨u, col, line, false, err⟩).2 false top
            below := by
  rw [ReadPolynomialLoop]
  have h1 := numberCharacter_ne hu (k := '\n') (by decide)
  have h2 := numberCharacter_ne hu (k := '(') (by decide)
  simp only [PeekCharacter_mk, h1, h2, hu, Bool.false_eq_true, if_false, beq_self_eq_true,
    Bool.and_self, if_true]
  by_cases hp : (ReadPolyCoefficient ⟨u, col, line, false, err⟩).2.parse_error = true
  · simp only [hp, if_true]
  · simp only [hp, Bool.false_eq_true, if_false]
    by_cases h0 : (ReadPolyCoefficient ⟨u, col, line, false, err⟩).1 = 0
    · simp [h0]
    · simp [h0]

/-- When a monomial is expected, everything but `(` and a newline is an error. -/
theorem ReadPolynomialLoop_expecting (fuel : Nat) (u : List Char) (col line : Nat) (pe : Bool)
    (err : List String) (top : List Mono) (below : List (List Mono))
    (h1 : u.head? ≠ some '\n') (h2 : u.head? ≠ some '(') :
    ReadPolynomialLoop (fuel + 1) ⟨u, col, line, pe, err⟩ true top below
      = parsePolyFail ⟨u, col, line, false, err⟩ := by
  rw [ReadPolynomialLoop]
  have h1' : (u.head? == some '\n') = false := by
    rw [← Bool.not_eq_true, beq_iff_eq]; exact h1
  have h2' : (u.head? == some '(') = false := by
    rw [← Bool.not_eq_true, beq_iff_eq]; exact h2
  simp [PeekCharacter_mk, h1', h2']

/-- A `,` with one accumulator on the stack is an error. -/
theorem ReadPolynomialLoop_comma_outside (fuel : Nat) (r : List Char) (col line : Nat) (pe : Bool)
    (err : List String) (e : Bool) (top : List Mono) :
    ReadPolynomialLoop (fuel + 1) ⟨',' :: r, col, line, pe, err⟩ e top []
      = parsePolyFail ⟨',' :: r, col, line, false, err⟩ := by
  rw [ReadPolynomialLoop]
  have h1 : ((some ',' : Option Char) == some '\n') = false := by decide
  have h2 : ((some ',' : Option Char) == some '(') = false := by decide
  have h3 : IsValidNumberCharacter (some ',') = false := by decide
  simp [PeekCharacter_mk, h1, h2, h3]

/-- At `,` inside a parenthesis an exponent is read; an error of `ReadExponent`
ends the reading. -/
theorem ReadPolynomialLoop_comma_rejected (fuel : Nat) (r : List Char) (col line : Nat)
    (pe : Bool) (err : List String) (top next : List Mono) (below : List (List Mono))
    (hRE : (ReadExponent ⟨r, col + 1, line, false, err⟩).2.parse_error = true) :
    ReadPolynomialLoop (fuel + 1) ⟨',' :: r, col, line, pe, err⟩ false top (next :: below)
      = (PolyZero, (ReadExponent ⟨r, col + 1, line, false, err⟩).2) := by
  rw [ReadPolynomialLoop]
  have h1 : ((some ',' : Option Char) == some '\n') = false := by decide
  have h2 : ((some ',' : Option Char) == some '(') = false := by decide
  have h3 : IsValidNumberCharacter (some ',') = false := by decide
  simp [PeekCharacter_mk, h1, h2, h3, ReadCharacter_cons (show ',' ≠ '\n' by decide), hRE]

/-- At `,` inside a parenthesis, after the exponent is read: the top
accumulator is collapsed into the coefficient of a monomial of the accumulator
below, `)` must follow, and after it `+`, a newline or `,`. -/
theorem ReadPolynomialLoop_comma_accepted (fuel : Nat) (r : List Char) (col line : Nat)
    (pe : Bool) (err : List String) (top next : List Mono) (below : List (List Mono))
    (x : Nat) (u2 : List Char) (c2 l2 : Nat) (err2 : List String)
    (hRE : ReadExponent ⟨r, col + 1, line, false, err⟩ = (x, ⟨u2, c2, l2, false, err2⟩)) :
    ReadPolynomialLoop (fuel + 1) ⟨',' :: r, col, line, pe, err⟩ false top (next :: below)
      = if u2.head? = some ')' then
          if u2.tail.head? = some '+' then
            ReadPolynomialLoop fuel ⟨u2.tail.tail, c2 + 2, l2, false, err2⟩ true
              (if PolyIsZero (CollapseMonoStackIntoAPoly top) = false then
                MonoFromPoly (CollapseMonoStackIntoAPoly top) x :: next else next) below
          else if u2.tail.head? = some '\n' ∨ u2.tail.head? = some ',' then
            ReadPolynomialLoop fuel ⟨u2.tail, c2 + 1, l2, false, err2⟩ false
              (if PolyIsZero (CollapseMonoStackIntoAPoly top) = false then
                MonoFromPoly (CollapseMonoStackIntoAPoly top) x :: next else next) below
          else parsePolyFail ⟨u2.tail, c2 + 1, l2, false, err2⟩
        else parsePolyFail ⟨u2, c2, l2, false, err2⟩ := by
  rw [ReadPolynomialLoop]
  have h1 : ((some ',' : Option Char) == some '\n') = false := by decide
  have h2 : ((some ',' : Option Char) == some '(') = false := by decide
  have h3 : IsValidNumberCharacter (some ',') = false := by decide
  simp only [PeekCharacter_mk, List.head?_cons, h1, h2, h3, Bool.false_eq_true, if_false,
    Bool.false_and, beq_self_eq_true, Bool.true_and, List.length_cons,
    ReadCharacter_cons (show ',' ≠ '\n' by decide), hRE]
  have hlen : decide (below.length + 1 + 1 > 1) = true := by
    rw [decide_eq_true_eq]; omega
  simp only [hlen, if_true]
  by_cases hc : u2.head? = some ')'
  · obtain ⟨t2, rfl⟩ : ∃ t2, u2 = ')' :: t2 := by
      cases u2 with
      | nil => cases hc
      | cons a t2 =>
        simp only [List.head?_cons, Option.some.injEq] at hc
        exact ⟨t2, by rw [hc]⟩
    simp only [List.head?_cons, beq_self_eq_true, if_true, List.tail_cons,
      ReadCharacter_cons (show ')' ≠ '\n' by decide)]
    by_cases hplus : t2.head? = some '+'
    · obtain ⟨t3, rfl⟩ : ∃ t3, t2 = '+' :: t3 := by
        cases t2 with
        | nil => cases hplus
        | cons a t3 =>
          simp only [List.head?_cons, Option.some.injEq] at hplus
          exact ⟨t3, by rw [hplus]⟩
      simp [PeekCharacter_mk, ReadCharacter_cons (show '+' ≠ '\n' by decide)]
    · have hp' : (t2.head? == some '+') = false := by
        rw [← Bool.not_eq_true, beq_iff_eq]; exact hplus
      by_cases hf : t2.head? = some '\n' ∨ t2.head? = some ','
      · have hf' : (t2.head? == some '\n' || t2.head? == some ',') = true := by
          rw [Bool.or_eq_true, beq_iff_eq, beq_iff_eq]; exact hf
        simp [PeekCharacter_mk, hplus, hf]
      · have hf' : (t2.head? == some '\n' || t2.head? == some ',') = false := by
          rw [← Bool.not_eq_true, Bool.or_eq_true, beq_iff_eq, beq_iff_eq]; exact hf
        simp [PeekCharacter_mk, hplus, hf]
  · have hc' : (u2.head? == some ')') = false := by
      rw [← Bool.not_eq_true, beq_iff_eq]; exact hc
    simp [hc, hc']

/-! ## The literals that the readers accept -/

theorem literalText_ne_nil {negative : Bool} {ds : List Char} (hne : ds ≠ []) :
    literalText negative ds ≠ [] := by
  cases negative
  · exact hne
  · simp [literalText]

/-- The coefficients of the grammar: an optional `-` and 1 to 19 digits that
pass the bound loop. -/
theorem acceptsCoefficient_iff (w : List Char) :
    AcceptsLiteral ReadPolyCoefficient ',' w ↔
      ∃ negative ds, w = literalText negative ds ∧ ds ≠ [] ∧ AllDigits ds ∧
        ds.length ≤ MAX_VALUE_AND_COEFF_LENGTH ∧
        ¬ (ds.length = MAX_VALUE_AND_COEFF_LENGTH ∧
            unsignedDigitExceeds ds.reverse
              (if negative then 9223372036854775808 else 9223372036854775807) = true) := by
  unfold AcceptsLiteral ReadPolyCoefficient InputStreamInit
  constructor
  · rintro ⟨hok, hun⟩
    obtain ⟨negative, ds, rest, hu, hds, hrest, hneg⟩ := literal_decomposition (w ++ [','])
    rw [hu] at hok hun
    have hlen : ds.length ≤ MAX_VALUE_AND_COEFF_LENGTH := by
      by_contra hlong
      have := (ReadValueOrCoefficient_long false negative ds rest hds hrest hneg 0 0 false []
        (by omega)).2
      rw [this] at hok
      cases hok
    have hacc := (ReadValueOrCoefficient_accept_iff false negative ds rest hds hrest hneg 0 0
      false [] hlen).mp hok
    have hres := ReadValueOrCoefficient_accepted false negative ds rest hds hrest hneg 0 0 false
      [] hlen hok
    rw [hres.1] at hun
    have hrest' : rest = [','] := hun
    subst hrest'
    exact ⟨negative, ds, List.append_cancel_right hu, hacc.1, hds, hlen, hacc.2.2⟩
  · rintro ⟨negative, ds, rfl, hne, hds, hlen, hex⟩
    have hneg : negative = false → (ds ++ [',']).head? ≠ some '-' :=
      fun _ => head_ne_minus_of_digits hne hds _
    have hok := (ReadValueOrCoefficient_accept_iff false negative ds [','] hds rfl hneg 0 0
      false [] hlen).mpr ⟨hne, Or.inr ⟨rfl, rfl⟩, hex⟩
    have hres := ReadValueOrCoefficient_accepted false negative ds [','] hds rfl hneg 0 0 false
      [] hlen hok
    exact ⟨hok, by rw [hres.1]⟩

/-- The exponents of the grammar: 1 to 10 digits that pass the bound loop, or
`-0`. -/
theorem acceptsExponent_iff (e : List Char) :
    AcceptsLiteral ReadExponent ')' e ↔
      ∃ negative ds, e = literalText negative ds ∧ ds ≠ [] ∧ AllDigits ds ∧
        ds.length ≤ MAX_EXPONENT_LENGTH ∧ (negative = true → ds = ['0']) ∧
        ¬ (ds.length = MAX_EXPONENT_LENGTH ∧
            unsignedDigitExceeds ds.reverse INT_MAX = true) := by
  unfold AcceptsLiteral InputStreamInit
  constructor
  · rintro ⟨hok, hun⟩
    obtain ⟨negative, ds, rest, hu, hds, hrest, hneg⟩ := literal_decomposition (e ++ [')'])
    rw [hu] at hok hun
    obtain ⟨_, hres, _⟩ := ReadExponent_accept negative ds rest hds hrest hneg 0 0 false []
    rw [hres hok] at hun
    have hun' : ds.drop MAX_EXPONENT_LENGTH ++ rest = [')'] := hun
    have hlen : ds.length ≤ MAX_EXPONENT_LENGTH := by
      by_contra hlong
      obtain ⟨d, hd, hdd⟩ := head_drop_digit hds (not_le.mp hlong) rest
      rw [hun'] at hd
      simp only [List.head?_cons, Option.some.injEq] at hd
      subst hd
      revert hdd
      decide
    rw [List.drop_of_length_le hlen, List.nil_append] at hun'
    subst hun'
    obtain ⟨hiff, _⟩ := ReadExponent_short negative ds [')'] hds rfl hneg 0 0 false [] hlen
    obtain ⟨h1, h2, h3⟩ := hiff.mp hok
    exact ⟨negative, ds, List.append_cancel_right hu, h2, hds, hlen, h1, h3⟩
  · rintro ⟨negative, ds, rfl, hne, hds, hlen, hz, hex⟩
    have hneg : negative = false → (ds ++ [')']).head? ≠ some '-' :=
      fun _ => head_ne_minus_of_digits hne hds _
    obtain ⟨hiff, hres⟩ := ReadExponent_short negative ds [')'] hds rfl hneg 0 0 false [] hlen
    have hok := hiff.mpr ⟨hz, hne, hex⟩
    exact ⟨hok, by rw [(hres hok).1]⟩

/-- A literal accepted by a reader is not empty and starts with a digit or `-`. -/
theorem literalText_head (negative : Bool) (ds : List Char) (hne : ds ≠ [])
    (hds : AllDigits ds) (rest : List Char) :
    IsValidNumberCharacter (literalText negative ds ++ rest).head? = true := by
  cases negative with
  | true => rfl
  | false =>
    cases ds with
    | nil => exact absurd rfl hne
    | cons d ds =>
      rw [allDigits_cons] at hds
      show IsValidNumberCharacter (some d) = true
      unfold IsValidNumberCharacter
      rw [hds.1]
      rfl

/-- No literal contains a newline, a parenthesis, a comma or `+`. -/
theorem literalText_not_mem (negative : Bool) (ds : List Char) (hds : AllDigits ds) (k : Char)
    (hk : IsValidNumberCharacter (some k) = false) : k ∉ literalText negative ds := by
  have hkd : IsValidDigit (some k) = false := by
    unfold IsValidNumberCharacter at hk
    rw [Bool.or_eq_false_iff] at hk
    exact hk.1
  have hmem : k ∉ ds := fun h => by
    have := hds k h
    rw [this] at hkd
    cases hkd
  cases negative with
  | false => exact hmem
  | true =>
    simp only [literalText, if_true, List.mem_cons, not_or]
    refine ⟨?_, hmem⟩
    rintro rfl
    revert hk
    decide

/-- Function `ReadPolyCoefficient` reads every coefficient of the grammar that
is followed by `,` or a newline, and stops at that character. -/
theorem ReadPolyCoefficient_complete (w : List Char) (t : Char) (r : List Char)
    (hw : AcceptsLiteral ReadPolyCoefficient ',' w) (ht : t = ',' ∨ t = '\n')
    (col line : Nat) (pe : Bool) (err : List String) :
    (ReadPolyCoefficient ⟨w ++ t :: r, col, line, pe, err⟩).2
      = ⟨t :: r, col + w.length, line, false, err⟩ := by
  obtain ⟨negative, ds, rfl, hne, hds, hlen, hex⟩ := (acceptsCoefficient_iff w).mp hw
  have hrest : IsValidDigit (t :: r).head? = false := by
    rcases ht with rfl | rfl <;> rfl
  have hneg : negative = false → (ds ++ t :: r).head? ≠ some '-' :=
    fun _ => head_ne_minus_of_digits hne hds _
  have hterm : (t :: r).head? = some '\n' ∨ (false = false ∧ (t :: r).head? = some ',') := by
    rcases ht with rfl | rfl
    · exact Or.inr ⟨rfl, rfl⟩
    · exact Or.inl rfl
  unfold ReadPolyCoefficient
  have hok := (ReadValueOrCoefficient_accept_iff false negative ds (t :: r) hds hrest hneg col
    line pe err hlen).mpr ⟨hne, hterm, hex⟩
  rw [(ReadValueOrCoefficient_accepted false negative ds (t :: r) hds hrest hneg col line pe err
    hlen hok).1]

/-- When `ReadPolyCoefficient` succeeds, it has read a coefficient of the
grammar and stopped at `,` or a newline. -/
theorem ReadPolyCoefficient_sound (u : List Char) (col line : Nat) (pe : Bool)
    (err : List String)
    (hok : (ReadPolyCoefficient ⟨u, col, line, pe, err⟩).2.parse_error = false) :
    ∃ w rest, u = w ++ rest ∧ w ≠ [] ∧ AcceptsLiteral ReadPolyCoefficient ',' w ∧
      (rest.head? = some ',' ∨ rest.head? = some '\n') ∧
      (ReadPolyCoefficient ⟨u, col, line, pe, err⟩).2
        = ⟨rest, col + w.length, line, false, err⟩ := by
  unfold ReadPolyCoefficient at hok ⊢
  obtain ⟨negative, ds, rest, rfl, hds, hrest, hneg⟩ := literal_decomposition u
  have hlen : ds.length ≤ MAX_VALUE_AND_COEFF_LENGTH := by
    by_contra hlong
    have := (ReadValueOrCoefficient_long false negative ds rest hds hrest hneg col line pe err
      (by omega)).2
    rw [this] at hok
    cases hok
  have hacc := (ReadValueOrCoefficient_accept_iff false negative ds rest hds hrest hneg col line
    pe err hlen).mp hok
  have hres := ReadValueOrCoefficient_accepted false negative ds rest hds hrest hneg col line pe
    err hlen hok
  refine ⟨literalText negative ds, rest, rfl, literalText_ne_nil hacc.1,
    (acceptsCoefficient_iff _).mpr ⟨negative, ds, rfl, hacc.1, hds, hlen, hacc.2.2⟩, ?_, ?_⟩
  · rcases hacc.2.1 with h | ⟨_, h⟩
    · exact Or.inr h
    · exact Or.inl h
  · rw [hres.1]

/-- Function `ReadExponent` reads every exponent of the grammar that is
followed by `)`, and stops at that character. -/
theorem ReadExponent_complete (e : List Char) (r : List Char)
    (he : AcceptsLiteral ReadExponent ')' e)
    (col line : Nat) (pe : Bool) (err : List String) :
    ∃ x, ReadExponent ⟨e ++ ')' :: r, col, line, pe, err⟩
      = (x, ⟨')' :: r, col + e.length, line, false, err⟩) := by
  obtain ⟨negative, ds, rfl, hne, hds, hlen, hz, hex⟩ := (acceptsExponent_iff e).mp he
  have hneg : negative = false → (ds ++ ')' :: r).head? ≠ some '-' :=
    fun _ => head_ne_minus_of_digits hne hds _
  obtain ⟨hiff, hres⟩ := ReadExponent_short negative ds (')' :: r) hds rfl hneg col line pe err
    hlen
  exact ⟨_, (hres (hiff.mpr ⟨hz, hne, hex⟩)).1⟩

/-- When `ReadExponent` succeeds, the stream stays in the same line; and when
`)` follows, it has read an exponent of the grammar. -/
theorem ReadExponent_sound (u : List Char) (col line : Nat) (pe : Bool) (err : List String)
    (hok : (ReadExponent ⟨u, col, line, pe, err⟩).2.parse_error = false) :
    ∃ x u2 c2, ReadExponent ⟨u, col, line, pe, err⟩ = (x, ⟨u2, c2, line, false, err⟩) ∧
      u2.length ≤ u.length ∧
      (u2.head? = some ')' →
        ∃ e, u = e ++ u2 ∧ AcceptsLiteral ReadExponent ')' e ∧ c2 = col + e.length) := by
  obtain ⟨negative, ds, rest, rfl, hds, hrest, hneg⟩ := literal_decomposition u
  obtain ⟨hiff, hres, _⟩ := ReadExponent_accept negative ds rest hds hrest hneg col line pe err
  refine ⟨_, _, _, hres hok, ?_, ?_⟩
  · rw [List.length_append, List.length_append, List.length_drop, literalText_length]
    omega
  · intro hhead
    have hlen : ds.length ≤ MAX_EXPONENT_LENGTH := by
      by_contra hlong
      obtain ⟨d, hd, hdd⟩ := head_drop_digit hds (not_le.mp hlong) rest
      rw [hhead] at hd
      simp only [Option.some.injEq] at hd
      subst hd
      revert hdd
      decide
    obtain ⟨h1, h2, h3⟩ := take_drop_short hlen rest
    obtain ⟨hiff2, _⟩ := ReadExponent_short negative ds rest hds hrest hneg col line pe err hlen
    obtain ⟨hz, hne, hex⟩ := hiff2.mp hok
    refine ⟨literalText negative ds, by rw [h2], ?_, ?_⟩
    · exact (acceptsExponent_iff _).mpr ⟨negative, ds, rfl, hne, hds, hlen, hz, hex⟩
    · rw [h3, literalText_length, Nat.add_assoc]

/-! ## The texts of the grammar -/

theorem parsePolyFail_rejected (s : InputStream) : ParseRejected (parsePolyFail s) :=
  ⟨rfl, rfl⟩

theorem rejected_of_flag {s : InputStream} (h : s.parse_error = true) :
    ParseRejected (PolyZero, s) := ⟨h, rfl⟩

theorem head?_append_of_ne_nil {w : List Char} (hw : w ≠ []) (rest : List Char) :
    (w ++ rest).head? = w.head? := by
  cases w with
  | nil => exact absurd rfl hw
  | cons a w => rfl

/-- A coefficient of the grammar starts with a digit or `-`. -/
theorem acceptsCoefficient_head {w : List Char} (hw : AcceptsLiteral ReadPolyCoefficient ',' w) :
    w ≠ [] ∧ IsValidNumberCharacter w.head? = true := by
  obtain ⟨negative, ds, rfl, hne, hds, _, _⟩ := (acceptsCoefficient_iff w).mp hw
  refine ⟨literalText_ne_nil hne, ?_⟩
  have := literalText_head negative ds hne hds []
  rwa [List.append_nil] at this

/-- A text of the grammar is not empty; a `poly` starts with a digit, `-` or
`(`, and a list of monomials starts with `(`. -/
theorem grammar_head {b : Bool} {w : List Char} (h : PolyGrammar b w) :
    w ≠ [] ∧ (IsValidNumberCharacter w.head? = true ∨ w.head? = some '(') ∧
      (b = true → w.head? = some '(') := by
  induction h with
  | coefficient hw =>
    exact ⟨(acceptsCoefficient_head hw).1, Or.inl (acceptsCoefficient_head hw).2,
      fun h => Bool.noConfusion h⟩
  | monos _ ih => exact ⟨ih.1, Or.inr (ih.2.2 rfl), fun h => Bool.noConfusion h⟩
  | mono _ _ _ => exact ⟨List.cons_ne_nil _ _, Or.inr rfl, fun _ => rfl⟩
  | plus _ _ _ _ _ => exact ⟨List.cons_ne_nil _ _, Or.inr rfl, fun _ => rfl⟩

/-- No text of the grammar contains a newline. -/
theorem grammar_no_newline {b : Bool} {w : List Char} (h : PolyGrammar b w) : '\n' ∉ w := by
  have hlit : ∀ negative ds, AllDigits ds → '\n' ∉ literalText negative ds :=
    fun negative ds hds => literalText_not_mem negative ds hds '\n' (by decide)
  have hexp : ∀ e, AcceptsLiteral ReadExponent ')' e → '\n' ∉ e := by
    intro e he
    obtain ⟨negative, ds, rfl, _, hds, _⟩ := (acceptsExponent_iff e).mp he
    exact hlit negative ds hds
  induction h with
  | coefficient hw =>
    obtain ⟨negative, ds, rfl, _, hds, _⟩ := (acceptsCoefficient_iff _).mp hw
    exact hlit negative ds hds
  | monos _ ih => exact ih
  | mono _ he ihp =>
    have := hexp _ he
    simp [ihp, this]
  | plus _ he _ ihp ihms =>
    have := hexp _ he
    simp [ihp, ihms, this]

/-! ## The loop of `ReadPolynomial` accepts the texts of the grammar -/

/-- On a text of the grammar followed by `,` or a newline, the loop of
`ReadPolynomial` arrives at that character with the stack as deep as before,
with no monomial expected, in the same line and with nothing reported. -/
theorem ReadPolynomialLoop_complete {b : Bool} {w : List Char} (h : PolyGrammar b w) :
    ∀ (fuel : Nat) (t : Char) (r : List Char) (col line : Nat) (pe : Bool) (err : List String)
      (e : Bool) (top : List Mono) (below : List (List Mono)),
      (t = ',' ∨ t = '\n') → (b = false → e = false) → (w ++ t :: r).length < fuel →
      ∃ top' fuel', (t :: r).length < fuel' ∧
        ReadPolynomialLoop fuel ⟨w ++ t :: r, col, line, pe, err⟩ e top below
          = ReadPolynomialLoop fuel' ⟨t :: r, col + w.length, line, false, err⟩ false top'
              below := by
  induction h with
  | @coefficient w hw =>
    intro fuel t r col line pe err e top below ht he hfuel
    obtain ⟨f, rfl⟩ : ∃ f, fuel = f + 1 := ⟨fuel - 1, by omega⟩
    have he' : e = false := he rfl
    subst he'
    obtain ⟨hne, hhead⟩ := acceptsCoefficient_head hw
    have hu : IsValidNumberCharacter (w ++ t :: r).head? = true := by
      rw [head?_append_of_ne_nil hne]; exact hhead
    have hR := ReadPolyCoefficient_complete w t r hw ht col line false err
    have hlen : (t :: r).length < f := by
      have : 0 < w.length := List.length_pos.mpr hne
      rw [List.length_append] at hfuel
      omega
    rw [ReadPolynomialLoop_coefficient f _ col line pe err top below hu, hR]
    simp only [Bool.false_eq_true, if_false]
    by_cases h0 : (ReadPolyCoefficient ⟨w ++ t :: r, col, line, false, err⟩).1 ≠ 0
    · rw [if_pos h0]
      exact ⟨_, f, hlen, rfl⟩
    · rw [if_neg h0]
      exact ⟨_, f, hlen, rfl⟩
  | @monos w _ ih =>
    intro fuel t r col line pe err e top below ht _ hfuel
    exact ih fuel t r col line pe err e top below ht (fun h => Bool.noConfusion h) hfuel
  | @mono p x hp hx ihp =>
    intro fuel t r col line pe err e top below ht _ hfuel
    obtain ⟨f, rfl⟩ : ∃ f, fuel = f + 1 := ⟨fuel - 1, by omega⟩
    have hl : ('(' :: p ++ ',' :: x ++ [')']) ++ t :: r
        = '(' :: (p ++ ',' :: (x ++ ')' :: t :: r)) := by simp
    have hlen0 : ('(' :: p ++ ',' :: x ++ [')']).length = p.length + x.length + 3 := by
      simp; omega
    rw [hl] at hfuel ⊢
    obtain ⟨hpne, hphead, _⟩ := grammar_head hp
    have hstart : IsValidNumberCharacter (p ++ ',' :: (x ++ ')' :: t :: r)).head? = true ∨
        (p ++ ',' :: (x ++ ')' :: t :: r)).head? = some '(' := by
      rw [head?_append_of_ne_nil hpne]; exact hphead
    rw [ReadPolynomialLoop_open, if_pos hstart]
    obtain ⟨top1, f1, hf1, heq1⟩ := ihp f ',' (x ++ ')' :: t :: r) (col + 1) line false err false
      [] (top :: below) (Or.inl rfl) (fun _ => rfl)
      (by simp only [List.length_cons, List.length_append] at hfuel ⊢; omega)
    rw [heq1]
    obtain ⟨f2, rfl⟩ : ∃ f2, f1 = f2 + 1 := ⟨f1 - 1, by
      simp only [List.length_cons] at hf1; omega⟩
    obtain ⟨v, hv⟩ := ReadExponent_complete x (t :: r) hx (col + 1 + p.length + 1) line false err
    have hstep : ReadPolynomialLoop (f2 + 1)
          ⟨',' :: (x ++ ')' :: t :: r), col + 1 + p.length, line, false, err⟩ false top1
          (top :: below)
        = ReadPolynomialLoop f2 ⟨t :: r, col + 1 + p.length + 1 + x.length + 1, line, false, err⟩
            false
            (if PolyIsZero (CollapseMonoStackIntoAPoly top1) = false then
              MonoFromPoly (CollapseMonoStackIntoAPoly top1) v :: top else top) below := by
      rw [ReadPolynomialLoop_comma_accepted f2 _ _ line false err top1 top below v _ _ line err
        hv]
      rcases ht with rfl | rfl <;> simp
    rw [hstep]
    refine ⟨(if PolyIsZero (CollapseMonoStackIntoAPoly top1) = false then
      MonoFromPoly (CollapseMonoStackIntoAPoly top1) v :: top else top), f2, ?_, ?_⟩
    · simp only [List.length_cons, List.length_append] at hf1 ⊢
      omega
    · have hcol : col + 1 + p.length + 1 + x.length + 1
          = col + ('(' :: p ++ ',' :: x ++ [')']).length := by
        rw [hlen0]; omega
      rw [hcol]
  | @plus p x ms hp hx hms ihp ihms =>
    intro fuel t r col line pe err e top below ht _ hfuel
    obtain ⟨f, rfl⟩ : ∃ f, fuel = f + 1 := ⟨fuel - 1, by omega⟩
    have hl : ('(' :: p ++ ',' :: x ++ ')' :: '+' :: ms) ++ t :: r
        = '(' :: (p ++ ',' :: (x ++ ')' :: '+' :: (ms ++ t :: r))) := by simp
    have hlen0 : ('(' :: p ++ ',' :: x ++ ')' :: '+' :: ms).length
        = p.length + x.length + ms.length + 4 := by
      simp; omega
    rw [hl] at hfuel ⊢
    obtain ⟨hpne, hphead, _⟩ := grammar_head hp
    have hstart : IsValidNumberCharacter
          (p ++ ',' :: (x ++ ')' :: '+' :: (ms ++ t :: r))).head? = true ∨
        (p ++ ',' :: (x ++ ')' :: '+' :: (ms ++ t :: r))).head? = some '(' := by
      rw [head?_append_of_ne_nil hpne]; exact hphead
    rw [ReadPolynomialLoop_open, if_pos hstart]
    obtain ⟨top1, f1, hf1, heq1⟩ := ihp f ',' (x ++ ')' :: '+' :: (ms ++ t :: r)) (col + 1) line
      false err false [] (top :: below) (Or.inl rfl) (fun _ => rfl)
      (by simp only [List.length_cons, List.length_append] at hfuel ⊢; omega)
    rw [heq1]
    obtain ⟨f2, rfl⟩ : ∃ f2, f1 = f2 + 1 := ⟨f1 - 1, by
      simp only [List.length_cons] at hf1; omega⟩
    obtain ⟨v, hv⟩ := ReadExponent_complete x ('+' :: (ms ++ t :: r)) hx
      (col + 1 + p.length + 1) line false err
    have hstep : ReadPolynomialLoop (f2 + 1)
          ⟨',' :: (x ++ ')' :: '+' :: (ms ++ t :: r)), col + 1 + p.length, line, false, err⟩ false
          top1 (top :: below)
        = ReadPolynomialLoop f2
            ⟨ms ++ t :: r, col + 1 + p.length + 1 + x.length + 2, line, false, err⟩ true
            (if PolyIsZero (CollapseMonoStackIntoAPoly top1) = false then
              MonoFromPoly (CollapseMonoStackIntoAPoly top1) v :: top else top) below := by
      rw [ReadPolynomialLoop_comma_accepted f2 _ _ line false err top1 top below v _ _ line err
        hv]
      simp
    rw [hstep]
    obtain ⟨top2, f3, hf3, heq3⟩ := ihms f2 t r (col + 1 + p.length + 1 + x.length + 2) line false
      err true
      (if PolyIsZero (CollapseMonoStackIntoAPoly top1) = false then
        MonoFromPoly (CollapseMonoStackIntoAPoly top1) v :: top else top) below ht
      (fun h => Bool.noConfusion h)
      (by simp only [List.length_cons, List.length_append] at hf1 ⊢; omega)
    refine ⟨top2, f3, hf3, ?_⟩
    have hcol : col + 1 + p.length + 1 + x.length + 2 + ms.length
        = col + ('(' :: p ++ ',' :: x ++ ')' :: '+' :: ms).length := by
      rw [hlen0]; omega
    rw [← hcol]
    exact heq3

/-! ## The loop of `ReadPolynomial` accepts only texts of the grammar -/

theorem cons_of_head? {u : List Char} {c : Char} (h : u.head? = some c) :
    ∃ r, u = c :: r := by
  cases u with
  | nil => cases h
  | cons a r =>
    simp only [List.head?_cons, Option.some.injEq] at h
    exact ⟨r, by rw [h]⟩

/-- From the start of a `poly`: what holds for the monomials holds for the
whole `poly`. -/
theorem loopOutcome_poly (fuel : Nat)
    (hM : ∀ (u : List Char) (col line : Nat) (pe : Bool) (err : List String) (e : Bool)
      (top : List Mono) (below : List (List Mono)), u.length < fuel → u.head? = some '(' →
      LoopOutcome true (ReadPolynomialLoop fuel ⟨u, col, line, pe, err⟩ e top below) fuel u col
        line err below)
    (u : List Char) (col line : Nat) (pe : Bool) (err : List String)
    (top : List Mono) (below : List (List Mono)) (hlen : u.length < fuel)
    (hstart : IsValidNumberCharacter u.head? = true ∨ u.head? = some '(') :
    LoopOutcome false (ReadPolynomialLoop fuel ⟨u, col, line, pe, err⟩ false top below) fuel u
      col line err below := by
  by_cases hopen : u.head? = some '('
  · rcases hM u col line pe err false top below hlen hopen with h | ⟨w, u', top', fuel', hw, h⟩
    · exact Or.inl h
    · exact Or.inr ⟨w, u', top', fuel', PolyGrammar.monos hw, h⟩
  · have hnum : IsValidNumberCharacter u.head? = true := by
      rcases hstart with h | h
      · exact h
      · exact absurd h hopen
    obtain ⟨f, rfl⟩ : ∃ f, fuel = f + 1 := ⟨fuel - 1, by omega⟩
    rw [ReadPolynomialLoop_coefficient f u col line pe err top below hnum]
    by_cases hflag : (ReadPolyCoefficient ⟨u, col, line, false, err⟩).2.parse_error = true
    · rw [if_pos hflag]
      exact Or.inl (rejected_of_flag hflag)
    · rw [if_neg hflag]
      obtain ⟨w, rest, hu, hwne, hw, hfollow, hR⟩ := ReadPolyCoefficient_sound u col line false err
        (by simpa using hflag)
      have hrest : rest.length < f := by
        have : 0 < w.length := List.length_pos.mpr hwne
        rw [hu, List.length_append] at hlen
        omega
      rw [hR]
      by_cases h0 : (ReadPolyCoefficient ⟨u, col, line, false, err⟩).1 ≠ 0
      · rw [if_pos h0]
        exact Or.inr ⟨w, rest, _, f, PolyGrammar.coefficient hw, hu, hfollow, hrest,
          Nat.le_succ f, rfl⟩
      · rw [if_neg h0]
        exact Or.inr ⟨w, rest, _, f, PolyGrammar.coefficient hw, hu, hfollow, hrest,
          Nat.le_succ f, rfl⟩

/-- From `(`, the loop of `ReadPolynomial` either rejects the line or reads
monomials joined by `+`. -/
theorem loopOutcome_monos : ∀ (fuel : Nat) (u : List Char) (col line : Nat) (pe : Bool)
    (err : List String) (e : Bool) (top : List Mono) (below : List (List Mono)),
    u.length < fuel → u.head? = some '(' →
    LoopOutcome true (ReadPolynomialLoop fuel ⟨u, col, line, pe, err⟩ e top below) fuel u col
      line err below := by
  intro fuel
  induction fuel using Nat.strong_induction_on with
  | _ n ih =>
    intro u col line pe err e top below hlen hopen
    obtain ⟨r, rfl⟩ := cons_of_head? hopen
    obtain ⟨f, rfl⟩ : ∃ f, n = f + 1 := ⟨n - 1, by omega⟩
    rw [ReadPolynomialLoop_open]
    by_cases hstart : IsValidNumberCharacter r.head? = true ∨ r.head? = some '('
    swap
    · rw [if_neg hstart]
      exact Or.inl (parsePolyFail_rejected _)
    rw [if_pos hstart]
    have hrlen : r.length < f := by
      simp only [List.length_cons] at hlen
      omega
    rcases loopOutcome_poly f (ih f (Nat.lt_succ_self f)) r (col + 1) line false err []
      (top :: below) hrlen hstart with hrej | ⟨p, u1, top1, f1, hp, hr, hfollow1, hu1, hf1, heq1⟩
    · exact Or.inl hrej
    rw [heq1]
    obtain ⟨f2, rfl⟩ : ∃ f2, f1 = f2 + 1 := ⟨f1 - 1, by omega⟩
    rcases hfollow1 with hc | hn
    · -- `,` closes the parenthesis
      obtain ⟨r2, rfl⟩ := cons_of_head? hc
      by_cases hflag : (ReadExponent ⟨r2, col + 1 + p.length + 1, line, false, err⟩).2.parse_error
          = true
      · rw [ReadPolynomialLoop_comma_rejected f2 r2 _ line false err top1 top below hflag]
        exact Or.inl (rejected_of_flag hflag)
      obtain ⟨x, u2, c2, hRE, hu2len, hsound⟩ := ReadExponent_sound r2
        (col + 1 + p.length + 1) line false err (by simpa using hflag)
      rw [ReadPolynomialLoop_comma_accepted f2 r2 _ line false err top1 top below x u2 c2 line err
        hRE]
      by_cases hclose : u2.head? = some ')'
      swap
      · rw [if_neg hclose]
        exact Or.inl (parsePolyFail_rejected _)
      rw [if_pos hclose]
      obtain ⟨ex, hr2, hex, hc2⟩ := hsound hclose
      obtain ⟨t2, rfl⟩ := cons_of_head? hclose
      simp only [List.tail_cons]
      have ht2len : t2.length < f2 := by
        simp only [List.length_cons] at hu1 hu2len
        omega
      by_cases hplus : t2.head? = some '+'
      · rw [if_pos hplus]
        obtain ⟨t3, rfl⟩ := cons_of_head? hplus
        simp only [List.tail_cons]
        have ht3len : t3.length < f2 := by
          simp only [List.length_cons] at ht2len
          omega
        by_cases hopen3 : t3.head? = some '('
        · rcases ih f2 (by omega) t3 (c2 + 2) line false err true
            (if PolyIsZero (CollapseMonoStackIntoAPoly top1) = false then
              MonoFromPoly (CollapseMonoStackIntoAPoly top1) x :: top else top) below ht3len
            hopen3 with hrej | ⟨ms, u4, top4, f4, hms, ht3, hfollow4, hu4, hf4, heq4⟩
          · exact Or.inl hrej
          · refine Or.inr ⟨'(' :: p ++ ',' :: ex ++ ')' :: '+' :: ms, u4, top4, f4,
              PolyGrammar.plus hp hex hms, ?_, hfollow4, hu4, by omega, ?_⟩
            · rw [hr, hr2, ht3]
              simp
            · rw [heq4]
              have hcol : c2 + 2 + ms.length
                  = col + ('(' :: p ++ ',' :: ex ++ ')' :: '+' :: ms).length := by
                rw [hc2]
                simp
                omega
              rw [hcol]
        · obtain ⟨f3, rfl⟩ : ∃ f3, f2 = f3 + 1 := ⟨f2 - 1, by omega⟩
          by_cases hnl3 : t3.head? = some '\n'
          · obtain ⟨t4, rfl⟩ := cons_of_head? hnl3
            rw [ReadPolynomialLoop_newline, if_neg (fun h => Bool.noConfusion h.2)]
            exact Or.inl (parsePolyFail_rejected _)
          · rw [ReadPolynomialLoop_expecting f3 t3 _ line false err _ below hnl3 hopen3]
            exact Or.inl (parsePolyFail_rejected _)
      · rw [if_neg hplus]
        by_cases hfollow2 : t2.head? = some '\n' ∨ t2.head? = some ','
        · rw [if_pos hfollow2]
          refine Or.inr ⟨'(' :: p ++ ',' :: ex ++ [')'], t2,
            (if PolyIsZero (CollapseMonoStackIntoAPoly top1) = false then
              MonoFromPoly (CollapseMonoStackIntoAPoly top1) x :: top else top), f2,
            PolyGrammar.mono hp hex, ?_, hfollow2.symm, ht2len, by omega, ?_⟩
          · rw [hr, hr2]
            simp
          · have hcol : c2 + 1 = col + ('(' :: p ++ ',' :: ex ++ [')']).length := by
              rw [hc2]
              simp
              omega
            rw [hcol]
        · rw [if_neg hfollow2]
          exact Or.inl (parsePolyFail_rejected _)
    · -- a newline inside a parenthesis
      obtain ⟨r2, rfl⟩ := cons_of_head? hn
      rw [ReadPolynomialLoop_newline,
        if_neg (fun h => by simp only [List.length_cons] at h; omega)]
      exact Or.inl (parsePolyFail_rejected _)

theorem ReadPolynomial_mk (u : List Char) (col line : Nat) (pe : Bool) (err : List String) :
    ReadPolynomial ⟨u, col, line, pe, err⟩
      = if IsValidNumberCharacter u.head? = true ∨ u.head? = some '(' then
          ReadPolynomialLoop (u.length + 1) ⟨u, col, line, false, err⟩ false [] []
        else parsePolyFail ⟨u, col, line, false, err⟩ := by
  unfold ReadPolynomial
  simp only [PeekCharacter_mk]
  by_cases h : IsValidNumberCharacter u.head? = true ∨ u.head? = some '('
  · rw [if_pos h]
    have : (IsValidNumberCharacter u.head? || u.head? == some '(') = true := by
      rw [Bool.or_eq_true, beq_iff_eq]; exact h
    rw [if_pos this]
  · rw [if_neg h]
    have : ¬ (IsValidNumberCharacter u.head? || u.head? == some '(') = true := by
      rw [Bool.or_eq_true, beq_iff_eq]; exact h
    rw [if_neg this]

/-- Two texts without a newline that are followed by a newline in the same
line are equal. -/
theorem eq_of_append_newline : ∀ (a b x y : List Char),
    a ++ '\n' :: x = b ++ '\n' :: y → '\n' ∉ a → '\n' ∉ b → a = b ∧ x = y := by
  intro a
  induction a with
  | nil =>
    intro b x y h _ hb
    cases b with
    | nil =>
      simp only [List.nil_append, List.cons.injEq, true_and] at h
      exact ⟨rfl, h⟩
    | cons c b =>
      simp only [List.nil_append, List.cons_append, List.cons.injEq] at h
      exact absurd (by rw [← h.1]; exact List.mem_cons_self _ _) hb
  | cons c a ih =>
    intro b x y h ha hb
    cases b with
    | nil =>
      simp only [List.nil_append, List.cons_append, List.cons.injEq] at h
      exact absurd (by rw [h.1]; exact List.mem_cons_self _ _) ha
    | cons d b =>
      simp only [List.cons_append, List.cons.injEq] at h
      obtain ⟨h1, h2⟩ := ih b x y h.2 (fun hm => ha (List.mem_cons_of_mem _ hm))
        (fun hm => hb (List.mem_cons_of_mem _ hm))
      exact ⟨by rw [h.1, h1], h2⟩

/-- Function `ReadPolynomial` on a line: it is rejected, or the flag is clear
and the text of the line is a `poly` of the grammar. -/
theorem ReadPolynomial_rejects_or_grammar (l rest : List Char) (hl : '\n' ∉ l)
    (col line : Nat) (pe : Bool) (err : List String) :
    ParseRejected (ReadPolynomial ⟨l ++ '\n' :: rest, col, line, pe, err⟩) ∨
      ((ReadPolynomial ⟨l ++ '\n' :: rest, col, line, pe, err⟩).2.parse_error = false ∧
        PolyGrammar false l) := by
  rw [ReadPolynomial_mk]
  by_cases hstart : IsValidNumberCharacter (l ++ '\n' :: rest).head? = true ∨
      (l ++ '\n' :: rest).head? = some '('
  swap
  · rw [if_neg hstart]
    exact Or.inl (parsePolyFail_rejected _)
  rw [if_pos hstart]
  rcases loopOutcome_poly _ (loopOutcome_monos _) (l ++ '\n' :: rest) col line false err [] []
    (Nat.lt_succ_self _) hstart with hrej | ⟨w, u', top', fuel', hw, hu, hfollow, hu', _, heq⟩
  · exact Or.inl hrej
  rw [heq]
  obtain ⟨f, rfl⟩ : ∃ f, fuel' = f + 1 := ⟨fuel' - 1, by omega⟩
  rcases hfollow with hc | hn
  · obtain ⟨r, rfl⟩ := cons_of_head? hc
    rw [ReadPolynomialLoop_comma_outside]
    exact Or.inl (parsePolyFail_rejected _)
  · obtain ⟨r, rfl⟩ := cons_of_head? hn
    rw [ReadPolynomialLoop_newline, if_pos ⟨rfl, rfl⟩]
    refine Or.inr ⟨rfl, ?_⟩
    obtain ⟨h1, _⟩ := eq_of_append_newline l w rest r hu hl (grammar_no_newline hw)
    rw [h1]
    exact hw

/-- Function `ReadPolynomial` accepts every line whose text is a `poly` of the
grammar. -/
theorem ReadPolynomial_accepts (l rest : List Char) (hg : PolyGrammar false l)
    (col line : Nat) (pe : Bool) (err : List String) :
    (ReadPolynomial ⟨l ++ '\n' :: rest, col, line, pe, err⟩).2.parse_error = false := by
  rw [ReadPolynomial_mk]
  obtain ⟨hne, hhead, _⟩ := grammar_head hg
  have hstart : IsValidNumberCharacter (l ++ '\n' :: rest).head? = true ∨
      (l ++ '\n' :: rest).head? = some '(' := by
    rw [head?_append_of_ne_nil hne]; exact hhead
  rw [if_pos hstart]
  obtain ⟨top', fuel', hf, heq⟩ := ReadPolynomialLoop_complete hg ((l ++ '\n' :: rest).length + 1)
    '\n' rest col line false err false [] [] (Or.inr rfl) (fun _ => rfl) (Nat.lt_succ_self _)
  rw [heq]
  obtain ⟨f, rfl⟩ : ∃ f, fuel' = f + 1 := ⟨fuel' - 1, by omega⟩
  rw [ReadPolynomialLoop_newline, if_pos ⟨rfl, rfl⟩]

/-- C30: for every line ending in a newline, `ReadPolynomial` succeeds (the
parse-error flag is clear) exactly when the text before the newline matches the
grammar `poly ::= coefficient | mono ('+' mono)*`,
`mono ::= '(' poly ',' exponent ')'`, with the literals accepted by
`ReadPolyCoefficient` and `ReadExponent`; for every other line the parse-error
flag is set and the zero polynomial is returned. -/
theorem ReadPolynomial_accepted_language (stream : InputStream) (l rest : List Char)
    (hin : stream.unread = l ++ '\n' :: rest) (hl : '\n' ∉ l) :
    ((ReadPolynomial stream).2.parse_error = false ↔ PolyGrammar false l) ∧
    (¬ PolyGrammar false l →
      (ReadPolynomial stream).2.parse_error = true ∧ (ReadPolynomial stream).1 = PolyZero) := by
  obtain ⟨u, col, line, pe, err⟩ := stream
  have hu : u = l ++ '\n' :: rest := hin
  subst hu
  have hdich := ReadPolynomial_rejects_or_grammar l rest hl col line pe err
  refine ⟨⟨fun hok => ?_, fun hg => ReadPolynomial_accepts l rest hg col line pe err⟩,
    fun hng => ?_⟩
  · rcases hdich with hrej | ⟨_, hg⟩
    · rw [hrej.1] at hok
      cases hok
    · exact hg
  · rcases hdich with hrej | ⟨_, hg⟩
    · exact hrej
    · exact absurd hg hng

theorem ReadPolynomial_accepted_language_witness :
    (InputStreamInit "(1,2)+(3,0)\n7".toList).unread = "(1,2)+(3,0)".toList ++ '\n' :: "7".toList ∧
    '\n' ∉ "(1,2)+(3,0)".toList ∧
    (ReadPolynomial (InputStreamInit "(1,2)+(3,0)\n7".toList)).2.parse_error = false ∧
    PolyGrammar false "(1,2)+(3,0)".toList :=
  ⟨rfl, by decide, rfl,
    (ReadPolynomial_accepted_language (InputStreamInit "(1,2)+(3,0)\n7".toList)
      "(1,2)+(3,0)".toList "7".toList rfl (by decide)).1.mp rfl⟩

/-- The exponent vectors of the monomials contributed by a list of terms start
with an exponent of the list. -/
theorem mem_expansionMonos_vectors (ms : List Mono) (es : List Nat)
    (h : es ∈ (expansionMonos ms).map Prod.fst) :
    ∃ m ∈ ms, ∃ u ∈ expansion m.1, es = m.2 :: u.1 := by
  obtain ⟨t, ht, rfl⟩ := List.mem_map.mp h
  obtain ⟨m, hm, u, hu, rfl⟩ := (mem_expansionMonos ms t).mp ht
  exact ⟨m, hm, u, hu, rfl⟩

/-- In the expansion of a canonical polynomial no two monomials have the same
exponents, and no exponent vector ends with 0, so that different vectors are
different monomials. -/
theorem expansion_distinct (p : Poly) : Canonical p →
    ((expansion p).map Prod.fst).Nodup ∧ ∀ t ∈ expansion p, t.1.getLast? ≠ some 0 := by
  induction p using Poly.induct with
  | h c ms ih =>
    intro hp
    obtain ⟨_, hasc, hms⟩ := (canonical_mk c ms).mp hp
    constructor
    · rw [expansion_mk, List.map_append, List.nodup_append]
      refine ⟨?_, ?_, ?_⟩
      · by_cases hc : c = 0
        · simp [hc]
        · simp [hc]
      · -- the vectors of the terms
        clear hp
        induction ms with
        | nil => simp [expansionMonos_nil]
        | cons a l ihl =>
          rw [expsAscending_cons] at hasc
          rw [expansionMonos_cons, List.map_append, List.nodup_append]
          refine ⟨?_, ?_, ?_⟩
          · rw [List.map_map]
            have hinj : Function.Injective (fun es : List Nat => a.2 :: es) :=
              fun x y hxy => by simpa using hxy
            have := (ih a (List.mem_cons_self _ _) (hms a (List.mem_cons_self _ _)).1).1
            have h2 := List.Nodup.map hinj this
            rw [List.map_map] at h2
            exact h2
          · exact ihl (fun m hm => ih m (List.mem_cons_of_mem _ hm)) hasc.2
              (fun m hm => hms m (List.mem_cons_of_mem _ hm))
          · intro es h1 h2
            rw [List.map_map] at h1
            obtain ⟨u, _, rfl⟩ := List.mem_map.mp h1
            obtain ⟨m, hm, v, _, hv⟩ := mem_expansionMonos_vectors l _ h2
            simp only [Function.comp, List.cons.injEq] at hv
            have := hasc.1 m hm
            omega
      · intro es h1 h2
        obtain ⟨m, _, u, _, rfl⟩ := mem_expansionMonos_vectors ms es h2
        by_cases hc : c = 0
        · simp [hc] at h1
        · simp [hc] at h1
    · intro t ht
      rcases (mem_expansion _ t).mp ht with ⟨_, rfl⟩ | ⟨m, hm, u, hu, rfl⟩
      · simp
      · simp only [first_mono_mk] at hm
        obtain ⟨hmc, _, hzero⟩ := hms m hm
        have hlast := (ih m hm hmc).2 u hu
        cases hu1 : u.1 with
        | nil =>
          -- the monomial is the constant of the coefficient
          have hconst : m.1.constant ≠ 0 := by
            rcases (mem_expansion _ u).mp hu with ⟨h, _⟩ | ⟨m', _, u', _, h⟩
            · exact h
            · rw [h] at hu1
              cases hu1
          have hm2 : m.2 ≠ 0 := fun h => hconst (hzero h)
          simpa using hm2
        | cons a l =>
          rw [hu1] at hlast
          rw [List.getLast?_cons_cons]
          exact hlast

/-! ## The sum of an array of monomials does not depend on its order -/

/-- C37: `PolyCompose` terminates. For every polynomial `p`, every `count` and
every array `x` of `count` polynomials, the explicit-stack loop of `PolyCompose`
returns a polynomial after at most `2 * nodes(p) + 1` rounds (`nodes(p)` the
number of polynomials in the tree of `p`): every number of rounds from some
`n <= 2 * nodes(p) + 1` on is enough, `PolyCompose` returns that polynomial, and
so none of the faults occurs: `StackTop` and `StackPop` are never called on an
empty stack, `next_state->mono` is never `NULL` where it is read, and `x` is read
only at indices below `count`. -/
theorem PolyCompose_terminates (p : Poly) (count : Nat) (x : List Poly)
    (hx : x.length = count) :
    ∃ n r, n ≤ 2 * p.nodes + 1
      ∧ (∀ fuel, n ≤ fuel →
          composeLoop count x fuel [NewComposeState p.first_mono p.constant] = .ok r)
      ∧ PolyCompose p count x = .ok r
      ∧ ∀ fault : ComposeFault, PolyCompose p count x ≠ .error fault := by
  have hle : count ≤ x.length := by omega
  have hok := PolyCompose_eq p count x hle
  have hnodes := nodes_eq p
  by_cases hc : count = 0
  · refine ⟨1, composeRec count x 0 p, by omega, ?_, hok, ?_⟩
    · intro fuel hfuel
      obtain ⟨k, rfl⟩ : ∃ k, fuel = k + 1 := ⟨fuel - 1, by omega⟩
      unfold NewComposeState
      rw [hc, composeLoop_rootPop]
      cases p with
      | mk c ms => rw [composeRec_mk, if_pos (by omega)]; rfl
    · intro fault h
      rw [hok] at h
      cases h
  · obtain ⟨n, hn, hrun⟩ := composeLoop_frame count x hle p (PolyFromCoeff p.constant) []
      (by simp; omega)
    refine ⟨n + 1, composeRec count x 0 p, by omega, ?_, hok, ?_⟩
    · intro fuel hfuel
      obtain ⟨k, rfl⟩ : ∃ k, fuel = (k + 1) + n := ⟨fuel - n - 1, by omega⟩
      unfold NewComposeState
      rw [hrun, composeLoop_exit]
      cases p with
      | mk c ms => rw [composeRec_mk, if_neg (by simp; omega)]; rfl
    · intro fault h
      rw [hok] at h
      cases h

/-- Witness of C37 at `p = 2 + x0 * (3 + x1^2)`, `count = 1` and `x = [1 + x0]`. -/
theorem PolyCompose_terminates_witness :
    [Poly.mk 1 [(Poly.mk 1 [], 1)]].length = 1
      ∧ ∃ n r, n ≤ 2 * (Poly.mk 2 [(Poly.mk 3 [(Poly.mk 1 [], 2)], 1)]).nodes + 1
        ∧ (∀ fuel, n ≤ fuel →
            composeLoop 1 [Poly.mk 1 [(Poly.mk 1 [], 1)]] fuel
              [NewComposeState (Poly.mk 2 [(Poly.mk 3 [(Poly.mk 1 [], 2)], 1)]).first_mono
                (Poly.mk 2 [(Poly.mk 3 [(Poly.mk 1 [], 2)], 1)]).constant] = .ok r)
        ∧ PolyCompose (Poly.mk 2 [(Poly.mk 3 [(Poly.mk 1 [], 2)], 1)]) 1
            [Poly.mk 1 [(Poly.mk 1 [], 1)]] = .ok r
        ∧ ∀ fault : ComposeFault,
            PolyCompose (Poly.mk 2 [(Poly.mk 3 [(Poly.mk 1 [], 2)], 1)]) 1
              [Poly.mk 1 [(Poly.mk 1 [], 1)]] ≠ .error fault :=
  ⟨rfl, PolyCompose_terminates _ 1 [Poly.mk 1 [(Poly.mk 1 [], 1)]] rfl⟩

/-! ## The exponent-0 terms, as the code keeps them -/

theorem zeroExpHeld_mk (c : Int) (ms : List Mono) :
    ZeroExpHeld (Poly.mk c ms) ↔
      (∀ m ∈ ms, m.2 = 0 → m.1.constant = 0 ∧ m.1.first_mono ≠ [])
        ∧ ∀ m ∈ ms, ZeroExpHeld m.1 := by
  unfold ZeroExpHeld
  rw [all_mk]
  simp only [zeroExpHeldNode, List.all_eq_true, Bool.or_eq_true, bne_iff_ne, ne_eq,
    Bool.and_eq_true, beq_iff_eq, Bool.not_eq_true', List.isEmpty_eq_false]
  constructor
  · rintro ⟨h1, h2⟩
    refine ⟨fun m hm he => ?_, h2⟩
    rcases h1 m hm with h | h
    · exact absurd he h
    · exact h
  · rintro ⟨h1, h2⟩
    refine ⟨fun m hm => ?_, h2⟩
    by_cases he : m.2 = 0
    · exact Or.inr (h1 m hm he)
    · exact Or.inl he

theorem zeroExpHeld_iff (p : Poly) :
    ZeroExpHeld p ↔ (∀ m ∈ p.first_mono, m.2 = 0 → m.1.constant = 0 ∧ m.1.first_mono ≠ [])
      ∧ ∀ m ∈ p.first_mono, ZeroExpHeld m.1 := by
  cases p; exact zeroExpHeld_mk _ _

theorem zeroExpFolded_of_held (p : Poly) : ZeroExpHeld p → ZeroExpFolded p := by
  induction p using Poly.induct with
  | h c ms ih =>
    intro hp
    rw [zeroExpHeld_mk] at hp
    rw [zeroExpFolded_mk]
    exact ⟨fun m hm he => (hp.1 m hm he).1, fun m hm => ih m hm (hp.2 m hm)⟩

theorem zeroExpHeld_const (c : Int) : ZeroExpHeld (PolyFromCoeff c) := by
  unfold PolyFromCoeff
  rw [zeroExpHeld_mk]
  simp

theorem first_mono_ne_nil_of_not_zero {p : Poly} (hz : PolyIsZero p = false)
    (hc : p.constant = 0) : p.first_mono ≠ [] := by
  intro h
  cases p with
  | mk c ms =>
    simp only [constant_mk] at hc
    simp only [first_mono_mk] at h
    subst hc h
    simp [PolyIsZero] at hz

/-- A canonical polynomial keeps its exponent-0 terms in the way of
`ZeroExpHeld`. -/
theorem zeroExpHeld_of_canonical (p : Poly) :
    TermsOrdered p → ZeroExpFolded p → ZeroExpHeld p := by
  induction p using Poly.induct with
  | h c ms ih =>
    intro ho hf
    rw [termsOrdered_mk] at ho
    rw [zeroExpFolded_mk] at hf
    rw [zeroExpHeld_mk]
    exact ⟨fun m hm he => ⟨hf.1 m hm he,
        first_mono_ne_nil_of_not_zero (ho.2.1 m hm) (hf.1 m hm he)⟩,
      fun m hm => ih m hm (ho.2.2 m hm) (hf.2 m hm)⟩

theorem zeroExpHeld_PolyAddInPlace (q : Poly) :
    ∀ p : Poly, ZeroExpHeld p → ZeroExpHeld q → ZeroExpHeld (PolyAddInPlace p q) := by
  induction q using Poly.induct with
  | h qc qms ih =>
    intro p hp hq
    cases qms with
    | nil =>
      rw [PolyAddInPlace_nil]
      rw [zeroExpHeld_iff] at hp
      rw [zeroExpHeld_mk]
      exact hp
    | cons q1 qs =>
      cases p with
      | mk pc pms =>
        cases pms with
        | nil =>
          rw [PolyAddInPlace_nil_cons]
          rw [zeroExpHeld_mk] at hq ⊢
          exact hq
        | cons p1 ps =>
          rw [zeroExpHeld_mk] at hp hq
          have hadd : ∀ q ∈ q1 :: qs, ∀ c : Poly,
              (ZeroExpHeld c ∧ (q.2 = 0 → c.constant = 0)) →
              (ZeroExpHeld (PolyAddInPlace c q.1)
                ∧ (q.2 = 0 → (PolyAddInPlace c q.1).constant = 0)) := by
            intro q hq' c hc
            refine ⟨ih q hq' c hc.1 (hq.2 q hq'), fun he => ?_⟩
            rw [constant_PolyAddInPlace (zeroExpFolded_of_held _ hc.1)
              (zeroExpFolded_of_held _ (hq.2 q hq')), hc.2 he, (hq.1 q hq' he).1]
            exact wrapCoeff_zero
          have hall := add_monos_forall
            (fun m => ZeroExpHeld m.1 ∧ (m.2 = 0 → m.1.constant = 0)) pc qc p1 q1 ps qs hadd
            (fun c hc => ⟨by
              have h1 := hc.1
              rw [zeroExpHeld_iff] at h1
              rw [zeroExpHeld_mk]
              exact h1, fun _ => rfl⟩)
            (fun m hm => ⟨hp.2 m hm, fun he => (hp.1 m hm he).1⟩)
            (fun m hm => ⟨hq.2 m hm, fun he => (hq.1 m hm he).1⟩)
          rw [zeroExpHeld_iff]
          refine ⟨fun m hm he => ⟨(hall m hm).2 he, ?_⟩, fun m hm => (hall m hm).1⟩
          exact first_mono_ne_nil_of_not_zero (add_monos_nonzero _ _ _ _ _ _ m hm)
            ((hall m hm).2 he)

theorem zeroExpHeld_PolyAddMonos (ms : List Mono) (h : ∀ m ∈ ms, ZeroExpHeld m.1) :
    ZeroExpHeld (PolyAddMonos ms) := by
  have hall := PolyAddMonos_forall (fun m => ZeroExpHeld m.1)
    (fun m => ZeroExpHeld m.1) (fun a b ha hb _ => zeroExpHeld_PolyAddInPlace b.1 a.1 ha hb)
    (fun c m hm => by
      by_cases he : m.2 = 0
      · rw [foldLastConstant_zero c m he]
        have h1 : ZeroExpHeld m.1 := hm
        rw [zeroExpHeld_iff] at h1
        show ZeroExpHeld (Poly.mk 0 m.1.first_mono)
        rw [zeroExpHeld_mk]
        exact h1
      · rw [foldLastConstant_pos c m he]
        exact hm) ms h
  rw [zeroExpHeld_iff]
  refine ⟨fun m hm he => ⟨PolyAddMonos_zeroExp ms m hm he, ?_⟩, hall⟩
  exact first_mono_ne_nil_of_not_zero (PolyAddMonos_nonzero ms m hm)
    (PolyAddMonos_zeroExp ms m hm he)

theorem zeroExpHeld_PolyMul {p q : Poly} (hp : ZeroExpHeld p) (hq : ZeroExpHeld q) :
    ZeroExpHeld (PolyMul p q) := by
  refine PolyMul_keeps ZeroExpHeld (fun p _ => zeroExpHeld_const _) ?_ ?_ p q hp hq
  · intro p hp m hm
    exact ((zeroExpHeld_iff p).mp hp).2 m hm
  · intro ms c hms
    have := zeroExpHeld_PolyAddMonos ms hms
    rw [zeroExpHeld_iff] at this
    rw [zeroExpHeld_mk]
    exact this

/-- C38: the form in which the code keeps the terms with exponent 0. Call a
polynomial held when, at every nesting level, every term with exponent 0 has a
coefficient whose constant field is 0 and which has at least one term of its
own. `PolyAddMonos` of an array whose coefficients are held is held, and
`PolyAddInPlace`, `PolyAdd` and `PolyMul` of held operands are held; every
canonical polynomial is held. -/
theorem zero_exponent_terms_held (monos : List Mono) (p q : Poly)
    (hmonos : ∀ m ∈ monos, ZeroExpHeld m.1) (hp : ZeroExpHeld p) (hq : ZeroExpHeld q) :
    ZeroExpHeld (PolyAddMonos monos)
      ∧ ZeroExpHeld (PolyAddInPlace p q)
      ∧ ZeroExpHeld (PolyAdd p q)
      ∧ ZeroExpHeld (PolyMul p q)
      ∧ (∀ r : Poly, Canonical r → ZeroExpHeld r)
      ∧ ∀ r : Poly, ZeroExpHeld r → ∀ m ∈ r.first_mono, m.2 = 0 →
          m.1.constant = 0 ∧ m.1.first_mono ≠ [] ∧ ZeroExpHeld m.1 :=
  ⟨zeroExpHeld_PolyAddMonos monos hmonos, zeroExpHeld_PolyAddInPlace q p hp hq,
    zeroExpHeld_PolyAddInPlace q p hp hq, zeroExpHeld_PolyMul hp hq,
    fun r hr => zeroExpHeld_of_canonical r hr.1 hr.2.1,
    fun r hr m hm he => ⟨(((zeroExpHeld_iff r).mp hr).1 m hm he).1,
      (((zeroExpHeld_iff r).mp hr).1 m hm he).2, ((zeroExpHeld_iff r).mp hr).2 m hm⟩⟩

/-- Witness of C38: the array `[(4 + x0, 0), (x1, 0)]`, whose sum is
`4 + (x0 + x1) * x0^0` in the representation, and the operands `2 + x0 * x1^0`
(the literal `(2,0)+((1,1),0)`) and `x1 + 5 * x0`. -/
theorem zero_exponent_terms_held_witness :
    (∀ m ∈ [(Poly.mk 4 [(Poly.mk 1 [], 1)], 0), (Poly.mk 0 [(Poly.mk 0 [(Poly.mk 1 [], 1)], 0)], 0)],
        ZeroExpHeld m.1)
      ∧ ZeroExpHeld (Poly.mk 2 [(Poly.mk 0 [(Poly.mk 1 [], 1)], 0)])
      ∧ ZeroExpHeld (Poly.mk 0 [(Poly.mk 0 [(Poly.mk 1 [], 1)], 0), (Poly.mk 5 [], 1)])
      ∧ PolyAddMonos [(Poly.mk 4 [(Poly.mk 1 [], 1)], 0),
          (Poly.mk 0 [(Poly.mk 0 [(Poly.mk 1 [], 1)], 0)], 0)]
        = Poly.mk 4 [(Poly.mk 0 [(Poly.mk 0 [(Poly.mk 1 [], 1)], 0), (Poly.mk 1 [], 1)], 0)]
      ∧ ZeroExpHeld (PolyAddMonos [(Poly.mk 4 [(Poly.mk 1 [], 1)], 0),
          (Poly.mk 0 [(Poly.mk 0 [(Poly.mk 1 [], 1)], 0)], 0)])
      ∧ ZeroExpHeld (PolyMul (Poly.mk 2 [(Poly.mk 0 [(Poly.mk 1 [], 1)], 0)])
          (Poly.mk 0 [(Poly.mk 0 [(Poly.mk 1 [], 1)], 0), (Poly.mk 5 [], 1)])) :=
  ⟨by decide, by decide, by decide, rfl,
    (zero_exponent_terms_held _ (Poly.mk 2 [(Poly.mk 0 [(Poly.mk 1 [], 1)], 0)])
      (Poly.mk 0 [(Poly.mk 0 [(Poly.mk 1 [], 1)], 0), (Poly.mk 5 [], 1)])
      (by decide) (by decide) (by decide)).1,
    (zero_exponent_terms_held
      [(Poly.mk 4 [(Poly.mk 1 [], 1)], 0), (Poly.mk 0 [(Poly.mk 0 [(Poly.mk 1 [], 1)], 0)], 0)]
      (Poly.mk 2 [(Poly.mk 0 [(Poly.mk 1 [], 1)], 0)])
      (Poly.mk 0 [(Poly.mk 0 [(Poly.mk 1 [], 1)], 0), (Poly.mk 5 [], 1)])
      (by decide) (by decide) (by decide)).2.2.2.1⟩

/-! ## The constant of a product -/

theorem PolyMul_eq_array (p q : Poly) :
    PolyMul p q = Poly.mk (wrapCoeff (p.constant * q.constant))
      (PolyAddMonos (PolyMulArray p q)).first_mono :=
  PolyMul_eq p q

theorem PolyMulArray_folded {p q : Poly} (hp : ZeroExpFolded p) (hq : ZeroExpFolded q) :
    ∀ m ∈ PolyMulArray p q, ZeroExpFolded m.1 ∧ (m.2 = 0 → m.1.constant = 0) := by
  have hpc := (zeroExpFolded_iff p).mp hp
  have hqc := (zeroExpFolded_iff q).mp hq
  intro m hm
  rcases mem_mulArray hm with ⟨mp, hmp, mq, hmq, rfl⟩ | ⟨mp, hmp, rfl⟩ | ⟨mq, hmq, rfl⟩
  · refine ⟨zeroExpFolded_PolyMul (hpc.2 mp hmp) (hqc.2 mq hmq), fun he => ?_⟩
    have he1 : mp.2 = 0 := by simp only at he; omega
    have he2 : mq.2 = 0 := by simp only at he; omega
    rw [constant_PolyMul, hpc.1 mp hmp he1, hqc.1 mq hmq he2]
    decide
  · refine ⟨zeroExpFolded_PolyMul (hpc.2 mp hmp) (zeroExpFolded_const _), fun he => ?_⟩
    rw [constant_PolyMul, hpc.1 mp hmp he, zero_mul]
    decide
  · refine ⟨zeroExpFolded_PolyMul (hqc.2 mq hmq) (zeroExpFolded_const _), fun he => ?_⟩
    rw [constant_PolyMul, hqc.1 mq hmq he, zero_mul]
    decide

theorem value_zero_assignment {p : Poly} (hp : ZeroExpFolded p) :
    value p (fun _ => 0) = p.constant := by
  rw [value_eq_evalIn]
  have := evalIn_zero_assignment (R := Int) p hp
  simpa using this

/-! ## What the bound loop of the readers decides -/

/-- The bound loop compares every digit with the digit of the bound at the same
position: for digits and a bound given from the last digit to the first. -/
theorem unsignedDigitExceeds_eq_any : ∀ (rds rbs : List Char), AllDigits rbs →
    rds.length ≤ rbs.length →
    unsignedDigitExceeds rds (decimalValue rbs.reverse)
      = (rds.zip rbs).any (fun t => decide (digitValue t.1 > digitValue t.2)) := by
  intro rds
  induction rds with
  | nil => intro rbs _ _; rfl
  | cons d rds ih =>
    intro rbs hbs hlen
    cases rbs with
    | nil => simp at hlen
    | cons b rbs =>
      have hb : digitValue b ≤ 9 := digitValue_le (hbs b (List.mem_cons_self _ _))
      have hbs' : AllDigits rbs := fun c hc => hbs c (List.mem_cons_of_mem _ hc)
      have hlen' : rds.length ≤ rbs.length := by simpa using hlen
      rw [List.reverse_cons, decimalValue_append_singleton]
      unfold unsignedDigitExceeds
      have h1 : (decimalValue rbs.reverse * 10 + digitValue b) % 10 = digitValue b := by omega
      have h2 : (decimalValue rbs.reverse * 10 + digitValue b) / 10 = decimalValue rbs.reverse := by
        omega
      simp only [h1, h2, List.zip_cons_cons, List.any_cons]
      rw [ih rbs hbs' hlen']
      by_cases hgt : digitValue d > digitValue b
      · simp [hgt]
      · simp [hgt]

theorem unsignedDigitExceeds_eq_someDigitExceeds (ds bs : List Char) (hbs : AllDigits bs)
    (hlen : ds.length = bs.length) :
    unsignedDigitExceeds ds.reverse (decimalValue bs) = SomeDigitExceeds ds bs := by
  have h := unsignedDigitExceeds_eq_any ds.reverse bs.reverse
    (fun c hc => hbs c (List.mem_reverse.mp hc)) (by simp [hlen])
  rw [List.reverse_reverse] at h
  rw [h]
  unfold SomeDigitExceeds
  show (List.zipWith Prod.mk ds.reverse bs.reverse).any _ = (List.zipWith Prod.mk ds bs).any _
  rw [← List.reverse_zipWith hlen, List.any_reverse]


theorem coeffBound_text (negative : Bool) :
    (if negative then 9223372036854775808 else 9223372036854775807 : Nat)
      = decimalValue (if negative then "9223372036854775808".toList
          else "9223372036854775807".toList) := by
  cases negative <;> decide

/-- C39: what the bound check of the readers decides. For a literal of exactly
the digit count of the bound, followed by a character that ends it, the reader
sets the parse-error flag exactly when some digit of the literal is greater than
the digit of the bound at the same position, whatever the more significant
digits are: 19 digits against `9223372036854775807` (after a `-`:
`9223372036854775808`) for `ReadPolyCoefficient` (before `,` or a newline) and
`ReadAtCommandArgument` (before a newline), 10 digits against `2147483647` for
`ReadExponent`, and 10 digits against `4294967295` for
`ReadDegByCommandArgument` and `ReadComposeCommandArgument` (before a
newline). -/
theorem bound_check_is_digitwise (negative : Bool) (ds rest : List Char) (t : Char)
    (col line : Nat) (pe : Bool) (err : List String) (hds : AllDigits ds) :
    (ds.length = MAX_VALUE_AND_COEFF_LENGTH → (t = ',' ∨ t = '\n') →
      ((ReadPolyCoefficient
          ⟨literalText negative ds ++ t :: rest, col, line, pe, err⟩).2.parse_error = true
        ↔ SomeDigitExceeds ds (if negative then "9223372036854775808".toList
            else "9223372036854775807".toList) = true))
    ∧ (ds.length = MAX_VALUE_AND_COEFF_LENGTH →
      ((ReadAtCommandArgument
          ⟨literalText negative ds ++ '\n' :: rest, col, line, pe, err⟩).2.parse_error = true
        ↔ SomeDigitExceeds ds (if negative then "9223372036854775808".toList
            else "9223372036854775807".toList) = true))
    ∧ (ds.length = MAX_EXPONENT_LENGTH → IsValidDigit rest.head? = false →
      ((ReadExponent ⟨ds ++ rest, col, line, pe, err⟩).2.parse_error = true
        ↔ SomeDigitExceeds ds "2147483647".toList = true))
    ∧ (ds.length = MAX_VARIABLE_LENGTH →
      ((ReadDegByCommandArgument ⟨ds ++ '\n' :: rest, col, line, pe, err⟩).2.parse_error = true
        ↔ SomeDigitExceeds ds "4294967295".toList = true)
      ∧ ((ReadComposeCommandArgument
            ⟨ds ++ '\n' :: rest, col, line, pe, err⟩).2.parse_error = true
        ↔ SomeDigitExceeds ds "4294967295".toList = true)) := by
  have hflag : ∀ b : Bool, b = true ↔ ¬ b = false := by intro b; cases b <;> simp
  have hcoeff : ∀ (isValue : Bool) (t : Char), ds.length = MAX_VALUE_AND_COEFF_LENGTH →
      (t = '\n' ∨ (isValue = false ∧ t = ',')) →
      ((ReadValueOrCoefficient
          ⟨literalText negative ds ++ t :: rest, col, line, pe, err⟩ isValue).2.parse_error = true
        ↔ SomeDigitExceeds ds (if negative then "9223372036854775808".toList
            else "9223372036854775807".toList) = true) := by
    intro isValue t hlen ht
    have hne : ds ≠ [] := by
      intro h; rw [h] at hlen; exact absurd hlen (by decide)
    have htd : IsValidDigit (t :: rest).head? = false := by
      rcases ht with rfl | ⟨_, rfl⟩ <;> rfl
    have hneg : negative = false → (ds ++ t :: rest).head? ≠ some '-' := by
      intro _
      cases ds with
      | nil => exact absurd rfl hne
      | cons d ds' =>
        intro h
        have hd : d = '-' := by simpa using h
        have := hds d (List.mem_cons_self _ _)
        rw [hd] at this
        exact absurd this (by decide)
    have hiff := ReadValueOrCoefficient_accept_iff isValue negative ds (t :: rest) hds htd hneg
      col line pe err (le_of_eq hlen)
    have hex : unsignedDigitExceeds ds.reverse
          (if negative then 9223372036854775808 else 9223372036854775807)
        = SomeDigitExceeds ds (if negative then "9223372036854775808".toList
            else "9223372036854775807".toList) := by
      rw [coeffBound_text]
      apply unsignedDigitExceeds_eq_someDigitExceeds
      · cases negative <;> decide
      · rw [hlen]; cases negative <;> rfl
    rw [hflag, hiff, hex]
    have hterm : (t :: rest).head? = some '\n' ∨ (isValue = false ∧ (t :: rest).head? = some ',') := by
      rcases ht with rfl | ⟨h, rfl⟩
      · exact Or.inl rfl
      · exact Or.inr ⟨h, rfl⟩
    constructor
    · intro h
      by_contra hno
      exact h ⟨hne, hterm, fun hh => hno hh.2⟩
    · intro h hh
      exact hh.2.2 ⟨hlen, h⟩
  refine ⟨fun hlen ht => ?_, fun hlen => ?_, fun hlen hrest => ?_, fun hlen => ?_⟩
  · refine hcoeff false t hlen ?_
    rcases ht with h | h
    · exact Or.inr ⟨rfl, h⟩
    · exact Or.inl h
  · exact hcoeff true '\n' hlen (Or.inl rfl)
  · have hne : ds ≠ [] := by
      intro h; rw [h] at hlen; exact absurd hlen (by decide)
    have hneg : false = false → (ds ++ rest).head? ≠ some '-' := by
      intro _
      cases ds with
      | nil => exact absurd rfl hne
      | cons d ds' =>
        intro h
        have hd : d = '-' := by simpa using h
        have := hds d (List.mem_cons_self _ _)
        rw [hd] at this
        exact absurd this (by decide)
    have hiff := (ReadExponent_short false ds rest hds hrest hneg col line pe err
      (le_of_eq hlen)).1
    have hex : unsignedDigitExceeds ds.reverse INT_MAX
        = SomeDigitExceeds ds "2147483647".toList := by
      have : INT_MAX = decimalValue "2147483647".toList := by decide
      rw [this]
      apply unsignedDigitExceeds_eq_someDigitExceeds
      · decide
      · rw [hlen]; rfl
    have htext : literalText false ds ++ rest = ds ++ rest := rfl
    rw [htext] at hiff
    rw [hflag, hiff, hex]
    constructor
    · intro h
      by_contra hno
      exact h ⟨fun hf => Bool.noConfusion hf, hne, fun hh => hno hh.2⟩
    · intro h hh
      exact hh.2.2 ⟨hlen, h⟩
  · have hne : ds ≠ [] := by
      intro h; rw [h] at hlen; exact absurd hlen (by decide)
    have hex : unsignedDigitExceeds ds.reverse UINT_MAX
        = SomeDigitExceeds ds "4294967295".toList := by
      have : UINT_MAX = decimalValue "4294967295".toList := by decide
      rw [this]
      apply unsignedDigitExceeds_eq_someDigitExceeds
      · decide
      · rw [hlen]; rfl
    have hboth : ∀ isDegBy : Bool,
        ((ReadDegByOrComposeCommandArgument
            ⟨ds ++ '\n' :: rest, col, line, pe, err⟩ isDegBy).2.parse_error = true
          ↔ SomeDigitExceeds ds "4294967295".toList = true) := by
      intro isDegBy
      have hiff := (ReadDegByOrComposeCommandArgument_accept_iff isDegBy ds ('\n' :: rest) hds
        rfl col line pe err).1
      rw [hflag, hiff, hex]
      constructor
      · intro h
        by_contra hno
        exact h ⟨hne, le_of_eq hlen, rfl, fun hh => hno hh.2⟩
      · intro h hh
        exact hh.2.2.2 ⟨hlen, h⟩
    exact ⟨hboth true, hboth false⟩

/-- Witness of C39: `1999999999999999999` before a newline is rejected by
`ReadAtCommandArgument`, its second digit 9 being greater than the second digit
2 of `9223372036854775807`, although its value is below that bound. -/
theorem bound_check_is_digitwise_witness :
    AllDigits "1999999999999999999".toList
      ∧ "1999999999999999999".toList.length = MAX_VALUE_AND_COEFF_LENGTH
      ∧ SomeDigitExceeds "1999999999999999999".toList "9223372036854775807".toList = true
      ∧ decimalValue "1999999999999999999".toList < decimalValue "9223372036854775807".toList
      ∧ (ReadAtCommandArgument
          ⟨literalText false "1999999999999999999".toList ++ '\n' :: [], 0, 0, false, []⟩
        ).2.parse_error = true :=
  ⟨by decide, by decide, by decide, by decide,
    ((bound_check_is_digitwise false "1999999999999999999".toList [] ',' 0 0 false []
      (by decide)).2.1 (by decide)).mpr (by decide)⟩

/-! ## The commands `SUB` and `COMPOSE` -/

theorem composePopLoop_append (x rest : List Poly) :
    composePopLoop x.length (x ++ rest) = some (x, rest) := by
  induction x with
  | nil => rfl
  | cons a x ih =>
    show (match composePopLoop x.length (x ++ rest) with
      | some (tab, stack) => some (a :: tab, stack)
      | none => none) = some (a :: x, rest)
    rw [ih]

/-- Function `CommandCompose` on a stack that holds fewer than `count + 1`
polynomials: the diagnostic is written and nothing else changes, also for
`count = UINT_MAX`, where `count + 1` wraps to 0 and the first of the two tests
applies. -/
theorem CommandCompose_underflow (st : Calculator) (count : Nat)
    (hsize : st.poly_stack.length < UINT_MAX) (hfew : st.poly_stack.length < count + 1) :
    CommandCompose st count = some (stackUnderflow st) := by
  unfold CommandCompose
  by_cases h1 : st.poly_stack.length < count
  · rw [if_pos h1]
  · rw [if_neg h1]
    have hc : count < UINT_MAX := by omega
    have hmod : (count + 1) % 4294967296 = count + 1 := by
      unfold UINT_MAX at hc
      omega
    rw [hmod, if_pos hfew]

/-- Function `CommandCompose` on a stack that holds `count + 1` polynomials or
more: the top `p` and the `count` polynomials `x` below it are popped, and
`PolyCompose(p, count, x)` is pushed. -/
theorem CommandCompose_pops (st : Calculator) (count : Nat)
    (p : Poly) (x rest : List Poly) (hx : x.length = count)
    (hstack : st.poly_stack = p :: (x ++ rest)) :
    ∃ r, PolyCompose p count x = .ok r ∧
      CommandCompose st count = some { st with poly_stack := r :: rest } := by
  refine ⟨composeRec count x 0 p, PolyCompose_eq p count x (le_of_eq hx.symm), ?_⟩
  unfold CommandCompose
  have hlen : st.poly_stack.length = count + 1 + rest.length := by
    rw [hstack]
    simp only [List.length_cons, List.length_append, hx]
    omega
  have h1 : ¬ st.poly_stack.length < count := by omega
  have h2 : ¬ st.poly_stack.length < (count + 1) % 4294967296 := by
    have : (count + 1) % 4294967296 ≤ count + 1 := Nat.mod_le _ _
    omega
  rw [if_neg h1, if_neg h2, hstack]
  simp only []
  rw [← hx, composePopLoop_append]
  simp only []
  rw [hx, PolyCompose_eq p count x (le_of_eq hx.symm)]

/-- C34, the code diverges from the claim. Function `CommandSub` pops the top `q`
and the polynomial `p` below it and pushes `PolySub(q, p)`, the top minus the
polynomial second from the top, where the claim (and the comment above
`CommandSub`) has the second minus the top: with `3` on top of `5` the command
`SUB` leaves `3 - 5 = -2` on the stack, and the input `5`, `3`, `SUB`, `PRINT`
prints `-2`, while `5 - 3` is `2`. -/
theorem SUB_pushes_top_minus_second :
    (∀ (stream : InputStream) (q p : Poly) (rest : List Poly) (out : List String),
        CommandSub ⟨stream, q :: p :: rest, out⟩ = ⟨stream, PolySub q p :: rest, out⟩)
      ∧ (ReadAndExecuteCommand
            ⟨InputStreamInit "SUB\n".toList, [PolyFromCoeff 3, PolyFromCoeff 5], []⟩).map
          (fun st => st.poly_stack) = some [PolyFromCoeff (-2)]
      ∧ PolySub (PolyFromCoeff 5) (PolyFromCoeff 3) = PolyFromCoeff 2
      ∧ (calcMain "5\n3\nSUB\nPRINT\n".toList).map (fun st => (st.stdout, st.stream.stderr))
          = some (["-2", "\n"], []) :=
  ⟨fun _ _ _ _ _ => rfl, rfl, rfl, rfl⟩

/-- C35, the code diverges from the claim. The count `1999999999` lies in
`[0, UINT_MAX]` and the empty stack holds fewer than `count + 1` polynomials,
but the line `COMPOSE 1999999999` is answered with `ERROR 1 WRONG COUNT`, not
with `ERROR 1 STACK UNDERFLOW`: the digit-wise bound loop of
`ReadComposeCommandArgument` rejects the count before `CommandCompose` is
called. The stack is left as it was. For `COMPOSE 4294967295` and
`COMPOSE 999999999` the diagnostic is `STACK UNDERFLOW`. -/
theorem COMPOSE_in_range_count_rejected :
    1999999999 ≤ UINT_MAX
      ∧ (calcMain "COMPOSE 1999999999\n".toList).map
          (fun st => (st.stdout, st.stream.stderr, st.poly_stack.length))
        = some ([], ["ERROR 1 WRONG COUNT\n"], 0)
      ∧ (calcMain "7\nCOMPOSE 1999999999\n".toList).map
          (fun st => (st.stdout, st.stream.stderr, st.poly_stack.length))
        = some ([], ["ERROR 2 WRONG COUNT\n"], 1)
      ∧ (calcMain "COMPOSE 4294967295\n".toList).map
          (fun st => (st.stdout, st.stream.stderr, st.poly_stack.length))
        = some ([], ["ERROR 1 STACK UNDERFLOW\n"], 0)
      ∧ (calcMain "7\nCOMPOSE 999999999\n".toList).map
          (fun st => (st.stdout, st.stream.stderr, st.poly_stack.length))
        = some ([], ["ERROR 2 STACK UNDERFLOW\n"], 1) :=
  ⟨by decide, rfl, rfl, rfl, rfl⟩

/-! ## The polynomial that `ReadPolynomial` returns -/

section Ring

variable {K : Type} [CommRing K]

/-- The value of the polynomial into which an accumulator is collapsed is the
sum of the values of its monomials. -/
theorem evalIn_collapse (hK : WrapsIn K) (s : List Mono) (v : Nat → K) :
    evalIn (CollapseMonoStackIntoAPoly s) v = evalMonosIn s v := by
  unfold CollapseMonoStackIntoAPoly
  by_cases h : s.length = 0
  · rw [if_pos h]
    have : s = [] := List.length_eq_zero.mp h
    subst this
    simp [PolyZero]
  · rw [if_neg h, evalIn_PolyAddMonos hK]
    exact evalMonosIn_perm (List.reverse_perm s) v

/-- The accumulator after a monomial is closed: the monomial is pushed unless
its coefficient is the zero polynomial, whose value is 0. -/
theorem evalMonosIn_push (p : Poly) (x : Nat) (top : List Mono) (v : Nat → K) :
    evalMonosIn (if PolyIsZero p = false then MonoFromPoly p x :: top else top) v
      = v 0 ^ x * evalIn p (fun i => v (i + 1)) + evalMonosIn top v := by
  by_cases hz : PolyIsZero p = false
  · rw [if_pos hz, evalMonosIn_cons]
    rfl
  · rw [if_neg hz]
    have hz' : PolyIsZero p = true := by simpa using hz
    rw [evalIn_of_isZero hz']
    simp

end Ring

theorem parsePolyFail_flag (s : InputStream) : (parsePolyFail s).2.parse_error = true := rfl

/-- A text that has a meaning is not empty; a `poly` starts with a digit, `-` or
`(`, and a list of monomials starts with `(`. -/
theorem meaning_head {b : Bool} {w : List Char} {m : (Nat → Int) → Int}
    (h : LiteralMeaning b w m) :
    w ≠ [] ∧ (IsValidNumberCharacter w.head? = true ∨ w.head? = some '(') := by
  induction h with
  | coefficient negative ds hne hds =>
    refine ⟨literalText_ne_nil hne, Or.inl ?_⟩
    have := literalText_head negative ds hne hds []
    rwa [List.append_nil] at this
  | monos _ ih => exact ih
  | mono _ _ _ _ _ _ => exact ⟨List.cons_ne_nil _ _, Or.inr rfl⟩
  | plus _ _ _ _ _ _ _ _ => exact ⟨List.cons_ne_nil _ _, Or.inr rfl⟩

/-- The round of the loop of `ReadPolynomial` at the `,` that closes a monomial
whose exponent is written by the digits `ds` (after `-` when `negative`),
followed by `)` and one of `+`, `,` and a newline: the line is rejected, or the
top accumulator is collapsed into the coefficient of the monomial, which is
pushed with the value of the exponent unless the coefficient is zero. -/
theorem ReadPolynomialLoop_close (fuel : Nat) (negative : Bool) (ds : List Char)
    (hne : ds ≠ []) (hds : AllDigits ds) (z : List Char)
    (hz : z.head? = some '+' ∨ z.head? = some ',' ∨ z.head? = some '\n')
    (col line : Nat) (pe : Bool) (err : List String) (top1 top : List Mono)
    (below : List (List Mono)) :
    (ReadPolynomialLoop (fuel + 1)
        ⟨',' :: (literalText negative ds ++ ')' :: z), col, line, pe, err⟩ false top1
        (top :: below)).2.parse_error = true ∨
    ReadPolynomialLoop (fuel + 1)
        ⟨',' :: (literalText negative ds ++ ')' :: z), col, line, pe, err⟩ false top1
        (top :: below)
      = if z.head? = some '+' then
          ReadPolynomialLoop fuel
            ⟨z.tail, col + 1 + (literalText negative ds).length + 2, line, false, err⟩ true
            (if PolyIsZero (CollapseMonoStackIntoAPoly top1) = false then
              MonoFromPoly (CollapseMonoStackIntoAPoly top1) (literalValue negative ds).toNat
                :: top else top) below
        else
          ReadPolynomialLoop fuel
            ⟨z, col + 1 + (literalText negative ds).length + 1, line, false, err⟩ false
            (if PolyIsZero (CollapseMonoStackIntoAPoly top1) = false then
              MonoFromPoly (CollapseMonoStackIntoAPoly top1) (literalValue negative ds).toNat
                :: top else top) below := by
  have hrest : IsValidDigit (')' :: z).head? = false := rfl
  have hneg : negative = false → (ds ++ ')' :: z).head? ≠ some '-' :=
    fun _ => head_ne_minus_of_digits hne hds _
  obtain ⟨hiff, hacc, _⟩ := ReadExponent_accept negative ds (')' :: z) hds hrest hneg (col + 1)
    line false err
  by_cases hflag : (ReadExponent ⟨literalText negative ds ++ ')' :: z, col + 1, line, false,
      err⟩).2.parse_error = true
  · left
    rw [ReadPolynomialLoop_comma_rejected fuel _ col line pe err top1 top below hflag]
    exact hflag
  have hok : (ReadExponent ⟨literalText negative ds ++ ')' :: z, col + 1, line, false,
      err⟩).2.parse_error = false := by simpa using hflag
  have hRE := hacc hok
  obtain ⟨hzero, _, _⟩ := hiff.mp hok
  rw [ReadPolynomialLoop_comma_accepted fuel _ col line pe err top1 top below _ _ _ line err hRE]
  by_cases hlen : ds.length ≤ MAX_EXPONENT_LENGTH
  · obtain ⟨htake, hdrop, hmin⟩ := take_drop_short hlen (')' :: z)
    right
    have hval : decimalValue (ds.take MAX_EXPONENT_LENGTH) = (literalValue negative ds).toNat := by
      rw [htake]
      cases negative with
      | false => simp [literalValue]
      | true =>
        have h0 : ds = ['0'] := by rw [← htake]; exact hzero rfl
        rw [h0]
        decide
    have hcol : col + 1 + (if negative = true then 1 else 0) + min MAX_EXPONENT_LENGTH ds.length
        = col + 1 + (literalText negative ds).length := by
      rw [hmin, literalText_length]
      omega
    rw [hdrop, hval, hcol]
    simp only [List.head?_cons, if_true, List.tail_cons]
    rcases hz with h | h | h
    · rw [if_pos h, if_pos h]
    · have hnp : z.head? ≠ some '+' := by rw [h]; decide
      rw [if_neg hnp, if_neg hnp, if_pos (Or.inr h)]
    · have hnp : z.head? ≠ some '+' := by rw [h]; decide
      rw [if_neg hnp, if_neg hnp, if_pos (Or.inl h)]
  · left
    obtain ⟨d, hd, hdig⟩ := head_drop_digit hds (n := MAX_EXPONENT_LENGTH) (by omega) (')' :: z)
    have hnc : (ds.drop MAX_EXPONENT_LENGTH ++ ')' :: z).head? ≠ some ')' := by
      rw [hd]
      intro h
      have : d = ')' := by simpa using h
      rw [this] at hdig
      exact absurd hdig (by decide)
    rw [if_neg hnc]
    rfl

/-- On a text with a meaning followed by `,` or a newline, the loop of
`ReadPolynomial` rejects the line, or it arrives at that character with the
value of the top accumulator increased by the meaning of the text. -/
theorem ReadPolynomialLoop_value {K : Type} [CommRing K] (hK : WrapsIn K) {b : Bool}
    {w : List Char} {m : (Nat → Int) → Int} (h : LiteralMeaning b w m) :
    ∀ (fuel : Nat) (t : Char) (r : List Char) (col line : Nat) (pe : Bool) (err : List String)
      (e : Bool) (top : List Mono) (below : List (List Mono)),
      (t = ',' ∨ t = '\n') → (b = false → e = false) → (w ++ t :: r).length < fuel →
      (ReadPolynomialLoop fuel ⟨w ++ t :: r, col, line, pe, err⟩ e top below).2.parse_error = true
      ∨ ∃ top' fuel', (t :: r).length < fuel' ∧
        ReadPolynomialLoop fuel ⟨w ++ t :: r, col, line, pe, err⟩ e top below
          = ReadPolynomialLoop fuel' ⟨t :: r, col + w.length, line, false, err⟩ false top'
              below ∧
        ∀ v : Nat → Int,
          evalMonosIn top' (fun i => ((v i : Int) : K))
            = evalMonosIn top (fun i => ((v i : Int) : K)) + ((m v : Int) : K) := by
  induction h with
  | coefficient negative ds hne hds =>
    intro fuel t r col line pe err e top below ht he hfuel
    obtain ⟨f, rfl⟩ : ∃ f, fuel = f + 1 := ⟨fuel - 1, by omega⟩
    have he' : e = false := he rfl
    subst he'
    have hu := literalText_head negative ds hne hds (t :: r)
    have hrest : IsValidDigit (t :: r).head? = false := by
      rcases ht with rfl | rfl <;> rfl
    have hneg : negative = false → (ds ++ t :: r).head? ≠ some '-' :=
      fun _ => head_ne_minus_of_digits hne hds _
    rw [ReadPolynomialLoop_coefficient f _ col line pe err top below hu]
    by_cases hflag : (ReadPolyCoefficient
        ⟨literalText negative ds ++ t :: r, col, line, false, err⟩).2.parse_error = true
    · left
      rw [if_pos hflag]
      exact hflag
    rw [if_neg hflag]
    right
    have hok : (ReadValueOrCoefficient
        ⟨literalText negative ds ++ t :: r, col, line, false, err⟩ false).2.parse_error = false := by
      simpa [ReadPolyCoefficient] using hflag
    have hlen : ds.length ≤ MAX_VALUE_AND_COEFF_LENGTH := by
      by_contra hlong
      have := (ReadValueOrCoefficient_long false negative ds (t :: r) hds hrest hneg col line false
        err (by omega)).2
      rw [this] at hok
      cases hok
    obtain ⟨hR, hlo, hhi⟩ := ReadValueOrCoefficient_accepted false negative ds (t :: r) hds hrest
      hneg col line false err hlen hok
    have hR' : ReadPolyCoefficient ⟨literalText negative ds ++ t :: r, col, line, false, err⟩
        = (literalValue negative ds,
            ⟨t :: r, col + (literalText negative ds).length, line, false, err⟩) := hR
    have hflen : (t :: r).length < f := by
      have : 0 < (literalText negative ds).length := List.length_pos.mpr (literalText_ne_nil hne)
      rw [List.length_append] at hfuel
      omega
    rw [hR']
    by_cases h0 : literalValue negative ds ≠ 0
    · rw [if_pos h0]
      refine ⟨_, f, hflen, rfl, fun v => ?_⟩
      rw [evalMonosIn_cons]
      simp [MonoFromPoly, PolyFromCoeff]
      ring
    · rw [if_neg h0]
      refine ⟨_, f, hflen, rfl, fun v => ?_⟩
      have : literalValue negative ds = 0 := by simpa using h0
      simp [this]
  | monos _ ih =>
    intro fuel t r col line pe err e top below ht _ hfuel
    exact ih fuel t r col line pe err e top below ht (fun h => Bool.noConfusion h) hfuel
  | @mono p mp negative ds hp hne hds ihp =>
    intro fuel t r col line pe err e top below ht _ hfuel
    obtain ⟨f, rfl⟩ : ∃ f, fuel = f + 1 := ⟨fuel - 1, by omega⟩
    have hl : ('(' :: p ++ ',' :: literalText negative ds ++ [')']) ++ t :: r
        = '(' :: (p ++ ',' :: (literalText negative ds ++ ')' :: t :: r)) := by simp
    have hlen0 : ('(' :: p ++ ',' :: literalText negative ds ++ [')']).length
        = p.length + (literalText negative ds).length + 3 := by
      simp; omega
    rw [hl] at hfuel ⊢
    obtain ⟨hpne, hphead⟩ := meaning_head hp
    have hstart : IsValidNumberCharacter
          (p ++ ',' :: (literalText negative ds ++ ')' :: t :: r)).head? = true ∨
        (p ++ ',' :: (literalText negative ds ++ ')' :: t :: r)).head? = some '(' := by
      rw [head?_append_of_ne_nil hpne]; exact hphead
    rw [ReadPolynomialLoop_open, if_pos hstart]
    rcases ihp f ',' (literalText negative ds ++ ')' :: t :: r) (col + 1) line false err false
      [] (top :: below) (Or.inl rfl) (fun _ => rfl)
      (by simp only [List.length_cons, List.length_append] at hfuel ⊢; omega)
      with hrej | ⟨top1, f1, hf1, heq1, hval1⟩
    · exact Or.inl hrej
    rw [heq1]
    obtain ⟨f2, rfl⟩ : ∃ f2, f1 = f2 + 1 := ⟨f1 - 1, by
      simp only [List.length_cons] at hf1; omega⟩
    have hz : (t :: r).head? = some '+' ∨ (t :: r).head? = some ',' ∨
        (t :: r).head? = some '\n' := by
      rcases ht with rfl | rfl
      · exact Or.inr (Or.inl rfl)
      · exact Or.inr (Or.inr rfl)
    rcases ReadPolynomialLoop_close f2 negative ds hne hds (t :: r) hz (col + 1 + p.length) line
      false err top1 top below with hrej | hstep
    · exact Or.inl hrej
    right
    rw [hstep]
    have hnp : (t :: r).head? ≠ some '+' := by
      rcases ht with rfl | rfl <;> simp
    rw [if_neg hnp]
    refine ⟨(if PolyIsZero (CollapseMonoStackIntoAPoly top1) = false then
        MonoFromPoly (CollapseMonoStackIntoAPoly top1) (literalValue negative ds).toNat :: top
      else top), f2, ?_, ?_, fun v => ?_⟩
    · simp only [List.length_cons, List.length_append] at hf1 ⊢
      omega
    · have hcol : col + 1 + p.length + 1 + (literalText negative ds).length + 1
          = col + ('(' :: p ++ ',' :: literalText negative ds ++ [')']).length := by
        rw [hlen0]; omega
      rw [hcol]
    · rw [evalMonosIn_push, evalIn_collapse hK, hval1 (fun i => v (i + 1))]
      simp
      ring
  | @plus p ms mp mms negative ds hp hne hds hms ihp ihms =>
    intro fuel t r col line pe err e top below ht _ hfuel
    obtain ⟨f, rfl⟩ : ∃ f, fuel = f + 1 := ⟨fuel - 1, by omega⟩
    have hl : ('(' :: p ++ ',' :: literalText negative ds ++ ')' :: '+' :: ms) ++ t :: r
        = '(' :: (p ++ ',' :: (literalText negative ds ++ ')' :: '+' :: (ms ++ t :: r))) := by
      simp
    have hlen0 : ('(' :: p ++ ',' :: literalText negative ds ++ ')' :: '+' :: ms).length
        = p.length + (literalText negative ds).length + ms.length + 4 := by
      simp; omega
    rw [hl] at hfuel ⊢
    obtain ⟨hpne, hphead⟩ := meaning_head hp
    have hstart : IsValidNumberCharacter
          (p ++ ',' :: (literalText negative ds ++ ')' :: '+' :: (ms ++ t :: r))).head? = true ∨
        (p ++ ',' :: (literalText negative ds ++ ')' :: '+' :: (ms ++ t :: r))).head?
          = some '(' := by
      rw [head?_append_of_ne_nil hpne]; exact hphead
    rw [ReadPolynomialLoop_open, if_pos hstart]
    rcases ihp f ',' (literalText negative ds ++ ')' :: '+' :: (ms ++ t :: r)) (col + 1) line
      false err false [] (top :: below) (Or.inl rfl) (fun _ => rfl)
      (by simp only [List.length_cons, List.length_append] at hfuel ⊢; omega)
      with hrej | ⟨top1, f1, hf1, heq1, hval1⟩
    · exact Or.inl hrej
    rw [heq1]
    obtain ⟨f2, rfl⟩ : ∃ f2, f1 = f2 + 1 := ⟨f1 - 1, by
      simp only [List.length_cons] at hf1; omega⟩
    rcases ReadPolynomialLoop_close f2 negative ds hne hds ('+' :: (ms ++ t :: r))
      (Or.inl rfl) (col + 1 + p.length) line false err top1 top below with hrej | hstep
    · exact Or.inl hrej
    have hc : ('+' :: (ms ++ t :: r)).head? = some '+' := rfl
    rw [hstep, if_pos hc, List.tail_cons]
    rcases ihms f2 t r (col + 1 + p.length + 1 + (literalText negative ds).length + 2) line false
      err true _ below ht (fun h => Bool.noConfusion h)
      (by simp only [List.length_cons, List.length_append] at hf1 ⊢; omega)
      with hrej | ⟨top2, f3, hf3, heq3, hval3⟩
    · exact Or.inl hrej
    right
    refine ⟨top2, f3, hf3, ?_, fun v => ?_⟩
    · have hcol : col + 1 + p.length + 1 + (literalText negative ds).length + 2 + ms.length
          = col + ('(' :: p ++ ',' :: literalText negative ds ++ ')' :: '+' :: ms).length := by
        rw [hlen0]; omega
      rw [← hcol]
      exact heq3
    · rw [hval3, evalMonosIn_push, evalIn_collapse hK, hval1 (fun i => v (i + 1))]
      simp
      ring

/-- Every text of the grammar has a meaning. -/
theorem grammar_has_meaning {b : Bool} {w : List Char} (h : PolyGrammar b w) :
    ∃ m, LiteralMeaning b w m := by
  induction h with
  | coefficient hw =>
    obtain ⟨negative, ds, rfl, hne, hds, _⟩ := (acceptsCoefficient_iff _).mp hw
    exact ⟨_, LiteralMeaning.coefficient negative ds hne hds⟩
  | monos _ ih =>
    obtain ⟨m, hm⟩ := ih
    exact ⟨m, LiteralMeaning.monos hm⟩
  | mono _ he ihp =>
    obtain ⟨mp, hmp⟩ := ihp
    obtain ⟨negative, ds, rfl, hne, hds, _⟩ := (acceptsExponent_iff _).mp he
    exact ⟨_, LiteralMeaning.mono negative ds hmp hne hds⟩
  | plus _ he _ ihp ihms =>
    obtain ⟨mp, hmp⟩ := ihp
    obtain ⟨mms, hmms⟩ := ihms
    obtain ⟨negative, ds, rfl, hne, hds, _⟩ := (acceptsExponent_iff _).mp he
    exact ⟨_, LiteralMeaning.plus negative ds hmp hne hds hmms⟩

/-- The polynomial that `ReadPolynomial` returns for an accepted line has, in
every ring in which `2 ^ 64` is zero, the value of the meaning of the line. -/
theorem ReadPolynomial_value {K : Type} [CommRing K] (hK : WrapsIn K) (l rest : List Char)
    (m : (Nat → Int) → Int) (hm : LiteralMeaning false l m)
    (col line : Nat) (pe : Bool) (err : List String)
    (hok : (ReadPolynomial ⟨l ++ '\n' :: rest, col, line, pe, err⟩).2.parse_error = false)
    (v : Nat → Int) :
    evalIn (ReadPolynomial ⟨l ++ '\n' :: rest, col, line, pe, err⟩).1
        (fun i => ((v i : Int) : K)) = ((m v : Int) : K) := by
  obtain ⟨hne, hhead⟩ := meaning_head hm
  have hstart : IsValidNumberCharacter (l ++ '\n' :: rest).head? = true ∨
      (l ++ '\n' :: rest).head? = some '(' := by
    rw [head?_append_of_ne_nil hne]; exact hhead
  rw [ReadPolynomial_mk, if_pos hstart] at hok ⊢
  rcases ReadPolynomialLoop_value hK hm ((l ++ '\n' :: rest).length + 1) '\n' rest col line false
    err false [] [] (Or.inr rfl) (fun _ => rfl) (Nat.lt_succ_self _)
    with hrej | ⟨top', fuel', hf, heq, hval⟩
  · rw [hrej] at hok
    cases hok
  · rw [heq]
    obtain ⟨f, rfl⟩ : ∃ f, fuel' = f + 1 := ⟨fuel' - 1, by omega⟩
    rw [ReadPolynomialLoop_newline, if_pos ⟨rfl, rfl⟩]
    show evalIn (CollapseMonoStackIntoAPoly top') _ = _
    rw [evalIn_collapse hK, hval v]
    simp

/-- C31: the parsed value. For every line that `ReadPolynomial` accepts, the
text of the line has a meaning (a coefficient literal means its constant, a
monomial `(P,E)` the first variable to the power `E` times the meaning of `P`
read one variable deeper, `+` addition), and for every meaning `m` of the text
and every assignment of integers to the variables the value of the returned
polynomial is, as a coefficient, the value of `m`. In particular `5` yields the
constant polynomial 5, and `(1,2)+(3,0)` the constant 3 with the single term of
exponent 2 and coefficient 1. -/
theorem ReadPolynomial_parsed_value (stream : InputStream) (l rest : List Char)
    (hin : stream.unread = l ++ '\n' :: rest) (hl : '\n' ∉ l)
    (hok : (ReadPolynomial stream).2.parse_error = false) :
    (∃ m, LiteralMeaning false l m)
      ∧ (∀ m, LiteralMeaning false l m → ∀ v : Nat → Int,
          wrapCoeff (value (ReadPolynomial stream).1 v) = wrapCoeff (m v))
      ∧ (ReadPolynomial (InputStreamInit "5\n".toList)).1 = Poly.mk 5 []
      ∧ (ReadPolynomial (InputStreamInit "(1,2)+(3,0)\n".toList)).1
          = Poly.mk 3 [(Poly.mk 1 [], 2)] := by
  obtain ⟨u, col, line, pe, err⟩ := stream
  have hu : u = l ++ '\n' :: rest := hin
  subst hu
  refine ⟨?_, fun m hm v => ?_, rfl, rfl⟩
  · rcases ReadPolynomial_rejects_or_grammar l rest hl col line pe err with hrej | ⟨_, hg⟩
    · rw [hrej.1] at hok
      cases hok
    · exact grammar_has_meaning hg
  · apply wrapCoeff_eq_of_cast_eq
    rw [cast_value]
    exact ReadPolynomial_value wrapsIn_zmod l rest m hm col line pe err hok v

/-- Witness of C31 at the line `(1,2)+((-4,1)+(2,0),3)`, whose meaning is
`x0^2 * 1 + x0^3 * (x1 * (-4) + 2)`. -/
theorem ReadPolynomial_parsed_value_witness :
    (InputStreamInit "(1,2)+((-4,1)+(2,0),3)\n7".toList).unread
        = "(1,2)+((-4,1)+(2,0),3)".toList ++ '\n' :: "7".toList
      ∧ '\n' ∉ "(1,2)+((-4,1)+(2,0),3)".toList
      ∧ (ReadPolynomial (InputStreamInit "(1,2)+((-4,1)+(2,0),3)\n7".toList)).2.parse_error = false
      ∧ (ReadPolynomial (InputStreamInit "(1,2)+((-4,1)+(2,0),3)\n7".toList)).1
          = Poly.mk 0 [(Poly.mk 1 [], 2), (Poly.mk 2 [(Poly.mk (-4) [], 1)], 3)]
      ∧ ∃ m, LiteralMeaning false "(1,2)+((-4,1)+(2,0),3)".toList m :=
  ⟨rfl, by decide, rfl, rfl,
    (ReadPolynomial_parsed_value (InputStreamInit "(1,2)+((-4,1)+(2,0),3)\n7".toList)
      "(1,2)+((-4,1)+(2,0),3)".toList "7".toList rfl (by decide) rfl).1⟩

/-! ## Where the readers of numbers fail -/

/-- What follows a text without a newline in the rest of a line. -/
theorem suffix_of_line : ∀ (x v pre rest : List Char),
    x ++ v = pre ++ '\n' :: rest → '\n' ∉ pre → '\n' ∉ x →
    ∃ q, v = q ++ '\n' :: rest ∧ pre = x ++ q ∧ '\n' ∉ q := by
  intro x
  induction x with
  | nil => intro v pre rest h hpre _; exact ⟨pre, h, rfl, hpre⟩
  | cons a x ih =>
    intro v pre rest h hpre hx
    cases pre with
    | nil =>
      simp only [List.cons_append, List.nil_append, List.cons.injEq] at h
      exact absurd (by rw [h.1]; exact List.mem_cons_self _ _) hx
    | cons b pre =>
      simp only [List.cons_append, List.cons.injEq] at h
      obtain ⟨q, h1, h2, h3⟩ := ih v pre rest h.2 (fun hm => hpre (List.mem_cons_of_mem _ hm))
        (fun hm => hx (List.mem_cons_of_mem _ hm))
      exact ⟨q, h1, by rw [h.1, h2]; rfl, h3⟩

theorem reportError_line (q rest : List Char) (hq : '\n' ∉ q) (col line : Nat) (pe : Bool)
    (err : List String) (c : Nat) :
    reportError ⟨q ++ '\n' :: rest, col, line, pe, err⟩
        ("ERROR " ++ toString (line + 1) ++ " " ++ toString c ++ "\n")
      = ⟨rest, 0, line + 1, true, err ++ [errorMessage line c]⟩ :=
  reportError_newline q hq rest col line pe err _

theorem parsePolyFail_line (q rest : List Char) (hq : '\n' ∉ q) (col line : Nat) (pe : Bool)
    (err : List String) :
    parsePolyFail ⟨q ++ '\n' :: rest, col, line, pe, err⟩
      = (PolyZero, ⟨rest, 0, line + 1, true, err ++ [errorMessage line (col + 1)]⟩) := by
  unfold parsePolyFail
  rw [reportError_line q rest hq]

theorem allDigits_no_newline {ds : List Char} (hds : AllDigits ds) : '\n' ∉ ds := by
  intro h
  exact absurd (hds _ h) (by decide)

theorem allDigits_take {ds : List Char} (hds : AllDigits ds) (n : Nat) : AllDigits (ds.take n) :=
  fun d hd => hds d (List.mem_of_mem_take hd)

theorem allDigits_drop {ds : List Char} (hds : AllDigits ds) (n : Nat) : AllDigits (ds.drop n) :=
  fun d hd => hds d (List.mem_of_mem_drop hd)

theorem literalText_no_newline (negative : Bool) {ds : List Char} (hds : AllDigits ds) :
    '\n' ∉ literalText negative ds :=
  literalText_not_mem negative ds hds '\n' (by decide)

/-- The bound loop on the digits of a coefficient, as a comparison of digits. -/
theorem coeffExceeds_eq (negative : Bool) (ds : List Char)
    (hlen : ds.length = MAX_VALUE_AND_COEFF_LENGTH) :
    unsignedDigitExceeds ds.reverse
        (if negative then 9223372036854775808 else 9223372036854775807)
      = SomeDigitExceeds ds (if negative then "9223372036854775808".toList
          else "9223372036854775807".toList) := by
  rw [coeffBound_text]
  apply unsignedDigitExceeds_eq_someDigitExceeds
  · cases negative <;> decide
  · rw [hlen]; cases negative <;> rfl

/-- A literal is rejected by `ReadPolyCoefficient` whatever follows it when it
has more than 19 digits or when its 19 digits fail the bound loop. -/
theorem coefRejectsAll_of_full (negative : Bool) (ds : List Char) (hds : AllDigits ds)
    (h : MAX_VALUE_AND_COEFF_LENGTH < ds.length ∨
      (ds.length = MAX_VALUE_AND_COEFF_LENGTH ∧
        unsignedDigitExceeds ds.reverse
          (if negative then 9223372036854775808 else 9223372036854775807) = true)) :
    CoefRejectsAll (literalText negative ds) := by
  intro s col line pe err
  obtain ⟨sd, s', rfl, hsd, hs'⟩ := digits_decomposition s
  have hne : ds ≠ [] := by
    intro h0
    rw [h0] at h
    rcases h with h | h
    · exact absurd h (by decide)
    · exact absurd h.1 (by decide)
  have hall : AllDigits (ds ++ sd) := (allDigits_append ds sd).mpr ⟨hds, hsd⟩
  have htext : literalText negative ds ++ (sd ++ s') = literalText negative (ds ++ sd) ++ s' := by
    cases negative <;> simp [literalText]
  have hneg : negative = false → (ds ++ sd ++ s').head? ≠ some '-' := by
    intro _
    rw [List.append_assoc]
    exact head_ne_minus_of_digits hne hds _
  show (ReadValueOrCoefficient _ false).2.parse_error = true
  rw [htext]
  by_cases hlong : MAX_VALUE_AND_COEFF_LENGTH < (ds ++ sd).length
  · exact (ReadValueOrCoefficient_long false negative (ds ++ sd) s' hall hs' hneg col line pe err
      hlong).2
  · have hsd0 : sd = [] := by
      rcases h with h | h
      · rw [List.length_append] at hlong; omega
      · rw [List.length_append, h.1] at hlong
        exact List.length_eq_zero.mp (by omega)
    subst hsd0
    rw [List.append_nil] at hall hneg hlong ⊢
    have hexc : ds.length = MAX_VALUE_AND_COEFF_LENGTH ∧
        unsignedDigitExceeds ds.reverse
          (if negative then 9223372036854775808 else 9223372036854775807) = true := by
      rcases h with h | h
      · exact absurd h hlong
      · exact h
    have hiff := ReadValueOrCoefficient_accept_iff false negative ds s' hds hs' hneg col line pe
      err (by omega)
    by_contra hno
    have hok : (ReadValueOrCoefficient ⟨literalText negative ds ++ s', col, line, pe, err⟩
        false).2.parse_error = false := by simpa using hno
    exact (hiff.mp hok).2.2 hexc

/-- A literal followed by a character that is not a digit is rejected by
`ReadPolyCoefficient` whatever follows, when the literal has no digit or the
character is neither `,` nor a newline. -/
theorem coefRejectsAll_of_follow (negative : Bool) (ds : List Char) (hds : AllDigits ds)
    (c : Char) (hc : IsValidDigit (some c) = false)
    (hbad : ds = [] ∨ (c ≠ ',' ∧ c ≠ '\n'))
    (hneg : negative = false → ds = [] → c ≠ '-') :
    CoefRejectsAll (literalText negative ds ++ [c]) := by
  intro s col line pe err
  have htext : literalText negative ds ++ [c] ++ s = literalText negative ds ++ c :: s := by simp
  have hneg' : negative = false → (ds ++ c :: s).head? ≠ some '-' := by
    intro hn
    cases ds with
    | nil =>
      intro h
      have : c = '-' := by simpa using h
      exact hneg hn rfl this
    | cons d ds' => exact head_ne_minus_of_digits (List.cons_ne_nil _ _) hds _
  show (ReadValueOrCoefficient _ false).2.parse_error = true
  rw [htext]
  by_cases hlong : MAX_VALUE_AND_COEFF_LENGTH < ds.length
  · exact (ReadValueOrCoefficient_long false negative ds (c :: s) hds hc hneg' col line pe err
      hlong).2
  · have hiff := ReadValueOrCoefficient_accept_iff false negative ds (c :: s) hds hc hneg' col line
      pe err (by omega)
    by_contra hno
    have hok : (ReadValueOrCoefficient ⟨literalText negative ds ++ c :: s, col, line, pe, err⟩
        false).2.parse_error = false := by simpa using hno
    obtain ⟨hne, hterm, _⟩ := hiff.mp hok
    rcases hbad with h | ⟨hc1, hc2⟩
    · exact hne h
    · rcases hterm with h | ⟨_, h⟩
      · exact hc2 (by simpa using h)
      · exact hc1 (by simpa using h)

/-- A literal that `ReadPolyCoefficient` accepts, from its digits. -/
theorem acceptsCoefficient_of (negative : Bool) (ds : List Char) (hne : ds ≠ [])
    (hds : AllDigits ds) (hlen : ds.length ≤ MAX_VALUE_AND_COEFF_LENGTH)
    (hb : ¬ (ds.length = MAX_VALUE_AND_COEFF_LENGTH ∧
        unsignedDigitExceeds ds.reverse
          (if negative then 9223372036854775808 else 9223372036854775807) = true)) :
    AcceptsLiteral ReadPolyCoefficient ',' (literalText negative ds) :=
  (acceptsCoefficient_iff _).mpr ⟨negative, ds, rfl, hne, hds, hlen, hb⟩


theorem literalText_digits_append (negative : Bool) (a b : List Char) :
    literalText negative (a ++ b) = literalText negative a ++ b := by
  cases negative <;> simp [literalText]

theorem cons_of_head?_digit {u : List Char} {d : Char} (h : u.head? = some d) :
    ∃ r, u = d :: r := by
  cases u with
  | nil => cases h
  | cons a r =>
    simp only [List.head?_cons, Option.some.injEq] at h
    exact ⟨r, by rw [h]⟩

/-- The last of 19 digits that fail the bound loop is the first offending
character for `ReadPolyCoefficient`, whatever follows the digits. -/
theorem coefOffending_of_exceeds (negative : Bool) (ds : List Char) (hds : AllDigits ds)
    (hexc : ds.length = MAX_VALUE_AND_COEFF_LENGTH ∧
      unsignedDigitExceeds ds.reverse
        (if negative then 9223372036854775808 else 9223372036854775807) = true)
    (tail : List Char) :
    CoefOffending (literalText negative ds ++ tail) (literalText negative (ds.take 18)).length ∧
      (literalText negative ds).length = (literalText negative (ds.take 18)).length + 1 := by
  have h19 : ds.length = 19 := hexc.1
  obtain ⟨c, hc⟩ : ∃ c, ds.drop 18 = [c] :=
    List.length_eq_one.mp (by rw [List.length_drop, h19])
  have hsplit : ds = ds.take 18 ++ [c] := by
    rw [← hc, List.take_append_drop]
  have hlit : literalText negative ds = literalText negative (ds.take 18) ++ [c] := by
    rw [← literalText_digits_append, ← hsplit]
  refine ⟨⟨literalText negative (ds.take 18), c, tail, ?_, rfl,
    literalText_no_newline negative (allDigits_take hds 18), ?_, ?_⟩, ?_⟩
  · rw [hlit]; simp
  · rw [← hlit]
    exact coefRejectsAll_of_full negative ds hds (Or.inr hexc)
  · refine ⟨[], ?_⟩
    rw [List.append_nil]
    have h18 : (ds.take 18).length = 18 := by
      rw [List.length_take, h19]; rfl
    refine acceptsCoefficient_of negative (ds.take 18) ?_ (allDigits_take hds 18) ?_ ?_
    · intro h; rw [h] at h18; cases h18
    · rw [h18]; decide
    · rw [h18]; intro h; exact absurd h.1 (by decide)
  · rw [hlit, List.length_append]
    rfl

/-- Where `ReadPolyCoefficient` fails: the diagnostic names the first offending
character of the coefficient, except after 19 digits that fail the bound loop
and are followed by a character that is neither `,` nor a newline; the stream is
left after the newline of the line. -/
theorem ReadPolyCoefficient_diagnosis (u pre rest : List Char) (hu : u = pre ++ '\n' :: rest)
    (hpre : '\n' ∉ pre) (col line : Nat) (pe : Bool) (err : List String)
    (hflag : (ReadPolyCoefficient ⟨u, col, line, pe, err⟩).2.parse_error = true) :
    ∃ k, ReadPolyCoefficient ⟨u, col, line, pe, err⟩
        = (0, ⟨rest, 0, line + 1, true, err ++ [errorMessage line (col + k + 1)]⟩) ∧
      CoefLocated u k := by
  obtain ⟨negative, ds, r, rfl, hds, hrest, hneg⟩ := literal_decomposition u
  obtain ⟨q, rfl, _, hq⟩ := suffix_of_line (literalText negative ds) r pre rest hu hpre
    (literalText_no_newline negative hds)
  -- the character after the digits
  obtain ⟨c0, r', hr'⟩ : ∃ c0 r', q ++ '\n' :: rest = c0 :: r' := by
    cases q with
    | nil => exact ⟨'\n', rest, rfl⟩
    | cons a q' => exact ⟨a, q' ++ '\n' :: rest, rfl⟩
  have hc0 : IsValidDigit (some c0) = false := by
    rw [hr'] at hrest; exact hrest
  have hllen := literalText_length negative ds
  unfold ReadPolyCoefficient at hflag ⊢
  by_cases hlen : ds.length ≤ MAX_VALUE_AND_COEFF_LENGTH
  · rw [ReadValueOrCoefficient_short false negative ds _ hds hrest hneg col line pe err hlen]
      at hflag ⊢
    simp only [Bool.false_and, Bool.false_eq_true, if_false, Bool.not_false, Bool.true_and]
      at hflag ⊢
    by_cases h2 : (((q ++ '\n' :: rest).head? != some ',' && (q ++ '\n' :: rest).head? != some '\n')
        || ds.length == 0) = true
    · -- the character after the digits is wrong, or there is no digit
      rw [if_pos h2]
      refine ⟨(literalText negative ds).length, ?_, ?_⟩
      · rw [reportError_line q rest hq]
        have hcol : col + (if negative = true then 1 else 0) + ds.length + 1
            = col + (literalText negative ds).length + 1 := by rw [hllen]; omega
        simp only [hcol]
      · have hbad : ds = [] ∨ (c0 ≠ ',' ∧ c0 ≠ '\n') := by
          rw [hr'] at h2
          simp only [List.head?_cons, Bool.or_eq_true, Bool.and_eq_true, bne_iff_ne, ne_eq,
            Option.some.injEq, beq_iff_eq, List.length_eq_zero] at h2
          rcases h2 with h | h
          · exact Or.inr h
          · exact Or.inl h
        have hneg0 : negative = false → ds = [] → c0 ≠ '-' := by
          intro hn hd hc
          have := hneg hn
          rw [hd, List.nil_append, hr', hc] at this
          exact this rfl
        by_cases hexc : ds.length = MAX_VALUE_AND_COEFF_LENGTH ∧
            unsignedDigitExceeds ds.reverse
              (if negative then 9223372036854775808 else 9223372036854775807) = true
        · left
          have hne : ds ≠ [] := by
            intro h; rw [h] at hexc; exact absurd hexc.1 (by decide)
          have hcc : c0 ≠ ',' ∧ c0 ≠ '\n' := by
            rcases hbad with h | h
            · exact absurd h hne
            · exact h
          obtain ⟨hoff, hk⟩ := coefOffending_of_exceeds negative ds hds hexc (q ++ '\n' :: rest)
          refine ⟨⟨[], negative, ds, c0, hds, hexc.1, ?_, hcc.1, hcc.2, List.not_mem_nil _, ?_, ?_⟩,
            _, hk, hoff⟩
          · rw [← coeffExceeds_eq negative ds hexc.1]; exact hexc.2
          · rw [hr']
            exact ⟨r', by simp⟩
          · simp
        · right
          refine ⟨literalText negative ds, c0, r', by rw [hr'], rfl,
            literalText_no_newline negative hds,
            coefRejectsAll_of_follow negative ds hds c0 hc0 hbad hneg0, ?_⟩
          by_cases hne : ds = []
          · subst hne
            refine ⟨['0'], ?_⟩
            cases negative <;> decide
          · exact ⟨[], by
              rw [List.append_nil]
              exact acceptsCoefficient_of negative ds hne hds hlen hexc⟩
    · -- the 19 digits fail the bound loop
      rw [if_neg h2] at hflag ⊢
      by_cases h3 : (ds.length == MAX_VALUE_AND_COEFF_LENGTH
          && unsignedDigitExceeds ds.reverse
              (if negative = true then 9223372036854775808 else 9223372036854775807)) = true
      swap
      · rw [if_neg h3] at hflag
        cases hflag
      rw [if_pos h3]
      have hexc : ds.length = MAX_VALUE_AND_COEFF_LENGTH ∧
          unsignedDigitExceeds ds.reverse
            (if negative then 9223372036854775808 else 9223372036854775807) = true := by
        simpa using h3
      have h19 : ds.length = 19 := hexc.1
      obtain ⟨c, hc⟩ : ∃ c, ds.drop 18 = [c] :=
        List.length_eq_one.mp (by rw [List.length_drop, h19])
      have hsplit : ds = ds.take 18 ++ [c] := by
        rw [← hc, List.take_append_drop]
      have hlit : literalText negative ds = literalText negative (ds.take 18) ++ [c] := by
        rw [← literalText_digits_append, ← hsplit]
      have htl : (literalText negative (ds.take 18)).length + 1
          = (literalText negative ds).length := by
        rw [hlit, List.length_append]
        rfl
      refine ⟨(literalText negative (ds.take 18)).length, ?_, ?_⟩
      · rw [reportError_line q rest hq]
        have hcol : col + (if negative = true then 1 else 0) + ds.length
            = col + (literalText negative (ds.take 18)).length + 1 := by
          have := literalText_length negative ds
          omega
        simp only [hcol]
      · right
        refine ⟨literalText negative (ds.take 18), c, q ++ '\n' :: rest, ?_, rfl,
          literalText_no_newline negative (allDigits_take hds 18), ?_, ?_⟩
        · rw [hlit]; simp
        · rw [← hlit]
          exact coefRejectsAll_of_full negative ds hds (Or.inr hexc)
        · refine ⟨[], ?_⟩
          rw [List.append_nil]
          have h18 : (ds.take 18).length = 18 := by
            rw [List.length_take, h19]; rfl
          refine acceptsCoefficient_of negative (ds.take 18) ?_ (allDigits_take hds 18) ?_ ?_
          · intro h; rw [h] at h18; cases h18
          · rw [h18]; decide
          · rw [h18]; intro h; exact absurd h.1 (by decide)
  · -- more than 19 digits
    have hlong : MAX_VALUE_AND_COEFF_LENGTH < ds.length := by omega
    rw [ReadValueOrCoefficient_mk false negative ds _ hds hrest hneg] at hflag ⊢
    obtain ⟨d, hd, hdd⟩ := head_drop_digit hds hlong (q ++ '\n' :: rest)
    have h1 : d ≠ '\n' := digit_ne hdd (by decide)
    have h2 : d ≠ ',' := digit_ne hdd (by decide)
    have hc1 : ((some d != some '\n') = true) := by simpa using h1
    have hc2 : ((some d != some ',') = true) := by simpa using h2
    simp only [hd, hc1, hc2, Bool.false_and, Bool.false_eq_true, if_false, Bool.not_false,
      Bool.and_self, Bool.true_or, if_true]
    have hmin : min MAX_VALUE_AND_COEFF_LENGTH ds.length = 19 := by
      show min 19 ds.length = 19
      have : 19 < ds.length := hlong
      omega
    have h19 : (ds.take 19).length = 19 := by
      rw [List.length_take]
      have : 19 < ds.length := hlong
      omega
    obtain ⟨dr, hdr⟩ : ∃ dr, ds.drop 19 = d :: dr := by
      have hh : (ds.drop 19 ++ (q ++ '\n' :: rest)).head? = some d := hd
      cases hdrop : ds.drop 19 with
      | nil =>
        have : (ds.drop 19).length = 0 := by rw [hdrop]; rfl
        rw [List.length_drop] at this
        have : 19 < ds.length := hlong
        omega
      | cons a dr =>
        rw [hdrop] at hh
        simp only [List.cons_append, List.head?_cons, Option.some.injEq] at hh
        exact ⟨dr, by rw [hh]⟩
    have hsplit : ds = ds.take 19 ++ d :: dr := by
      rw [← hdr, List.take_append_drop]
    have hdrall : AllDigits dr := by
      intro x hx
      exact hds x (by rw [hsplit]; exact List.mem_append_right _ (List.mem_cons_of_mem _ hx))
    have hnl : '\n' ∉ ds.drop 19 ++ q := by
      intro h
      rcases List.mem_append.mp h with h | h
      · exact allDigits_no_newline (allDigits_drop hds 19) h
      · exact hq h
    have hlit19 := literalText_length negative (ds.take 19)
    refine ⟨(literalText negative (ds.take 19)).length, ?_, ?_⟩
    · have hstream : (ds.drop MAX_VALUE_AND_COEFF_LENGTH ++ (q ++ '\n' :: rest))
          = (ds.drop 19 ++ q) ++ '\n' :: rest := by
        show ds.drop 19 ++ (q ++ '\n' :: rest) = _
        simp
      rw [hstream, reportError_line (ds.drop 19 ++ q) rest hnl]
      have hcol : col + (if negative = true then 1 else 0) + min MAX_VALUE_AND_COEFF_LENGTH ds.length
          + 1 = col + (literalText negative (ds.take 19)).length + 1 := by
        rw [hmin]; omega
      simp only [hcol]
    · have hu19 : literalText negative ds ++ (q ++ '\n' :: rest)
          = literalText negative (ds.take 19) ++ d :: (dr ++ (q ++ '\n' :: rest)) := by
        conv_lhs => rw [hsplit]
        rw [literalText_digits_append]
        simp
      by_cases hexc : unsignedDigitExceeds (ds.take 19).reverse
          (if negative then 9223372036854775808 else 9223372036854775807) = true
      · left
        obtain ⟨hoff, hk⟩ := coefOffending_of_exceeds negative (ds.take 19)
          (allDigits_take hds 19) ⟨h19, hexc⟩ (d :: (dr ++ (q ++ '\n' :: rest)))
        rw [← hu19] at hoff
        refine ⟨⟨[], negative, ds.take 19, d, allDigits_take hds 19, h19, ?_, h2, h1,
          List.not_mem_nil _, ?_, ?_⟩, _, hk, hoff⟩
        · rw [← coeffExceeds_eq negative (ds.take 19) h19]; exact hexc
        · rw [hu19]
          exact ⟨dr ++ (q ++ '\n' :: rest), by simp⟩
        · simp
      · right
        refine ⟨literalText negative (ds.take 19), d, dr ++ (q ++ '\n' :: rest), hu19, rfl,
          literalText_no_newline negative (allDigits_take hds 19), ?_, ?_⟩
        · rw [← literalText_digits_append]
          apply coefRejectsAll_of_full negative (ds.take 19 ++ [d])
          · exact (allDigits_append _ _).mpr ⟨allDigits_take hds 19,
              fun x hx => by
                have : x = d := by simpa using hx
                rw [this]; exact hdd⟩
          · left
            rw [List.length_append, h19]
            show 19 < 19 + 1
            omega
        · refine ⟨[], ?_⟩
          rw [List.append_nil]
          refine acceptsCoefficient_of negative (ds.take 19) ?_ (allDigits_take hds 19) ?_ ?_
          · intro h; rw [h] at h19; cases h19
          · rw [h19]; decide
          · intro h; exact hexc h.2

/-! ## Where `ReadExponent` fails -/

/-- The test that `ReadExponent` makes on the digits it has read (at most ten),
after a `-` when `negative`. -/
theorem ReadExponent_flag_iff (negative : Bool) (ds rest : List Char)
    (hds : AllDigits ds) (hrest : IsValidDigit rest.head? = false)
    (hneg : negative = false → (ds ++ rest).head? ≠ some '-')
    (col line : Nat) (pe : Bool) (err : List String) :
    (ReadExponent ⟨literalText negative ds ++ rest, col, line, pe, err⟩).2.parse_error = true ↔
      ¬ ((negative = true → ds.take MAX_EXPONENT_LENGTH = ['0']) ∧
        ds.take MAX_EXPONENT_LENGTH ≠ [] ∧
        ¬ ((ds.take MAX_EXPONENT_LENGTH).length = MAX_EXPONENT_LENGTH ∧
            unsignedDigitExceeds (ds.take MAX_EXPONENT_LENGTH).reverse INT_MAX = true)) := by
  rw [← (ReadExponent_accept negative ds rest hds hrest hneg col line pe err).1]
  cases (ReadExponent ⟨literalText negative ds ++ rest, col, line, pe, err⟩).2.parse_error <;> simp

/-- A literal is rejected by `ReadExponent` whatever follows it when no
continuation of its digits passes the test on the first ten digits. -/
theorem expRejectsAll_of_digits (negative : Bool) (ds : List Char) (hne : ds ≠ [])
    (hds : AllDigits ds)
    (hbad : ∀ sd, AllDigits sd →
      ¬ ((negative = true → (ds ++ sd).take MAX_EXPONENT_LENGTH = ['0']) ∧
        (ds ++ sd).take MAX_EXPONENT_LENGTH ≠ [] ∧
        ¬ (((ds ++ sd).take MAX_EXPONENT_LENGTH).length = MAX_EXPONENT_LENGTH ∧
            unsignedDigitExceeds ((ds ++ sd).take MAX_EXPONENT_LENGTH).reverse INT_MAX = true))) :
    ExpRejectsAll (literalText negative ds) := by
  intro s col line pe err
  obtain ⟨sd, s', rfl, hsd, hs'⟩ := digits_decomposition s
  have hall : AllDigits (ds ++ sd) := (allDigits_append ds sd).mpr ⟨hds, hsd⟩
  have htext : literalText negative ds ++ (sd ++ s') = literalText negative (ds ++ sd) ++ s' := by
    rw [literalText_digits_append, List.append_assoc]
  have hneg : negative = false → (ds ++ sd ++ s').head? ≠ some '-' := by
    intro _
    rw [List.append_assoc]
    exact head_ne_minus_of_digits hne hds _
  rw [htext, ReadExponent_flag_iff negative (ds ++ sd) s' hall hs' hneg]
  exact hbad sd hsd

/-- The digit after an exponent `-0` is rejected whatever follows. -/
theorem exponent_minus_zero_digit (d : Char) (hd : IsValidDigit (some d) = true) :
    ExpRejectsAll ['-', '0', d] := by
  refine expRejectsAll_of_digits true ['0', d] (List.cons_ne_nil _ _) ?_ ?_
  · intro c hc
    rcases List.mem_cons.mp hc with rfl | hc
    · rfl
    · rcases List.mem_singleton.mp hc with rfl
      exact hd
  · intro sd _ h
    have := h.1 rfl
    simp [MAX_EXPONENT_LENGTH] at this

/-- A literal followed by a character that is not a digit is rejected by
`ReadExponent` whatever follows, when its digits do not pass the test. -/
theorem expRejectsAll_of_follow (negative : Bool) (ds : List Char) (hds : AllDigits ds)
    (c : Char) (hc : IsValidDigit (some c) = false)
    (hneg : negative = false → ds = [] → c ≠ '-')
    (hbad : ¬ ((negative = true → ds.take MAX_EXPONENT_LENGTH = ['0']) ∧
        ds.take MAX_EXPONENT_LENGTH ≠ [] ∧
        ¬ ((ds.take MAX_EXPONENT_LENGTH).length = MAX_EXPONENT_LENGTH ∧
            unsignedDigitExceeds (ds.take MAX_EXPONENT_LENGTH).reverse INT_MAX = true))) :
    ExpRejectsAll (literalText negative ds ++ [c]) := by
  intro s col line pe err
  have htext : literalText negative ds ++ [c] ++ s = literalText negative ds ++ c :: s := by simp
  have hneg' : negative = false → (ds ++ c :: s).head? ≠ some '-' := by
    intro hn
    cases ds with
    | nil =>
      intro h
      have : c = '-' := by simpa using h
      exact hneg hn rfl this
    | cons d ds' => exact head_ne_minus_of_digits (List.cons_ne_nil _ _) hds _
  rw [htext, ReadExponent_flag_iff negative ds (c :: s) hds hc hneg']
  exact hbad

/-- A literal that `ReadExponent` accepts, from its digits. -/
theorem acceptsExponent_of (negative : Bool) (ds : List Char) (hne : ds ≠ [])
    (hds : AllDigits ds) (hlen : ds.length ≤ MAX_EXPONENT_LENGTH)
    (hz : negative = true → ds = ['0'])
    (hb : ¬ (ds.length = MAX_EXPONENT_LENGTH ∧ unsignedDigitExceeds ds.reverse INT_MAX = true)) :
    AcceptsLiteral ReadExponent ')' (literalText negative ds) :=
  (acceptsExponent_iff _).mpr ⟨negative, ds, rfl, hne, hds, hlen, hz, hb⟩

/-- After digits that pass its test, `ReadExponent` stops at the next character
when that is not a digit or when ten digits were read. -/
theorem expStopsAt_of_accepted (negative : Bool) (v : List Char) (hne : v ≠ [])
    (hv : AllDigits v) (hlen : v.length ≤ MAX_EXPONENT_LENGTH)
    (hz : negative = true → v = ['0'])
    (hb : ¬ (v.length = MAX_EXPONENT_LENGTH ∧ unsignedDigitExceeds v.reverse INT_MAX = true))
    (c : Char) (hc : IsValidDigit (some c) = false ∨ v.length = MAX_EXPONENT_LENGTH) :
    ExpStopsAt (literalText negative v) c := by
  intro s col line pe err
  have hcol : col + (if negative = true then 1 else 0) + v.length
      = col + (literalText negative v).length := by
    rw [literalText_length]; omega
  by_cases hcd : IsValidDigit (some c) = true
  · -- a digit follows ten digits
    have h10 : v.length = MAX_EXPONENT_LENGTH := by
      rcases hc with h | h
      · rw [hcd] at h; cases h
      · exact h
    obtain ⟨sd, s', rfl, hsd, hs'⟩ := digits_decomposition s
    have hall : AllDigits (v ++ c :: sd) := by
      rw [allDigits_append]
      refine ⟨hv, fun x hx => ?_⟩
      rcases List.mem_cons.mp hx with rfl | hx
      · exact hcd
      · exact hsd x hx
    have htext : literalText negative v ++ c :: (sd ++ s')
        = literalText negative (v ++ c :: sd) ++ s' := by
      rw [literalText_digits_append]; simp
    have hneg : negative = false → (v ++ c :: sd ++ s').head? ≠ some '-' := by
      intro _
      rw [List.append_assoc]
      exact head_ne_minus_of_digits hne hv _
    have htake : (v ++ c :: sd).take MAX_EXPONENT_LENGTH = v := by
      rw [← h10, List.take_left']
      rfl
    have hdrop : (v ++ c :: sd).drop MAX_EXPONENT_LENGTH = c :: sd := by
      rw [← h10, List.drop_left']
      rfl
    obtain ⟨hiff, hacc, _⟩ := ReadExponent_accept negative (v ++ c :: sd) s' hall hs' hneg col line
      pe err
    have hok := hiff.mpr (by rw [htake]; exact ⟨hz, hne, hb⟩)
    have heq := hacc hok
    rw [htake, hdrop] at heq
    have hmin : min MAX_EXPONENT_LENGTH (v ++ c :: sd).length = v.length := by
      rw [List.length_append, h10]
      simp
    rw [hmin, hcol] at heq
    refine ⟨decimalValue v, ?_⟩
    rw [htext, heq]
    simp
  · have hcd' : IsValidDigit (some c) = false := by simpa using hcd
    have hneg : negative = false → (v ++ c :: s).head? ≠ some '-' :=
      fun _ => head_ne_minus_of_digits hne hv _
    obtain ⟨htake, hdrop, hmin⟩ := take_drop_short hlen (c :: s)
    obtain ⟨hiff, hacc, _⟩ := ReadExponent_accept negative v (c :: s) hv hcd' hneg col line pe err
    have hok := hiff.mpr (by rw [htake]; exact ⟨hz, hne, hb⟩)
    have heq := hacc hok
    rw [htake, hdrop, hmin, hcol] at heq
    exact ⟨_, heq⟩

/-- How `ReadExponent` ends on the rest of a line: either it fails, the
diagnostic names the first offending character (the `0` of `-0` followed by a
digit apart), and the stream is left after the newline of the line; or it reads
an exponent and stops right after it. -/
theorem ReadExponent_diagnosis (u pre rest : List Char) (hu : u = pre ++ '\n' :: rest)
    (hpre : '\n' ∉ pre) (col line : Nat) (pe : Bool) (err : List String) :
    (∃ k, ReadExponent ⟨u, col, line, pe, err⟩
        = (0, ⟨rest, 0, line + 1, true, err ++ [errorMessage line (col + k + 1)]⟩) ∧
      ExpLocated u k) ∨
    ∃ v ex u2 q2, u = ex ++ u2 ∧ u2 = q2 ++ '\n' :: rest ∧ pre = ex ++ q2 ∧ '\n' ∉ q2 ∧
      ReadExponent ⟨u, col, line, pe, err⟩ = (v, ⟨u2, col + ex.length, line, false, err⟩) ∧
      AcceptsLiteral ReadExponent ')' ex ∧ ∀ c r, u2 = c :: r → ExpStopsAt ex c := by
  obtain ⟨negative, ds, r, rfl, hds, hrest, hneg⟩ := literal_decomposition u
  obtain ⟨q, rfl, hpq, hq⟩ := suffix_of_line (literalText negative ds) r pre rest hu hpre
    (literalText_no_newline negative hds)
  obtain ⟨c0, r', hr'⟩ : ∃ c0 r', q ++ '\n' :: rest = c0 :: r' := by
    cases q with
    | nil => exact ⟨'\n', rest, rfl⟩
    | cons a q' => exact ⟨a, q' ++ '\n' :: rest, rfl⟩
  have hc0 : IsValidDigit (some c0) = false := by
    rw [hr'] at hrest; exact hrest
  have hstream : ds.drop MAX_EXPONENT_LENGTH ++ (q ++ '\n' :: rest)
      = (ds.drop MAX_EXPONENT_LENGTH ++ q) ++ '\n' :: rest := by simp
  have hq' : '\n' ∉ ds.drop MAX_EXPONENT_LENGTH ++ q := by
    intro h
    rcases List.mem_append.mp h with h | h
    · exact allDigits_no_newline (allDigits_drop hds _) h
    · exact hq h
  have hmk := ReadExponent_mk negative ds _ hds hrest hneg col line pe err
  simp only at hmk
  rw [hstream] at hmk
  by_cases h1 : (negative && ((ds.take MAX_EXPONENT_LENGTH).length != 1
      || (ds.take MAX_EXPONENT_LENGTH).head? != some '0')) = true
  · -- a `-` that is not followed by the single digit `0`
    rw [if_pos h1, reportError_line _ rest hq'] at hmk
    left
    refine ⟨1, hmk, ?_⟩
    have hn : negative = true := by
      cases negative
      · simp at h1
      · rfl
    subst hn
    cases ds with
    | nil =>
      right
      refine ⟨['-'], c0, r', by rw [hr']; rfl, rfl, by decide, ?_, ⟨['0'], by decide⟩⟩
      exact expRejectsAll_of_follow true [] allDigits_nil c0 hc0 (fun h => by cases h)
        (fun h => absurd (h.1 rfl) (by decide))
    | cons d ds' =>
      have hd : IsValidDigit (some d) = true := hds d (List.mem_cons_self _ _)
      by_cases hd0 : d = '0'
      · subst hd0
        cases ds' with
        | nil => simp [MAX_EXPONENT_LENGTH] at h1
        | cons d2 ds'' =>
          left
          have hd2 : IsValidDigit (some d2) = true :=
            hds d2 (List.mem_cons_of_mem _ (List.mem_cons_self _ _))
          exact ⟨d2, ds'' ++ (q ++ '\n' :: rest), hd2, rfl, rfl,
            ['-', '0'], d2, ds'' ++ (q ++ '\n' :: rest), rfl, rfl, by decide,
            exponent_minus_zero_digit d2 hd2, ⟨[], by decide⟩⟩
      · right
        refine ⟨['-'], d, ds' ++ (q ++ '\n' :: rest), rfl, rfl, by decide, ?_, ⟨['0'], by decide⟩⟩
        refine expRejectsAll_of_digits true [d] (List.cons_ne_nil _ _) ?_ ?_
        · intro x hx
          rcases List.mem_singleton.mp hx with rfl
          exact hd
        · intro sd _ h
          have := h.1 rfl
          simp only [List.singleton_append, MAX_EXPONENT_LENGTH, List.take_succ_cons,
            List.cons.injEq] at this
          exact hd0 this.1
  rw [if_neg h1] at hmk
  by_cases h2 : ((ds.take MAX_EXPONENT_LENGTH).length == 0) = true
  · -- no digit
    rw [if_pos h2, reportError_line _ rest hq'] at hmk
    have hnil : ds = [] := by
      cases ds with
      | nil => rfl
      | cons d ds' => simp [MAX_EXPONENT_LENGTH] at h2
    subst hnil
    have hn : negative = false := by
      cases negative
      · rfl
      · simp at h1
    subst hn
    left
    refine ⟨0, hmk, ?_⟩
    right
    refine ⟨[], c0, r', by rw [hr']; rfl, rfl, List.not_mem_nil _, ?_, ⟨['0'], by decide⟩⟩
    refine expRejectsAll_of_follow false [] allDigits_nil c0 hc0 ?_ (fun h => h.2.1 rfl)
    intro _ _ hc
    have := hneg rfl
    rw [List.nil_append, hr', hc] at this
    exact this rfl
  rw [if_neg h2] at hmk
  have hne : ds.take MAX_EXPONENT_LENGTH ≠ [] := by
    intro h
    rw [h] at h2
    exact h2 rfl
  have htd : AllDigits (ds.take MAX_EXPONENT_LENGTH) := allDigits_take hds _
  have hz : negative = true → ds.take MAX_EXPONENT_LENGTH = ['0'] := by
    intro hn
    subst hn
    have h1' : (ds.take MAX_EXPONENT_LENGTH).length = 1 ∧
        (ds.take MAX_EXPONENT_LENGTH).head? = some '0' := by
      simpa using h1
    obtain ⟨a, ha⟩ := List.length_eq_one.mp h1'.1
    rw [ha] at h1' ⊢
    simp only [List.head?_cons, Option.some.injEq] at h1'
    rw [h1'.2]
  by_cases h3 : ((ds.take MAX_EXPONENT_LENGTH).length == MAX_EXPONENT_LENGTH
      && unsignedDigitExceeds (ds.take MAX_EXPONENT_LENGTH).reverse INT_MAX) = true
  · -- ten digits that fail the bound loop
    rw [if_pos h3, reportError_line _ rest hq'] at hmk
    have hexc : (ds.take MAX_EXPONENT_LENGTH).length = MAX_EXPONENT_LENGTH ∧
        unsignedDigitExceeds (ds.take MAX_EXPONENT_LENGTH).reverse INT_MAX = true := by
      simpa using h3
    have hn : negative = false := by
      cases negative
      · rfl
      · have := hz rfl
        rw [this] at hexc
        exact absurd hexc.1 (by decide)
    subst hn
    have h10 : (ds.take 10).length = 10 := hexc.1
    have hlen : 10 ≤ ds.length := by
      rw [List.length_take] at h10
      omega
    obtain ⟨c, hc⟩ : ∃ c, (ds.take 10).drop 9 = [c] :=
      List.length_eq_one.mp (by rw [List.length_drop, h10])
    have hsplit : ds.take 10 = ds.take 9 ++ [c] := by
      have := List.take_append_drop 9 (ds.take 10)
      rw [hc, List.take_take] at this
      exact this.symm
    have h9 : (ds.take 9).length = 9 := by
      rw [List.length_take]; omega
    left
    refine ⟨9, ?_, ?_⟩
    · have hcol : col + (if false = true then 1 else 0) + min MAX_EXPONENT_LENGTH ds.length
          = col + 9 + 1 := by
        show col + (if false = true then 1 else 0) + min 10 ds.length = col + 9 + 1
        simp only [Bool.false_eq_true, if_false]
        omega
      rw [hcol] at hmk
      exact hmk
    · right
      refine ⟨ds.take 9, c, ds.drop 10 ++ (q ++ '\n' :: rest), ?_, h9,
        allDigits_no_newline (allDigits_take hds 9), ?_, ⟨[], ?_⟩⟩
      · have hd : ds = ds.take 9 ++ c :: ds.drop 10 := by
          have := List.take_append_drop 10 ds
          rw [hsplit] at this
          simpa using this.symm
        show ds ++ (q ++ '\n' :: rest) = _
        conv_lhs => rw [hd]
        simp
      · rw [← hsplit]
        refine expRejectsAll_of_digits false (ds.take 10) hne htd ?_
        intro sd _ h
        have ht : (ds.take 10 ++ sd).take MAX_EXPONENT_LENGTH = ds.take 10 :=
          List.take_left' h10
        rw [ht] at h
        exact h.2.2 hexc
      · rw [List.append_nil]
        refine acceptsExponent_of false (ds.take 9) ?_ (allDigits_take hds 9) ?_ ?_ ?_
        · intro h; rw [h] at h9; cases h9
        · rw [h9]; decide
        · intro h; cases h
        · rw [h9]; intro h; exact absurd h.1 (by decide)
  · -- accepted
    rw [if_neg h3] at hmk
    have hb : ¬ ((ds.take MAX_EXPONENT_LENGTH).length = MAX_EXPONENT_LENGTH ∧
        unsignedDigitExceeds (ds.take MAX_EXPONENT_LENGTH).reverse INT_MAX = true) := by
      simpa using h3
    have htl : (ds.take MAX_EXPONENT_LENGTH).length ≤ MAX_EXPONENT_LENGTH := by
      rw [List.length_take]; omega
    have hlit : literalText negative ds
        = literalText negative (ds.take MAX_EXPONENT_LENGTH) ++ ds.drop MAX_EXPONENT_LENGTH := by
      rw [← literalText_digits_append, List.take_append_drop]
    right
    refine ⟨decimalValue (ds.take MAX_EXPONENT_LENGTH),
      literalText negative (ds.take MAX_EXPONENT_LENGTH),
      (ds.drop MAX_EXPONENT_LENGTH ++ q) ++ '\n' :: rest, ds.drop MAX_EXPONENT_LENGTH ++ q,
      ?_, rfl, ?_, hq', ?_, acceptsExponent_of negative _ hne htd htl hz hb, ?_⟩
    · conv_lhs => rw [hlit]
      simp only [List.append_assoc]
    · rw [hpq]
      conv_lhs => rw [hlit]
      simp only [List.append_assoc]
    · have hcol : col + (if negative = true then 1 else 0) + min MAX_EXPONENT_LENGTH ds.length
          = col + (literalText negative (ds.take MAX_EXPONENT_LENGTH)).length := by
        rw [literalText_length, List.length_take]
        omega
      rw [hcol] at hmk
      exact hmk
    · intro c r2 hcr
      refine expStopsAt_of_accepted negative _ hne htd htl hz hb c ?_
      by_cases hlong : MAX_EXPONENT_LENGTH < ds.length
      · right
        rw [List.length_take]
        omega
      · left
        have : ds.drop MAX_EXPONENT_LENGTH = [] := List.drop_of_length_le (by omega)
        rw [this, List.nil_append, hr'] at hcr
        simp only [List.cons.injEq] at hcr
        rw [← hcr.1]
        exact hc0

/-! ## Texts that the loop of `ReadPolynomial` always rejects -/

theorem succ_of_lt {n fuel : Nat} (h : n < fuel) : ∃ f, fuel = f + 1 := ⟨fuel - 1, by omega⟩

theorem expStopsAt_close {ex : List Char} (hex : AcceptsLiteral ReadExponent ')' ex) :
    ExpStopsAt ex ')' :=
  fun s col line pe err => ReadExponent_complete ex s hex col line pe err

/-- The loop reads a text of the grammar also when it is entered at `(` with a
monomial expected. -/
theorem ReadPolynomialLoop_complete_any {b : Bool} {w : List Char} (h : PolyGrammar b w)
    (fuel : Nat) (t : Char) (r : List Char) (col line : Nat) (pe : Bool) (err : List String)
    (e : Bool) (top : List Mono) (below : List (List Mono))
    (ht : t = ',' ∨ t = '\n') (he : e = b ∨ (w ++ t :: r).head? = some '(')
    (hfuel : (w ++ t :: r).length < fuel) :
    ∃ top' fuel', (t :: r).length < fuel' ∧
      ReadPolynomialLoop fuel ⟨w ++ t :: r, col, line, pe, err⟩ e top below
        = ReadPolynomialLoop fuel' ⟨t :: r, col + w.length, line, false, err⟩ false top'
            below := by
  cases b with
  | true =>
    exact ReadPolynomialLoop_complete h fuel t r col line pe err e top below ht
      (fun h => Bool.noConfusion h) hfuel
  | false =>
    rcases he with he | he
    · exact ReadPolynomialLoop_complete h fuel t r col line pe err e top below ht (fun _ => he)
        hfuel
    · cases h with
      | coefficient hw =>
        obtain ⟨hne, hhead⟩ := acceptsCoefficient_head hw
        rw [head?_append_of_ne_nil hne] at he
        rw [he] at hhead
        exact absurd hhead (by decide)
      | monos hm =>
        exact ReadPolynomialLoop_complete hm fuel t r col line pe err e top below ht
          (fun h => Bool.noConfusion h) hfuel

/-- When a monomial is expected, everything but `(` is an error. -/
theorem ReadPolynomialLoop_expecting_any (fuel : Nat) (u : List Char) (col line : Nat)
    (pe : Bool) (err : List String) (top : List Mono) (below : List (List Mono))
    (h : u.head? ≠ some '(') :
    ReadPolynomialLoop (fuel + 1) ⟨u, col, line, pe, err⟩ true top below
      = parsePolyFail ⟨u, col, line, false, err⟩ := by
  by_cases hn : u.head? = some '\n'
  · obtain ⟨r, rfl⟩ := cons_of_head? hn
    rw [ReadPolynomialLoop_newline, if_neg (fun h => Bool.noConfusion h.2)]
  · exact ReadPolynomialLoop_expecting fuel u col line pe err top below hn h

theorem rejectsAll_open {y : List Char} {depth : Nat} (b : Bool)
    (h : RejectsAll y false (depth + 1)) : RejectsAll ('(' :: y) b depth := by
  intro s fuel col line pe err e top below hd _ hfuel
  obtain ⟨f, rfl⟩ := succ_of_lt hfuel
  show (ReadPolynomialLoop (f + 1) ⟨'(' :: (y ++ s), col, line, pe, err⟩ e top
    below).2.parse_error = true
  rw [ReadPolynomialLoop_open]
  by_cases hstart : IsValidNumberCharacter (y ++ s).head? = true ∨ (y ++ s).head? = some '('
  · rw [if_pos hstart]
    exact h s f (col + 1) line false err false [] (top :: below)
      (by rw [List.length_cons, hd]) (Or.inl rfl)
      (by simp only [List.cons_append, List.length_cons] at hfuel; omega)
  · rw [if_neg hstart]
    rfl

theorem rejectsAll_open_bad {c : Char}
    (hc : ¬ (IsValidNumberCharacter (some c) = true ∨ (some c : Option Char) = some '('))
    (b : Bool) (depth : Nat) : RejectsAll ['(', c] b depth := by
  intro s fuel col line pe err e top below _ _ hfuel
  obtain ⟨f, rfl⟩ := succ_of_lt hfuel
  show (ReadPolynomialLoop (f + 1) ⟨'(' :: c :: s, col, line, pe, err⟩ e top
    below).2.parse_error = true
  have hc' : ¬ (IsValidNumberCharacter (c :: s).head? = true ∨ (c :: s).head? = some '(') := hc
  rw [ReadPolynomialLoop_open, if_neg hc']
  rfl

theorem rejectsAll_word {b : Bool} {w : List Char} (hw : PolyGrammar b w) {t : Char}
    (ht : t = ',' ∨ t = '\n') {y : List Char} {depth : Nat}
    (h : RejectsAll (t :: y) false depth) : RejectsAll (w ++ t :: y) b depth := by
  intro s fuel col line pe err e top below hd he hfuel
  have htext : (w ++ t :: y) ++ s = w ++ t :: (y ++ s) := by simp
  rw [htext] at he hfuel ⊢
  obtain ⟨top', fuel', hf', heq⟩ := ReadPolynomialLoop_complete_any hw fuel t (y ++ s) col line
    pe err e top below ht he hfuel
  rw [heq]
  exact h s fuel' (col + w.length) line false err false top' below hd (Or.inl rfl) hf'

theorem rejectsAll_coef {y : List Char} (hhead : IsValidNumberCharacter y.head? = true)
    (h : CoefRejectsAll y) (depth : Nat) : RejectsAll y false depth := by
  intro s fuel col line pe err e top below _ he hfuel
  obtain ⟨f, rfl⟩ := succ_of_lt hfuel
  have hne : y ≠ [] := by
    rintro rfl
    exact absurd hhead (by decide)
  have hh : (y ++ s).head? = y.head? := head?_append_of_ne_nil hne s
  have he' : e = false := by
    rcases he with he | he
    · exact he
    · rw [hh] at he
      rw [he] at hhead
      exact absurd hhead (by decide)
  subst he'
  rw [ReadPolynomialLoop_coefficient f _ col line pe err top below (by rw [hh]; exact hhead),
    if_pos (h s col line false err)]
  exact h s col line false err

theorem comma_state {y s : List Char} {e : Bool} {below : List (List Mono)} {depth : Nat}
    (hd : below.length = depth + 1) (he : e = false ∨ (',' :: y ++ s).head? = some '(') :
    e = false ∧ ∃ next below', below = next :: below' ∧ below'.length = depth := by
  refine ⟨?_, ?_⟩
  · rcases he with he | he
    · exact he
    · exact absurd he (by simp)
  · cases below with
    | nil => cases hd
    | cons a b => exact ⟨a, b, rfl, by simpa using hd⟩

theorem rejectsAll_comma_exp {y : List Char} (h : ExpRejectsAll y) (depth : Nat) :
    RejectsAll (',' :: y) false (depth + 1) := by
  intro s fuel col line pe err e top below hd he hfuel
  obtain ⟨f, rfl⟩ := succ_of_lt hfuel
  obtain ⟨rfl, next, below', rfl, _⟩ := comma_state hd he
  show (ReadPolynomialLoop (f + 1) ⟨',' :: (y ++ s), col, line, pe, err⟩ false top
    (next :: below')).2.parse_error = true
  rw [ReadPolynomialLoop_comma_rejected f _ col line pe err top next below'
    (h s (col + 1) line false err)]
  exact h s (col + 1) line false err

theorem rejectsAll_comma_noclose {ex : List Char} {c : Char} (hstop : ExpStopsAt ex c)
    (hc : c ≠ ')') (depth : Nat) : RejectsAll (',' :: (ex ++ [c])) false (depth + 1) := by
  intro s fuel col line pe err e top below hd he hfuel
  obtain ⟨f, rfl⟩ := succ_of_lt hfuel
  obtain ⟨rfl, next, below', rfl, _⟩ := comma_state hd he
  have htext : (',' :: (ex ++ [c])) ++ s = ',' :: (ex ++ c :: s) := by simp
  rw [htext]
  obtain ⟨v, hv⟩ := hstop s (col + 1) line false err
  have hcl : ¬ (c :: s).head? = some ')' := by simpa using hc
  rw [ReadPolynomialLoop_comma_accepted f _ col line pe err top next below' v _ _ line err hv,
    if_neg hcl]
  rfl

theorem rejectsAll_comma_close_bad {ex : List Char} (hstop : ExpStopsAt ex ')') {c : Char}
    (h1 : c ≠ '+') (h2 : c ≠ '\n') (h3 : c ≠ ',') (depth : Nat) :
    RejectsAll (',' :: (ex ++ ')' :: [c])) false (depth + 1) := by
  intro s fuel col line pe err e top below hd he hfuel
  obtain ⟨f, rfl⟩ := succ_of_lt hfuel
  obtain ⟨rfl, next, below', rfl, _⟩ := comma_state hd he
  have htext : (',' :: (ex ++ ')' :: [c])) ++ s = ',' :: (ex ++ ')' :: c :: s) := by simp
  rw [htext]
  obtain ⟨v, hv⟩ := hstop (c :: s) (col + 1) line false err
  have hcl : (')' :: c :: s).head? = some ')' := rfl
  have hpl : ¬ (c :: s).head? = some '+' := by simpa using h1
  have hfo : ¬ ((c :: s).head? = some '\n' ∨ (c :: s).head? = some ',') := by
    simp [h2, h3]
  rw [ReadPolynomialLoop_comma_accepted f _ col line pe err top next below' v _ _ line err hv,
    if_pos hcl, List.tail_cons, if_neg hpl, if_neg hfo]
  rfl

theorem rejectsAll_comma_plus {ex : List Char} (hstop : ExpStopsAt ex ')') {y : List Char}
    {depth : Nat} (h : RejectsAll y true depth) :
    RejectsAll (',' :: (ex ++ ')' :: '+' :: y)) false (depth + 1) := by
  intro s fuel col line pe err e top below hd he hfuel
  obtain ⟨f, rfl⟩ := succ_of_lt hfuel
  obtain ⟨rfl, next, below', rfl, hd'⟩ := comma_state hd he
  have htext : (',' :: (ex ++ ')' :: '+' :: y)) ++ s = ',' :: (ex ++ ')' :: '+' :: (y ++ s)) := by
    simp
  rw [htext] at hfuel ⊢
  obtain ⟨v, hv⟩ := hstop ('+' :: (y ++ s)) (col + 1) line false err
  have hcl : (')' :: '+' :: (y ++ s)).head? = some ')' := rfl
  have hpl : ('+' :: (y ++ s)).head? = some '+' := rfl
  rw [ReadPolynomialLoop_comma_accepted f _ col line pe err top next below' v _ _ line err hv,
    if_pos hcl, List.tail_cons, if_pos hpl, List.tail_cons]
  refine h s f _ line false err true _ below' hd' (Or.inl rfl) ?_
  simp only [List.length_cons, List.length_append] at hfuel ⊢
  omega

theorem rejectsAll_expecting {c : Char} (hc : c ≠ '(') (depth : Nat) :
    RejectsAll [c] true depth := by
  intro s fuel col line pe err e top below _ he hfuel
  obtain ⟨f, rfl⟩ := succ_of_lt hfuel
  have he' : e = true := by
    rcases he with he | he
    · exact he
    · exact absurd he (by simpa using hc)
  subst he'
  have hh : (c :: s).head? ≠ some '(' := by simpa using hc
  show (ReadPolynomialLoop (f + 1) ⟨c :: s, col, line, pe, err⟩ true top
    below).2.parse_error = true
  rw [ReadPolynomialLoop_expecting_any f _ col line pe err top below hh]
  rfl

theorem rejectsAll_newline_inside (depth : Nat) : RejectsAll ['\n'] false (depth + 1) := by
  intro s fuel col line pe err e top below hd _ hfuel
  obtain ⟨f, rfl⟩ := succ_of_lt hfuel
  show (ReadPolynomialLoop (f + 1) ⟨'\n' :: s, col, line, pe, err⟩ e top
    below).2.parse_error = true
  rw [ReadPolynomialLoop_newline, if_neg (fun h => by rw [hd] at h; exact absurd h.1 (by omega))]
  rfl

theorem rejectsAll_comma_outside : RejectsAll [','] false 0 := by
  intro s fuel col line pe err e top below hd _ hfuel
  obtain ⟨f, rfl⟩ := succ_of_lt hfuel
  have hb : below = [] := List.length_eq_zero.mp hd
  subst hb
  show (ReadPolynomialLoop (f + 1) ⟨',' :: s, col, line, pe, err⟩ e top
    []).2.parse_error = true
  rw [ReadPolynomialLoop_comma_outside]
  rfl

theorem rejectsAll_of_true {y : List Char} {depth : Nat} (hhead : y.head? = some '(')
    (h : RejectsAll y true depth) : RejectsAll y false depth := by
  intro s fuel col line pe err e top below hd _ hfuel
  obtain ⟨r, rfl⟩ := cons_of_head? hhead
  exact h s fuel col line pe err e top below hd (Or.inr rfl) hfuel

/-! ## Texts that can be continued to a `poly` -/

theorem zero_coefficient : AcceptsLiteral ReadPolyCoefficient ',' ['0'] := by decide

theorem zero_exponent : AcceptsLiteral ReadExponent ')' ['0'] := by decide

theorem zero_mono : PolyGrammar true ['(', '0', ',', '0', ')'] :=
  PolyGrammar.mono (PolyGrammar.coefficient zero_coefficient) zero_exponent

theorem canFollow_nil : CanFollow false [] := fun w hw => ⟨[], by simpa using hw⟩

theorem canFollow_of_false {ctx : List Char} (h : CanFollow false ctx) : CanFollow true ctx :=
  fun w hw => h w (PolyGrammar.monos hw)

theorem canFollow_open {ctx : List Char} (h : CanFollow true ctx) :
    CanFollow false (ctx ++ ['(']) := by
  intro w hw
  obtain ⟨s, hs⟩ := h _ (PolyGrammar.mono hw zero_exponent)
  exact ⟨',' :: '0' :: ')' :: s, by simpa using hs⟩

theorem canFollow_plus {ctx p ex : List Char} (hp : PolyGrammar false p)
    (hex : AcceptsLiteral ReadExponent ')' ex) (h : CanFollow true ctx) :
    CanFollow true (ctx ++ '(' :: (p ++ ',' :: (ex ++ [')', '+']))) := by
  intro w hw
  obtain ⟨s, hs⟩ := h _ (PolyGrammar.plus hp hex hw)
  exact ⟨s, by simpa using hs⟩

theorem viableAfter_of_true {x : List Char} (h : ViableAfter true x) : ViableAfter false x :=
  fun ctx hctx => h ctx (canFollow_of_false hctx)

theorem viableAfter_word {b : Bool} {w : List Char} (hw : PolyGrammar b w) : ViableAfter b w :=
  fun _ hctx => hctx w hw

theorem viableAfter_nil (b : Bool) : ViableAfter b [] := by
  intro ctx hctx
  cases b with
  | false =>
    obtain ⟨s, hs⟩ := hctx _ (PolyGrammar.coefficient zero_coefficient)
    exact ⟨'0' :: s, by simpa using hs⟩
  | true =>
    obtain ⟨s, hs⟩ := hctx _ zero_mono
    exact ⟨'(' :: '0' :: ',' :: '0' :: ')' :: s, by simpa using hs⟩

theorem viableAfter_coef {x : List Char} (h : CoefViable x) : ViableAfter false x := by
  obtain ⟨s, hs⟩ := h
  intro ctx hctx
  obtain ⟨s', hs'⟩ := hctx _ (PolyGrammar.coefficient hs)
  exact ⟨s ++ s', by simpa using hs'⟩

theorem viableAfter_open {x : List Char} (h : ViableAfter false x) :
    ViableAfter true ('(' :: x) := by
  intro ctx hctx
  obtain ⟨s, hs⟩ := h (ctx ++ ['(']) (canFollow_open hctx)
  exact ⟨s, by simpa using hs⟩

theorem viableAfter_plus {p ex x : List Char} (hp : PolyGrammar false p)
    (hex : AcceptsLiteral ReadExponent ')' ex) (h : ViableAfter true x) :
    ViableAfter true ('(' :: (p ++ ',' :: (ex ++ ')' :: '+' :: x))) := by
  intro ctx hctx
  obtain ⟨s, hs⟩ := h _ (canFollow_plus hp hex hctx)
  exact ⟨s, by simpa using hs⟩

theorem viableAfter_exp {p x2 : List Char} (hp : PolyGrammar false p) (hx : ExpViable x2) :
    ViableAfter true ('(' :: (p ++ ',' :: x2)) := by
  obtain ⟨s2, hs2⟩ := hx
  intro ctx hctx
  obtain ⟨s, hs⟩ := hctx _ (PolyGrammar.mono hp hs2)
  exact ⟨s2 ++ ')' :: s, by simpa using hs⟩

theorem viableAfter_mono {p ex : List Char} (hp : PolyGrammar false p)
    (hex : AcceptsLiteral ReadExponent ')' ex) :
    ViableAfter true ('(' :: (p ++ ',' :: (ex ++ [')']))) := by
  intro ctx hctx
  obtain ⟨s, hs⟩ := hctx _ (PolyGrammar.mono hp hex)
  exact ⟨s, by simpa using hs⟩

/-! ## Locating the first offending character -/

theorem not_mem_append_of {c : Char} {a b : List Char} (ha : c ∉ a) (hb : c ∉ b) :
    c ∉ a ++ b := by
  intro h
  rcases List.mem_append.mp h with h | h
  · exact ha h
  · exact hb h

theorem negativeZero_prepend (p : List Char) (hp : '\n' ∉ p) {u : List Char} {k : Nat}
    (h : NegativeZeroDigitAt u (k + 1)) : NegativeZeroDigitAt (p ++ u) (p.length + k + 1) := by
  obtain ⟨a, d, hd, ha, hpre, hc⟩ := h
  refine ⟨p ++ a, d, hd, not_mem_append_of hp ha, ?_, ?_⟩
  · rw [List.append_assoc]
    exact (List.prefix_append_right_inj p).mpr hpre
  · rw [List.length_append]
    omega

theorem failedBound_prepend (p : List Char) (hp : '\n' ∉ p) {u : List Char} {k : Nat}
    (h : FailedBoundFollowedAt u (k + 1)) : FailedBoundFollowedAt (p ++ u) (p.length + k + 1) := by
  obtain ⟨a, negative, ds, c, hds, hlen, hexc, hc1, hc2, ha, hpre, hc⟩ := h
  refine ⟨p ++ a, negative, ds, c, hds, hlen, hexc, hc1, hc2, not_mem_append_of hp ha, ?_, ?_⟩
  · have : p ++ a ++ literalText negative ds ++ [c]
        = p ++ (a ++ literalText negative ds ++ [c]) := by simp
    rw [this]
    exact (List.prefix_append_right_inj p).mpr hpre
  · rw [List.length_append]
    omega

theorem offending_prepend {b b' : Bool} {depth depth' : Nat} (p : List Char) (hp : '\n' ∉ p)
    (hR : ∀ y, RejectsAll y b depth → RejectsAll (p ++ y) b' depth')
    (hV : ∀ x, ViableAfter b x → ViableAfter b' (p ++ x))
    {u : List Char} {k : Nat} (h : Offending b depth u k) :
    Offending b' depth' (p ++ u) (p.length + k) := by
  obtain ⟨x, c, y, rfl, rfl, hx, hrej, hv⟩ := h
  refine ⟨p ++ x, c, y, by simp, by simp, not_mem_append_of hp hx, ?_, hV x hv⟩
  rw [List.append_assoc]
  exact hR _ hrej

theorem locatedException_prepend {b b' : Bool} {depth depth' : Nat} (p : List Char)
    (hp : '\n' ∉ p)
    (hR : ∀ y, RejectsAll y b depth → RejectsAll (p ++ y) b' depth')
    (hV : ∀ x, ViableAfter b x → ViableAfter b' (p ++ x))
    {u : List Char} {k : Nat} (h : LocatedException b depth u k) :
    LocatedException b' depth' (p ++ u) (p.length + k) := by
  rcases h with ⟨h, hoff⟩ | ⟨h, k', hk, hoff⟩
  · exact Or.inl ⟨negativeZero_prepend p hp h, offending_prepend p hp hR hV hoff⟩
  · exact Or.inr ⟨failedBound_prepend p hp h, p.length + k', by omega,
      offending_prepend p hp hR hV hoff⟩

theorem located_prepend {b b' : Bool} {depth depth' : Nat} (p : List Char) (hp : '\n' ∉ p)
    (hR : ∀ y, RejectsAll y b depth → RejectsAll (p ++ y) b' depth')
    (hV : ∀ x, ViableAfter b x → ViableAfter b' (p ++ x))
    {u : List Char} {k : Nat} (h : Located b depth u k) :
    Located b' depth' (p ++ u) (p.length + k) := by
  rcases h with h | h
  · exact Or.inl (locatedException_prepend p hp hR hV h)
  · exact Or.inr (offending_prepend p hp hR hV h)

theorem offending_of_true {depth : Nat} {u : List Char} {k : Nat} (hhead : u.head? = some '(')
    (h : Offending true depth u k) : Offending false depth u k := by
  obtain ⟨x, c, y, rfl, rfl, hx, hrej, hv⟩ := h
  refine ⟨x, c, y, rfl, rfl, hx, rejectsAll_of_true ?_ hrej, viableAfter_of_true hv⟩
  cases x with
  | nil => exact hhead
  | cons a x => exact hhead

theorem located_of_true {depth : Nat} {u : List Char} {k : Nat} (hhead : u.head? = some '(')
    (h : Located true depth u k) : Located false depth u k := by
  rcases h with (⟨h, hoff⟩ | ⟨h, k', hk, hoff⟩) | h
  · exact Or.inl (Or.inl ⟨h, offending_of_true hhead hoff⟩)
  · exact Or.inl (Or.inr ⟨h, k', hk, offending_of_true hhead hoff⟩)
  · exact Or.inr (offending_of_true hhead h)

theorem offending_coef {depth : Nat} {u : List Char} {k : Nat}
    (hhead : IsValidNumberCharacter u.head? = true) (h : CoefOffending u k) :
    Offending false depth u k := by
  obtain ⟨x, c, y, rfl, rfl, hx, hrej, hv⟩ := h
  refine ⟨x, c, y, rfl, rfl, hx, rejectsAll_coef ?_ hrej depth, viableAfter_coef hv⟩
  cases x with
  | nil => exact hhead
  | cons a x => exact hhead

theorem located_coef {depth : Nat} {u : List Char} {k : Nat}
    (hhead : IsValidNumberCharacter u.head? = true) (h : CoefLocated u k) :
    Located false depth u k := by
  rcases h with ⟨h, k', hk, hoff⟩ | h
  · exact Or.inl (Or.inr ⟨h, k', hk, offending_coef hhead hoff⟩)
  · exact Or.inr (offending_coef hhead h)

theorem located_open {depth : Nat} {r : List Char} {k : Nat}
    (h : Located false (depth + 1) r k) : Located true depth ('(' :: r) (1 + k) :=
  located_prepend ['('] (by decide) (fun _ hy => rejectsAll_open true hy)
    (fun _ hx => viableAfter_open hx) h

theorem located_plus {depth : Nat} {p ex t3 : List Char} {k : Nat} (hp : PolyGrammar false p)
    (hex : AcceptsLiteral ReadExponent ')' ex) (h : Located true depth t3 k) :
    Located true depth ('(' :: (p ++ ',' :: (ex ++ ')' :: '+' :: t3)))
      (1 + p.length + 1 + ex.length + 2 + k) := by
  have hex' := hex
  obtain ⟨negative, ds, rfl, _, hds, _⟩ := (acceptsExponent_iff ex).mp hex
  have hnl : '\n' ∉ '(' :: (p ++ ',' :: (literalText negative ds ++ [')', '+'])) := by
    have h1 := grammar_no_newline hp
    have h2 := literalText_no_newline negative hds
    simp [h1, h2]
  have := @located_prepend true true depth depth
    ('(' :: (p ++ ',' :: (literalText negative ds ++ [')', '+']))) hnl
    (fun y hy => by
      have := rejectsAll_open true (rejectsAll_word hp (Or.inl rfl)
        (rejectsAll_comma_plus (expStopsAt_close hex') hy))
      simpa using this)
    (fun x hx => by
      have := viableAfter_plus hp hex' hx
      simpa using this) t3 k h
  have e1 : '(' :: (p ++ ',' :: (literalText negative ds ++ [')', '+'])) ++ t3
      = '(' :: (p ++ ',' :: (literalText negative ds ++ ')' :: '+' :: t3)) := by simp
  have e2 : ('(' :: (p ++ ',' :: (literalText negative ds ++ [')', '+']))).length + k
      = 1 + p.length + 1 + (literalText negative ds).length + 2 + k := by
    simp only [List.length_cons, List.length_append, List.length_nil]
    omega
  rw [e1, e2] at this
  exact this

/-! ## The rest of a line -/

theorem lineOf_cons {c : Char} {r rest : List Char} (h : LineOf (c :: r) rest) (hc : c ≠ '\n') :
    LineOf r rest := by
  obtain ⟨pre, hu, hpre⟩ := h
  cases pre with
  | nil =>
    simp only [List.nil_append, List.cons.injEq] at hu
    exact absurd hu.1 hc
  | cons a pre =>
    simp only [List.cons_append, List.cons.injEq] at hu
    exact ⟨pre, hu.2, fun hm => hpre (List.mem_cons_of_mem _ hm)⟩

theorem lineOf_append {w u' rest : List Char} (h : LineOf (w ++ u') rest) (hw : '\n' ∉ w) :
    LineOf u' rest := by
  obtain ⟨pre, hu, hpre⟩ := h
  obtain ⟨q, hq1, _, hq⟩ := suffix_of_line w u' pre rest hu hpre hw
  exact ⟨q, hq1, hq⟩

theorem lineOf_newline {r rest : List Char} (h : LineOf ('\n' :: r) rest) : r = rest := by
  obtain ⟨pre, hu, hpre⟩ := h
  cases pre with
  | nil =>
    simp only [List.nil_append, List.cons.injEq, true_and] at hu
    exact hu
  | cons a pre =>
    simp only [List.cons_append, List.cons.injEq] at hu
    exact absurd (by rw [← hu.1]; exact List.mem_cons_self _ _) hpre

theorem lineOf_cons_exists {u rest : List Char} (h : LineOf u rest) : ∃ c r, u = c :: r := by
  obtain ⟨pre, hu, _⟩ := h
  cases pre with
  | nil => exact ⟨'\n', rest, hu⟩
  | cons a pre => exact ⟨a, pre ++ '\n' :: rest, hu⟩

theorem parsePolyFail_lineOf {u rest : List Char} (h : LineOf u rest) (col line : Nat)
    (pe : Bool) (err : List String) :
    parsePolyFail ⟨u, col, line, pe, err⟩
      = (PolyZero, ⟨rest, 0, line + 1, true, err ++ [errorMessage line (col + 1)]⟩) := by
  obtain ⟨pre, rfl, hpre⟩ := h
  exact parsePolyFail_line pre rest hpre col line pe err

theorem acceptsExponent_no_newline {ex : List Char} (hex : AcceptsLiteral ReadExponent ')' ex) :
    '\n' ∉ ex := by
  obtain ⟨negative, ds, rfl, _, hds, _⟩ := (acceptsExponent_iff ex).mp hex
  exact literalText_no_newline negative hds

/-! ## The places at which the loop of `ReadPolynomial` fails -/

theorem located_at {b : Bool} {depth : Nat} {u : List Char} {k : Nat} (x : List Char) (c : Char)
    (y : List Char) (hu : u = x ++ c :: y) (hk : x.length = k) (hx : '\n' ∉ x)
    (hR : RejectsAll (x ++ [c]) b depth) (hV : ViableAfter b x) :
    Located b depth u k :=
  Or.inr ⟨x, c, y, hu, hk, hx, hR, hV⟩

theorem located_newline_inside {depth : Nat} {p : List Char} (hp : PolyGrammar false p)
    (y : List Char) : Located true depth ('(' :: (p ++ '\n' :: y)) (1 + p.length) := by
  refine located_at ('(' :: p) '\n' y (by simp) (by simp; omega) ?_ ?_
    (viableAfter_open (viableAfter_word hp))
  · have := grammar_no_newline hp
    simp [this]
  · have := rejectsAll_open true (rejectsAll_word hp (Or.inr rfl)
      (rejectsAll_newline_inside depth) (y := []))
    simpa using this

theorem offending_exp {depth : Nat} {p r2 : List Char} {k2 : Nat} (hp : PolyGrammar false p)
    (h : ExpOffending r2 k2) :
    Offending true depth ('(' :: (p ++ ',' :: r2)) (1 + p.length + 1 + k2) := by
  have hpnl := grammar_no_newline hp
  obtain ⟨x2, c, y2, rfl, rfl, hx2, hrej, hv⟩ := h
  refine ⟨'(' :: (p ++ ',' :: x2), c, y2, by simp, ?_, ?_, ?_, viableAfter_exp hp hv⟩
  · simp only [List.length_cons, List.length_append]
    omega
  · simp [hpnl, hx2]
  · have := rejectsAll_open true (rejectsAll_word hp (Or.inl rfl)
      (rejectsAll_comma_exp hrej depth))
    simpa using this

theorem located_exp {depth : Nat} {p r2 : List Char} {k2 : Nat} (hp : PolyGrammar false p)
    (h : ExpLocated r2 k2) :
    Located true depth ('(' :: (p ++ ',' :: r2)) (1 + p.length + 1 + k2) := by
  have hpnl := grammar_no_newline hp
  rcases h with ⟨d, s, hd, rfl, rfl, hoff⟩ | h
  · refine Or.inl (Or.inl ⟨⟨'(' :: p, d, hd, ?_, ⟨s, by simp⟩, ?_⟩, offending_exp hp hoff⟩)
    · simp [hpnl]
    · simp only [List.length_cons]
      omega
  · exact Or.inr (offending_exp hp h)

theorem located_noclose {depth : Nat} {p ex : List Char} {c : Char} (hp : PolyGrammar false p)
    (hex : AcceptsLiteral ReadExponent ')' ex) (hstop : ExpStopsAt ex c) (hc : c ≠ ')')
    (y : List Char) :
    Located true depth ('(' :: (p ++ ',' :: (ex ++ c :: y))) (1 + p.length + 1 + ex.length) := by
  have hpnl := grammar_no_newline hp
  have henl := acceptsExponent_no_newline hex
  refine located_at ('(' :: (p ++ ',' :: ex)) c y (by simp) ?_ ?_ ?_
    (viableAfter_exp hp ⟨[], by rw [List.append_nil]; exact hex⟩)
  · simp only [List.length_cons, List.length_append]
    omega
  · simp [hpnl, henl]
  · have := rejectsAll_open true (rejectsAll_word hp (Or.inl rfl)
      (rejectsAll_comma_noclose hstop hc depth))
    simpa using this

theorem located_close_bad {depth : Nat} {p ex : List Char} {c : Char}
    (hp : PolyGrammar false p) (hex : AcceptsLiteral ReadExponent ')' ex)
    (h1 : c ≠ '+') (h2 : c ≠ '\n') (h3 : c ≠ ',') (y : List Char) :
    Located true depth ('(' :: (p ++ ',' :: (ex ++ ')' :: c :: y)))
      (1 + p.length + 1 + ex.length + 1) := by
  have hpnl := grammar_no_newline hp
  have henl := acceptsExponent_no_newline hex
  refine located_at ('(' :: (p ++ ',' :: (ex ++ [')']))) c y (by simp) ?_ ?_ ?_
    (viableAfter_mono hp hex)
  · simp only [List.length_cons, List.length_append, List.length_nil]
    omega
  · simp [hpnl, henl]
  · have := rejectsAll_open true (rejectsAll_word hp (Or.inl rfl)
      (rejectsAll_comma_close_bad (expStopsAt_close hex) h1 h2 h3 depth))
    simpa using this

theorem located_plus_bad {depth : Nat} {p ex : List Char} {c : Char}
    (hp : PolyGrammar false p) (hex : AcceptsLiteral ReadExponent ')' ex)
    (hc : c ≠ '(') (y : List Char) :
    Located true depth ('(' :: (p ++ ',' :: (ex ++ ')' :: '+' :: c :: y)))
      (1 + p.length + 1 + ex.length + 2) := by
  have hpnl := grammar_no_newline hp
  have henl := acceptsExponent_no_newline hex
  refine located_at ('(' :: (p ++ ',' :: (ex ++ [')', '+']))) c y (by simp) ?_ ?_ ?_ ?_
  · simp only [List.length_cons, List.length_append, List.length_nil]
    omega
  · simp [hpnl, henl]
  · have := rejectsAll_open true (rejectsAll_word hp (Or.inl rfl)
      (rejectsAll_comma_plus (expStopsAt_close hex) (rejectsAll_expecting hc depth)))
    simpa using this
  · have := viableAfter_plus hp hex (viableAfter_nil true)
    simpa using this

/-! ## What the loop of `ReadPolynomial` does on a line -/

/-- From the start of a `poly`: what holds for the monomials holds for the
whole `poly`. -/
theorem loopDiagnosis_poly (fuel : Nat) (rest : List Char)
    (hM : ∀ (u : List Char) (col line : Nat) (pe : Bool) (err : List String) (e : Bool)
      (top : List Mono) (below : List (List Mono)), LineOf u rest → u.length < fuel →
      u.head? = some '(' →
      LoopDiagnosis true (ReadPolynomialLoop fuel ⟨u, col, line, pe, err⟩ e top below) fuel u
        rest col line err below)
    (u : List Char) (col line : Nat) (pe : Bool) (err : List String)
    (top : List Mono) (below : List (List Mono)) (hline : LineOf u rest)
    (hlen : u.length < fuel)
    (hstart : IsValidNumberCharacter u.head? = true ∨ u.head? = some '(') :
    LoopDiagnosis false (ReadPolynomialLoop fuel ⟨u, col, line, pe, err⟩ false top below) fuel u
      rest col line err below := by
  by_cases hopen : u.head? = some '('
  · rcases hM u col line pe err false top below hline hlen hopen with
      ⟨k, heq, hloc⟩ | ⟨w, u', top', fuel', hw, h⟩
    · exact Or.inl ⟨k, heq, located_of_true hopen hloc⟩
    · exact Or.inr ⟨w, u', top', fuel', PolyGrammar.monos hw, h⟩
  · have hnum : IsValidNumberCharacter u.head? = true := by
      rcases hstart with h | h
      · exact h
      · exact absurd h hopen
    obtain ⟨f, rfl⟩ := succ_of_lt hlen
    rw [ReadPolynomialLoop_coefficient f u col line pe err top below hnum]
    by_cases hflag : (ReadPolyCoefficient ⟨u, col, line, false, err⟩).2.parse_error = true
    · rw [if_pos hflag]
      obtain ⟨pre, hu, hpre⟩ := hline
      obtain ⟨k, heq, hloc⟩ := ReadPolyCoefficient_diagnosis u pre rest hu hpre col line false err
        hflag
      refine Or.inl ⟨k, ?_, located_coef hnum hloc⟩
      rw [heq]
    · rw [if_neg hflag]
      obtain ⟨w, r, hu, hwne, hw, hfollow, hR⟩ := ReadPolyCoefficient_sound u col line false err
        (by simpa using hflag)
      have hrest : r.length < f := by
        have : 0 < w.length := List.length_pos.mpr hwne
        rw [hu, List.length_append] at hlen
        omega
      rw [hR]
      by_cases h0 : (ReadPolyCoefficient ⟨u, col, line, false, err⟩).1 ≠ 0
      · rw [if_pos h0]
        exact Or.inr ⟨w, r, _, f, PolyGrammar.coefficient hw, hu, hfollow, hrest,
          Nat.le_succ f, rfl⟩
      · rw [if_neg h0]
        exact Or.inr ⟨w, r, _, f, PolyGrammar.coefficient hw, hu, hfollow, hrest,
          Nat.le_succ f, rfl⟩

/-- From `(`, the loop of `ReadPolynomial` either reads monomials joined by `+`,
or rejects the line with a located diagnostic and leaves the stream after the
newline of the line. -/
theorem loopDiagnosis_monos (rest : List Char) : ∀ (fuel : Nat) (u : List Char) (col line : Nat)
    (pe : Bool) (err : List String) (e : Bool) (top : List Mono) (below : List (List Mono)),
    LineOf u rest → u.length < fuel → u.head? = some '(' →
    LoopDiagnosis true (ReadPolynomialLoop fuel ⟨u, col, line, pe, err⟩ e top below) fuel u rest
      col line err below := by
  intro fuel
  induction fuel using Nat.strong_induction_on with
  | _ n ih =>
    intro u col line pe err e top below hline hlen hopen
    obtain ⟨r, rfl⟩ := cons_of_head? hopen
    obtain ⟨f, rfl⟩ := succ_of_lt hlen
    have hlr : LineOf r rest := lineOf_cons hline (by decide)
    rw [ReadPolynomialLoop_open]
    by_cases hstart : IsValidNumberCharacter r.head? = true ∨ r.head? = some '('
    swap
    · rw [if_neg hstart, parsePolyFail_lineOf hlr]
      obtain ⟨c, r', rfl⟩ := lineOf_cons_exists hlr
      refine Or.inl ⟨1, rfl, ?_⟩
      exact located_at ['('] c r' rfl rfl (by decide) (rejectsAll_open_bad hstart true _)
        (viableAfter_open (viableAfter_nil false))
    rw [if_pos hstart]
    have hrlen : r.length < f := by
      simp only [List.length_cons] at hlen
      omega
    rcases loopDiagnosis_poly f rest (ih f (Nat.lt_succ_self f)) r (col + 1) line false err []
      (top :: below) hlr hrlen hstart with
      ⟨k1, heq1, hloc1⟩ | ⟨p, u1, top1, f1, hp, hr, hfollow1, hu1, hf1, heq1⟩
    · refine Or.inl ⟨1 + k1, ?_, located_open hloc1⟩
      rw [heq1]
      have : col + 1 + k1 + 1 = col + (1 + k1) + 1 := by omega
      rw [this]
    subst hr
    rw [heq1]
    have hpnl := grammar_no_newline hp
    have hl1 : LineOf u1 rest := lineOf_append hlr hpnl
    obtain ⟨f2, rfl⟩ := succ_of_lt hu1
    rcases hfollow1 with hc | hn
    · -- `,` closes the parenthesis
      obtain ⟨r2, rfl⟩ := cons_of_head? hc
      have hl2 : LineOf r2 rest := lineOf_cons hl1 (by decide)
      obtain ⟨pre2, hu2, hpre2⟩ := hl2
      rcases ReadExponent_diagnosis r2 pre2 rest hu2 hpre2 (col + 1 + p.length + 1) line false err
        with ⟨k2, hRE, hloc2⟩ | ⟨x, ex, u2, q2, hr2, hu2', _, hq2, hRE, hex, hstop⟩
      · have hflag : (ReadExponent ⟨r2, col + 1 + p.length + 1, line, false,
            err⟩).2.parse_error = true := by rw [hRE]
        rw [ReadPolynomialLoop_comma_rejected f2 r2 _ line false err top1 top below hflag, hRE]
        refine Or.inl ⟨1 + p.length + 1 + k2, ?_, located_exp hp hloc2⟩
        have : col + 1 + p.length + 1 + k2 + 1 = col + (1 + p.length + 1 + k2) + 1 := by omega
        rw [this]
      subst hr2
      rw [ReadPolynomialLoop_comma_accepted f2 _ _ line false err top1 top below x u2 _ line err
        hRE]
      have hl3 : LineOf u2 rest := ⟨q2, hu2', hq2⟩
      by_cases hclose : u2.head? = some ')'
      swap
      · rw [if_neg hclose, parsePolyFail_lineOf hl3]
        obtain ⟨c, r', rfl⟩ := lineOf_cons_exists hl3
        refine Or.inl ⟨1 + p.length + 1 + ex.length, ?_,
          located_noclose hp hex (hstop c r' rfl) (by simpa using hclose) r'⟩
        have : col + 1 + p.length + 1 + ex.length + 1
            = col + (1 + p.length + 1 + ex.length) + 1 := by omega
        rw [this]
      rw [if_pos hclose]
      obtain ⟨t2, rfl⟩ := cons_of_head? hclose
      simp only [List.tail_cons]
      have hl4 : LineOf t2 rest := lineOf_cons hl3 (by decide)
      have ht2len : t2.length < f2 := by
        simp only [List.length_cons, List.length_append] at hu1
        omega
      by_cases hplus : t2.head? = some '+'
      · rw [if_pos hplus]
        obtain ⟨t3, rfl⟩ := cons_of_head? hplus
        simp only [List.tail_cons]
        have hl5 : LineOf t3 rest := lineOf_cons hl4 (by decide)
        have ht3len : t3.length < f2 := by
          simp only [List.length_cons] at ht2len
          omega
        by_cases hopen3 : t3.head? = some '('
        · rcases ih f2 (by omega) t3 (col + 1 + p.length + 1 + ex.length + 2) line false err true
            (if PolyIsZero (CollapseMonoStackIntoAPoly top1) = false then
              MonoFromPoly (CollapseMonoStackIntoAPoly top1) x :: top else top) below hl5 ht3len
            hopen3 with ⟨k4, heq4, hloc4⟩ | ⟨ms, u4, top4, f4, hms, ht3, hfollow4, hu4, hf4, heq4⟩
          · refine Or.inl ⟨1 + p.length + 1 + ex.length + 2 + k4, ?_, located_plus hp hex hloc4⟩
            rw [heq4]
            have : col + 1 + p.length + 1 + ex.length + 2 + k4 + 1
                = col + (1 + p.length + 1 + ex.length + 2 + k4) + 1 := by omega
            rw [this]
          · refine Or.inr ⟨'(' :: p ++ ',' :: ex ++ ')' :: '+' :: ms, u4, top4, f4,
              PolyGrammar.plus hp hex hms, ?_, hfollow4, hu4, by omega, ?_⟩
            · rw [ht3]
              simp
            · rw [heq4]
              have hcol : col + 1 + p.length + 1 + ex.length + 2 + ms.length
                  = col + ('(' :: p ++ ',' :: ex ++ ')' :: '+' :: ms).length := by
                simp
                omega
              rw [hcol]
        · obtain ⟨f3, rfl⟩ := succ_of_lt ht3len
          rw [ReadPolynomialLoop_expecting_any f3 t3 _ line false err _ below hopen3,
            parsePolyFail_lineOf hl5]
          obtain ⟨c, r', rfl⟩ := lineOf_cons_exists hl5
          refine Or.inl ⟨1 + p.length + 1 + ex.length + 2, ?_,
            located_plus_bad hp hex (by simpa using hopen3) r'⟩
          have : col + 1 + p.length + 1 + ex.length + 2 + 1
              = col + (1 + p.length + 1 + ex.length + 2) + 1 := by omega
          rw [this]
      · rw [if_neg hplus]
        by_cases hfollow2 : t2.head? = some '\n' ∨ t2.head? = some ','
        · rw [if_pos hfollow2]
          refine Or.inr ⟨'(' :: p ++ ',' :: ex ++ [')'], t2,
            (if PolyIsZero (CollapseMonoStackIntoAPoly top1) = false then
              MonoFromPoly (CollapseMonoStackIntoAPoly top1) x :: top else top), f2,
            PolyGrammar.mono hp hex, ?_, hfollow2.symm, ht2len, by omega, ?_⟩
          · simp
          · have hcol : col + 1 + p.length + 1 + ex.length + 1
                = col + ('(' :: p ++ ',' :: ex ++ [')']).length := by
              simp
              omega
            rw [hcol]
        · rw [if_neg hfollow2, parsePolyFail_lineOf hl4]
          obtain ⟨c, r', rfl⟩ := lineOf_cons_exists hl4
          have hne : c ≠ '+' ∧ c ≠ '\n' ∧ c ≠ ',' := by
            simp only [List.head?_cons, Option.some.injEq, not_or] at hplus hfollow2
            exact ⟨hplus, hfollow2.1, hfollow2.2⟩
          refine Or.inl ⟨1 + p.length + 1 + ex.length + 1, ?_,
            located_close_bad hp hex hne.1 hne.2.1 hne.2.2 r'⟩
          have : col + 1 + p.length + 1 + ex.length + 1 + 1
              = col + (1 + p.length + 1 + ex.length + 1) + 1 := by omega
          rw [this]
    · -- a newline inside a parenthesis
      obtain ⟨r2, rfl⟩ := cons_of_head? hn
      have hr2 := lineOf_newline hl1
      subst hr2
      rw [ReadPolynomialLoop_newline,
        if_neg (fun h => by simp only [List.length_cons] at h; omega), parsePolyFail_lineOf hl1]
      refine Or.inl ⟨1 + p.length, ?_, located_newline_inside hp _⟩
      have : col + 1 + p.length + 1 = col + (1 + p.length) + 1 := by omega
      rw [this]

/-! ## What `ReadPolynomial` does on a line -/

theorem not_accepts_of_rejectsAll {y : List Char} (h : RejectsAll y false 0) (s : List Char) :
    ¬ AcceptsText (y ++ s) := by
  unfold AcceptsText InputStreamInit
  rw [ReadPolynomial_mk]
  by_cases hstart : IsValidNumberCharacter (y ++ s).head? = true ∨ (y ++ s).head? = some '('
  · rw [if_pos hstart, h s _ 0 0 false [] false [] [] rfl (Or.inl rfl) (Nat.lt_succ_self _)]
    exact fun h => Bool.noConfusion h
  · rw [if_neg hstart]
    exact fun h => Bool.noConfusion h

theorem accepts_of_viableAfter {x : List Char} (h : ViableAfter false x) :
    ∃ s, AcceptsText (x ++ s) := by
  obtain ⟨s, hs⟩ := h [] canFollow_nil
  rw [List.nil_append] at hs
  refine ⟨s ++ ['\n'], ?_⟩
  unfold AcceptsText InputStreamInit
  rw [← List.append_assoc]
  exact ReadPolynomial_accepts (x ++ s) [] hs 0 0 false []

theorem textOffending_of_offending {u : List Char} {k : Nat} (h : Offending false 0 u k) :
    TextOffending u k := by
  obtain ⟨x, c, y, hxu, hk, hx, hrej, hv⟩ := h
  obtain ⟨s, hs⟩ := hv [] canFollow_nil
  rw [List.nil_append] at hs
  refine ⟨x, c, y, hxu, hk, hx, ?_, s, hs⟩
  intro t
  have := not_accepts_of_rejectsAll hrej t
  simpa using this

/-- How `ReadPolynomial` ends on a line: either it accepts the line, or it
rejects it with one diagnostic `ERROR l c` whose column is that of the first
offending character, or beside it in the two exceptions; the stream is left
after the newline of the line in both cases. -/
theorem ReadPolynomial_diagnosis (u rest : List Char) (hline : LineOf u rest) (col line : Nat)
    (pe : Bool) (err : List String) :
    (∃ p, ReadPolynomial ⟨u, col, line, pe, err⟩ = (p, ⟨rest, 0, line + 1, false, err⟩)) ∨
    ∃ k, ReadPolynomial ⟨u, col, line, pe, err⟩
        = (PolyZero, ⟨rest, 0, line + 1, true, err ++ [errorMessage line (col + k + 1)]⟩) ∧
      ((NegativeZeroDigitAt u (k + 1) ∧ TextOffending u (k + 1)) ∨
        (FailedBoundFollowedAt u (k + 1) ∧ ∃ k', k = k' + 1 ∧ TextOffending u k') ∨
        TextOffending u k) := by
  rw [ReadPolynomial_mk]
  by_cases hstart : IsValidNumberCharacter u.head? = true ∨ u.head? = some '('
  swap
  · rw [if_neg hstart, parsePolyFail_lineOf hline]
    obtain ⟨c, r', rfl⟩ := lineOf_cons_exists hline
    refine Or.inr ⟨0, rfl, Or.inr (Or.inr ⟨[], c, r', rfl, rfl, List.not_mem_nil _, ?_,
      ⟨['0'], PolyGrammar.coefficient (by decide)⟩⟩)⟩
    intro s
    unfold AcceptsText InputStreamInit
    have hs : ¬ (IsValidNumberCharacter ([] ++ c :: s).head? = true ∨
        ([] ++ c :: s).head? = some '(') := hstart
    rw [ReadPolynomial_mk, if_neg hs]
    exact fun h => Bool.noConfusion h
  rw [if_pos hstart]
  rcases loopDiagnosis_poly _ rest (loopDiagnosis_monos rest _) u col line false err [] [] hline
    (Nat.lt_succ_self _) hstart with
    ⟨k, heq, hloc⟩ | ⟨w, u', top', fuel', hw, hu, hfollow, hu', _, heq⟩
  · refine Or.inr ⟨k, heq, ?_⟩
    rcases hloc with (⟨h, hoff⟩ | ⟨h, k', hk, hoff⟩) | hoff
    · exact Or.inl ⟨h, textOffending_of_offending hoff⟩
    · exact Or.inr (Or.inl ⟨h, k', hk, textOffending_of_offending hoff⟩)
    · exact Or.inr (Or.inr (textOffending_of_offending hoff))
  rw [heq]
  subst hu
  have hwnl := grammar_no_newline hw
  have hl1 : LineOf u' rest := lineOf_append hline hwnl
  obtain ⟨f, rfl⟩ := succ_of_lt hu'
  rcases hfollow with hc | hn
  · obtain ⟨r, rfl⟩ := cons_of_head? hc
    rw [ReadPolynomialLoop_comma_outside, parsePolyFail_lineOf hl1]
    refine Or.inr ⟨w.length, rfl, Or.inr (Or.inr ⟨w, ',', r, rfl, rfl, hwnl, ?_,
      ⟨[], by rw [List.append_nil]; exact hw⟩⟩)⟩
    intro s
    have := not_accepts_of_rejectsAll
      (rejectsAll_word hw (Or.inl rfl) rejectsAll_comma_outside) s
    simpa using this
  · obtain ⟨r, rfl⟩ := cons_of_head? hn
    have hr := lineOf_newline hl1
    subst hr
    rw [ReadPolynomialLoop_newline, if_pos ⟨rfl, rfl⟩]
    exact Or.inl ⟨_, rfl⟩

/-- One line per literal on an input all of whose bytes can be read (the
stream functions outside `Machine`): when a newline occurs in the input,
`ReadPolynomial` reads the characters up to and including the first newline and
no more, both when it accepts the line and when it rejects it; what is left
unread is what follows the first newline, one more line is counted and the
column is 0 again. -/
theorem ReadPolynomial_consumes_one_line (stream : InputStream) (l rest : List Char)
    (hin : stream.unread = l ++ '\n' :: rest) (hl : '\n' ∉ l) :
    (ReadPolynomial stream).2.unread = rest ∧
      (ReadPolynomial stream).2.line_number = stream.line_number + 1 ∧
      (ReadPolynomial stream).2.column_number = 0 := by
  obtain ⟨u, col, line, pe, err⟩ := stream
  have hu : u = l ++ '\n' :: rest := hin
  rcases ReadPolynomial_diagnosis u rest ⟨l, hu, hl⟩ col line pe err with ⟨p, h⟩ | ⟨k, h, _⟩
  · rw [h]
    exact ⟨rfl, rfl, rfl⟩
  · rw [h]
    exact ⟨rfl, rfl, rfl⟩

/-! ## The documented language and the language of the readers -/

section Columns

set_option maxRecDepth 100000

end Columns

/-! ## Exponents within a bound -/

theorem expsLe_mk (n : Nat) (c : Int) (ms : List Mono) :
    ExpsLe n (Poly.mk c ms) ↔ (∀ m ∈ ms, m.2 ≤ n) ∧ ∀ m ∈ ms, ExpsLe n m.1 := by
  unfold ExpsLe
  rw [all_mk]
  simp [expsLeNode]

theorem expsLe_iff (n : Nat) (p : Poly) :
    ExpsLe n p ↔ (∀ m ∈ p.first_mono, m.2 ≤ n) ∧ ∀ m ∈ p.first_mono, ExpsLe n m.1 := by
  cases p; exact expsLe_mk _ _ _

theorem expsLe_const (n : Nat) (c : Int) : ExpsLe n (PolyFromCoeff c) := by
  unfold PolyFromCoeff
  rw [expsLe_mk]
  simp

theorem expsLe_zero (n : Nat) : ExpsLe n PolyZero := expsLe_const n 0

theorem expsLe_setConstant {n : Nat} {c : Int} {ms : List Mono} (c' : Int)
    (h : ExpsLe n (Poly.mk c ms)) : ExpsLe n (Poly.mk c' ms) := by
  rw [expsLe_mk] at h ⊢
  exact h

theorem expsLe_mono {a b : Nat} (hab : a ≤ b) : ∀ p : Poly, ExpsLe a p → ExpsLe b p := by
  intro p
  induction p using Poly.induct with
  | h c ms ih =>
    intro h
    rw [expsLe_mk] at h ⊢
    exact ⟨fun m hm => le_trans (h.1 m hm) hab, fun m hm => ih m hm (h.2 m hm)⟩

theorem expsLe_PolyAddInPlace (n : Nat) (q : Poly) :
    ∀ p : Poly, ExpsLe n p → ExpsLe n q → ExpsLe n (PolyAddInPlace p q) := by
  induction q using Poly.induct with
  | h qc qms ih =>
    intro p hp hq
    cases qms with
    | nil =>
      rw [PolyAddInPlace_nil]
      rw [expsLe_iff] at hp
      rw [expsLe_mk]
      exact hp
    | cons q1 qs =>
      cases p with
      | mk pc pms =>
        cases pms with
        | nil =>
          rw [PolyAddInPlace_nil_cons]
          exact expsLe_setConstant _ hq
        | cons p1 ps =>
          rw [expsLe_mk] at hp hq
          have key := add_monos_forall (fun m => m.2 ≤ n ∧ ExpsLe n m.1) pc qc p1 q1 ps qs
            (fun q hq' c hc => ⟨hc.1, ih q hq' c hc.2 (hq.2 q hq')⟩)
            (fun c hc => ⟨hc.1, by
              have := hc.2
              rw [expsLe_iff] at this
              rw [expsLe_mk]
              exact this⟩)
            (fun m hm => ⟨hp.1 m hm, hp.2 m hm⟩) (fun m hm => ⟨hq.1 m hm, hq.2 m hm⟩)
          rw [expsLe_iff]
          exact ⟨fun m hm => (key m hm).1, fun m hm => (key m hm).2⟩

/-! ## Comparison of exponents of the data model -/

theorem expLt_of_le {a b : Nat} (ha : a ≤ INT_MAX) (hb : b ≤ INT_MAX) :
    expLt a b = decide (a < b) := by
  unfold INT_MAX at ha hb
  unfold expLt
  have h1 : a < 2147483648 := by omega
  have h2 : b < 2147483648 := by omega
  simp [h1, h2]

theorem expLt_irrefl (a : Nat) : expLt a a = false := by
  unfold expLt
  split_ifs with h
  · simp
  · simpa using h

theorem expLt_trichotomy {a b : Nat} (h1 : expLt a b = false) (h2 : expLt b a = false) :
    a = b := by
  unfold expLt at h1 h2
  split_ifs at h1 h2 <;> simp at h1 h2 <;> omega

theorem expLt_asymm {a b : Nat} (h : expLt a b = true) : expLt b a = false := by
  unfold expLt at h ⊢
  split_ifs at h ⊢ <;> simp at h ⊢ <;> omega

theorem expLt_trans {a b c : Nat} (h1 : expLt a b = true) (h2 : expLt b c = true) :
    expLt a c = true := by
  unfold expLt at h1 h2 ⊢
  split_ifs at h1 h2 ⊢ <;> simp at h1 h2 ⊢ <;> omega

theorem expLt_iff_expInt {a b : Nat} (ha : a < 4294967296) (hb : b < 4294967296) :
    expLt a b = true ↔ expInt a < expInt b := by
  unfold expLt expInt
  split_ifs <;> simp <;> omega

theorem expAdd_of_le {a b : Nat} (h : a + b ≤ INT_MAX) : expAdd a b = a + b := by
  unfold INT_MAX at h
  unfold expAdd
  omega

theorem expInt_of_le {a : Nat} (h : a ≤ INT_MAX) : expInt a = (a : Int) := by
  unfold INT_MAX at h
  unfold expInt
  rw [if_pos (by omega)]

/-! ## Unfolding of the addition of the machine -/

theorem machine_mergeLoop_nil (ps : List Mono) : Machine.mergeLoop ps [] = ps := by
  simp [Machine.mergeLoop]

theorem machine_mergeLoop_nil_cons (q : Mono) (qs : List Mono) :
    Machine.mergeLoop [] (q :: qs) = q :: qs := by
  obtain ⟨a, b⟩ := q
  simp [Machine.mergeLoop, Machine.mergeMono]

theorem machine_mergeLoop_cons_cons (p q : Mono) (ps qs : List Mono) :
    Machine.mergeLoop (p :: ps) (q :: qs) =
      if expLt p.2 q.2 then p :: Machine.mergeLoop ps (q :: qs)
      else if expLt q.2 p.2 then q :: Machine.mergeLoop (p :: ps) qs
      else Machine.mergeLoop ((Machine.PolyAddInPlace p.1 q.1, p.2) :: ps) qs := by
  obtain ⟨a, b⟩ := q
  simp [Machine.mergeLoop, Machine.mergeMono]

theorem machine_PolyAddInPlace_nil (p : Poly) (qc : Int) :
    Machine.PolyAddInPlace p (Poly.mk qc [])
      = Poly.mk (wrapCoeff (p.constant + qc)) p.first_mono := by
  simp [Machine.PolyAddInPlace]

theorem machine_PolyAddInPlace_nil_cons (pc qc : Int) (q1 : Mono) (qs : List Mono) :
    Machine.PolyAddInPlace (Poly.mk pc []) (Poly.mk qc (q1 :: qs))
      = Poly.mk (wrapCoeff (pc + qc)) (q1 :: qs) := by
  simp [Machine.PolyAddInPlace]

theorem machine_PolyAddInPlace_cons_cons (pc qc : Int) (p1 q1 : Mono) (ps qs : List Mono) :
    Machine.PolyAddInPlace (Poly.mk pc (p1 :: ps)) (Poly.mk qc (q1 :: qs))
      = Poly.mk
          (foldFirstConstant (wrapCoeff (pc + qc))
            (if expLt q1.2 p1.2 then Machine.mergeLoop (q1 :: p1 :: ps) qs
             else Machine.mergeLoop (p1 :: ps) (q1 :: qs))).1
          (RemoveEmptyMonos (foldFirstConstant (wrapCoeff (pc + qc))
            (if expLt q1.2 p1.2 then Machine.mergeLoop (q1 :: p1 :: ps) qs
             else Machine.mergeLoop (p1 :: ps) (q1 :: qs))).2) := by
  simp [Machine.PolyAddInPlace]

/-! ## The addition of the machine on the exponents of the data model -/

/-- The merge loop of the machine is the merge loop on exact exponents when the
exponents of both lists are values of `[0, INT_MAX]`. -/
theorem machine_mergeLoop_eq (qs : List Mono)
    (hadd : ∀ q ∈ qs, ∀ c : Poly, ExpsLe INT_MAX c →
      Machine.PolyAddInPlace c q.1 = PolyAddInPlace c q.1)
    (hq : ∀ m ∈ qs, m.2 ≤ INT_MAX ∧ ExpsLe INT_MAX m.1) :
    ∀ ps : List Mono, (∀ m ∈ ps, m.2 ≤ INT_MAX ∧ ExpsLe INT_MAX m.1) →
      Machine.mergeLoop ps qs = mergeLoop ps qs := by
  induction qs with
  | nil => intro ps _; rw [machine_mergeLoop_nil, mergeLoop_nil]
  | cons q qs ihq =>
    have ihq' := ihq (fun m hm => hadd m (List.mem_cons_of_mem _ hm))
      (fun m hm => hq m (List.mem_cons_of_mem _ hm))
    intro ps
    induction ps with
    | nil => intro _; rw [machine_mergeLoop_nil_cons, mergeLoop_nil_cons]
    | cons p ps ihp =>
      intro hp
      have hpe := (hp p (List.mem_cons_self _ _)).1
      have hqe := (hq q (List.mem_cons_self _ _)).1
      rw [machine_mergeLoop_cons_cons, mergeLoop_cons_cons, expLt_of_le hpe hqe,
        expLt_of_le hqe hpe]
      simp only [decide_eq_true_eq, gt_iff_lt]
      split_ifs with h1 h2
      · rw [ihp (fun m hm => hp m (List.mem_cons_of_mem _ hm))]
      · rw [ihq' (p :: ps) hp]
      · have hc := (hp p (List.mem_cons_self _ _)).2
        rw [hadd q (List.mem_cons_self _ _) p.1 hc]
        apply ihq'
        intro m hm
        rcases List.mem_cons.mp hm with rfl | hm
        · exact ⟨hpe, expsLe_PolyAddInPlace _ _ _ hc (hq q (List.mem_cons_self _ _)).2⟩
        · exact hp m (List.mem_cons_of_mem _ hm)

/-- The function `PolyAddInPlace` of the machine is the addition on exact
exponents for operands of the data model. -/
theorem machine_PolyAddInPlace_eq (q : Poly) :
    ∀ p : Poly, ExpsLe INT_MAX p → ExpsLe INT_MAX q →
      Machine.PolyAddInPlace p q = PolyAddInPlace p q := by
  induction q using Poly.induct with
  | h qc qms ih =>
    intro p hp hq
    cases qms with
    | nil => rw [machine_PolyAddInPlace_nil, PolyAddInPlace_nil]
    | cons q1 qs =>
      cases p with
      | mk pc pms =>
        cases pms with
        | nil => rw [machine_PolyAddInPlace_nil_cons, PolyAddInPlace_nil_cons]
        | cons p1 ps =>
          rw [expsLe_mk] at hp hq
          have hadd : ∀ q ∈ q1 :: qs, ∀ c : Poly, ExpsLe INT_MAX c →
              Machine.PolyAddInPlace c q.1 = PolyAddInPlace c q.1 :=
            fun q hq' c hc => ih q hq' c hc (hq.2 q hq')
          have hp' : ∀ m ∈ p1 :: ps, m.2 ≤ INT_MAX ∧ ExpsLe INT_MAX m.1 :=
            fun m hm => ⟨hp.1 m hm, hp.2 m hm⟩
          have hq' : ∀ m ∈ q1 :: qs, m.2 ≤ INT_MAX ∧ ExpsLe INT_MAX m.1 :=
            fun m hm => ⟨hq.1 m hm, hq.2 m hm⟩
          have hp1 := (hp' p1 (List.mem_cons_self _ _)).1
          have hq1 := (hq' q1 (List.mem_cons_self _ _)).1
          rw [machine_PolyAddInPlace_cons_cons, PolyAddInPlace_cons_cons, expLt_of_le hq1 hp1]
          have hm : (if decide (q1.2 < p1.2) = true then Machine.mergeLoop (q1 :: p1 :: ps) qs
                else Machine.mergeLoop (p1 :: ps) (q1 :: qs))
              = (if p1.2 > q1.2 then mergeLoop (q1 :: p1 :: ps) qs
                else mergeLoop (p1 :: ps) (q1 :: qs)) := by
            simp only [decide_eq_true_eq, gt_iff_lt]
            split_ifs with h
            · apply machine_mergeLoop_eq qs (fun q hq'' => hadd q (List.mem_cons_of_mem _ hq''))
                (fun m hm => hq' m (List.mem_cons_of_mem _ hm))
              intro m hm
              rcases List.mem_cons.mp hm with rfl | hm
              · exact hq' _ (List.mem_cons_self _ _)
              · exact hp' m hm
            · exact machine_mergeLoop_eq (q1 :: qs) hadd hq' (p1 :: ps) hp'
          rw [hm]

theorem machine_PolyAdd_eq {p q : Poly} (hp : ExpsLe INT_MAX p) (hq : ExpsLe INT_MAX q) :
    Machine.PolyAdd p q = PolyAdd p q :=
  machine_PolyAddInPlace_eq q p hp hq

/-! ## The sum of an array on the exponents of the data model -/

theorem foldLastConstant_expsLe (n : Nat) (c : Int) (m : Mono)
    (h : m.2 ≤ n ∧ ExpsLe n m.1) :
    (foldLastConstant c m).2.2 ≤ n ∧ ExpsLe n (foldLastConstant c m).2.1 := by
  by_cases he : m.2 = 0
  · rw [foldLastConstant_zero c m he]
    refine ⟨h.1, ?_⟩
    have := h.2
    rw [expsLe_iff] at this
    show ExpsLe n (Poly.mk 0 m.1.first_mono)
    rw [expsLe_mk]
    exact this
  · rw [foldLastConstant_pos c m he]
    exact h

theorem expsLe_PolyAddMonos (n : Nat) (ms : List Mono)
    (h : ∀ m ∈ ms, m.2 ≤ n ∧ ExpsLe n m.1) : ExpsLe n (PolyAddMonos ms) := by
  have key := PolyAddMonos_forall (fun m => m.2 ≤ n ∧ ExpsLe n m.1)
    (fun m => m.2 ≤ n ∧ ExpsLe n m.1)
    (fun a b ha hb _ => ⟨ha.1, expsLe_PolyAddInPlace n b.1 a.1 ha.2 hb.2⟩)
    (fun c m hm => foldLastConstant_expsLe n c m hm) ms h
  rw [expsLe_iff]
  exact ⟨fun m hm => (key m hm).1, fun m hm => (key m hm).2⟩

theorem expsLe_PolyMul : ∀ (p q : Poly) (a b : Nat), ExpsLe a p → ExpsLe b q →
    ExpsLe (a + b) (PolyMul p q) := by
  apply PolyMul_induct
    (fun p q => ∀ a b : Nat, ExpsLe a p → ExpsLe b q → ExpsLe (a + b) (PolyMul p q))
  intro p q h1 h2 h3 a b hp hq
  rw [PolyMul_eq]
  have hp' := (expsLe_iff a p).mp hp
  have hq' := (expsLe_iff b q).mp hq
  apply expsLe_setConstant (c := (PolyAddMonos _).constant)
  rw [Poly.eta]
  apply expsLe_PolyAddMonos
  intro m hm
  rcases mem_mulArray hm with ⟨mp, hmp, mq, hmq, rfl⟩ | ⟨mp, hmp, rfl⟩ | ⟨mq, hmq, rfl⟩
  · exact ⟨Nat.add_le_add (hp'.1 mp hmp) (hq'.1 mq hmq),
      h1 mp hmp mq hmq a b (hp'.2 mp hmp) (hq'.2 mq hmq)⟩
  · exact ⟨le_trans (hp'.1 mp hmp) (Nat.le_add_right _ _),
      h2 mp hmp a b (hp'.2 mp hmp) (expsLe_const _ _)⟩
  · refine ⟨le_trans (hq'.1 mq hmq) (Nat.le_add_left _ _), ?_⟩
    have := h3 mq hmq b a (hq'.2 mq hmq) (expsLe_const _ _)
    rw [Nat.add_comm]
    exact this

theorem machine_MonosAreSorted_eq : ∀ ms : List Mono, (∀ m ∈ ms, m.2 ≤ INT_MAX) →
    Machine.MonosAreSorted ms = MonosAreSorted ms
  | [], _ => rfl
  | [_], _ => rfl
  | a :: b :: rest, h => by
    have ha := h a (List.mem_cons_self _ _)
    have hb := h b (List.mem_cons_of_mem _ (List.mem_cons_self _ _))
    unfold Machine.MonosAreSorted MonosAreSorted
    rw [expLt_of_le hb ha,
      machine_MonosAreSorted_eq (b :: rest) (fun m hm => h m (List.mem_cons_of_mem _ hm))]
    simp only [decide_eq_true_eq, gt_iff_lt]

theorem machine_orderedInsert_eq (a : Mono) (ha : a.2 ≤ INT_MAX) :
    ∀ l : List Mono, (∀ m ∈ l, m.2 ≤ INT_MAX) →
      l.orderedInsert Machine.MonoLe a = l.orderedInsert MonoLe a := by
  intro l
  induction l with
  | nil => intro _; rfl
  | cons b l ih =>
    intro h
    have hb := h b (List.mem_cons_self _ _)
    rw [List.orderedInsert, List.orderedInsert]
    have hiff : Machine.MonoLe a b ↔ MonoLe a b := by
      unfold Machine.MonoLe MonoLe
      rw [expLt_of_le hb ha]
      simp
    by_cases hab : MonoLe a b
    · rw [if_pos hab, if_pos (hiff.mpr hab)]
    · rw [if_neg hab, if_neg (fun h' => hab (hiff.mp h')),
        ih (fun m hm => h m (List.mem_cons_of_mem _ hm))]

theorem machine_qsortMonos_eq : ∀ ms : List Mono, (∀ m ∈ ms, m.2 ≤ INT_MAX) →
    Machine.qsortMonos ms = qsortMonos ms := by
  intro ms
  induction ms with
  | nil => intro _; rfl
  | cons a l ih =>
    intro h
    have hl : ∀ m ∈ l, m.2 ≤ INT_MAX := fun m hm => h m (List.mem_cons_of_mem _ hm)
    unfold Machine.qsortMonos qsortMonos at ih ⊢
    rw [List.insertionSort, List.insertionSort, ih hl]
    apply machine_orderedInsert_eq a (h a (List.mem_cons_self _ _))
    intro m hm
    exact hl m ((List.perm_insertionSort MonoLe l).subset hm)

theorem machine_sortMonosIfNeeded_eq (ms : List Mono) (h : ∀ m ∈ ms, m.2 ≤ INT_MAX) :
    Machine.sortMonosIfNeeded ms = sortMonosIfNeeded ms := by
  unfold Machine.sortMonosIfNeeded sortMonosIfNeeded
  rw [machine_MonosAreSorted_eq ms h, machine_qsortMonos_eq ms h]

theorem machine_addMonosLoop_eq :
    ∀ (rest : List Mono) (c : Int) (last : Mono), (last.2 ≤ INT_MAX ∧ ExpsLe INT_MAX last.1) →
      (∀ m ∈ rest, m.2 ≤ INT_MAX ∧ ExpsLe INT_MAX m.1) →
      Machine.addMonosLoop c last rest = addMonosLoop c last rest := by
  intro rest
  induction rest with
  | nil => intro c last _ _; rfl
  | cons a rest ih =>
    intro c last hl hr
    have ha := hr a (List.mem_cons_self _ _)
    have hr' : ∀ m ∈ rest, m.2 ≤ INT_MAX ∧ ExpsLe INT_MAX m.1 :=
      fun m hm => hr m (List.mem_cons_of_mem _ hm)
    by_cases he : last.2 = a.2
    · rw [addMonosLoop_cons_eq _ _ _ _ he]
      unfold Machine.addMonosLoop
      rw [if_pos he]
      simp only
      rw [machine_PolyAddInPlace_eq a.1 last.1 hl.2 ha.2]
      apply ih
      · exact foldLastConstant_expsLe _ _ _
          ⟨hl.1, expsLe_PolyAddInPlace _ _ _ hl.2 ha.2⟩
      · exact hr'
    · rw [addMonosLoop_cons_ne _ _ _ _ he]
      unfold Machine.addMonosLoop
      rw [if_neg he]
      simp only
      rw [ih _ _ (foldLastConstant_expsLe _ _ _ ha) hr']

/-- The function `PolyAddMonos` of the machine is the sum on exact exponents for
an array of the data model. -/
theorem machine_PolyAddMonos_eq (ms : List Mono)
    (h : ∀ m ∈ ms, m.2 ≤ INT_MAX ∧ ExpsLe INT_MAX m.1) :
    Machine.PolyAddMonos ms = PolyAddMonos ms := by
  cases ms with
  | nil => rfl
  | cons a l =>
    have hs := machine_sortMonosIfNeeded_eq (a :: l) (fun m hm => (h m hm).1)
    unfold Machine.PolyAddMonos PolyAddMonos
    simp only [hs]
    cases hsort : sortMonosIfNeeded (a :: l) with
    | nil => rfl
    | cons first rest =>
      simp only
      have hperm := sortMonosIfNeeded_perm (a :: l)
      rw [hsort] at hperm
      rw [machine_addMonosLoop_eq rest _ _
        (foldLastConstant_expsLe _ _ _ (h first (hperm.subset (List.mem_cons_self _ _))))
        (fun m hm => h m (hperm.subset (List.mem_cons_of_mem _ hm)))]

/-! ## Unfolding of `PolyMul` of the machine -/

theorem machine_PolyMulFuel_succ (fuel : Nat) (p q : Poly) :
    Machine.PolyMulFuel (fuel + 1) p q
      = Poly.mk (wrapCoeff (p.constant * q.constant))
          (Machine.PolyAddMonos
            (p.first_mono.flatMap (fun mp =>
                q.first_mono.map (fun mq => (Machine.PolyMulFuel fuel mp.1 mq.1, expAdd mp.2 mq.2)))
              ++ (CloneMonosMultipliedByAConstant (Machine.PolyMulFuel fuel) p.first_mono q.constant
              ++ CloneMonosMultipliedByAConstant (Machine.PolyMulFuel fuel) q.first_mono p.constant))
          ).first_mono := by
  simp [Machine.PolyMulFuel]

theorem machine_PolyMulFuel_congr : ∀ (n m : Nat) (p q : Poly),
    p.nodes + q.nodes ≤ n → p.nodes + q.nodes ≤ m →
      Machine.PolyMulFuel n p q = Machine.PolyMulFuel m p q := by
  intro n
  induction n with
  | zero =>
    intro m p q h
    have := nodes_pos p
    omega
  | succ n ih =>
    intro m p q hn hm
    have hp := nodes_pos p
    have hq := nodes_pos q
    cases m with
    | zero => omega
    | succ m =>
      rw [machine_PolyMulFuel_succ, machine_PolyMulFuel_succ]
      have h1 : (p.first_mono.flatMap (fun mp =>
            q.first_mono.map (fun mq => (Machine.PolyMulFuel n mp.1 mq.1, expAdd mp.2 mq.2))))
          = (p.first_mono.flatMap (fun mp =>
            q.first_mono.map (fun mq => (Machine.PolyMulFuel m mp.1 mq.1, expAdd mp.2 mq.2)))) := by
        apply List.flatMap_congr
        intro mp hmp
        apply List.map_congr_left
        intro mq hmq
        have := nodes_lt_of_mem hmp
        have := nodes_lt_of_mem hmq
        rw [ih m mp.1 mq.1 (by omega) (by omega)]
      have h2 : ∀ (l : List Mono) (c : Int), (∀ a ∈ l, a.1.nodes + 1 ≤ n ∧ a.1.nodes + 1 ≤ m) →
          CloneMonosMultipliedByAConstant (Machine.PolyMulFuel n) l c
            = CloneMonosMultipliedByAConstant (Machine.PolyMulFuel m) l c := by
        intro l c hl
        unfold CloneMonosMultipliedByAConstant
        apply List.map_congr_left
        intro a ha
        have := hl a ha
        rw [ih m a.1 (PolyFromCoeff c) (by rw [nodes_const]; omega) (by rw [nodes_const]; omega)]
      rw [h1, h2 p.first_mono, h2 q.first_mono]
      · intro a ha
        have := nodes_lt_of_mem ha
        omega
      · intro a ha
        have := nodes_lt_of_mem ha
        omega

/-- Unfolding of `PolyMul` of the machine in terms of itself: the bound on the
recursion is never reached. -/
theorem machine_PolyMul_unfold (p q : Poly) :
    Machine.PolyMul p q
      = Poly.mk (wrapCoeff (p.constant * q.constant))
          (Machine.PolyAddMonos (Machine.PolyMulArray p q)).first_mono := by
  have hp := nodes_pos p
  have hq := nodes_pos q
  obtain ⟨k, hk⟩ : ∃ k, p.nodes + q.nodes = k + 1 := ⟨p.nodes + q.nodes - 1, by omega⟩
  unfold Machine.PolyMulArray
  unfold Machine.PolyMul
  rw [hk, machine_PolyMulFuel_succ]
  have h1 : (p.first_mono.flatMap (fun mp =>
        q.first_mono.map (fun mq => (Machine.PolyMulFuel k mp.1 mq.1, expAdd mp.2 mq.2))))
      = (p.first_mono.flatMap (fun mp =>
        q.first_mono.map (fun mq =>
          (Machine.PolyMulFuel (mp.1.nodes + mq.1.nodes) mp.1 mq.1, expAdd mp.2 mq.2)))) := by
    apply List.flatMap_congr
    intro mp hmp
    apply List.map_congr_left
    intro mq hmq
    have := nodes_lt_of_mem hmp
    have := nodes_lt_of_mem hmq
    rw [machine_PolyMulFuel_congr k (mp.1.nodes + mq.1.nodes) mp.1 mq.1 (by omega) (le_refl _)]
  have h2 : ∀ (l : List Mono) (c : Int), (∀ a ∈ l, a.1.nodes + 1 ≤ k) →
      CloneMonosMultipliedByAConstant (Machine.PolyMulFuel k) l c
        = CloneMonosMultipliedByAConstant
            (fun a b => Machine.PolyMulFuel (a.nodes + b.nodes) a b) l c := by
    intro l c hl
    unfold CloneMonosMultipliedByAConstant
    apply List.map_congr_left
    intro a ha
    have := hl a ha
    rw [machine_PolyMulFuel_congr k (a.1.nodes + (PolyFromCoeff c).nodes) a.1 (PolyFromCoeff c)
      (by rw [nodes_const]; omega) (le_refl _)]
  rw [h1, h2 p.first_mono, h2 q.first_mono]
  · intro a ha
    have := nodes_lt_of_mem ha
    omega
  · intro a ha
    have := nodes_lt_of_mem ha
    omega

theorem machine_constant_PolyMul (p q : Poly) :
    (Machine.PolyMul p q).constant = wrapCoeff (p.constant * q.constant) := by
  rw [machine_PolyMul_unfold]; rfl

/-- Membership in the array that `PolyMul` of the machine hands to `PolyAddMonos`. -/
theorem machine_mem_mulArray {p q : Poly} {m : Mono} (h : m ∈ Machine.PolyMulArray p q) :
    (∃ mp ∈ p.first_mono, ∃ mq ∈ q.first_mono,
        m = (Machine.PolyMul mp.1 mq.1, expAdd mp.2 mq.2))
    ∨ (∃ mp ∈ p.first_mono, m = (Machine.PolyMul mp.1 (PolyFromCoeff q.constant), mp.2))
    ∨ (∃ mq ∈ q.first_mono, m = (Machine.PolyMul mq.1 (PolyFromCoeff p.constant), mq.2)) := by
  simp only [Machine.PolyMulArray, List.mem_append, List.mem_flatMap, List.mem_map,
    CloneMonosMultipliedByAConstant] at h
  rcases h with ⟨mp, hmp, mq, hmq, rfl⟩ | ⟨mp, hmp, rfl⟩ | ⟨mq, hmq, rfl⟩
  · exact Or.inl ⟨mp, hmp, mq, hmq, rfl⟩
  · exact Or.inr (Or.inl ⟨mp, hmp, rfl⟩)
  · exact Or.inr (Or.inr ⟨mq, hmq, rfl⟩)

/-- The function `PolyMul` of the machine is the product on exact exponents when
no sum of an exponent of `p` and an exponent of `q` leaves `[0, INT_MAX]`. -/
theorem machine_PolyMul_eq : ∀ (p q : Poly) (a b : Nat), ExpsLe a p → ExpsLe b q →
    a + b ≤ INT_MAX → Machine.PolyMul p q = PolyMul p q := by
  apply PolyMul_induct
    (fun p q => ∀ a b : Nat, ExpsLe a p → ExpsLe b q → a + b ≤ INT_MAX →
      Machine.PolyMul p q = PolyMul p q)
  intro p q h1 h2 h3 a b hp hq hab
  have hp' := (expsLe_iff a p).mp hp
  have hq' := (expsLe_iff b q).mp hq
  rw [machine_PolyMul_unfold, PolyMul_eq]
  have harr : Machine.PolyMulArray p q
      = p.first_mono.flatMap (fun mp =>
                q.first_mono.map (fun mq => (PolyMul mp.1 mq.1, mp.2 + mq.2)))
              ++ (CloneMonosMultipliedByAConstant PolyMul p.first_mono q.constant
              ++ CloneMonosMultipliedByAConstant PolyMul q.first_mono p.constant) := by
    unfold Machine.PolyMulArray CloneMonosMultipliedByAConstant
    congr 1
    · apply List.flatMap_congr
      intro mp hmp
      apply List.map_congr_left
      intro mq hmq
      have e1 := hp'.1 mp hmp
      have e2 := hq'.1 mq hmq
      rw [h1 mp hmp mq hmq a b (hp'.2 mp hmp) (hq'.2 mq hmq) hab,
        expAdd_of_le (by omega)]
    · congr 1
      · apply List.map_congr_left
        intro mp hmp
        rw [h2 mp hmp a b (hp'.2 mp hmp) (expsLe_const _ _) hab]
      · apply List.map_congr_left
        intro mq hmq
        rw [h3 mq hmq b a (hq'.2 mq hmq) (expsLe_const _ _) (by omega)]
  rw [harr, machine_PolyAddMonos_eq]
  intro m hm
  rcases mem_mulArray hm with ⟨mp, hmp, mq, hmq, rfl⟩ | ⟨mp, hmp, rfl⟩ | ⟨mq, hmq, rfl⟩
  · have e1 := hp'.1 mp hmp
    have e2 := hq'.1 mq hmq
    exact ⟨by show mp.2 + mq.2 ≤ INT_MAX; omega,
      expsLe_mono hab _ (expsLe_PolyMul _ _ a b (hp'.2 mp hmp) (hq'.2 mq hmq))⟩
  · have e1 := hp'.1 mp hmp
    exact ⟨by show mp.2 ≤ INT_MAX; omega,
      expsLe_mono hab _ (expsLe_PolyMul _ _ a b (hp'.2 mp hmp) (expsLe_const _ _))⟩
  · have e2 := hq'.1 mq hmq
    exact ⟨by show mq.2 ≤ INT_MAX; omega,
      expsLe_mono (by omega : b + a ≤ INT_MAX) _
        (expsLe_PolyMul _ _ b a (hq'.2 mq hmq) (expsLe_const _ _))⟩

/-! ## The powers of the machine -/

theorem machine_FastCoeffPowLoop_zero (fuel : Nat) (r x : Int) :
    Machine.FastCoeffPowLoop fuel r x 0 = r := by
  cases fuel <;> simp [Machine.FastCoeffPowLoop]

theorem FastCoeffPowLoop_zero (fuel : Nat) (r x : Int) : FastCoeffPowLoop fuel r x 0 = r := by
  cases fuel <;> simp [FastCoeffPowLoop]

theorem tmod_two_cast (n : Nat) : (Int.tmod (n : Int) 2 = 1) ↔ n % 2 = 1 := by
  rw [show (2 : Int) = ((2 : Nat) : Int) from rfl, ← Int.ofNat_tmod]
  exact_mod_cast Iff.rfl

theorem tdiv_two_cast (n : Nat) : Int.tdiv (n : Int) 2 = ((n / 2 : Nat) : Int) := by
  rw [show (2 : Int) = ((2 : Nat) : Int) from rfl, ← Int.ofNat_tdiv]

theorem lt_two_pow_pred {n f : Nat} (hn : n ≠ 0) (h : n < 2 ^ f) :
    ∃ g, f = g + 1 ∧ n / 2 < 2 ^ g := by
  cases f with
  | zero => simp at h; exact absurd h hn
  | succ g =>
    refine ⟨g, rfl, ?_⟩
    rw [pow_succ] at h
    omega

/-- On a non-negative `n` the loop of `FastCoeffPow` of the machine is the loop
on natural numbers, when both have rounds enough. -/
theorem machine_FastCoeffPowLoop_eq : ∀ (n fM fI : Nat) (r x : Int), n < 2 ^ fM → n < 2 ^ fI →
    Machine.FastCoeffPowLoop fM r x (n : Int) = FastCoeffPowLoop fI r x n := by
  intro n
  induction n using Nat.strong_induction_on with
  | _ n ih =>
    intro fM fI r x hM hI
    by_cases hn : n = 0
    · subst hn
      rw [Nat.cast_zero, machine_FastCoeffPowLoop_zero, FastCoeffPowLoop_zero]
    · obtain ⟨gM, rfl, hgM⟩ := lt_two_pow_pred hn hM
      obtain ⟨gI, rfl, hgI⟩ := lt_two_pow_pred hn hI
      have hn' : (n : Int) ≠ 0 := by exact_mod_cast hn
      unfold Machine.FastCoeffPowLoop FastCoeffPowLoop
      rw [if_neg hn', if_neg hn, tdiv_two_cast]
      have hodd : (if Int.tmod (n : Int) 2 = 1 then wrapCoeff (r * x) else r)
          = (if n % 2 = 1 then wrapCoeff (r * x) else r) := by
        by_cases h : n % 2 = 1
        · rw [if_pos h, if_pos ((tmod_two_cast n).mpr h)]
        · rw [if_neg h, if_neg (fun h' => h ((tmod_two_cast n).mp h'))]
      rw [hodd]
      exact ih (n / 2) (by omega) gM gI _ _ hgM hgI

theorem lt_two_pow_self_nat (n : Nat) : n < 2 ^ n := Nat.lt_two_pow n

theorem machine_FastCoeffPow_eq (x : Int) {n : Nat} (h : n ≤ INT_MAX) :
    Machine.FastCoeffPow x n = FastCoeffPow x n := by
  unfold Machine.FastCoeffPow FastCoeffPow
  rw [expInt_of_le h]
  apply machine_FastCoeffPowLoop_eq
  · unfold INT_MAX at h
    have : (2 : Nat) ^ 32 = 4294967296 := by norm_num
    omega
  · exact lt_two_pow_self_nat n

theorem machine_FastPolyPowLoop_zero (fuel : Nat) (r x : Poly) :
    Machine.FastPolyPowLoop fuel r x 0 = r := by
  cases fuel <;> simp [Machine.FastPolyPowLoop]

theorem FastPolyPowLoop_zero (fuel : Nat) (r x : Poly) : FastPolyPowLoop fuel r x 0 = r := by
  cases fuel <;> simp [FastPolyPowLoop]

/-- With exponents of `result` at most `c` and exponents of `x` at most `d`, the
loop of `FastPolyPow` returns exponents of at most `c + n * d`. -/
theorem expsLe_FastPolyPowLoop : ∀ (fuel : Nat) (result x : Poly) (n c d : Nat),
    ExpsLe c result → ExpsLe d x → ExpsLe (c + n * d) (FastPolyPowLoop fuel result x n) := by
  intro fuel
  induction fuel with
  | zero =>
    intro result x n c d h _
    exact expsLe_mono (Nat.le_add_right _ _) _ (by simpa [FastPolyPowLoop] using h)
  | succ fuel ih =>
    intro result x n c d h hx
    unfold FastPolyPowLoop
    have hdiv := Nat.div_add_mod n 2
    split_ifs with h0 h1
    · exact expsLe_mono (Nat.le_add_right _ _) _ h
    · have := ih (PolyMul result x) (PolyMul x x) (n / 2) (c + d) (d + d)
        (expsLe_PolyMul _ _ c d h hx) (expsLe_PolyMul _ _ d d hx hx)
      have e : n = 2 * (n / 2) + 1 := by omega
      have e2 : c + d + n / 2 * (d + d) = c + (2 * (n / 2) + 1) * d := by ring
      rw [e2, ← e] at this
      exact this
    · have := ih result (PolyMul x x) (n / 2) c (d + d) h (expsLe_PolyMul _ _ d d hx hx)
      have e : n = 2 * (n / 2) := by omega
      have e2 : c + n / 2 * (d + d) = c + (2 * (n / 2)) * d := by ring
      rw [e2, ← e] at this
      exact this

theorem expsLe_FastPolyPow {p : Poly} {d : Nat} (hp : ExpsLe d p) (n : Nat) :
    ExpsLe (n * d) (FastPolyPow p n) := by
  unfold FastPolyPow
  split_ifs
  · exact expsLe_const _ _
  · have := expsLe_FastPolyPowLoop n (PolyFromCoeff 1) p n 0 d (expsLe_const _ _) hp
    rwa [Nat.zero_add] at this

/-- On a non-negative `n` the loop of `FastPolyPow` of the machine is the loop on
exact exponents, as long as the exponents of the result stay in `[0, INT_MAX]`;
the squares of `x` that are not multiplied into the result need not agree. -/
theorem machine_FastPolyPowLoop_eq : ∀ (n fM fI : Nat) (r x xM : Poly) (c d : Nat),
    n < 2 ^ fM → n < 2 ^ fI → ExpsLe c r → (n ≠ 0 → xM = x ∧ ExpsLe d x) →
    c + n * d ≤ INT_MAX →
    Machine.FastPolyPowLoop fM r xM (n : Int) = FastPolyPowLoop fI r x n := by
  intro n
  induction n using Nat.strong_induction_on with
  | _ n ih =>
    intro fM fI r x xM c d hM hI hr hx hfit
    by_cases hn : n = 0
    · subst hn
      rw [Nat.cast_zero, machine_FastPolyPowLoop_zero, FastPolyPowLoop_zero]
    · obtain ⟨gM, rfl, hgM⟩ := lt_two_pow_pred hn hM
      obtain ⟨gI, rfl, hgI⟩ := lt_two_pow_pred hn hI
      obtain ⟨rfl, hxd⟩ := hx hn
      have hn' : (n : Int) ≠ 0 := by exact_mod_cast hn
      unfold Machine.FastPolyPowLoop FastPolyPowLoop
      rw [if_neg hn', if_neg hn, tdiv_two_cast]
      have hdiv := Nat.div_add_mod n 2
      have hnd : d ≤ n * d := Nat.le_mul_of_pos_left d (Nat.pos_of_ne_zero hn)
      have hsq : n / 2 ≠ 0 → Machine.PolyMul xM xM = PolyMul xM xM ∧ ExpsLe (d + d) (PolyMul xM xM) := by
        intro h2
        have h2' : 2 ≤ n := by omega
        have : 2 * d ≤ n * d := Nat.mul_le_mul_right d h2'
        exact ⟨machine_PolyMul_eq _ _ d d hxd hxd (by omega), expsLe_PolyMul _ _ d d hxd hxd⟩
      by_cases h : n % 2 = 1
      · rw [if_pos h, if_pos ((tmod_two_cast n).mpr h),
          machine_PolyMul_eq _ _ c d hr hxd (by omega)]
        apply ih (n / 2) (by omega) gM gI _ _ _ (c + d) (d + d) hgM hgI
          (expsLe_PolyMul _ _ c d hr hxd) hsq
        have e : n = 2 * (n / 2) + 1 := by omega
        have : c + d + n / 2 * (d + d) = c + (2 * (n / 2) + 1) * d := by ring
        rw [this, ← e]
        exact hfit
      · rw [if_neg h, if_neg (fun h' => h ((tmod_two_cast n).mp h'))]
        apply ih (n / 2) (by omega) gM gI _ _ _ c (d + d) hgM hgI hr hsq
        have e : n = 2 * (n / 2) := by omega
        have : c + n / 2 * (d + d) = c + (2 * (n / 2)) * d := by ring
        rw [this, ← e]
        exact hfit

/-- The function `FastPolyPow` of the machine is the power on exact exponents
when `n` is not negative and `n` times an exponent of `p` stays in
`[0, INT_MAX]`. -/
theorem machine_FastPolyPow_eq {p : Poly} {d : Nat} (hp : ExpsLe d p) {n : Nat}
    (hn : n ≤ INT_MAX) (hfit : n * d ≤ INT_MAX) :
    Machine.FastPolyPow p n = FastPolyPow p n := by
  unfold Machine.FastPolyPow FastPolyPow
  rw [machine_FastCoeffPow_eq _ hn, expInt_of_le hn]
  split_ifs
  · rfl
  · apply machine_FastPolyPowLoop_eq n 32 n _ p p 0 d _ (lt_two_pow_self_nat n)
      (expsLe_const _ _) (fun _ => ⟨rfl, hp⟩) (by omega)
    unfold INT_MAX at hn
    have : (2 : Nat) ^ 32 = 4294967296 := by norm_num
    omega

/-! ## `PolyAt` of the machine -/

theorem machine_PolyAt_loop_eq (x : Int) :
    ∀ (ms : List Mono) (acc : Poly), ExpsLe INT_MAX acc →
      (∀ m ∈ ms, m.2 ≤ INT_MAX ∧ ExpsLe INT_MAX m.1) →
      ms.foldl (fun result m => Machine.PolyAddInPlace result
          (Machine.PolyMul (PolyFromCoeff (Machine.FastCoeffPow x m.2)) m.1)) acc
        = ms.foldl (fun result m =>
          PolyAddInPlace result (PolyMul (PolyFromCoeff (FastCoeffPow x m.2)) m.1)) acc := by
  intro ms
  induction ms with
  | nil => intro acc _ _; rfl
  | cons a l ih =>
    intro acc h hl
    have ha := hl a (List.mem_cons_self _ _)
    have hprod : ExpsLe INT_MAX (PolyMul (PolyFromCoeff (FastCoeffPow x a.2)) a.1) := by
      have := expsLe_PolyMul (PolyFromCoeff (FastCoeffPow x a.2)) a.1 0 INT_MAX
        (expsLe_const _ _) ha.2
      rwa [Nat.zero_add] at this
    rw [List.foldl_cons, List.foldl_cons, machine_FastCoeffPow_eq x ha.1,
      machine_PolyMul_eq _ _ 0 INT_MAX (expsLe_const _ _) ha.2 (by omega),
      machine_PolyAddInPlace_eq _ _ h hprod]
    exact ih _ (expsLe_PolyAddInPlace _ _ _ h hprod)
      (fun m hm => hl m (List.mem_cons_of_mem _ hm))

/-- The function `PolyAt` of the machine is `PolyAt` on exact exponents for a
polynomial of the data model. -/
theorem machine_PolyAt_eq {p : Poly} (hp : ExpsLe INT_MAX p) (x : Int) :
    Machine.PolyAt p x = PolyAt p x := by
  have h := (expsLe_iff _ p).mp hp
  unfold Machine.PolyAt PolyAt
  simp only
  rw [machine_PolyAt_loop_eq x p.first_mono PolyZero (expsLe_zero _)
    (fun m hm => ⟨h.1 m hm, h.2 m hm⟩)]

/-! ## `PolyDeg` of the machine -/

theorem wrapExp_of_inRange {x : Int} (h1 : -2147483648 ≤ x) (h2 : x ≤ 2147483647) :
    wrapExp x = x := by
  unfold wrapExp
  omega

theorem machine_PolyDegLoop_nil (r : Int) : Machine.PolyDegLoop r [] = r := by
  simp [Machine.PolyDegLoop]

theorem machine_PolyDegLoop_cons (r : Int) (m : Mono) (rest : List Mono) :
    Machine.PolyDegLoop r (m :: rest)
      = Machine.PolyDegLoop (max r (wrapExp (Machine.PolyDeg m.1 + expInt m.2))) rest := by
  obtain ⟨p, e⟩ := m
  simp [Machine.PolyDegLoop, Max_eq_max]

theorem machine_PolyDeg_mk (c : Int) (ms : List Mono) :
    Machine.PolyDeg (Poly.mk c ms) = Machine.PolyDegLoop (if c ≠ 0 then 0 else -1) ms := by
  simp [Machine.PolyDeg]

theorem machine_PolyDegLoop_eq (ms : List Mono)
    (h : ∀ m ∈ ms, m.2 ≤ INT_MAX ∧ Machine.PolyDeg m.1 = PolyDeg m.1
      ∧ PolyDeg m.1 + (m.2 : Int) ≤ 2147483647) :
    ∀ r : Int, Machine.PolyDegLoop r ms = PolyDegLoop r ms := by
  induction ms with
  | nil => intro r; rw [machine_PolyDegLoop_nil, PolyDegLoop_nil]
  | cons m rest ih =>
    intro r
    obtain ⟨h1, h2, h3⟩ := h m (List.mem_cons_self _ _)
    have := PolyDeg_ge_neg_one m.1
    rw [machine_PolyDegLoop_cons, PolyDegLoop_cons, h2, expInt_of_le h1,
      wrapExp_of_inRange (by omega) h3]
    exact ih (fun m hm => h m (List.mem_cons_of_mem _ hm)) _

/-- The function `PolyDeg` of the machine returns the total degree as long as the
total degree is a value of `[-1, INT_MAX]`. -/
theorem machine_PolyDeg_eq : ∀ p : Poly, ExpsLe INT_MAX p → PolyDeg p ≤ 2147483647 →
    Machine.PolyDeg p = PolyDeg p := by
  intro p
  induction p using Poly.induct with
  | h c ms ih =>
    intro hp hd
    rw [expsLe_mk] at hp
    rw [machine_PolyDeg_mk, PolyDeg_mk]
    apply machine_PolyDegLoop_eq
    intro m hm
    have hle : PolyDeg m.1 + (m.2 : Int) ≤ PolyDeg (Poly.mk c ms) :=
      PolyDeg_mono_le (p := Poly.mk c ms) hm
    refine ⟨hp.1 m hm, ih m hm (hp.2 m hm) ?_, by omega⟩
    have : (0 : Int) ≤ (m.2 : Int) := Int.ofNat_nonneg _
    omega

/-! ## The loop of `PolyCompose` of the machine -/

theorem machine_composeLoop_push (count : Nat) (x : List Poly) (fuel : Nat) (acc : Poly) (m : Mono)
    (ms : List Mono) (below : List ComposeState) (h : below.length + 1 ≤ count) :
    Machine.composeLoop count x (fuel + 1) ({ result := acc, mono := m :: ms } :: below)
      = Machine.composeLoop count x fuel
          (NewComposeState m.1.first_mono m.1.constant
            :: { result := acc, mono := m :: ms } :: below) := by
  have h' : ¬ (count < below.length + 1) := by omega
  simp [Machine.composeLoop, h']

theorem machine_composeLoop_pop (count : Nat) (x : List Poly) (fuel : Nat) (current : ComposeState)
    (acc : Poly) (m : Mono) (ms : List Mono) (rest : List ComposeState) (x_k : Poly)
    (hcur : current.mono = [] ∨ rest.length + 2 > count)
    (hk : rest.length < count) (hx : x[rest.length]? = some x_k) :
    Machine.composeLoop count x (fuel + 1) (current :: { result := acc, mono := m :: ms } :: rest)
      = Machine.composeLoop count x fuel
          ({ result := Machine.PolyAddInPlace acc (Machine.PolyMul current.result (Machine.FastPolyPow x_k m.2)),
             mono := ms } :: rest) := by
  have h1 : (current.mono.isEmpty || decide (count < rest.length + 1 + 1)) = true := by
    rcases hcur with h | h
    · simp [h]
    · simp; right; omega
  simp only [Machine.composeLoop, List.length_cons]
  simp [h1, hk, hx]

theorem machine_composeLoop_exit (count : Nat) (x : List Poly) (fuel : Nat) (r : Poly) :
    Machine.composeLoop count x (fuel + 1) [{ result := r, mono := [] }] = .ok r := by
  simp [Machine.composeLoop]

theorem machine_composeLoop_rootPop (x : List Poly) (fuel : Nat) (r : Poly) (ms : List Mono) :
    Machine.composeLoop 0 x (fuel + 1) [{ result := r, mono := ms }] = .ok r := by
  cases ms <;> simp [Machine.composeLoop]

theorem machine_composeRec_mk (count : Nat) (x : List Poly) (k : Nat) (c : Int) (ms : List Mono) :
    Machine.composeRec count x k (Poly.mk c ms)
      = if k + 1 > count then PolyFromCoeff c
        else Machine.composeMonos count x k (PolyFromCoeff c) ms := by
  simp [Machine.composeRec]

theorem machine_composeMonos_nil (count : Nat) (x : List Poly) (k : Nat) (acc : Poly) :
    Machine.composeMonos count x k acc [] = acc := by
  simp [Machine.composeMonos]

theorem machine_composeMonos_cons (count : Nat) (x : List Poly) (k : Nat) (acc : Poly) (m : Mono)
    (ms : List Mono) :
    Machine.composeMonos count x k acc (m :: ms)
      = Machine.composeMonos count x k
          (Machine.PolyAddInPlace acc (Machine.PolyMul (Machine.composeRec count x (k + 1) m.1)
            (Machine.FastPolyPow (x.getD k PolyZero) m.2))) ms := by
  obtain ⟨p, e⟩ := m
  simp [Machine.composeMonos]

/-- Running the loop on a frame that is within `count`: after at most twice as
many rounds as there are polynomials below the monomials of the frame, the frame
holds the result of `composeMonos` and has no monomial left. -/
theorem machine_composeLoop_frame (count : Nat) (x : List Poly) (hx : count ≤ x.length) (p : Poly) :
    ∀ (acc : Poly) (rest : List ComposeState), rest.length + 1 ≤ count →
      ∃ n, n ≤ 2 * nodesList p.first_mono ∧ ∀ fuel,
        Machine.composeLoop count x (fuel + n) ({ result := acc, mono := p.first_mono } :: rest)
          = Machine.composeLoop count x fuel
              ({ result := Machine.composeMonos count x rest.length acc p.first_mono,
                 mono := [] } :: rest) := by
  induction p using Poly.induct with
  | h c ms ih =>
    simp only [first_mono_mk]
    induction ms with
    | nil =>
      intro acc rest _
      exact ⟨0, by simp, fun fuel => by rw [machine_composeMonos_nil]; rfl⟩
    | cons m ms ihl =>
      intro acc rest hrest
      have hk : rest.length < count := by omega
      have hget : x[rest.length]? = some (x.getD rest.length PolyZero) := by
        rw [List.getD_eq_getElem?_getD]
        have : rest.length < x.length := by omega
        simp [List.getElem?_eq_getElem this]
      obtain ⟨n2, hn2, hrun2⟩ := ihl (fun a ha => ih a (List.mem_cons_of_mem _ ha))
        (Machine.PolyAddInPlace acc (Machine.PolyMul (Machine.composeRec count x (rest.length + 1) m.1)
            (Machine.FastPolyPow (x.getD rest.length PolyZero) m.2))) rest hrest
      rw [nodesList_cons]
      by_cases hdeep : rest.length + 2 > count
      · -- the frame of the coefficient is past `count`: pushed and popped at once
        refine ⟨n2 + 2, by have := nodes_pos m.1; omega, fun fuel => ?_⟩
        rw [show fuel + (n2 + 2) = (fuel + n2 + 1) + 1 by omega, machine_composeLoop_push _ _ _ _ _ _ _ hrest,
          machine_composeLoop_pop count x (fuel + n2) _ acc m ms rest _ (Or.inr hdeep) hk hget,
          machine_composeMonos_cons]
        have hrec : Machine.composeRec count x (rest.length + 1) m.1 = PolyFromCoeff m.1.constant := by
          cases hm : m.1 with
          | mk c1 ms1 => rw [machine_composeRec_mk, if_pos (by omega)]; rfl
        rw [hrec] at hrun2 ⊢
        exact hrun2 fuel
      · -- the frame of the coefficient is processed first
        have hm := ih m (List.mem_cons_self _ _) (PolyFromCoeff m.1.constant)
          ({ result := acc, mono := m :: ms } :: rest)
          (by show rest.length + 1 + 1 ≤ count; omega)
        obtain ⟨n1, hn1, hrun1⟩ := hm
        refine ⟨n2 + 1 + n1 + 1, by have := nodes_eq m.1; omega, fun fuel => ?_⟩
        rw [show fuel + (n2 + 1 + n1 + 1) = (fuel + n2 + 1 + n1) + 1 by omega,
          machine_composeLoop_push _ _ _ _ _ _ _ hrest]
        have h1 := hrun1 (fuel + n2 + 1)
        unfold NewComposeState
        rw [h1]
        rw [machine_composeLoop_pop count x (fuel + n2) _ acc m ms rest _ (Or.inl rfl) hk hget,
          machine_composeMonos_cons]
        have hrec : Machine.composeRec count x (rest.length + 1) m.1
            = Machine.composeMonos count x (rest.length + 1) (PolyFromCoeff m.1.constant)
                m.1.first_mono := by
          cases hm : m.1 with
          | mk c1 ms1 => rw [machine_composeRec_mk, if_neg (by omega)]; rfl
        rw [hrec]
        simp only [List.length_cons] at hrun2 ⊢
        rw [hrec] at hrun2
        exact hrun2 fuel

/-- The loop of `PolyCompose` returns, and what it returns is `composeRec`. -/
theorem machine_PolyCompose_unfold (p : Poly) (count : Nat) (x : List Poly) (hx : count ≤ x.length) :
    Machine.PolyCompose p count x = .ok (Machine.composeRec count x 0 p) := by
  unfold Machine.PolyCompose NewComposeState
  by_cases hc : count = 0
  · subst hc
    rw [machine_composeLoop_rootPop]
    cases p with
    | mk c ms => rw [machine_composeRec_mk, if_pos (by omega)]; rfl
  · obtain ⟨n, hn, hrun⟩ := machine_composeLoop_frame count x hx p (PolyFromCoeff p.constant) []
      (by simp; omega)
    have hnodes := nodes_eq p
    rw [show 2 * p.nodes + 1 = (2 * p.nodes - n) + 1 + n by omega, hrun, machine_composeLoop_exit]
    cases p with
    | mk c ms => rw [machine_composeRec_mk, if_neg (by simp; omega)]; rfl

theorem depth_mk (c : Int) (ms : List Mono) : (Poly.mk c ms).depth = depthList ms := by
  simp [Poly.depth]

theorem depth_succ_le_depthList {m : Mono} {ms : List Mono} (h : m ∈ ms) :
    1 + m.1.depth ≤ depthList ms := by
  induction ms with
  | nil => cases h
  | cons a l ih =>
    have hdl : depthList (a :: l) = max (1 + a.1.depth) (depthList l) := by
      obtain ⟨ap, ae⟩ := a
      simp [depthList]
    rw [hdl]
    rcases List.mem_cons.mp h with rfl | h
    · exact le_max_left _ _
    · exact le_trans (ih h) (le_max_right _ _)

theorem expsLe_getD {n : Nat} {x : List Poly} (hx : ∀ q ∈ x, ExpsLe n q) (k : Nat) :
    ExpsLe n (x.getD k PolyZero) :=
  getD_forall (expsLe_zero n) hx k

/-- The frame results of the machine are the frame results on exact exponents,
with exponents of at most `depth * (a * b)`, when the exponents of `p` are at most
`a`, those of the substituted polynomials at most `b`, and `depth * (a * b)` stays
in `[0, INT_MAX]`. -/
theorem machine_composeRec_eq (count : Nat) (x : List Poly) (a b : Nat)
    (hx : ∀ q ∈ x, ExpsLe b q) (ha : a ≤ INT_MAX) :
    ∀ (p : Poly) (k : Nat), ExpsLe a p → p.depth * (a * b) ≤ INT_MAX →
      Machine.composeRec count x k p = composeRec count x k p
        ∧ ExpsLe (p.depth * (a * b)) (composeRec count x k p) := by
  intro p
  induction p using Poly.induct with
  | h c ms ih =>
    intro k hp hfit
    rw [machine_composeRec_mk, composeRec_mk]
    split_ifs with hk
    · exact ⟨rfl, expsLe_const _ _⟩
    · rw [expsLe_mk] at hp
      rw [depth_mk] at hfit ⊢
      have key : ∀ (l : List Mono), (∀ m ∈ l, m ∈ ms) → ∀ acc : Poly,
          ExpsLe (depthList ms * (a * b)) acc →
          Machine.composeMonos count x k acc l = composeMonos count x k acc l
            ∧ ExpsLe (depthList ms * (a * b)) (composeMonos count x k acc l) := by
        intro l
        induction l with
        | nil =>
          intro _ acc hacc
          rw [machine_composeMonos_nil, composeMonos_nil]
          exact ⟨rfl, hacc⟩
        | cons m l ihl =>
          intro hl acc hacc
          have hm : m ∈ ms := hl m (List.mem_cons_self _ _)
          have hdep := depth_succ_le_depthList hm
          have hdab : (1 + m.1.depth) * (a * b) ≤ depthList ms * (a * b) :=
            Nat.mul_le_mul_right _ hdep
          have hsplit : (1 + m.1.depth) * (a * b) = m.1.depth * (a * b) + a * b := by ring
          have hrec := ih m hm (k + 1) (hp.2 m hm) (by omega)
          have hme : m.2 ≤ a := hp.1 m hm
          have hmb : m.2 * b ≤ a * b := Nat.mul_le_mul_right b hme
          have hxk := expsLe_getD hx k
          have hpow : Machine.FastPolyPow (x.getD k PolyZero) m.2
              = FastPolyPow (x.getD k PolyZero) m.2 :=
            machine_FastPolyPow_eq hxk (by omega) (by omega)
          have hpowle : ExpsLe (a * b) (FastPolyPow (x.getD k PolyZero) m.2) :=
            expsLe_mono hmb _ (expsLe_FastPolyPow hxk m.2)
          have hprod : Machine.PolyMul (composeRec count x (k + 1) m.1)
                (FastPolyPow (x.getD k PolyZero) m.2)
              = PolyMul (composeRec count x (k + 1) m.1) (FastPolyPow (x.getD k PolyZero) m.2) :=
            machine_PolyMul_eq _ _ _ _ hrec.2 hpowle (by omega)
          have hprodle : ExpsLe (depthList ms * (a * b))
              (PolyMul (composeRec count x (k + 1) m.1) (FastPolyPow (x.getD k PolyZero) m.2)) :=
            expsLe_mono (by omega) _ (expsLe_PolyMul _ _ _ _ hrec.2 hpowle)
          rw [machine_composeMonos_cons, composeMonos_cons, hrec.1, hpow, hprod,
            machine_PolyAddInPlace_eq _ _ (expsLe_mono hfit _ hacc) (expsLe_mono hfit _ hprodle)]
          exact ihl (fun m' hm' => hl m' (List.mem_cons_of_mem _ hm')) _
            (expsLe_PolyAddInPlace _ _ _ hacc hprodle)
      exact key ms (fun m hm => hm) _ (expsLe_const _ _)

/-- The function `PolyCompose` of the machine is the composition on exact
exponents under the bound of `machine_composeRec_eq`. -/
theorem machine_PolyCompose_eq (p : Poly) (count : Nat) (x : List Poly) (a b : Nat)
    (hlen : count ≤ x.length) (hp : ExpsLe a p) (hx : ∀ q ∈ x, ExpsLe b q)
    (ha : a ≤ INT_MAX) (hfit : p.depth * (a * b) ≤ INT_MAX) :
    Machine.PolyCompose p count x = PolyCompose p count x := by
  rw [machine_PolyCompose_unfold p count x hlen, PolyCompose_eq p count x hlen,
    (machine_composeRec_eq count x a b hx ha p 0 hp hfit).1]

/-! ## The total degree and the exponents -/

theorem totalDegree_coef {n : Nat} {p : Poly} {m : Mono} (hm : m ∈ p.first_mono)
    (h : TotalDegreeAtMost n p) : TotalDegreeAtMost n m.1 := by
  intro u hu
  have hmem : (m.2 :: u.1, u.2) ∈ expansion p :=
    (mem_expansion p _).mpr (Or.inr ⟨m, hm, u, hu, rfl⟩)
  have := h _ hmem
  rw [exponentSum_cons] at this
  have : (0 : Int) ≤ (m.2 : Int) := Int.ofNat_nonneg _
  omega

theorem exponentSum_nonneg (es : List Nat) : 0 ≤ exponentSum es := by
  unfold exponentSum
  exact Int.ofNat_nonneg _

/-- In a polynomial without zero coefficients every exponent is part of a monomial
of the expansion: a bound on the total degree bounds every exponent. -/
theorem expsLe_of_totalDegree (n : Nat) : ∀ p : Poly, TermsOrdered p →
    TotalDegreeAtMost n p → ExpsLe n p := by
  intro p
  induction p using Poly.induct with
  | h c ms ih =>
    intro hp hd
    rw [termsOrdered_mk] at hp
    rw [expsLe_mk]
    refine ⟨fun m hm => ?_, fun m hm => ih m hm (hp.2.2 m hm)
      (totalDegree_coef (p := Poly.mk c ms) hm hd)⟩
    obtain ⟨u, hu⟩ := List.exists_mem_of_ne_nil _
      (expansion_ne_nil m.1 (hp.2.2 m hm) (hp.2.1 m hm))
    have hmem : (m.2 :: u.1, u.2) ∈ expansion (Poly.mk c ms) :=
      (mem_expansion _ _).mpr (Or.inr ⟨m, hm, u, hu, rfl⟩)
    have := hd _ hmem
    rw [exponentSum_cons] at this
    have := exponentSum_nonneg u.1
    omega

theorem PolyDeg_le_of_totalDegree {n : Nat} {p : Poly} (hp : TermsOrdered p)
    (hd : TotalDegreeAtMost n p) : PolyDeg p ≤ (n : Int) := by
  by_cases hz : PolyIsZero p = true
  · rw [(PolyDeg_zero_iff p hp).mpr hz]
    have : (0 : Int) ≤ (n : Int) := Int.ofNat_nonneg _
    omega
  · obtain ⟨t, ht, hsum⟩ := PolyDeg_attained p hp (by simpa using hz)
    rw [← hsum]
    exact hd t ht

/-- The function `PolyDeg` of the machine returns the total degree of a canonical
polynomial whose total degree is at most `INT_MAX`. -/
theorem machine_PolyDeg_of_totalDegree {n : Nat} {p : Poly} (hp : TermsOrdered p)
    (hd : TotalDegreeAtMost n p) (hn : n ≤ INT_MAX) : Machine.PolyDeg p = PolyDeg p := by
  apply machine_PolyDeg_eq p (expsLe_mono hn _ (expsLe_of_totalDegree n p hp hd))
  have := PolyDeg_le_of_totalDegree hp hd
  unfold INT_MAX at hn
  omega

/-! ## `PolyAt` keeps the bound on the exponents -/

theorem expsLe_PolyAt_loop (n : Nat) (x : Int) :
    ∀ (ms : List Mono) (acc : Poly), ExpsLe n acc → (∀ m ∈ ms, ExpsLe n m.1) →
      ExpsLe n (ms.foldl (fun result m =>
        PolyAddInPlace result (PolyMul (PolyFromCoeff (FastCoeffPow x m.2)) m.1)) acc) := by
  intro ms
  induction ms with
  | nil => intro acc h _; simpa using h
  | cons a l ih =>
    intro acc h hl
    rw [List.foldl_cons]
    apply ih
    · apply expsLe_PolyAddInPlace _ _ _ h
      have := expsLe_PolyMul (PolyFromCoeff (FastCoeffPow x a.2)) a.1 0 n (expsLe_const _ _)
        (hl a (List.mem_cons_self _ _))
      rwa [Nat.zero_add] at this
    · exact fun m hm => hl m (List.mem_cons_of_mem _ hm)

theorem expsLe_PolyAt {n : Nat} {p : Poly} (hp : ExpsLe n p) (x : Int) :
    ExpsLe n (PolyAt p x) := by
  rw [PolyAt_eq]
  have h := expsLe_PolyAt_loop n x p.first_mono PolyZero (expsLe_zero _)
    ((expsLe_iff n p).mp hp).2
  rw [expsLe_iff] at h
  rw [expsLe_mk]
  exact h

/-! ## The claims on the machine -/

/-- C2, the claim as stated fails: `x0 + x0^2147483647` and `x0` are canonical
polynomials with exponents in `[0, INT_MAX]`, and `PolyMul` of the machine returns
for them the terms `(1, 2147483648)` and `(1, 2)`, the first with the exponent
`INT_MAX + 1` wrapped around, which is the `int` -2147483648; `PolyAt` evaluates
this polynomial at 0 to 1, and the product of the values of the factors at 0
is 0. -/
theorem machine_PolyMul_wraps_exponent :
    Canonical (Poly.mk 0 [(Poly.mk 1 [], 1), (Poly.mk 1 [], 2147483647)])
      ∧ ExpsLe INT_MAX (Poly.mk 0 [(Poly.mk 1 [], 1), (Poly.mk 1 [], 2147483647)])
      ∧ Canonical (Poly.mk 0 [(Poly.mk 1 [], 1)])
      ∧ ExpsLe INT_MAX (Poly.mk 0 [(Poly.mk 1 [], 1)])
      ∧ Machine.PolyMul (Poly.mk 0 [(Poly.mk 1 [], 1), (Poly.mk 1 [], 2147483647)])
          (Poly.mk 0 [(Poly.mk 1 [], 1)])
        = Poly.mk 0 [(Poly.mk 1 [], 2147483648), (Poly.mk 1 [], 2)]
      ∧ expInt 2147483648 = -2147483648
      ∧ Machine.PolyAt (Machine.PolyMul
          (Poly.mk 0 [(Poly.mk 1 [], 1), (Poly.mk 1 [], 2147483647)])
          (Poly.mk 0 [(Poly.mk 1 [], 1)])) 0 = PolyFromCoeff 1
      ∧ value (Poly.mk 0 [(Poly.mk 1 [], 1), (Poly.mk 1 [], 2147483647)]) (fun _ => 0)
          * value (Poly.mk 0 [(Poly.mk 1 [], 1)]) (fun _ => 0) = 0 := by
  refine ⟨by decide, by decide, by decide, by decide, by rfl, by rfl, by rfl, ?_⟩
  simp [value, valueMonos]

/-- C2 as amended: for all canonical polynomials `p` and `q` with exponents of at
most `a` and of at most `b`, where `a + b <= INT_MAX`, the exponents of
`PolyMul(p, q)` are in `[0, INT_MAX]`, and under every assignment `v` of integers
to the variables the value of `PolyMul(p, q)` and the product of the values of `p`
and `q` are the same coefficient. -/
theorem machine_PolyMul_computes_product (p q : Poly) (a b : Nat) (hp : Canonical p)
    (hq : Canonical q) (ha : ExpsLe a p) (hb : ExpsLe b q) (hfit : a + b ≤ INT_MAX)
    (v : Nat → Int) :
    ExpsLe INT_MAX (Machine.PolyMul p q)
      ∧ wrapCoeff (value (Machine.PolyMul p q) v) = wrapCoeff (value p v * value q v) := by
  rw [machine_PolyMul_eq p q a b ha hb hfit]
  exact ⟨expsLe_mono hfit _ (expsLe_PolyMul p q a b ha hb), PolyMul_computes_product p q hp hq v⟩

/-- Witness of the amended C2 at `3 + x0^2` and `x1 + 5 * x0`. -/
theorem machine_PolyMul_computes_product_witness :
    Canonical (Poly.mk 3 [(Poly.mk 1 [], 2)])
      ∧ Canonical (Poly.mk 0 [(Poly.mk 0 [(Poly.mk 1 [], 1)], 0), (Poly.mk 5 [], 1)])
      ∧ ExpsLe 2 (Poly.mk 3 [(Poly.mk 1 [], 2)])
      ∧ ExpsLe 1 (Poly.mk 0 [(Poly.mk 0 [(Poly.mk 1 [], 1)], 0), (Poly.mk 5 [], 1)])
      ∧ 2 + 1 ≤ INT_MAX
      ∧ wrapCoeff (value (Machine.PolyMul (Poly.mk 3 [(Poly.mk 1 [], 2)])
          (Poly.mk 0 [(Poly.mk 0 [(Poly.mk 1 [], 1)], 0), (Poly.mk 5 [], 1)]))
            (fun i => (i : Int) + 2))
        = wrapCoeff (value (Poly.mk 3 [(Poly.mk 1 [], 2)]) (fun i => (i : Int) + 2)
            * value (Poly.mk 0 [(Poly.mk 0 [(Poly.mk 1 [], 1)], 0), (Poly.mk 5 [], 1)])
              (fun i => (i : Int) + 2)) :=
  ⟨by decide, by decide, by decide, by decide, by decide,
    (machine_PolyMul_computes_product _ _ 2 1 (by decide) (by decide) (by decide) (by decide)
      (by decide) _).2⟩

/-- C3, the claim as stated fails: `x0^2` and `x0^1147483647` are canonical
polynomials with exponents in `[0, INT_MAX]`, and `PolyCompose` of the machine
returns for them the term `(1, 2294967294)`, the exponent `2 * 1147483647`
wrapped around, which is the `int` -2000000002; `PolyAt` evaluates this
polynomial at 0 to 1, and the value of `x0^2` with `x0` at the value 0 of the
substitute is 0. -/
theorem machine_PolyCompose_wraps_exponent :
    Canonical (Poly.mk 0 [(Poly.mk 1 [], 2)])
      ∧ ExpsLe INT_MAX (Poly.mk 0 [(Poly.mk 1 [], 2)])
      ∧ Canonical (Poly.mk 0 [(Poly.mk 1 [], 1147483647)])
      ∧ ExpsLe INT_MAX (Poly.mk 0 [(Poly.mk 1 [], 1147483647)])
      ∧ Machine.PolyCompose (Poly.mk 0 [(Poly.mk 1 [], 2)]) 1
          [Poly.mk 0 [(Poly.mk 1 [], 1147483647)]]
        = .ok (Poly.mk 0 [(Poly.mk 1 [], 2294967294)])
      ∧ expInt 2294967294 = -2000000002
      ∧ Machine.PolyAt (Poly.mk 0 [(Poly.mk 1 [], 2294967294)]) 0 = PolyFromCoeff 1
      ∧ value (Poly.mk 0 [(Poly.mk 1 [], 2)])
          (fun i => if i < 1 then
            value ([Poly.mk 0 [(Poly.mk 1 [], 1147483647)]].getD i PolyZero) (fun _ => 0)
            else 0) = 0 := by
  refine ⟨by decide, by decide, by decide, by decide, by rfl, by rfl, by rfl, ?_⟩
  simp [value, valueMonos]

/-- C3 as amended: for every canonical polynomial `p` with exponents of at most
`a <= INT_MAX`, every `count` and every array `x` of (at least) `count` canonical
polynomials with exponents of at most `b`, where `depth(p) * (a * b) <= INT_MAX`,
`PolyCompose(p, count, x)` returns a polynomial with exponents in `[0, INT_MAX]`,
and its value under every assignment `v` is, as a coefficient, the value of `p`
under the assignment that gives variable `i` the value of `x[i]` under `v` when
`i < count` and 0 otherwise. -/
theorem machine_PolyCompose_substitutes (p : Poly) (count : Nat) (x : List Poly) (a b : Nat)
    (hlen : count ≤ x.length) (hp : Canonical p) (hx : ∀ q ∈ x, Canonical q)
    (hpa : ExpsLe a p) (hxb : ∀ q ∈ x, ExpsLe b q) (ha : a ≤ INT_MAX)
    (hfit : p.depth * (a * b) ≤ INT_MAX) (v : Nat → Int) :
    ∃ r, Machine.PolyCompose p count x = .ok r ∧ ExpsLe INT_MAX r ∧
      wrapCoeff (value r v)
        = wrapCoeff (value p
            (fun i => if i < count then value (x.getD i PolyZero) v else 0)) := by
  obtain ⟨r, hr, hval⟩ := PolyCompose_substitutes p count x hlen hp hx v
  refine ⟨r, ?_, ?_, hval⟩
  · rw [machine_PolyCompose_eq p count x a b hlen hpa hxb ha hfit, hr]
  · rw [PolyCompose_eq p count x hlen] at hr
    have := (machine_composeRec_eq count x a b hxb ha p 0 hpa hfit).2
    injection hr with hr
    rw [← hr]
    exact expsLe_mono hfit _ this

/-- Witness of the amended C3 at `p = 2 + x0 * (3 + x1^2)`, `count = 1` and
`x = [1 + x0]`. -/
theorem machine_PolyCompose_substitutes_witness :
    Canonical (Poly.mk 2 [(Poly.mk 3 [(Poly.mk 1 [], 2)], 1)])
      ∧ (∀ q ∈ [Poly.mk 1 [(Poly.mk 1 [], 1)]], Canonical q)
      ∧ ExpsLe 2 (Poly.mk 2 [(Poly.mk 3 [(Poly.mk 1 [], 2)], 1)])
      ∧ (∀ q ∈ [Poly.mk 1 [(Poly.mk 1 [], 1)]], ExpsLe 1 q)
      ∧ (Poly.mk 2 [(Poly.mk 3 [(Poly.mk 1 [], 2)], 1)]).depth * (2 * 1) ≤ INT_MAX
      ∧ ∃ r, Machine.PolyCompose (Poly.mk 2 [(Poly.mk 3 [(Poly.mk 1 [], 2)], 1)]) 1
            [Poly.mk 1 [(Poly.mk 1 [], 1)]] = .ok r ∧ ExpsLe INT_MAX r ∧
          wrapCoeff (value r (fun i => (i : Int) + 2))
            = wrapCoeff (value (Poly.mk 2 [(Poly.mk 3 [(Poly.mk 1 [], 2)], 1)])
                (fun i => if i < 1 then
                  value ([Poly.mk 1 [(Poly.mk 1 [], 1)]].getD i PolyZero)
                    (fun i => (i : Int) + 2) else 0)) :=
  ⟨by decide, by decide, by decide, by decide, by decide,
    machine_PolyCompose_substitutes _ 1 [Poly.mk 1 [(Poly.mk 1 [], 1)]] 2 1 (Nat.le_refl 1)
      (by decide) (by decide) (by decide) (by decide) (by decide) (by decide) _⟩

/-- Within the exponents of the data model the operations of the machine are the
operations on exact exponents: their results have exponents in `[0, INT_MAX]`,
strictly ascending, and no zero coefficient. -/
theorem machine_operations_within_bounds (monos : List Mono) (p q : Poly) (c : Int)
    (count : Nat) (x : List Poly) (a b : Nat)
    (hmonos : ∀ m ∈ monos, TermsOrdered m.1 ∧ m.2 ≤ INT_MAX ∧ ExpsLe INT_MAX m.1)
    (hp : TermsOrdered p) (hq : TermsOrdered q) (hlen : count ≤ x.length)
    (hx : ∀ r ∈ x, TermsOrdered r ∧ ExpsLe b r)
    (hpa : ExpsLe a p) (hqb : ExpsLe b q) (ha : a ≤ INT_MAX) (hb : b ≤ INT_MAX) :
    (TermsOrdered (Machine.PolyAddMonos monos) ∧ ExpsLe INT_MAX (Machine.PolyAddMonos monos))
      ∧ (TermsOrdered (Machine.PolyAdd p q) ∧ ExpsLe INT_MAX (Machine.PolyAdd p q))
      ∧ (a + b ≤ INT_MAX →
          TermsOrdered (Machine.PolyMul p q) ∧ ExpsLe INT_MAX (Machine.PolyMul p q))
      ∧ (TermsOrdered (Machine.PolyAt p c) ∧ ExpsLe INT_MAX (Machine.PolyAt p c))
      ∧ (p.depth * (a * b) ≤ INT_MAX →
          ∃ r, Machine.PolyCompose p count x = .ok r ∧ TermsOrdered r ∧ ExpsLe INT_MAX r) := by
  have hp' := expsLe_mono ha _ hpa
  have hq' := expsLe_mono hb _ hqb
  refine ⟨?_, ?_, ?_, ?_, ?_⟩
  · rw [machine_PolyAddMonos_eq monos (fun m hm => (hmonos m hm).2)]
    exact ⟨termsOrdered_PolyAddMonos monos (fun m hm => (hmonos m hm).1),
      expsLe_PolyAddMonos _ monos (fun m hm => (hmonos m hm).2)⟩
  · rw [machine_PolyAdd_eq hp' hq']
    exact ⟨termsOrdered_PolyAddInPlace q p hp hq, expsLe_PolyAddInPlace _ q p hp' hq'⟩
  · intro hfit
    rw [machine_PolyMul_eq p q a b hpa hqb hfit]
    exact ⟨termsOrdered_PolyMul hp hq, expsLe_mono hfit _ (expsLe_PolyMul p q a b hpa hqb)⟩
  · rw [machine_PolyAt_eq hp' c]
    exact ⟨termsOrdered_PolyAt hp c, expsLe_PolyAt hp' c⟩
  · intro hfit
    refine ⟨composeRec count x 0 p, ?_, termsOrdered_composeRec count x
      (fun r hr => (hx r hr).1) p 0, ?_⟩
    · rw [machine_PolyCompose_eq p count x a b hlen hpa (fun r hr => (hx r hr).2) ha hfit,
        PolyCompose_eq p count x hlen]
    · exact expsLe_mono hfit _
        (machine_composeRec_eq count x a b (fun r hr => (hx r hr).2) ha p 0 hpa hfit).2

/-- C13, the claim as stated fails. The product that `PolyMul` of the machine
returns for `x0^2147483647` and itself is the canonical polynomial with the one
term `(1, 4294967294)`, the exponent `2 * INT_MAX` wrapped around to the `int`
-2; with this polynomial `f` and the canonical polynomials `x0^2` and `x0^3`,
`PolyMul(PolyMul(f, x0^2), x0^3)` is the zero polynomial and
`PolyMul(f, PolyMul(x0^2, x0^3))` is `x0^3`. -/
theorem machine_PolyMul_not_associative :
    Canonical (Poly.mk 0 [(Poly.mk 1 [], 2147483647)])
      ∧ ExpsLe INT_MAX (Poly.mk 0 [(Poly.mk 1 [], 2147483647)])
      ∧ Machine.PolyMul (Poly.mk 0 [(Poly.mk 1 [], 2147483647)])
          (Poly.mk 0 [(Poly.mk 1 [], 2147483647)]) = Poly.mk 0 [(Poly.mk 1 [], 4294967294)]
      ∧ expInt 4294967294 = -2
      ∧ Canonical (Poly.mk 0 [(Poly.mk 1 [], 4294967294)])
      ∧ Canonical (Poly.mk 0 [(Poly.mk 1 [], 2)])
      ∧ Canonical (Poly.mk 0 [(Poly.mk 1 [], 3)])
      ∧ Machine.PolyMul (Machine.PolyMul (Poly.mk 0 [(Poly.mk 1 [], 4294967294)])
          (Poly.mk 0 [(Poly.mk 1 [], 2)])) (Poly.mk 0 [(Poly.mk 1 [], 3)]) = PolyZero
      ∧ Machine.PolyMul (Poly.mk 0 [(Poly.mk 1 [], 4294967294)])
          (Machine.PolyMul (Poly.mk 0 [(Poly.mk 1 [], 2)]) (Poly.mk 0 [(Poly.mk 1 [], 3)]))
        = Poly.mk 0 [(Poly.mk 1 [], 3)]
      ∧ PolyIsEq
          (Machine.PolyMul (Machine.PolyMul (Poly.mk 0 [(Poly.mk 1 [], 4294967294)])
            (Poly.mk 0 [(Poly.mk 1 [], 2)])) (Poly.mk 0 [(Poly.mk 1 [], 3)]))
          (Machine.PolyMul (Poly.mk 0 [(Poly.mk 1 [], 4294967294)])
            (Machine.PolyMul (Poly.mk 0 [(Poly.mk 1 [], 2)]) (Poly.mk 0 [(Poly.mk 1 [], 3)])))
        = false := by
  refine ⟨by decide, by decide, by rfl, by rfl, by decide, by decide, by decide, by rfl, by rfl,
    by decide⟩

/-- C13 as amended: for all canonical polynomials `p`, `q` and `r` with exponents
of at most `a`, `b` and `c`, where `a + b + c <= INT_MAX`,
`PolyIsEq(PolyMul(PolyMul(p, q), r), PolyMul(p, PolyMul(q, r)))` is true. -/
theorem machine_PolyMul_associative (p q r : Poly) (a b c : Nat) (hp : Canonical p)
    (hq : Canonical q) (hr : Canonical r) (ha : ExpsLe a p) (hb : ExpsLe b q)
    (hc : ExpsLe c r) (hfit : a + b + c ≤ INT_MAX) :
    PolyIsEq (Machine.PolyMul (Machine.PolyMul p q) r)
      (Machine.PolyMul p (Machine.PolyMul q r)) = true := by
  rw [machine_PolyMul_eq p q a b ha hb (by omega), machine_PolyMul_eq q r b c hb hc (by omega),
    machine_PolyMul_eq (PolyMul p q) r (a + b) c (expsLe_PolyMul p q a b ha hb) hc hfit,
    machine_PolyMul_eq p (PolyMul q r) a (b + c) ha (expsLe_PolyMul q r b c hb hc) (by omega)]
  exact PolyMul_associative p q r hp hq hr

/-- Witness of the amended C13 at `3 + x0^2`, `x1 + 5 * x0` and
`-3 - x0^2 + x0^4`. -/
theorem machine_PolyMul_associative_witness :
    Canonical (Poly.mk 3 [(Poly.mk 1 [], 2)])
      ∧ Canonical (Poly.mk 0 [(Poly.mk 0 [(Poly.mk 1 [], 1)], 0), (Poly.mk 5 [], 1)])
      ∧ Canonical (Poly.mk (-3) [(Poly.mk (-1) [], 2), (Poly.mk 1 [], 4)])
      ∧ ExpsLe 2 (Poly.mk 3 [(Poly.mk 1 [], 2)])
      ∧ ExpsLe 1 (Poly.mk 0 [(Poly.mk 0 [(Poly.mk 1 [], 1)], 0), (Poly.mk 5 [], 1)])
      ∧ ExpsLe 4 (Poly.mk (-3) [(Poly.mk (-1) [], 2), (Poly.mk 1 [], 4)])
      ∧ 2 + 1 + 4 ≤ INT_MAX
      ∧ PolyIsEq
          (Machine.PolyMul
            (Machine.PolyMul (Poly.mk 3 [(Poly.mk 1 [], 2)])
              (Poly.mk 0 [(Poly.mk 0 [(Poly.mk 1 [], 1)], 0), (Poly.mk 5 [], 1)]))
            (Poly.mk (-3) [(Poly.mk (-1) [], 2), (Poly.mk 1 [], 4)]))
          (Machine.PolyMul (Poly.mk 3 [(Poly.mk 1 [], 2)])
            (Machine.PolyMul (Poly.mk 0 [(Poly.mk 0 [(Poly.mk 1 [], 1)], 0), (Poly.mk 5 [], 1)])
              (Poly.mk (-3) [(Poly.mk (-1) [], 2), (Poly.mk 1 [], 4)]))) = true :=
  ⟨by decide, by decide, by decide, by decide, by decide, by decide, by decide,
    machine_PolyMul_associative _ _ _ 2 1 4 (by decide) (by decide) (by decide) (by decide)
      (by decide) (by decide) (by decide)⟩

/-- C16, the claim as stated fails: `x0^536870912` is a canonical polynomial with
its exponent in `[0, INT_MAX]` and `4 + 5` is representable; `FastPolyPow` of the
machine returns the zero polynomial for the exponent `4 + 5` (the square of
`x0^2147483648` has the exponent `2^32` wrapped around to 0 and loses its
constant), while `PolyMul` of its results for 4 and for 5 is `x0^536870912`. -/
theorem machine_FastPolyPow_not_additive :
    Canonical (Poly.mk 0 [(Poly.mk 1 [], 536870912)])
      ∧ ExpsLe INT_MAX (Poly.mk 0 [(Poly.mk 1 [], 536870912)])
      ∧ 4 + 5 ≤ INT_MAX
      ∧ Machine.FastPolyPow (Poly.mk 0 [(Poly.mk 1 [], 536870912)]) (4 + 5) = PolyZero
      ∧ Machine.PolyMul (Machine.FastPolyPow (Poly.mk 0 [(Poly.mk 1 [], 536870912)]) 4)
          (Machine.FastPolyPow (Poly.mk 0 [(Poly.mk 1 [], 536870912)]) 5)
        = Poly.mk 0 [(Poly.mk 1 [], 536870912)]
      ∧ PolyIsEq (Machine.FastPolyPow (Poly.mk 0 [(Poly.mk 1 [], 536870912)]) (4 + 5))
          (Machine.PolyMul (Machine.FastPolyPow (Poly.mk 0 [(Poly.mk 1 [], 536870912)]) 4)
            (Machine.FastPolyPow (Poly.mk 0 [(Poly.mk 1 [], 536870912)]) 5)) = false := by
  refine ⟨by decide, by decide, by decide, by rfl, by rfl, by decide⟩

/-- C16 as amended: for every canonical polynomial `p` with exponents of at most
`d` and all exponents `a` and `b` with `a + b <= INT_MAX` and
`(a + b) * d <= INT_MAX`, `FastPolyPow(p, a + b)` is `PolyIsEq` to
`PolyMul(FastPolyPow(p, a), FastPolyPow(p, b))`. -/
theorem machine_FastPolyPow_add (p : Poly) (a b d : Nat) (hp : Canonical p)
    (hd : ExpsLe d p) (hab : a + b ≤ INT_MAX) (hfit : (a + b) * d ≤ INT_MAX) :
    PolyIsEq (Machine.FastPolyPow p (a + b))
      (Machine.PolyMul (Machine.FastPolyPow p a) (Machine.FastPolyPow p b)) = true := by
  have hsplit : (a + b) * d = a * d + b * d := by ring
  rw [machine_FastPolyPow_eq hd hab hfit,
    machine_FastPolyPow_eq hd (by omega : a ≤ INT_MAX) (by omega),
    machine_FastPolyPow_eq hd (by omega : b ≤ INT_MAX) (by omega),
    machine_PolyMul_eq _ _ (a * d) (b * d) (expsLe_FastPolyPow hd a) (expsLe_FastPolyPow hd b)
      (by omega)]
  exact FastPolyPow_add p a b hp

/-- Witness of the amended C16 at `x1 + 5 * x0` with the exponents 2 and 3. -/
theorem machine_FastPolyPow_add_witness :
    Canonical (Poly.mk 0 [(Poly.mk 0 [(Poly.mk 1 [], 1)], 0), (Poly.mk 5 [], 1)])
      ∧ ExpsLe 1 (Poly.mk 0 [(Poly.mk 0 [(Poly.mk 1 [], 1)], 0), (Poly.mk 5 [], 1)])
      ∧ 2 + 3 ≤ INT_MAX ∧ (2 + 3) * 1 ≤ INT_MAX
      ∧ PolyIsEq
          (Machine.FastPolyPow
            (Poly.mk 0 [(Poly.mk 0 [(Poly.mk 1 [], 1)], 0), (Poly.mk 5 [], 1)]) (2 + 3))
          (Machine.PolyMul
            (Machine.FastPolyPow
              (Poly.mk 0 [(Poly.mk 0 [(Poly.mk 1 [], 1)], 0), (Poly.mk 5 [], 1)]) 2)
            (Machine.FastPolyPow
              (Poly.mk 0 [(Poly.mk 0 [(Poly.mk 1 [], 1)], 0), (Poly.mk 5 [], 1)]) 3))
          = true :=
  ⟨by decide, by decide, by decide, by decide,
    machine_FastPolyPow_add _ 2 3 1 (by decide) (by decide) (by decide) (by decide)⟩

/-- C21, the claim as stated fails: `x0^2147483647 * x1` is a canonical
polynomial with exponents in `[0, INT_MAX]` that is not the zero polynomial; the
one monomial of its expansion has the sum of exponents 2147483648, and `PolyDeg`
of the machine, computing `1 + 2147483647` in `int`, returns -1. -/
theorem machine_PolyDeg_overflows :
    Canonical (Poly.mk 0 [(Poly.mk 0 [(Poly.mk 1 [], 1)], 2147483647)])
      ∧ ExpsLe INT_MAX (Poly.mk 0 [(Poly.mk 0 [(Poly.mk 1 [], 1)], 2147483647)])
      ∧ PolyIsZero (Poly.mk 0 [(Poly.mk 0 [(Poly.mk 1 [], 1)], 2147483647)]) = false
      ∧ expansion (Poly.mk 0 [(Poly.mk 0 [(Poly.mk 1 [], 1)], 2147483647)])
          = [([2147483647, 1], 1)]
      ∧ exponentSum [2147483647, 1] = 2147483648
      ∧ Machine.PolyDeg (Poly.mk 0 [(Poly.mk 0 [(Poly.mk 1 [], 1)], 2147483647)]) = -1 := by
  refine ⟨by decide, by decide, by decide, by rfl, by rfl, by rfl⟩

/-- C21 as amended: for every canonical polynomial whose total degree is at most
`INT_MAX` (no monomial of the expansion has a larger sum of exponents), `PolyDeg`
is -1 exactly for the zero polynomial; it is the maximum of 0 (when the constant
is not 0, else -1) and of `PolyDeg(coefficient) + exponent` over the terms; and
for a polynomial that is not zero it is the largest sum of exponents of a
monomial of the expansion. -/
theorem machine_PolyDeg_total_degree (p : Poly) (hp : Canonical p)
    (hfit : TotalDegreeAtMost INT_MAX p) :
    (Machine.PolyDeg p = -1 ↔ PolyIsZero p = true) ∧
    Machine.PolyDeg p
      = (p.first_mono.map (fun m => Machine.PolyDeg m.1 + expInt m.2)).foldr max
          (if p.constant ≠ 0 then 0 else -1) ∧
    (PolyIsZero p = false →
      (∃ t ∈ expansion p, exponentSum t.1 = Machine.PolyDeg p) ∧
        ∀ t ∈ expansion p, exponentSum t.1 ≤ Machine.PolyDeg p) := by
  have hexp := (expsLe_iff _ p).mp (expsLe_of_totalDegree INT_MAX p hp.1 hfit)
  have hmap : p.first_mono.map (fun m => Machine.PolyDeg m.1 + expInt m.2)
      = p.first_mono.map (fun m => PolyDeg m.1 + (m.2 : Int)) := by
    apply List.map_congr_left
    intro m hm
    rw [machine_PolyDeg_of_totalDegree (((termsOrdered_iff p).mp hp.1).2.2 m hm)
      (totalDegree_coef hm hfit) (le_refl _), expInt_of_le (hexp.1 m hm)]
  rw [machine_PolyDeg_of_totalDegree hp.1 hfit (le_refl _), hmap]
  refine ⟨PolyDeg_zero_iff p hp.1, ?_, fun hnz =>
    ⟨PolyDeg_attained p hp.1 hnz, exponentSum_le_PolyDeg p⟩⟩
  cases p with
  | mk c ms => rw [PolyDeg_mk, PolyDegLoop_eq_foldr]; rfl

/-- Witness of the amended C21 at `3 + x0^0 * x1^4 + 2 * x0^7`. -/
theorem machine_PolyDeg_total_degree_witness :
    Canonical (Poly.mk 3 [(Poly.mk 0 [(Poly.mk 1 [], 4)], 0), (Poly.mk 2 [], 7)]) ∧
    TotalDegreeAtMost INT_MAX
      (Poly.mk 3 [(Poly.mk 0 [(Poly.mk 1 [], 4)], 0), (Poly.mk 2 [], 7)]) ∧
    Machine.PolyDeg (Poly.mk 3 [(Poly.mk 0 [(Poly.mk 1 [], 4)], 0), (Poly.mk 2 [], 7)]) = 7 ∧
    ((Machine.PolyDeg (Poly.mk 3 [(Poly.mk 0 [(Poly.mk 1 [], 4)], 0), (Poly.mk 2 [], 7)]) = -1 ↔
      PolyIsZero (Poly.mk 3 [(Poly.mk 0 [(Poly.mk 1 [], 4)], 0), (Poly.mk 2 [], 7)]) = true)) :=
  ⟨by decide, by decide, by rfl,
    (machine_PolyDeg_total_degree
      (Poly.mk 3 [(Poly.mk 0 [(Poly.mk 1 [], 4)], 0), (Poly.mk 2 [], 7)])
      (by decide) (by decide)).1⟩

section Ring

variable {R : Type} [CommRing R]

theorem machine_termsOrdered_mk (c : Int) (ms : List Mono) :
    Machine.TermsOrdered (Poly.mk c ms) ↔
      Machine.ExpsAscending ms ∧ (∀ m ∈ ms, PolyIsZero m.1 = false) ∧ ∀ m ∈ ms, Machine.TermsOrdered m.1 := by
  unfold Machine.TermsOrdered
  rw [all_mk]
  simp [Machine.orderedNode, and_assoc]

theorem machine_termsOrdered_iff (p : Poly) :
    Machine.TermsOrdered p ↔ Machine.ExpsAscending p.first_mono ∧ (∀ m ∈ p.first_mono, PolyIsZero m.1 = false)
      ∧ ∀ m ∈ p.first_mono, Machine.TermsOrdered m.1 := by
  cases p; exact machine_termsOrdered_mk _ _

theorem machine_termsOrdered_const (c : Int) : Machine.TermsOrdered (PolyFromCoeff c) := by
  unfold PolyFromCoeff
  rw [machine_termsOrdered_mk]
  simp [Machine.ExpsAscending]

theorem machine_termsOrdered_zero : Machine.TermsOrdered PolyZero := machine_termsOrdered_const 0

/-- The constant of a polynomial does not matter for the ordering invariant. -/
theorem machine_termsOrdered_setConstant {c : Int} {ms : List Mono} (c' : Int)
    (h : Machine.TermsOrdered (Poly.mk c ms)) : Machine.TermsOrdered (Poly.mk c' ms) := by
  rw [machine_termsOrdered_mk] at h ⊢
  exact h

theorem machine_expsAscending_cons (m : Mono) (ms : List Mono) :
    Machine.ExpsAscending (m :: ms) ↔ (∀ a ∈ ms, expLt m.2 a.2 = true) ∧ Machine.ExpsAscending ms := by
  unfold Machine.ExpsAscending
  rw [List.map_cons, List.pairwise_cons]
  constructor
  · rintro ⟨h1, h2⟩
    exact ⟨fun a ha => h1 a.2 (List.mem_map_of_mem _ ha), h2⟩
  · rintro ⟨h1, h2⟩
    refine ⟨fun e he => ?_, h2⟩
    obtain ⟨a, ha, rfl⟩ := List.mem_map.mp he
    exact h1 a ha

theorem machine_expsAscending_nil : Machine.ExpsAscending [] := by
  simp [Machine.ExpsAscending]

theorem machine_expsAscending_of_exps_sublist {a b : List Mono}
    (h : (a.map Prod.snd).Sublist (b.map Prod.snd)) (hb : Machine.ExpsAscending b) : Machine.ExpsAscending a :=
  List.Pairwise.sublist h hb

theorem machine_expsAscending_removeEmpty {ms : List Mono} (h : Machine.ExpsAscending ms) :
    Machine.ExpsAscending (RemoveEmptyMonos ms) :=
  machine_expsAscending_of_exps_sublist (List.Sublist.map _ (List.filter_sublist _)) h

/-- A property of monomials that holds in both lists and survives
`PolyAddInPlace` into the coefficient holds in the merged list. -/
theorem machine_mergeLoop_forall (P : Mono → Prop) (qs : List Mono)
    (hadd : ∀ q ∈ qs, ∀ c : Poly, P (c, q.2) → P (Machine.PolyAddInPlace c q.1, q.2))
    (hq : ∀ m ∈ qs, P m) :
    ∀ ps : List Mono, (∀ m ∈ ps, P m) → ∀ m ∈ Machine.mergeLoop ps qs, P m := by
  induction qs with
  | nil => intro ps hp; simpa [machine_mergeLoop_nil] using hp
  | cons q qs ihq =>
    have ihq' := ihq (fun m hm => hadd m (List.mem_cons_of_mem _ hm))
      (fun m hm => hq m (List.mem_cons_of_mem _ hm))
    intro ps
    induction ps with
    | nil => intro _; simpa [machine_mergeLoop_nil_cons] using hq
    | cons p ps ihp =>
      intro hp
      rw [machine_mergeLoop_cons_cons]
      split_ifs with h1 h2
      · intro m hm
        rcases List.mem_cons.mp hm with rfl | hm
        · exact hp _ (List.mem_cons_self _ _)
        · exact ihp (fun m hm => hp m (List.mem_cons_of_mem _ hm)) m hm
      · intro m hm
        rcases List.mem_cons.mp hm with rfl | hm
        · exact hq _ (List.mem_cons_self _ _)
        · exact ihq' (p :: ps) hp m hm
      · have he : p.2 = q.2 := expLt_trichotomy (by simpa using h1) (by simpa using h2)
        apply ihq'
        intro m hm
        rcases List.mem_cons.mp hm with rfl | hm
        · rw [he]
          apply hadd q (List.mem_cons_self _ _)
          rw [← he]
          exact hp _ (List.mem_cons_self _ _)
        · exact hp m (List.mem_cons_of_mem _ hm)

theorem machine_mergeLoop_ascending (qs : List Mono) (hq : Machine.ExpsAscending qs) :
    ∀ ps : List Mono, Machine.ExpsAscending ps → Machine.ExpsAscending (Machine.mergeLoop ps qs) := by
  induction qs with
  | nil => intro ps hp; simpa [machine_mergeLoop_nil] using hp
  | cons q qs ihq =>
    rw [machine_expsAscending_cons] at hq
    have ihq' := ihq hq.2
    intro ps
    induction ps with
    | nil => intro _; rw [machine_mergeLoop_nil_cons, machine_expsAscending_cons]; exact hq
    | cons p ps ihp =>
      intro hp
      rw [machine_expsAscending_cons] at hp
      rw [machine_mergeLoop_cons_cons]
      split_ifs with h1 h2
      · rw [machine_expsAscending_cons]
        refine ⟨?_, ihp hp.2⟩
        apply machine_mergeLoop_forall (fun m => expLt p.2 m.2 = true) (q :: qs) (fun _ _ _ h => h) _ ps hp.1
        intro m hm
        rcases List.mem_cons.mp hm with rfl | hm
        · exact h1
        · exact expLt_trans h1 (hq.1 m hm)
      · rw [machine_expsAscending_cons]
        refine ⟨?_, ihq' (p :: ps) ((machine_expsAscending_cons _ _).mpr hp)⟩
        apply machine_mergeLoop_forall (fun m => expLt q.2 m.2 = true) qs (fun _ _ _ h => h) hq.1 (p :: ps)
        intro m hm
        rcases List.mem_cons.mp hm with rfl | hm
        · exact h2
        · exact expLt_trans h2 (hp.1 m hm)
      · apply ihq'
        rw [machine_expsAscending_cons]
        exact hp

/-- The merged list of `PolyAddInPlace` before the fold of the constant. -/
theorem machine_mergeStart_forall (P : Mono → Prop) (p1 q1 : Mono) (ps qs : List Mono)
    (hadd : ∀ q ∈ q1 :: qs, ∀ c : Poly, P (c, q.2) → P (Machine.PolyAddInPlace c q.1, q.2))
    (hp : ∀ m ∈ p1 :: ps, P m) (hq : ∀ m ∈ q1 :: qs, P m) :
    ∀ m ∈ (if expLt q1.2 p1.2 then Machine.mergeLoop (q1 :: p1 :: ps) qs
            else Machine.mergeLoop (p1 :: ps) (q1 :: qs)), P m := by
  split_ifs with h
  · apply machine_mergeLoop_forall P qs (fun q hq' => hadd q (List.mem_cons_of_mem _ hq'))
      (fun m hm => hq m (List.mem_cons_of_mem _ hm))
    intro m hm
    rcases List.mem_cons.mp hm with rfl | hm
    · exact hq _ (List.mem_cons_self _ _)
    · exact hp m hm
  · exact machine_mergeLoop_forall P (q1 :: qs) hadd hq (p1 :: ps) hp

theorem machine_mergeStart_ascending (p1 q1 : Mono) (ps qs : List Mono)
    (hp : Machine.ExpsAscending (p1 :: ps)) (hq : Machine.ExpsAscending (q1 :: qs)) :
    Machine.ExpsAscending (if expLt q1.2 p1.2 then Machine.mergeLoop (q1 :: p1 :: ps) qs
            else Machine.mergeLoop (p1 :: ps) (q1 :: qs)) := by
  split_ifs with h
  · apply machine_mergeLoop_ascending qs ((machine_expsAscending_cons _ _).mp hq).2
    rw [machine_expsAscending_cons]
    refine ⟨?_, hp⟩
    intro a ha
    rcases List.mem_cons.mp ha with rfl | ha
    · exact h
    · exact expLt_trans h (((machine_expsAscending_cons _ _).mp hp).1 a ha)
  · exact machine_mergeLoop_ascending (q1 :: qs) hq (p1 :: ps) hp

/-- The monomials of a sum of two polynomials with monomials. -/
theorem machine_add_monos_forall (P : Mono → Prop) (pc qc : Int) (p1 q1 : Mono) (ps qs : List Mono)
    (hadd : ∀ q ∈ q1 :: qs, ∀ c : Poly, P (c, q.2) → P (Machine.PolyAddInPlace c q.1, q.2))
    (hset : ∀ c : Poly, P (c, 0) → P (Poly.mk 0 c.first_mono, 0))
    (hp : ∀ m ∈ p1 :: ps, P m) (hq : ∀ m ∈ q1 :: qs, P m) :
    ∀ m ∈ (Machine.PolyAddInPlace (Poly.mk pc (p1 :: ps)) (Poly.mk qc (q1 :: qs))).first_mono, P m := by
  rw [machine_PolyAddInPlace_cons_cons]
  intro m hm
  rw [first_mono_mk, mem_removeEmpty] at hm
  have hmerged := machine_mergeStart_forall P p1 q1 ps qs hadd hp hq
  rcases mem_foldFirstConstant hm.1 with h | ⟨c, hc, rfl⟩
  · exact hmerged m h
  · exact hset c (hmerged _ hc)

theorem machine_add_monos_ascending (pc qc : Int) (p1 q1 : Mono) (ps qs : List Mono)
    (hp : Machine.ExpsAscending (p1 :: ps)) (hq : Machine.ExpsAscending (q1 :: qs)) :
    Machine.ExpsAscending (Machine.PolyAddInPlace (Poly.mk pc (p1 :: ps)) (Poly.mk qc (q1 :: qs))).first_mono := by
  rw [machine_PolyAddInPlace_cons_cons, first_mono_mk]
  apply machine_expsAscending_removeEmpty
  unfold Machine.ExpsAscending
  rw [foldFirstConstant_exps]
  exact machine_mergeStart_ascending p1 q1 ps qs hp hq

theorem machine_add_monos_nonzero (pc qc : Int) (p1 q1 : Mono) (ps qs : List Mono) :
    ∀ m ∈ (Machine.PolyAddInPlace (Poly.mk pc (p1 :: ps)) (Poly.mk qc (q1 :: qs))).first_mono,
      PolyIsZero m.1 = false := by
  rw [machine_PolyAddInPlace_cons_cons]
  intro m hm
  rw [first_mono_mk, mem_removeEmpty] at hm
  exact hm.2

theorem machine_termsOrdered_PolyAddInPlace (q : Poly) :
    ∀ p : Poly, Machine.TermsOrdered p → Machine.TermsOrdered q → Machine.TermsOrdered (Machine.PolyAddInPlace p q) := by
  induction q using Poly.induct with
  | h qc qms ih =>
    intro p hp hq
    cases qms with
    | nil =>
      rw [machine_PolyAddInPlace_nil]
      rw [machine_termsOrdered_iff] at hp
      rw [machine_termsOrdered_mk]
      exact hp
    | cons q1 qs =>
      cases p with
      | mk pc pms =>
        cases pms with
        | nil =>
          rw [machine_PolyAddInPlace_nil_cons]
          exact machine_termsOrdered_setConstant _ hq
        | cons p1 ps =>
          rw [machine_termsOrdered_mk] at hp hq
          rw [machine_termsOrdered_iff]
          refine ⟨machine_add_monos_ascending _ _ _ _ _ _ hp.1 hq.1, machine_add_monos_nonzero _ _ _ _ _ _, ?_⟩
          apply machine_add_monos_forall (fun m => Machine.TermsOrdered m.1)
          · intro q hq' c hc
            exact ih q hq' c hc (hq.2.2 q hq')
          · intro c hc
            rw [machine_termsOrdered_iff] at hc
            rw [machine_termsOrdered_mk]
            exact hc
          · exact hp.2.2
          · exact hq.2.2

theorem machine_zeroExpFolded_PolyAddInPlace_aux (q : Poly) :
    ∀ p : Poly, ZeroExpFolded p → ZeroExpFolded q →
      ZeroExpFolded (Machine.PolyAddInPlace p q)
        ∧ (Machine.PolyAddInPlace p q).constant = wrapCoeff (p.constant + q.constant) := by
  induction q using Poly.induct with
  | h qc qms ih =>
    intro p hp hq
    cases qms with
    | nil =>
      rw [machine_PolyAddInPlace_nil]
      rw [zeroExpFolded_iff] at hp
      rw [zeroExpFolded_mk]
      exact ⟨hp, rfl⟩
    | cons q1 qs =>
      cases p with
      | mk pc pms =>
        cases pms with
        | nil =>
          rw [machine_PolyAddInPlace_nil_cons]
          exact ⟨zeroExpFolded_setConstant _ hq, rfl⟩
        | cons p1 ps =>
          rw [zeroExpFolded_mk] at hp hq
          have hadd : ∀ q ∈ q1 :: qs, ∀ c : Poly,
              (ZeroExpFolded c ∧ (q.2 = 0 → c.constant = 0)) →
              (ZeroExpFolded (Machine.PolyAddInPlace c q.1)
                ∧ (q.2 = 0 → (Machine.PolyAddInPlace c q.1).constant = 0)) := by
            intro q hq' c hc
            have h := ih q hq' c hc.1 (hq.2 q hq')
            refine ⟨h.1, fun he => ?_⟩
            rw [h.2, hc.2 he, hq.1 q hq' he]
            exact wrapCoeff_zero
          have hpP : ∀ m ∈ p1 :: ps, ZeroExpFolded m.1 ∧ (m.2 = 0 → m.1.constant = 0) :=
            fun m hm => ⟨hp.2 m hm, hp.1 m hm⟩
          have hqP : ∀ m ∈ q1 :: qs, ZeroExpFolded m.1 ∧ (m.2 = 0 → m.1.constant = 0) :=
            fun m hm => ⟨hq.2 m hm, hq.1 m hm⟩
          constructor
          · have hall := machine_add_monos_forall
              (fun m => ZeroExpFolded m.1 ∧ (m.2 = 0 → m.1.constant = 0)) pc qc p1 q1 ps qs hadd
              (fun c hc => ⟨by
                have h1 := hc.1
                rw [zeroExpFolded_iff] at h1
                rw [zeroExpFolded_mk]
                exact h1, fun _ => rfl⟩) hpP hqP
            rw [zeroExpFolded_iff]
            exact ⟨fun m hm => (hall m hm).2, fun m hm => (hall m hm).1⟩
          · rw [machine_PolyAddInPlace_cons_cons, constant_mk]
            apply foldFirstConstant_fst_of_folded (wrapCoeff_inRange _)
            intro m hm
            exact (machine_mergeStart_forall
              (fun m => ZeroExpFolded m.1 ∧ (m.2 = 0 → m.1.constant = 0))
              p1 q1 ps qs hadd hpP hqP m hm).2

theorem machine_zeroExpFolded_PolyAddInPlace {p q : Poly} (hp : ZeroExpFolded p) (hq : ZeroExpFolded q) :
    ZeroExpFolded (Machine.PolyAddInPlace p q) :=
  (machine_zeroExpFolded_PolyAddInPlace_aux q p hp hq).1

theorem machine_constant_PolyAddInPlace {p q : Poly} (hp : ZeroExpFolded p) (hq : ZeroExpFolded q) :
    (Machine.PolyAddInPlace p q).constant = wrapCoeff (p.constant + q.constant) :=
  (machine_zeroExpFolded_PolyAddInPlace_aux q p hp hq).2

theorem machine_coeffsInRange_PolyAddInPlace (q : Poly) :
    ∀ p : Poly, CoeffsInRange p → CoeffsInRange q → CoeffsInRange (Machine.PolyAddInPlace p q) := by
  induction q using Poly.induct with
  | h qc qms ih =>
    intro p hp hq
    cases qms with
    | nil =>
      rw [machine_PolyAddInPlace_nil]
      rw [coeffsInRange_iff] at hp
      rw [coeffsInRange_mk]
      exact ⟨wrapCoeff_inRange _, hp.2⟩
    | cons q1 qs =>
      cases p with
      | mk pc pms =>
        cases pms with
        | nil =>
          rw [machine_PolyAddInPlace_nil_cons]
          exact coeffsInRange_setConstant (wrapCoeff_inRange _) hq
        | cons p1 ps =>
          rw [coeffsInRange_mk] at hp hq
          rw [coeffsInRange_iff]
          constructor
          · rw [machine_PolyAddInPlace_cons_cons, constant_mk]
            exact foldFirstConstant_fst_inRange (wrapCoeff_inRange _) _
          · apply machine_add_monos_forall (fun m => CoeffsInRange m.1)
            · intro q hq' c hc
              exact ih q hq' c hc (hq.2 q hq')
            · intro c hc
              rw [coeffsInRange_iff] at hc
              rw [coeffsInRange_mk]
              exact ⟨by decide, hc.2⟩
            · exact hp.2
            · exact hq.2

theorem machine_canonical_PolyAddInPlace {p q : Poly} (hp : Machine.Canonical p) (hq : Machine.Canonical q) :
    Machine.Canonical (Machine.PolyAddInPlace p q) :=
  ⟨machine_termsOrdered_PolyAddInPlace q p hp.1 hq.1, machine_zeroExpFolded_PolyAddInPlace hp.2.1 hq.2.1,
    machine_coeffsInRange_PolyAddInPlace q p hp.2.2 hq.2.2⟩

theorem machine_evalMonosIn_mergeLoop (qs : List Mono)
    (ih : ∀ m ∈ qs, ∀ (c : Poly) (v : Nat → R),
      evalIn (Machine.PolyAddInPlace c m.1) v = evalIn c v + evalIn m.1 v) :
    ∀ (ps : List Mono) (v : Nat → R),
      evalMonosIn (Machine.mergeLoop ps qs) v = evalMonosIn ps v + evalMonosIn qs v := by
  induction qs with
  | nil => intro ps v; simp [machine_mergeLoop_nil]
  | cons q qs ihq =>
    have ihq' := ihq (fun m hm => ih m (List.mem_cons_of_mem _ hm))
    have hq := ih q (List.mem_cons_self _ _)
    intro ps
    induction ps with
    | nil => intro v; simp [machine_mergeLoop_nil_cons]
    | cons p ps ihp =>
      intro v
      rw [machine_mergeLoop_cons_cons]
      split_ifs with h1 h2
      · simp only [evalMonosIn_cons, ihp v]
        ring
      · simp only [evalMonosIn_cons, ihq' (p :: ps) v]
        ring
      · have he : p.2 = q.2 := expLt_trichotomy (by simpa using h1) (by simpa using h2)
        rw [ihq']
        simp only [evalMonosIn_cons, hq, he]
        ring

theorem machine_evalIn_PolyAddInPlace (hR : WrapsIn R) (q : Poly) :
    ∀ (p : Poly) (v : Nat → R), evalIn (Machine.PolyAddInPlace p q) v = evalIn p v + evalIn q v := by
  induction q using Poly.induct with
  | h qc qms ih =>
    intro p v
    have hmerge := machine_evalMonosIn_mergeLoop (R := R) qms ih
    cases qms with
    | nil =>
      rw [machine_PolyAddInPlace_nil, evalIn_mk, cast_wrapCoeff hR, evalIn_eq p]
      simp
      ring
    | cons q1 qs =>
      cases p with
      | mk pc pms =>
        cases pms with
        | nil =>
          rw [machine_PolyAddInPlace_nil_cons, evalIn_mk, cast_wrapCoeff hR]
          simp
          ring
        | cons p1 ps =>
          rw [machine_PolyAddInPlace_cons_cons, evalIn_mk, evalMonosIn_removeEmpty,
            evalIn_foldFirstConstant hR, cast_wrapCoeff hR]
          have hq1 := ih q1 (List.mem_cons_self _ _)
          have hmerge' := machine_evalMonosIn_mergeLoop (R := R) qs
            (fun m hm => ih m (List.mem_cons_of_mem _ hm))
          split_ifs with h1
          · rw [hmerge']
            simp
            ring
          · rw [hmerge]
            simp
            ring

end Ring

section Ring

variable {R : Type} [CommRing R]

theorem expLt_of_le_of_ne {a b : Nat} (h : expLt b a = false) (hne : a ≠ b) :
    expLt a b = true := by
  by_contra h'
  exact hne (expLt_trichotomy (by simpa using h') h)

theorem expLt_of_lt_of_le {a b c : Nat} (h1 : expLt a b = true) (h2 : expLt c b = false) :
    expLt a c = true := by
  unfold expLt at h1 h2 ⊢
  split_ifs at h1 h2 ⊢ <;> simp at h1 h2 ⊢ <;> omega

theorem machine_monosAreSorted_sorted : ∀ ms : List Mono, Machine.MonosAreSorted ms = true → ms.Sorted Machine.MonoLe
  | [], _ => List.sorted_nil
  | [_], _ => List.sorted_singleton _
  | a :: b :: rest, h => by
    unfold Machine.MonosAreSorted at h
    split_ifs at h with h1
    have ih := machine_monosAreSorted_sorted (b :: rest) h
    unfold List.Sorted at ih ⊢
    rw [← List.chain'_iff_pairwise] at ih ⊢
    rw [List.chain'_cons]
    exact ⟨by simpa [Machine.MonoLe] using h1, ih⟩

theorem machine_sortMonosIfNeeded_sorted (ms : List Mono) : (Machine.sortMonosIfNeeded ms).Sorted Machine.MonoLe := by
  unfold Machine.sortMonosIfNeeded
  split_ifs with h
  · exact List.sorted_insertionSort Machine.MonoLe ms
  · exact machine_monosAreSorted_sorted ms (by simpa using h)

theorem machine_sortMonosIfNeeded_perm (ms : List Mono) : (Machine.sortMonosIfNeeded ms).Perm ms := by
  unfold Machine.sortMonosIfNeeded
  split_ifs with h
  · exact List.perm_insertionSort Machine.MonoLe ms
  · exact List.Perm.refl _

theorem machine_addMonosLoop_nil (c : Int) (last : Mono) : Machine.addMonosLoop c last [] = (c, [last]) := by
  simp [Machine.addMonosLoop]

theorem machine_addMonosLoop_cons_eq (c : Int) (last m : Mono) (rest : List Mono) (h : last.2 = m.2) :
    Machine.addMonosLoop c last (m :: rest)
      = Machine.addMonosLoop (foldLastConstant c (Machine.PolyAddInPlace last.1 m.1, last.2)).1
          (foldLastConstant c (Machine.PolyAddInPlace last.1 m.1, last.2)).2 rest := by
  simp [Machine.addMonosLoop, h]

theorem machine_addMonosLoop_cons_ne (c : Int) (last m : Mono) (rest : List Mono) (h : last.2 ≠ m.2) :
    Machine.addMonosLoop c last (m :: rest)
      = ((Machine.addMonosLoop (foldLastConstant c m).1 (foldLastConstant c m).2 rest).1,
          last :: (Machine.addMonosLoop (foldLastConstant c m).1 (foldLastConstant c m).2 rest).2) := by
  simp [Machine.addMonosLoop, h]

/-- Every monomial of the list built by the loop satisfies `Q`, when `Q` holds
after every fold of the constant and what is folded satisfies `P`. -/
theorem machine_addMonosLoop_forall (P Q : Mono → Prop)
    (hadd : ∀ a b : Mono, Q a → P b → a.2 = b.2 → P (Machine.PolyAddInPlace a.1 b.1, a.2))
    (hfold : ∀ (c : Int) (m : Mono), P m → Q (foldLastConstant c m).2) :
    ∀ (rest : List Mono) (c : Int) (last : Mono), Q last → (∀ m ∈ rest, P m) →
      ∀ m ∈ (Machine.addMonosLoop c last rest).2, Q m := by
  intro rest
  induction rest with
  | nil =>
    intro c last hl _ m hm
    rw [machine_addMonosLoop_nil] at hm
    simp at hm
    rw [hm]
    exact hl
  | cons a rest ih =>
    intro c last hl hr m hm
    have ha := hr a (List.mem_cons_self _ _)
    have hr' : ∀ m ∈ rest, P m := fun m hm => hr m (List.mem_cons_of_mem _ hm)
    by_cases he : last.2 = a.2
    · rw [machine_addMonosLoop_cons_eq _ _ _ _ he] at hm
      exact ih _ _ (hfold _ _ (hadd last a hl ha he)) hr' m hm
    · rw [machine_addMonosLoop_cons_ne _ _ _ _ he] at hm
      rcases List.mem_cons.mp hm with rfl | hm
      · exact hl
      · exact ih _ _ (hfold _ _ ha) hr' m hm

theorem machine_addMonosLoop_ascending :
    ∀ (rest : List Mono) (c : Int) (last : Mono), (last :: rest).Sorted Machine.MonoLe →
      Machine.ExpsAscending (Machine.addMonosLoop c last rest).2 := by
  intro rest
  induction rest with
  | nil =>
    intro c last _
    rw [machine_addMonosLoop_nil]
    simp [Machine.ExpsAscending]
  | cons a rest ih =>
    intro c last hs
    have hs' : (a :: rest).Sorted Machine.MonoLe := (List.sorted_cons.mp hs).2
    have hla : expLt a.2 last.2 = false := (List.sorted_cons.mp hs).1 a (List.mem_cons_self _ _)
    have har : ∀ m ∈ rest, expLt m.2 a.2 = false := (List.sorted_cons.mp hs').1
    by_cases he : last.2 = a.2
    · rw [machine_addMonosLoop_cons_eq _ _ _ _ he]
      apply ih
      refine List.sorted_cons.mpr ⟨?_, (List.sorted_cons.mp hs').2⟩
      intro m hm
      show expLt m.2 (foldLastConstant c (Machine.PolyAddInPlace last.1 a.1, last.2)).2.2 = false
      rw [foldLastConstant_exp]
      show expLt m.2 last.2 = false
      rw [he]
      exact har m hm
    · rw [machine_addMonosLoop_cons_ne _ _ _ _ he, machine_expsAscending_cons]
      have hsort : ((foldLastConstant c a).2 :: rest).Sorted Machine.MonoLe := by
        refine List.sorted_cons.mpr ⟨?_, (List.sorted_cons.mp hs').2⟩
        intro m hm
        show expLt m.2 (foldLastConstant c a).2.2 = false
        rw [foldLastConstant_exp]
        exact har m hm
      refine ⟨?_, ih _ _ hsort⟩
      apply machine_addMonosLoop_forall (fun m => expLt last.2 m.2 = true) (fun m => expLt last.2 m.2 = true)
      · intro x y hx _ _
        exact hx
      · intro c' m hm
        show expLt last.2 (foldLastConstant c' m).2.2 = true
        rw [foldLastConstant_exp]
        exact hm
      · show expLt last.2 (foldLastConstant c a).2.2 = true
        rw [foldLastConstant_exp]
        exact expLt_of_le_of_ne hla he
      · intro m hm
        show expLt last.2 m.2 = true
        exact expLt_of_lt_of_le (expLt_of_le_of_ne hla he) (har m hm)

theorem machine_PolyAddMonos_nil : Machine.PolyAddMonos [] = PolyZero := rfl

theorem machine_sortMonosIfNeeded_ne_nil {ms : List Mono} (h : ms ≠ []) : Machine.sortMonosIfNeeded ms ≠ [] := by
  intro h'
  have := (machine_sortMonosIfNeeded_perm ms).length_eq
  rw [h'] at this
  exact h (List.length_eq_zero.mp this.symm)

theorem machine_PolyAddMonos_unfold {ms : List Mono} {first : Mono} {rest : List Mono}
    (h : Machine.sortMonosIfNeeded ms = first :: rest) :
    Machine.PolyAddMonos ms
      = Poly.mk (Machine.addMonosLoop (foldLastConstant 0 first).1 (foldLastConstant 0 first).2 rest).1
          (RemoveEmptyMonos
            (Machine.addMonosLoop (foldLastConstant 0 first).1 (foldLastConstant 0 first).2 rest).2) := by
  cases ms with
  | nil => simp [Machine.sortMonosIfNeeded, Machine.MonosAreSorted] at h
  | cons a l =>
    unfold Machine.PolyAddMonos
    simp only [h]

/-- Case analysis for `PolyAddMonos`: the empty array, or a sorted rearrangement
`first :: rest` of the array on which the loop runs. -/
theorem machine_PolyAddMonos_cases (ms : List Mono) :
    (ms = [] ∧ Machine.PolyAddMonos ms = PolyZero) ∨
    ∃ first rest, (first :: rest).Perm ms ∧ (first :: rest).Sorted Machine.MonoLe ∧
      Machine.PolyAddMonos ms
        = Poly.mk (Machine.addMonosLoop (foldLastConstant 0 first).1 (foldLastConstant 0 first).2 rest).1
            (RemoveEmptyMonos
              (Machine.addMonosLoop (foldLastConstant 0 first).1 (foldLastConstant 0 first).2 rest).2) := by
  by_cases hms : ms = []
  · left
    exact ⟨hms, by rw [hms]; rfl⟩
  · right
    have hne := machine_sortMonosIfNeeded_ne_nil hms
    obtain ⟨first, rest, h⟩ := List.exists_cons_of_ne_nil hne
    refine ⟨first, rest, ?_, ?_, machine_PolyAddMonos_unfold h⟩
    · rw [← h]; exact machine_sortMonosIfNeeded_perm ms
    · rw [← h]; exact machine_sortMonosIfNeeded_sorted ms

theorem machine_evalIn_addMonosLoop (hR : WrapsIn R) (v : Nat → R) :
    ∀ (rest : List Mono) (c : Int) (last : Mono),
      (((Machine.addMonosLoop c last rest).1 : Int) : R) + evalMonosIn (Machine.addMonosLoop c last rest).2 v
        = (c : R) + evalMonosIn (last :: rest) v := by
  intro rest
  induction rest with
  | nil =>
    intro c last
    rw [machine_addMonosLoop_nil]
  | cons a rest ih =>
    intro c last
    by_cases he : last.2 = a.2
    · rw [machine_addMonosLoop_cons_eq _ _ _ _ he, ih]
      have h := evalIn_foldLastConstant hR c (Machine.PolyAddInPlace last.1 a.1, last.2) v
      simp only [evalMonosIn_cons]
      rw [← add_assoc, h]
      simp only [machine_evalIn_PolyAddInPlace hR, he]
      ring
    · rw [machine_addMonosLoop_cons_ne _ _ _ _ he]
      have h := evalIn_foldLastConstant hR c a v
      have h2 := ih (foldLastConstant c a).1 (foldLastConstant c a).2
      simp only [evalMonosIn_cons] at h2 ⊢
      linear_combination h2 + h

theorem machine_evalIn_PolyAddMonos (hR : WrapsIn R) (ms : List Mono) (v : Nat → R) :
    evalIn (Machine.PolyAddMonos ms) v = evalMonosIn ms v := by
  rcases machine_PolyAddMonos_cases ms with ⟨h1, h2⟩ | ⟨first, rest, hperm, _, heq⟩
  · rw [h2, h1]
    simp [PolyZero]
  · rw [heq, evalIn_mk, evalMonosIn_removeEmpty, machine_evalIn_addMonosLoop hR, ← evalMonosIn_perm hperm]
    have h := evalIn_foldLastConstant hR 0 first v
    simp only [evalMonosIn_cons]
    rw [← add_assoc, h]
    simp

/-- The monomials of `PolyAddMonos`: a property `Q` that holds after every fold of
the constant, where what is folded satisfies `P`. -/
theorem machine_PolyAddMonos_forall (P Q : Mono → Prop)
    (hadd : ∀ a b : Mono, Q a → P b → a.2 = b.2 → P (Machine.PolyAddInPlace a.1 b.1, a.2))
    (hfold : ∀ (c : Int) (m : Mono), P m → Q (foldLastConstant c m).2)
    (ms : List Mono) (hms : ∀ m ∈ ms, P m) :
    ∀ m ∈ (Machine.PolyAddMonos ms).first_mono, Q m := by
  rcases machine_PolyAddMonos_cases ms with ⟨_, h2⟩ | ⟨first, rest, hperm, _, heq⟩
  · rw [h2]
    intro m hm
    simp [PolyZero] at hm
  · rw [heq, first_mono_mk]
    intro m hm
    rw [mem_removeEmpty] at hm
    refine machine_addMonosLoop_forall P Q hadd hfold rest _ _ ?_ ?_ m hm.1
    · exact hfold 0 first (hms first (hperm.subset (List.mem_cons_self _ _)))
    · intro a ha
      exact hms a (hperm.subset (List.mem_cons_of_mem _ ha))

theorem machine_PolyAddMonos_ascending (ms : List Mono) :
    Machine.ExpsAscending (Machine.PolyAddMonos ms).first_mono := by
  rcases machine_PolyAddMonos_cases ms with ⟨_, h2⟩ | ⟨first, rest, _, hsorted, heq⟩
  · rw [h2]
    simp [PolyZero, Machine.ExpsAscending]
  · rw [heq, first_mono_mk]
    apply machine_expsAscending_removeEmpty
    apply machine_addMonosLoop_ascending
    refine List.sorted_cons.mpr ⟨?_, (List.sorted_cons.mp hsorted).2⟩
    intro m hm
    show expLt m.2 (foldLastConstant 0 first).2.2 = false
    rw [foldLastConstant_exp]
    exact (List.sorted_cons.mp hsorted).1 m hm

theorem machine_PolyAddMonos_nonzero (ms : List Mono) :
    ∀ m ∈ (Machine.PolyAddMonos ms).first_mono, PolyIsZero m.1 = false := by
  rcases machine_PolyAddMonos_cases ms with ⟨_, h2⟩ | ⟨first, rest, _, _, heq⟩
  · rw [h2]
    intro m hm
    simp [PolyZero] at hm
  · rw [heq, first_mono_mk]
    intro m hm
    exact (mem_removeEmpty.mp hm).2

/-- Every monomial with exponent 0 that `PolyAddMonos` leaves has a coefficient
with constant 0, whatever the array. -/
theorem machine_PolyAddMonos_zeroExp (ms : List Mono) :
    ∀ m ∈ (Machine.PolyAddMonos ms).first_mono, m.2 = 0 → m.1.constant = 0 := by
  apply machine_PolyAddMonos_forall (fun _ => True) (fun m => m.2 = 0 → m.1.constant = 0)
  · intros; trivial
  · intro c m _
    exact foldLastConstant_folded c m
  · intros; trivial

theorem machine_foldLastConstant_termsOrdered (c : Int) (m : Mono) (h : Machine.TermsOrdered m.1) :
    Machine.TermsOrdered (foldLastConstant c m).2.1 := by
  by_cases he : m.2 = 0
  · rw [foldLastConstant_zero c m he]
    rw [machine_termsOrdered_iff] at h
    rw [machine_termsOrdered_mk]
    exact h
  · rw [foldLastConstant_pos c m he]
    exact h

theorem machine_termsOrdered_PolyAddMonos (ms : List Mono) (h : ∀ m ∈ ms, Machine.TermsOrdered m.1) :
    Machine.TermsOrdered (Machine.PolyAddMonos ms) := by
  rw [machine_termsOrdered_iff]
  refine ⟨machine_PolyAddMonos_ascending ms, machine_PolyAddMonos_nonzero ms, ?_⟩
  apply machine_PolyAddMonos_forall (fun m => Machine.TermsOrdered m.1) (fun m => Machine.TermsOrdered m.1)
  · intro a b ha hb _
    exact machine_termsOrdered_PolyAddInPlace b.1 a.1 ha hb
  · intro c m hm
    exact machine_foldLastConstant_termsOrdered c m hm
  · exact h

theorem machine_zeroExpFolded_PolyAddMonos (ms : List Mono) (h : ∀ m ∈ ms, ZeroExpFolded m.1) :
    ZeroExpFolded (Machine.PolyAddMonos ms) := by
  rw [zeroExpFolded_iff]
  refine ⟨machine_PolyAddMonos_zeroExp ms, ?_⟩
  apply machine_PolyAddMonos_forall (fun m => ZeroExpFolded m.1) (fun m => ZeroExpFolded m.1)
  · intro a b ha hb _
    exact machine_zeroExpFolded_PolyAddInPlace ha hb
  · intro c m hm
    exact foldLastConstant_zeroExpFolded c m hm
  · exact h

theorem machine_addMonosLoop_fst_inRange :
    ∀ (rest : List Mono) (c : Int) (last : Mono), CoeffInRange c →
      CoeffInRange (Machine.addMonosLoop c last rest).1 := by
  intro rest
  induction rest with
  | nil => intro c last hc; rw [machine_addMonosLoop_nil]; exact hc
  | cons a rest ih =>
    intro c last hc
    by_cases he : last.2 = a.2
    · rw [machine_addMonosLoop_cons_eq _ _ _ _ he]
      exact ih _ _ (foldLastConstant_fst_inRange hc _)
    · rw [machine_addMonosLoop_cons_ne _ _ _ _ he]
      exact ih _ _ (foldLastConstant_fst_inRange hc _)

theorem machine_coeffsInRange_PolyAddMonos (ms : List Mono) (h : ∀ m ∈ ms, CoeffsInRange m.1) :
    CoeffsInRange (Machine.PolyAddMonos ms) := by
  rw [coeffsInRange_iff]
  constructor
  · rcases machine_PolyAddMonos_cases ms with ⟨_, h2⟩ | ⟨first, rest, _, _, heq⟩
    · rw [h2]; decide
    · rw [heq, constant_mk]
      exact machine_addMonosLoop_fst_inRange _ _ _ (foldLastConstant_fst_inRange (by decide) _)
  · apply machine_PolyAddMonos_forall (fun m => CoeffsInRange m.1) (fun m => CoeffsInRange m.1)
    · intro a b ha hb _
      exact machine_coeffsInRange_PolyAddInPlace b.1 a.1 ha hb
    · intro c m hm
      exact foldLastConstant_coeffsInRange c m hm
    · exact h

theorem machine_canonical_PolyAddMonos (ms : List Mono) (h : ∀ m ∈ ms, Machine.Canonical m.1) :
    Machine.Canonical (Machine.PolyAddMonos ms) :=
  ⟨machine_termsOrdered_PolyAddMonos ms (fun m hm => (h m hm).1),
    machine_zeroExpFolded_PolyAddMonos ms (fun m hm => (h m hm).2.1),
    machine_coeffsInRange_PolyAddMonos ms (fun m hm => (h m hm).2.2)⟩

theorem machine_addMonosLoop_fst_of_folded :
    ∀ (rest : List Mono) (c : Int) (last : Mono), CoeffInRange c →
      (ZeroExpFolded last.1 ∧ (last.2 = 0 → last.1.constant = 0)) →
      (∀ m ∈ rest, ZeroExpFolded m.1 ∧ (m.2 = 0 → m.1.constant = 0)) →
      (Machine.addMonosLoop c last rest).1 = c := by
  intro rest
  induction rest with
  | nil => intro c last _ _ _; rw [machine_addMonosLoop_nil]
  | cons a rest ih =>
    intro c last hc hl hr
    have ha := hr a (List.mem_cons_self _ _)
    have hr' := fun m hm => hr m (List.mem_cons_of_mem a hm)
    by_cases he : last.2 = a.2
    · rw [machine_addMonosLoop_cons_eq _ _ _ _ he]
      have hsum : (last.2 = 0 → (Machine.PolyAddInPlace last.1 a.1).constant = 0) := by
        intro h0
        rw [machine_constant_PolyAddInPlace hl.1 ha.1, hl.2 h0, ha.2 (he ▸ h0)]
        exact wrapCoeff_zero
      have hfst := foldLastConstant_fst_of_folded hc (Machine.PolyAddInPlace last.1 a.1, last.2) hsum
      rw [ih _ _ (foldLastConstant_fst_inRange hc _) ?_ hr', hfst]
      exact ⟨foldLastConstant_zeroExpFolded _ _ (machine_zeroExpFolded_PolyAddInPlace hl.1 ha.1),
        foldLastConstant_folded _ _⟩
    · rw [machine_addMonosLoop_cons_ne _ _ _ _ he]
      have hfst := foldLastConstant_fst_of_folded hc a ha.2
      rw [ih _ _ (foldLastConstant_fst_inRange hc _) ?_ hr', hfst]
      exact ⟨foldLastConstant_zeroExpFolded _ _ ha.1, foldLastConstant_folded _ _⟩

theorem machine_constant_PolyAddMonos (ms : List Mono)
    (h : ∀ m ∈ ms, ZeroExpFolded m.1 ∧ (m.2 = 0 → m.1.constant = 0)) :
    (Machine.PolyAddMonos ms).constant = 0 := by
  rcases machine_PolyAddMonos_cases ms with ⟨_, h2⟩ | ⟨first, rest, hperm, _, heq⟩
  · rw [h2]; rfl
  · rw [heq, constant_mk]
    have hf := h first (hperm.subset (List.mem_cons_self _ _))
    rw [machine_addMonosLoop_fst_of_folded rest _ _ (foldLastConstant_fst_inRange (by decide) _)
      ⟨foldLastConstant_zeroExpFolded _ _ hf.1, foldLastConstant_folded _ _⟩
      (fun m hm => h m (hperm.subset (List.mem_cons_of_mem _ hm)))]
    exact foldLastConstant_fst_of_folded (by decide) first hf.2

end Ring

/-! ## `PolyMul` of the machine keeps the invariants -/

/-- A property of polynomials that constants have, that passes to the
coefficients, and that `PolyAddMonos` and the change of the constant keep, is kept
by `PolyMul` of the machine. -/
theorem machine_PolyMul_keeps (I : Poly → Prop)
    (hconst : ∀ p : Poly, I p → I (PolyFromCoeff p.constant))
    (hcoef : ∀ p : Poly, I p → ∀ m ∈ p.first_mono, I m.1)
    (hsum : ∀ (ms : List Mono) (c : Int), (∀ m ∈ ms, I m.1) →
      I (Poly.mk (wrapCoeff c) (Machine.PolyAddMonos ms).first_mono)) :
    ∀ p q : Poly, I p → I q → I (Machine.PolyMul p q) := by
  apply PolyMul_induct (fun p q => I p → I q → I (Machine.PolyMul p q))
  intro p q h1 h2 h3 hp hq
  rw [machine_PolyMul_unfold]
  apply hsum
  intro m hm
  rcases machine_mem_mulArray hm with ⟨mp, hmp, mq, hmq, rfl⟩ | ⟨mp, hmp, rfl⟩ | ⟨mq, hmq, rfl⟩
  · exact h1 mp hmp mq hmq (hcoef p hp mp hmp) (hcoef q hq mq hmq)
  · exact h2 mp hmp (hcoef p hp mp hmp) (hconst q hq)
  · exact h3 mq hmq (hcoef q hq mq hmq) (hconst p hp)

theorem machine_termsOrdered_PolyMul {p q : Poly} (hp : Machine.TermsOrdered p)
    (hq : Machine.TermsOrdered q) : Machine.TermsOrdered (Machine.PolyMul p q) := by
  refine machine_PolyMul_keeps Machine.TermsOrdered (fun p _ => machine_termsOrdered_const _)
    ?_ ?_ p q hp hq
  · intro p hp m hm
    exact ((machine_termsOrdered_iff p).mp hp).2.2 m hm
  · intro ms c hms
    have := machine_termsOrdered_PolyAddMonos ms hms
    rw [machine_termsOrdered_iff] at this
    rw [machine_termsOrdered_mk]
    exact this

theorem machine_zeroExpFolded_PolyMul {p q : Poly} (hp : ZeroExpFolded p)
    (hq : ZeroExpFolded q) : ZeroExpFolded (Machine.PolyMul p q) := by
  refine machine_PolyMul_keeps ZeroExpFolded (fun p _ => zeroExpFolded_const _) ?_ ?_ p q hp hq
  · intro p hp m hm
    exact ((zeroExpFolded_iff p).mp hp).2 m hm
  · intro ms c hms
    have := machine_zeroExpFolded_PolyAddMonos ms hms
    rw [zeroExpFolded_iff] at this
    rw [zeroExpFolded_mk]
    exact this

theorem machine_coeffsInRange_PolyMul {p q : Poly} (hp : CoeffsInRange p)
    (hq : CoeffsInRange q) : CoeffsInRange (Machine.PolyMul p q) := by
  refine machine_PolyMul_keeps CoeffsInRange ?_ ?_ ?_ p q hp hq
  · intro p hp
    exact coeffsInRange_const ((coeffsInRange_iff p).mp hp).1
  · intro p hp m hm
    exact ((coeffsInRange_iff p).mp hp).2 m hm
  · intro ms c hms
    have := machine_coeffsInRange_PolyAddMonos ms hms
    rw [coeffsInRange_iff] at this
    rw [coeffsInRange_mk]
    exact ⟨wrapCoeff_inRange _, this.2⟩

/-- `PolyMul` of the machine returns the canonical form of the machine for
operands in that form, whatever their exponents. -/
theorem machine_canonical_PolyMul {p q : Poly} (hp : Machine.Canonical p)
    (hq : Machine.Canonical q) : Machine.Canonical (Machine.PolyMul p q) :=
  ⟨machine_termsOrdered_PolyMul hp.1 hq.1, machine_zeroExpFolded_PolyMul hp.2.1 hq.2.1,
    machine_coeffsInRange_PolyMul hp.2.2 hq.2.2⟩

/-! ## The product of two polynomials of the data model -/

theorem expAdd_of_inRange {a b : Nat} (ha : a ≤ INT_MAX) (hb : b ≤ INT_MAX) :
    expAdd a b = a + b := by
  unfold INT_MAX at ha hb
  unfold expAdd
  omega

theorem expAdd_eq_zero {a b : Nat} (ha : a ≤ INT_MAX) (hb : b ≤ INT_MAX)
    (h : expAdd a b = 0) : a = 0 ∧ b = 0 := by
  rw [expAdd_of_inRange ha hb] at h
  omega

/-- For operands with exponents in `[0, INT_MAX]` a monomial of the array of
`PolyMul` has the exponent 0 only when both factors have: every monomial with
exponent 0 has a coefficient with constant 0. -/
theorem machine_PolyMulArray_folded {p q : Poly} (hp : ZeroExpFolded p) (hq : ZeroExpFolded q)
    (hpe : ExpsLe INT_MAX p) (hqe : ExpsLe INT_MAX q) :
    ∀ m ∈ Machine.PolyMulArray p q, ZeroExpFolded m.1 ∧ (m.2 = 0 → m.1.constant = 0) := by
  have hpc := (zeroExpFolded_iff p).mp hp
  have hqc := (zeroExpFolded_iff q).mp hq
  have hpe' := (expsLe_iff _ p).mp hpe
  have hqe' := (expsLe_iff _ q).mp hqe
  intro m hm
  rcases machine_mem_mulArray hm with ⟨mp, hmp, mq, hmq, rfl⟩ | ⟨mp, hmp, rfl⟩ | ⟨mq, hmq, rfl⟩
  · refine ⟨machine_zeroExpFolded_PolyMul (hpc.2 mp hmp) (hqc.2 mq hmq), fun he => ?_⟩
    have he' := expAdd_eq_zero (hpe'.1 mp hmp) (hqe'.1 mq hmq) he
    rw [machine_constant_PolyMul, hpc.1 mp hmp he'.1, hqc.1 mq hmq he'.2]
    decide
  · refine ⟨machine_zeroExpFolded_PolyMul (hpc.2 mp hmp) (zeroExpFolded_const _), fun he => ?_⟩
    rw [machine_constant_PolyMul, hpc.1 mp hmp he, zero_mul]
    decide
  · refine ⟨machine_zeroExpFolded_PolyMul (hqc.2 mq hmq) (zeroExpFolded_const _), fun he => ?_⟩
    rw [machine_constant_PolyMul, hqc.1 mq hmq he, zero_mul]
    decide

section Ring

variable {R : Type} [CommRing R]

/-- The value of the array of `PolyMul`, for operands with exponents in
`[0, INT_MAX]`: no sum of two such exponents reaches `2 ^ 32`, so the pattern of
the sum is the sum. -/
theorem evalMonosIn_machine_cross (f : Mono → Mono → Poly) (v : Nat → R) (qs : List Mono)
    (ps : List Mono) (hps : ∀ m ∈ ps, m.2 ≤ INT_MAX) (hqs : ∀ m ∈ qs, m.2 ≤ INT_MAX)
    (hf : ∀ mp ∈ ps, ∀ mq ∈ qs, evalIn (f mp mq) (fun i => v (i + 1))
      = evalIn mp.1 (fun i => v (i + 1)) * evalIn mq.1 (fun i => v (i + 1))) :
    evalMonosIn (ps.flatMap (fun mp => qs.map (fun mq => (f mp mq, expAdd mp.2 mq.2)))) v
      = evalMonosIn ps v * evalMonosIn qs v := by
  have h : ps.flatMap (fun mp => qs.map (fun mq => (f mp mq, expAdd mp.2 mq.2)))
      = ps.flatMap (fun mp => qs.map (fun mq => (f mp mq, mp.2 + mq.2))) := by
    apply List.flatMap_congr
    intro mp hmp
    apply List.map_congr_left
    intro mq hmq
    rw [expAdd_of_inRange (hps mp hmp) (hqs mq hmq)]
  rw [h]
  exact evalMonosIn_cross f v qs ps hf

/-- For operands with exponents in `[0, INT_MAX]`, the value of `PolyMul(p, q)` of
the machine, its exponents read as the natural numbers that `PolyPrint` writes, is
the product of the values of `p` and `q`. -/
theorem evalIn_machine_PolyMul (hR : WrapsIn R) :
    ∀ p q : Poly, ZeroExpFolded p → ZeroExpFolded q → ExpsLe INT_MAX p → ExpsLe INT_MAX q →
      ∀ v : Nat → R, evalIn (Machine.PolyMul p q) v = evalIn p v * evalIn q v := by
  apply PolyMul_induct
  intro p q h1 h2 h3 hp hq hpe hqe v
  have hpc := (zeroExpFolded_iff p).mp hp
  have hqc := (zeroExpFolded_iff q).mp hq
  have hpe' := (expsLe_iff _ p).mp hpe
  have hqe' := (expsLe_iff _ q).mp hqe
  rw [machine_PolyMul_unfold, evalIn_mk, cast_wrapCoeff hR]
  have hsum := machine_evalIn_PolyAddMonos hR (Machine.PolyMulArray p q) v
  rw [evalIn_eq, machine_constant_PolyAddMonos _ (machine_PolyMulArray_folded hp hq hpe hqe)]
    at hsum
  simp only [Int.cast_zero, zero_add] at hsum
  rw [hsum]
  unfold Machine.PolyMulArray
  rw [evalMonosIn_append, evalMonosIn_append]
  rw [evalMonosIn_machine_cross (fun mp mq => Machine.PolyMul mp.1 mq.1) v q.first_mono
    p.first_mono hpe'.1 hqe'.1
    (fun mp hmp mq hmq => h1 mp hmp mq hmq (hpc.2 mp hmp) (hqc.2 mq hmq) (hpe'.2 mp hmp)
      (hqe'.2 mq hmq) _)]
  unfold CloneMonosMultipliedByAConstant
  rw [evalMonosIn_map_scaled (fun m => Machine.PolyMul m.1 (PolyFromCoeff q.constant))
    (fun m => m.2) (q.constant : R) 1 v p.first_mono
    (fun m hm => by
      rw [h2 m hm (hpc.2 m hm) (zeroExpFolded_const _) (hpe'.2 m hm) (expsLe_const _ _),
        evalIn_const])
    (fun m _ => by ring)]
  rw [evalMonosIn_map_scaled (fun m => Machine.PolyMul m.1 (PolyFromCoeff p.constant))
    (fun m => m.2) (p.constant : R) 1 v q.first_mono
    (fun m hm => by
      rw [h3 m hm (hqc.2 m hm) (zeroExpFolded_const _) (hqe'.2 m hm) (expsLe_const _ _),
        evalIn_const])
    (fun m _ => by ring)]
  rw [evalIn_eq p, evalIn_eq q]
  push_cast
  ring

end Ring

section Formal

variable {K : Type} [CommRing K]

theorem expLt_ne {a b : Nat} (h : expLt a b = true) : a ≠ b := by
  intro hab
  rw [hab, expLt_irrefl] at h
  exact Bool.false_ne_true h

theorem expLt_total (a b : Nat) : expLt a b = true ∨ a = b ∨ expLt b a = true := by
  by_cases h1 : expLt a b = true
  · exact Or.inl h1
  · by_cases h2 : expLt b a = true
    · exact Or.inr (Or.inr h2)
    · exact Or.inr (Or.inl (expLt_trichotomy (by simpa using h1) (by simpa using h2)))

theorem machine_coeff_monomialSum_head (f : Mono → MvPolynomial Nat K) (a : Mono) (l : List Mono)
    (h : Machine.ExpsAscending (a :: l)) :
    ((List.map (fun m => Polynomial.monomial m.2 (f m)) (a :: l)).sum).coeff a.2 = f a := by
  rw [coeff_monomialSum_cons, if_pos rfl, coeff_monomialSum_of_ne]
  · simp
  · intro m hm
    exact fun hm' => expLt_ne (((machine_expsAscending_cons a l).mp h).1 m hm) hm'.symm

/-- Two ascending lists of monomials whose coefficients are not the zero formal
polynomial and are told apart by their formal polynomials are equal when their
sums agree. -/
theorem machine_monos_eq_of_sum_eq (f : Mono → MvPolynomial Nat K) :
    ∀ (ms ms' : List Mono), Machine.ExpsAscending ms → Machine.ExpsAscending ms' →
      (∀ m ∈ ms, f m ≠ 0) → (∀ m ∈ ms', f m ≠ 0) →
      (∀ m ∈ ms, ∀ m' ∈ ms', m.2 = m'.2 → f m = f m' → m = m') →
      (List.map (fun m => Polynomial.monomial m.2 (f m)) ms).sum
        = (List.map (fun m => Polynomial.monomial m.2 (f m)) ms').sum →
      ms = ms' := by
  intro ms
  induction ms with
  | nil =>
    intro ms' _ h' _ hnz' _ hsum
    cases ms' with
    | nil => rfl
    | cons b l' =>
      exfalso
      have := congrArg (fun P => Polynomial.coeff P b.2) hsum
      simp only [List.map_nil, List.sum_nil, Polynomial.coeff_zero] at this
      rw [machine_coeff_monomialSum_head f b l' h'] at this
      exact hnz' b (List.mem_cons_self _ _) this.symm
  | cons a l ih =>
    intro ms' h h' hnz hnz' hinj hsum
    cases ms' with
    | nil =>
      exfalso
      have := congrArg (fun P => Polynomial.coeff P a.2) hsum
      simp only [List.map_nil, List.sum_nil, Polynomial.coeff_zero] at this
      rw [machine_coeff_monomialSum_head f a l h] at this
      exact hnz a (List.mem_cons_self _ _) this
    | cons b l' =>
      have ha := (machine_expsAscending_cons a l).mp h
      have hb := (machine_expsAscending_cons b l').mp h'
      rcases expLt_total a.2 b.2 with hlt | heq | hgt
      · exfalso
        have := congrArg (fun P => Polynomial.coeff P a.2) hsum
        simp only at this
        rw [machine_coeff_monomialSum_head f a l h, coeff_monomialSum_of_ne f (b :: l') a.2] at this
        · exact hnz a (List.mem_cons_self _ _) this
        · intro m hm
          rcases List.mem_cons.mp hm with rfl | hm
          · exact fun hm' => expLt_ne hlt hm'.symm
          · exact fun hm' => expLt_ne (expLt_trans hlt (hb.1 m hm)) hm'.symm
      · have hc := congrArg (fun P => Polynomial.coeff P a.2) hsum
        simp only at hc
        rw [machine_coeff_monomialSum_head f a l h] at hc
        have hc' := machine_coeff_monomialSum_head f b l' h'
        rw [← heq] at hc'
        rw [hc'] at hc
        have hab : a = b := hinj a (List.mem_cons_self _ _) b (List.mem_cons_self _ _) heq hc
        subst hab
        have htail : (List.map (fun m => Polynomial.monomial m.2 (f m)) l).sum
            = (List.map (fun m => Polynomial.monomial m.2 (f m)) l').sum := by
          simp only [List.map_cons, List.sum_cons] at hsum
          exact add_left_cancel hsum
        rw [ih l' ha.2 hb.2 (fun m hm => hnz m (List.mem_cons_of_mem _ hm))
          (fun m hm => hnz' m (List.mem_cons_of_mem _ hm))
          (fun m hm m' hm' => hinj m (List.mem_cons_of_mem _ hm) m' (List.mem_cons_of_mem _ hm'))
          htail]
      · exfalso
        have := congrArg (fun P => Polynomial.coeff P b.2) hsum
        simp only at this
        rw [machine_coeff_monomialSum_head f b l' h', coeff_monomialSum_of_ne f (a :: l) b.2] at this
        · exact hnz' b (List.mem_cons_self _ _) this.symm
        · intro m hm
          rcases List.mem_cons.mp hm with rfl | hm
          · exact fun hm' => expLt_ne hgt hm'.symm
          · exact fun hm' => expLt_ne (expLt_trans hgt (ha.1 m hm)) hm'.symm

theorem machine_canonical_mk (c : Int) (ms : List Mono) :
    Machine.Canonical (Poly.mk c ms) ↔
      CoeffInRange c ∧ Machine.ExpsAscending ms ∧
        ∀ m ∈ ms, Machine.Canonical m.1 ∧ PolyIsZero m.1 = false ∧ (m.2 = 0 → m.1.constant = 0) := by
  unfold Machine.Canonical
  rw [machine_termsOrdered_mk, zeroExpFolded_mk, coeffsInRange_mk]
  constructor
  · rintro ⟨⟨h1, h2, h3⟩, ⟨h4, h5⟩, h6, h7⟩
    exact ⟨h6, h1, fun m hm => ⟨⟨h3 m hm, h5 m hm, h7 m hm⟩, h2 m hm, h4 m hm⟩⟩
  · rintro ⟨h1, h2, h3⟩
    exact ⟨⟨h2, fun m hm => (h3 m hm).2.1, fun m hm => (h3 m hm).1.1⟩,
      ⟨fun m hm => (h3 m hm).2.2, fun m hm => (h3 m hm).1.2.1⟩,
      h1, fun m hm => (h3 m hm).1.2.2⟩

/-- A canonical polynomial whose formal polynomial over `K` is 0 is `PolyZero`. -/
theorem machine_eq_zero_of_formal_eq_zero
    (hK : ∀ a b : Int, CoeffInRange a → CoeffInRange b → (a : K) = (b : K) → a = b)
    (p : Poly) :
    Machine.Canonical p → evalIn p (MvPolynomial.X : Nat → MvPolynomial Nat K) = 0 → p = PolyZero := by
  induction p using Poly.induct with
  | h c ms ih =>
    intro hp hF
    have hp' := (machine_canonical_mk c ms).mp hp
    have hc : c = 0 := by
      apply hK c 0 hp'.1 (by decide)
      have h1 := constantCoeff_formal (K := K) (Poly.mk c ms) hp.2.1
      rw [hF] at h1
      simpa using h1.symm
    subst hc
    have hsum := monomialSum_eq_of_formal_eq (K := K) 0 ms []
      (by rw [hF]; simp)
    have hms : ms = [] := by
      apply machine_monos_eq_of_sum_eq
        (fun m => evalIn m.1 (MvPolynomial.X : Nat → MvPolynomial Nat K)) ms [] hp'.2.1
        machine_expsAscending_nil
      · intro m hm h0
        have hz := ih m hm (hp'.2.2 m hm).1 h0
        have hnz := (hp'.2.2 m hm).2.1
        rw [hz] at hnz
        simp [PolyZero, PolyIsZero] at hnz
      · intro m hm
        cases hm
      · intro m _ m' hm'
        cases hm'
      · exact hsum
    rw [hms]
    rfl

/-- Two canonical polynomials with the same formal polynomial over `K` are the same
tree, when the values of `poly_coeff_t` are told apart in `K`. -/
theorem machine_eq_of_formal_eq
    (hK : ∀ a b : Int, CoeffInRange a → CoeffInRange b → (a : K) = (b : K) → a = b)
    (p : Poly) :
    ∀ q : Poly, Machine.Canonical p → Machine.Canonical q →
      evalIn p (MvPolynomial.X : Nat → MvPolynomial Nat K) = evalIn q MvPolynomial.X → p = q := by
  induction p using Poly.induct with
  | h c ms ih =>
    intro q hp hq hF
    cases q with
    | mk c' ms' =>
      have hp' := (machine_canonical_mk c ms).mp hp
      have hq' := (machine_canonical_mk c' ms').mp hq
      have hc : c = c' := by
        apply hK c c' hp'.1 hq'.1
        have h1 := constantCoeff_formal (K := K) (Poly.mk c ms) hp.2.1
        have h2 := constantCoeff_formal (K := K) (Poly.mk c' ms') hq.2.1
        rw [hF, h2] at h1
        exact h1.symm
      subst hc
      have hsum := monomialSum_eq_of_formal_eq c ms ms' hF
      have hnz : ∀ (l : List Mono),
          (∀ m ∈ l, Machine.Canonical m.1 ∧ PolyIsZero m.1 = false ∧ (m.2 = 0 → m.1.constant = 0)) →
          ∀ m ∈ l, evalIn m.1 (MvPolynomial.X : Nat → MvPolynomial Nat K) ≠ 0 := by
        intro l hl m hm h0
        have hz := machine_eq_zero_of_formal_eq_zero hK m.1 (hl m hm).1 h0
        have hnz := (hl m hm).2.1
        rw [hz] at hnz
        simp [PolyZero, PolyIsZero] at hnz
      have hms : ms = ms' := by
        apply machine_monos_eq_of_sum_eq
          (fun m => evalIn m.1 (MvPolynomial.X : Nat → MvPolynomial Nat K)) ms ms'
          hp'.2.1 hq'.2.1 (hnz ms hp'.2.2) (hnz ms' hq'.2.2)
        · intro m hm m' hm' he hf
          have := ih m hm m'.1 (hp'.2.2 m hm).1 (hq'.2.2 m' hm').1 hf
          exact Prod.ext this he
        · exact hsum
      rw [hms]

/-- Two canonical polynomials with the same formal polynomial over the 64-bit
coefficients are `PolyIsEq`. -/
theorem machine_PolyIsEq_of_formal_eq {p q : Poly} (hp : Machine.Canonical p) (hq : Machine.Canonical q)
    (h : evalIn p (MvPolynomial.X : Nat → MvPolynomial Nat (ZMod (2 ^ 64)))
      = evalIn q MvPolynomial.X) : PolyIsEq p q = true :=
  (PolyIsEq_iff_eq p q).mpr (machine_eq_of_formal_eq coeff_injective_zmod p q hp hq h)

end Formal

/-! ## The two canonical forms on the exponents of the data model -/

theorem machine_expsAscending_iff {ms : List Mono} (h : ∀ m ∈ ms, m.2 ≤ INT_MAX) :
    Machine.ExpsAscending ms ↔ ExpsAscending ms := by
  unfold Machine.ExpsAscending ExpsAscending
  apply List.Pairwise.iff_of_mem
  intro a b ha hb
  obtain ⟨ma, hma, rfl⟩ := List.mem_map.mp ha
  obtain ⟨mb, hmb, rfl⟩ := List.mem_map.mp hb
  rw [expLt_of_le (h ma hma) (h mb hmb)]
  simp

/-- For exponents in `[0, INT_MAX]` the order of the `int`s is the order of the
natural numbers: the two ordering invariants are the same. -/
theorem machine_termsOrdered_iff_of_inRange : ∀ p : Poly, ExpsLe INT_MAX p →
    (Machine.TermsOrdered p ↔ TermsOrdered p) := by
  intro p
  induction p using Poly.induct with
  | h c ms ih =>
    intro hp
    rw [expsLe_mk] at hp
    rw [machine_termsOrdered_mk, termsOrdered_mk, machine_expsAscending_iff hp.1]
    constructor
    · rintro ⟨h1, h2, h3⟩
      exact ⟨h1, h2, fun m hm => (ih m hm (hp.2 m hm)).mp (h3 m hm)⟩
    · rintro ⟨h1, h2, h3⟩
      exact ⟨h1, h2, fun m hm => (ih m hm (hp.2 m hm)).mpr (h3 m hm)⟩

/-- A canonical polynomial with exponents in `[0, INT_MAX]` is in the canonical
form of the machine. -/
theorem machine_canonical_of_inRange {p : Poly} (hp : Canonical p) (he : ExpsLe INT_MAX p) :
    Machine.Canonical p :=
  ⟨(machine_termsOrdered_iff_of_inRange p he).mpr hp.1, hp.2.1, hp.2.2⟩

/-! ## Powers, `PolyAt` and `PolyCompose` of the machine keep the ordering -/

theorem machine_FastPolyPowLoop_keeps (I : Poly → Prop)
    (hmul : ∀ p q, I p → I q → I (Machine.PolyMul p q)) :
    ∀ (fuel : Nat) (result x : Poly) (n : Int), I result → I x →
      I (Machine.FastPolyPowLoop fuel result x n) := by
  intro fuel
  induction fuel with
  | zero => intro result x n h _; simpa [Machine.FastPolyPowLoop] using h
  | succ fuel ih =>
    intro result x n h hx
    unfold Machine.FastPolyPowLoop
    split_ifs with h0 h1
    · exact h
    · exact ih _ _ _ (hmul _ _ h hx) (hmul _ _ hx hx)
    · exact ih _ _ _ h (hmul _ _ hx hx)

theorem machine_termsOrdered_FastPolyPow {p : Poly} (hp : Machine.TermsOrdered p) (n : Nat) :
    Machine.TermsOrdered (Machine.FastPolyPow p n) := by
  unfold Machine.FastPolyPow
  split_ifs
  · exact machine_termsOrdered_const _
  · exact machine_FastPolyPowLoop_keeps Machine.TermsOrdered
      (fun _ _ => machine_termsOrdered_PolyMul) 32 _ _ _ (machine_termsOrdered_const _) hp

theorem machine_termsOrdered_PolyAt {p : Poly} (hp : Machine.TermsOrdered p) (x : Int) :
    Machine.TermsOrdered (Machine.PolyAt p x) := by
  have hl : ∀ (ms : List Mono) (acc : Poly), Machine.TermsOrdered acc →
      (∀ m ∈ ms, Machine.TermsOrdered m.1) →
      Machine.TermsOrdered (ms.foldl (fun result m => Machine.PolyAddInPlace result
        (Machine.PolyMul (PolyFromCoeff (Machine.FastCoeffPow x m.2)) m.1)) acc) := by
    intro ms
    induction ms with
    | nil => intro acc h _; simpa using h
    | cons a l ih =>
      intro acc h hl
      rw [List.foldl_cons]
      apply ih
      · exact machine_termsOrdered_PolyAddInPlace _ _ h
          (machine_termsOrdered_PolyMul (machine_termsOrdered_const _)
            (hl a (List.mem_cons_self _ _)))
      · exact fun m hm => hl m (List.mem_cons_of_mem _ hm)
  have h := hl p.first_mono PolyZero machine_termsOrdered_zero
    ((machine_termsOrdered_iff p).mp hp).2.2
  unfold Machine.PolyAt
  simp only
  rw [machine_termsOrdered_iff] at h
  rw [machine_termsOrdered_mk]
  exact h

theorem machine_termsOrdered_composeRec (count : Nat) (x : List Poly)
    (hx : ∀ q ∈ x, Machine.TermsOrdered q) (p : Poly) :
    ∀ k : Nat, Machine.TermsOrdered (Machine.composeRec count x k p) := by
  induction p using Poly.induct with
  | h c ms ih =>
    intro k
    rw [machine_composeRec_mk]
    split_ifs with hk
    · exact machine_termsOrdered_const _
    · have hl : ∀ (l : List Mono) (acc : Poly),
          (∀ m ∈ l, ∀ k, Machine.TermsOrdered (Machine.composeRec count x k m.1)) →
          Machine.TermsOrdered acc →
          Machine.TermsOrdered (Machine.composeMonos count x k acc l) := by
        intro l
        induction l with
        | nil => intro acc _ h; rw [machine_composeMonos_nil]; exact h
        | cons a l ihl =>
          intro acc h1 h
          rw [machine_composeMonos_cons]
          apply ihl _ (fun m hm => h1 m (List.mem_cons_of_mem _ hm))
          exact machine_termsOrdered_PolyAddInPlace _ _ h
            (machine_termsOrdered_PolyMul (h1 a (List.mem_cons_self _ _) _)
              (machine_termsOrdered_FastPolyPow
                (getD_forall machine_termsOrdered_zero hx k) _))
      exact hl ms _ ih (machine_termsOrdered_const _)

/-! ## The order of the array of `PolyMul` -/

section Ring

variable {R : Type} [CommRing R]

theorem evalMonosIn_flatMap_cons (h : Mono → Mono) (F : Mono → List Mono) (v : Nat → R) :
    ∀ qs : List Mono, evalMonosIn (qs.flatMap (fun mq => h mq :: F mq)) v
      = evalMonosIn (qs.map h) v + evalMonosIn (qs.flatMap F) v := by
  intro qs
  induction qs with
  | nil => simp
  | cons a l ih =>
    rw [List.flatMap_cons, List.map_cons, List.flatMap_cons, List.cons_append,
      evalMonosIn_cons, evalMonosIn_append, evalMonosIn_cons, evalMonosIn_append, ih]
    ring

theorem evalMonosIn_flatMap_nil (v : Nat → R) :
    ∀ qs : List Mono, evalMonosIn (qs.flatMap (fun _ => ([] : List Mono))) v = 0 := by
  intro qs
  induction qs with
  | nil => simp
  | cons a l ih => rw [List.flatMap_cons, List.nil_append, ih]

/-- The products of the monomials of two lists have the same sum of values in
either order of the two loops. -/
theorem evalMonosIn_flatMap_swap (g : Mono → Mono → Mono) (v : Nat → R) (qs : List Mono) :
    ∀ ps : List Mono, evalMonosIn (ps.flatMap (fun mp => qs.map (fun mq => g mp mq))) v
      = evalMonosIn (qs.flatMap (fun mq => ps.map (fun mp => g mp mq))) v := by
  intro ps
  induction ps with
  | nil =>
    simp only [List.flatMap_nil, List.map_nil, evalMonosIn_nil]
    exact (evalMonosIn_flatMap_nil v qs).symm
  | cons a l ih =>
    rw [List.flatMap_cons, evalMonosIn_append, ih]
    simp only [List.map_cons]
    rw [evalMonosIn_flatMap_cons (fun mq => g a mq) (fun mq => l.map (fun mp => g mp mq)) v qs]

end Ring

theorem expAdd_comm (a b : Nat) : expAdd a b = expAdd b a := by
  unfold expAdd
  rw [Nat.add_comm]

/-- `PolyMul` of the machine returns the same polynomial for the operands in
either order, for operands in the canonical form of the machine. -/
theorem machine_PolyMul_comm : ∀ p q : Poly, Machine.Canonical p → Machine.Canonical q →
    Machine.PolyMul p q = Machine.PolyMul q p := by
  apply PolyMul_induct
    (fun p q => Machine.Canonical p → Machine.Canonical q →
      Machine.PolyMul p q = Machine.PolyMul q p)
  intro p q h1 h2 h3 hp hq
  have hpc : ∀ m ∈ p.first_mono, Machine.Canonical m.1 := fun m hm =>
    ⟨((machine_termsOrdered_iff p).mp hp.1).2.2 m hm, ((zeroExpFolded_iff p).mp hp.2.1).2 m hm,
      ((coeffsInRange_iff p).mp hp.2.2).2 m hm⟩
  have hqc : ∀ m ∈ q.first_mono, Machine.Canonical m.1 := fun m hm =>
    ⟨((machine_termsOrdered_iff q).mp hq.1).2.2 m hm, ((zeroExpFolded_iff q).mp hq.2.1).2 m hm,
      ((coeffsInRange_iff q).mp hq.2.2).2 m hm⟩
  have hconst : ∀ r : Poly, Machine.Canonical r → Machine.Canonical (PolyFromCoeff r.constant) :=
    fun r hr => ⟨machine_termsOrdered_const _, zeroExpFolded_const _,
      coeffsInRange_const ((coeffsInRange_iff r).mp hr.2.2).1⟩
  have harr : ∀ (a b : Poly), Machine.Canonical a → Machine.Canonical b →
      ∀ m ∈ Machine.PolyMulArray a b, Machine.Canonical m.1 := by
    intro a b ha hb m hm
    have hac : ∀ m ∈ a.first_mono, Machine.Canonical m.1 := fun m hm =>
      ⟨((machine_termsOrdered_iff a).mp ha.1).2.2 m hm,
        ((zeroExpFolded_iff a).mp ha.2.1).2 m hm, ((coeffsInRange_iff a).mp ha.2.2).2 m hm⟩
    have hbc : ∀ m ∈ b.first_mono, Machine.Canonical m.1 := fun m hm =>
      ⟨((machine_termsOrdered_iff b).mp hb.1).2.2 m hm,
        ((zeroExpFolded_iff b).mp hb.2.1).2 m hm, ((coeffsInRange_iff b).mp hb.2.2).2 m hm⟩
    rcases machine_mem_mulArray hm with ⟨mp, hmp, mq, hmq, rfl⟩ | ⟨mp, hmp, rfl⟩ | ⟨mq, hmq, rfl⟩
    · exact machine_canonical_PolyMul (hac mp hmp) (hbc mq hmq)
    · exact machine_canonical_PolyMul (hac mp hmp) (hconst b hb)
    · exact machine_canonical_PolyMul (hbc mq hmq) (hconst a ha)
  have hsum : Machine.PolyAddMonos (Machine.PolyMulArray p q)
      = Machine.PolyAddMonos (Machine.PolyMulArray q p) := by
    apply machine_eq_of_formal_eq coeff_injective_zmod _ _
      (machine_canonical_PolyAddMonos _ (harr p q hp hq))
      (machine_canonical_PolyAddMonos _ (harr q p hq hp))
    rw [machine_evalIn_PolyAddMonos wrapsIn_formal, machine_evalIn_PolyAddMonos wrapsIn_formal]
    unfold Machine.PolyMulArray
    rw [evalMonosIn_append, evalMonosIn_append, evalMonosIn_append, evalMonosIn_append]
    have hcross : p.first_mono.flatMap (fun mp =>
          q.first_mono.map (fun mq => (Machine.PolyMul mp.1 mq.1, expAdd mp.2 mq.2)))
        = p.first_mono.flatMap (fun mp =>
          q.first_mono.map (fun mq => (Machine.PolyMul mq.1 mp.1, expAdd mq.2 mp.2))) := by
      apply List.flatMap_congr
      intro mp hmp
      apply List.map_congr_left
      intro mq hmq
      rw [h1 mp hmp mq hmq (hpc mp hmp) (hqc mq hmq), expAdd_comm]
    rw [hcross, evalMonosIn_flatMap_swap
      (fun mp mq => (Machine.PolyMul mq.1 mp.1, expAdd mq.2 mp.2)) _ q.first_mono p.first_mono]
    ring
  rw [machine_PolyMul_unfold p q, machine_PolyMul_unfold q p, hsum, mul_comm]

/-! ## The claims on the canonical form of the machine -/

/-- C5, the claim as stated fails: the operands `x0 + x0^2147483647` and `x0` have
exponents in `[0, INT_MAX]`, strictly ascending, and no zero coefficient; the
polynomial that `PolyMul` of the machine returns has the exponent -2147483648,
which is no exponent of the data model, and its exponents as `PolyPrint` writes
them, 2147483648 and then 2, do not ascend. -/
theorem machine_PolyMul_leaves_data_model :
    TermsOrdered (Poly.mk 0 [(Poly.mk 1 [], 1), (Poly.mk 1 [], 2147483647)])
      ∧ ExpsLe INT_MAX (Poly.mk 0 [(Poly.mk 1 [], 1), (Poly.mk 1 [], 2147483647)])
      ∧ TermsOrdered (Poly.mk 0 [(Poly.mk 1 [], 1)])
      ∧ ExpsLe INT_MAX (Poly.mk 0 [(Poly.mk 1 [], 1)])
      ∧ (Machine.PolyMul (Poly.mk 0 [(Poly.mk 1 [], 1), (Poly.mk 1 [], 2147483647)])
          (Poly.mk 0 [(Poly.mk 1 [], 1)])).first_mono.map (fun m => expInt m.2)
        = [-2147483648, 2]
      ∧ ¬ ExpsLe INT_MAX
          (Machine.PolyMul (Poly.mk 0 [(Poly.mk 1 [], 1), (Poly.mk 1 [], 2147483647)])
            (Poly.mk 0 [(Poly.mk 1 [], 1)]))
      ∧ ¬ TermsOrdered
          (Machine.PolyMul (Poly.mk 0 [(Poly.mk 1 [], 1), (Poly.mk 1 [], 2147483647)])
            (Poly.mk 0 [(Poly.mk 1 [], 1)]))
      ∧ PolyPrint (Machine.PolyMul (Poly.mk 0 [(Poly.mk 1 [], 1), (Poly.mk 1 [], 2147483647)])
            (Poly.mk 0 [(Poly.mk 1 [], 1)])) = "(1,2147483648)+(1,2)" := by
  refine ⟨by decide, by decide, by decide, by decide, by rfl, by decide, by decide, by decide⟩

/-- C5 as amended. As the engine compares exponents, as `int`s, the invariant is
kept by every operation: for every array of monomials whose coefficients have
strictly ascending exponents and no zero coefficient at every nesting level,
`PolyAddMonos` returns a polynomial with that property, and `PolyAdd`, `PolyMul`,
`PolyAt` and `PolyCompose` (which returns, `x` holding at least `count`
polynomials) return polynomials with the property when their operands have it.
The results stay in the data model, with exponents in `[0, INT_MAX]` that ascend
as natural numbers, when the operands are in it and no exponent can leave the
range: always for `PolyAddMonos`, `PolyAdd` and `PolyAt`, for `PolyMul` when the
bounds `a` and `b` on the exponents of `p` and `q` have `a + b <= INT_MAX`, and for
`PolyCompose` when `depth(p) * (a * b) <= INT_MAX`. -/
theorem machine_operations_keep_terms_ordered (monos : List Mono) (p q : Poly) (c : Int)
    (count : Nat) (x : List Poly) (a b : Nat)
    (hmonos : ∀ m ∈ monos, Machine.TermsOrdered m.1) (hp : Machine.TermsOrdered p)
    (hq : Machine.TermsOrdered q) (hlen : count ≤ x.length)
    (hx : ∀ r ∈ x, Machine.TermsOrdered r) :
    (Machine.TermsOrdered (Machine.PolyAddMonos monos)
      ∧ Machine.TermsOrdered (Machine.PolyAdd p q)
      ∧ Machine.TermsOrdered (Machine.PolyMul p q)
      ∧ Machine.TermsOrdered (Machine.PolyAt p c)
      ∧ ∃ r, Machine.PolyCompose p count x = .ok r ∧ Machine.TermsOrdered r)
    ∧ ((∀ m ∈ monos, m.2 ≤ INT_MAX ∧ ExpsLe INT_MAX m.1) → ExpsLe a p → ExpsLe b q →
        (∀ r ∈ x, ExpsLe b r) → a ≤ INT_MAX → b ≤ INT_MAX →
        (TermsOrdered (Machine.PolyAddMonos monos) ∧ ExpsLe INT_MAX (Machine.PolyAddMonos monos))
        ∧ (TermsOrdered (Machine.PolyAdd p q) ∧ ExpsLe INT_MAX (Machine.PolyAdd p q))
        ∧ (a + b ≤ INT_MAX →
            TermsOrdered (Machine.PolyMul p q) ∧ ExpsLe INT_MAX (Machine.PolyMul p q))
        ∧ (TermsOrdered (Machine.PolyAt p c) ∧ ExpsLe INT_MAX (Machine.PolyAt p c))
        ∧ (p.depth * (a * b) ≤ INT_MAX →
            ∃ r, Machine.PolyCompose p count x = .ok r ∧ TermsOrdered r
              ∧ ExpsLe INT_MAX r)) := by
  refine ⟨⟨machine_termsOrdered_PolyAddMonos monos hmonos,
    machine_termsOrdered_PolyAddInPlace q p hp hq, machine_termsOrdered_PolyMul hp hq,
    machine_termsOrdered_PolyAt hp c, Machine.composeRec count x 0 p,
    machine_PolyCompose_unfold p count x hlen,
    machine_termsOrdered_composeRec count x hx p 0⟩, ?_⟩
  intro hme hpa hqb hxb ha hb
  have hpe := expsLe_mono ha _ hpa
  have hqe := expsLe_mono hb _ hqb
  exact machine_operations_within_bounds monos p q c count x a b
    (fun m hm => ⟨(machine_termsOrdered_iff_of_inRange m.1 (hme m hm).2).mp (hmonos m hm),
      hme m hm⟩)
    ((machine_termsOrdered_iff_of_inRange p hpe).mp hp)
    ((machine_termsOrdered_iff_of_inRange q hqe).mp hq) hlen
    (fun r hr => ⟨(machine_termsOrdered_iff_of_inRange r
      (expsLe_mono hb _ (hxb r hr))).mp (hx r hr), hxb r hr⟩) hpa hqb ha hb

/-- Witness of the amended C5: the array `[(x1, 3), (7, 0), (-x1, 3)]`, the
operands `2 + x0 * (3 + x1^2)` and `x1 + 5 * x0`, the value 4 and the substitute
`1 + x0`. -/
theorem machine_operations_keep_terms_ordered_witness :
    (∀ m ∈ [(Poly.mk 0 [(Poly.mk 1 [], 1)], 3), (Poly.mk 7 [], 0),
        (Poly.mk 0 [(Poly.mk (-1) [], 1)], 3)], Machine.TermsOrdered m.1)
      ∧ Machine.TermsOrdered (Poly.mk 2 [(Poly.mk 3 [(Poly.mk 1 [], 2)], 1)])
      ∧ Machine.TermsOrdered
          (Poly.mk 0 [(Poly.mk 0 [(Poly.mk 1 [], 1)], 0), (Poly.mk 5 [], 1)])
      ∧ (∀ r ∈ [Poly.mk 1 [(Poly.mk 1 [], 1)]], Machine.TermsOrdered r)
      ∧ Machine.TermsOrdered (Machine.PolyAddMonos [(Poly.mk 0 [(Poly.mk 1 [], 1)], 3),
          (Poly.mk 7 [], 0), (Poly.mk 0 [(Poly.mk (-1) [], 1)], 3)])
      ∧ Machine.TermsOrdered (Machine.PolyAdd (Poly.mk 2 [(Poly.mk 3 [(Poly.mk 1 [], 2)], 1)])
          (Poly.mk 0 [(Poly.mk 0 [(Poly.mk 1 [], 1)], 0), (Poly.mk 5 [], 1)]))
      ∧ Machine.TermsOrdered (Machine.PolyMul (Poly.mk 2 [(Poly.mk 3 [(Poly.mk 1 [], 2)], 1)])
          (Poly.mk 0 [(Poly.mk 0 [(Poly.mk 1 [], 1)], 0), (Poly.mk 5 [], 1)]))
      ∧ Machine.TermsOrdered (Machine.PolyAt (Poly.mk 2 [(Poly.mk 3 [(Poly.mk 1 [], 2)], 1)]) 4)
      ∧ ∃ r, Machine.PolyCompose (Poly.mk 2 [(Poly.mk 3 [(Poly.mk 1 [], 2)], 1)]) 1
          [Poly.mk 1 [(Poly.mk 1 [], 1)]] = .ok r ∧ Machine.TermsOrdered r := by
  have h := machine_operations_keep_terms_ordered
    [(Poly.mk 0 [(Poly.mk 1 [], 1)], 3), (Poly.mk 7 [], 0), (Poly.mk 0 [(Poly.mk (-1) [], 1)], 3)]
    (Poly.mk 2 [(Poly.mk 3 [(Poly.mk 1 [], 2)], 1)])
    (Poly.mk 0 [(Poly.mk 0 [(Poly.mk 1 [], 1)], 0), (Poly.mk 5 [], 1)])
    4 1 [Poly.mk 1 [(Poly.mk 1 [], 1)]] 2 1
    (by decide) (by decide) (by decide) (Nat.le_refl 1) (by decide)
  exact ⟨by decide, by decide, by decide, by decide, h.1⟩

/-- C12: multiplication is commutative. For all polynomials `p` and `q` in the
canonical form of the machine (by `machine_canonical_of_inRange` every canonical
polynomial with exponents in `[0, INT_MAX]`, and also the polynomials with
wrapped exponents that the operations return),
`PolyIsEq(PolyMul(p, q), PolyMul(q, p))` is true. -/
theorem machine_PolyMul_commutative (p q : Poly) (hp : Machine.Canonical p)
    (hq : Machine.Canonical q) :
    PolyIsEq (Machine.PolyMul p q) (Machine.PolyMul q p) = true :=
  (PolyIsEq_iff_eq _ _).mpr (machine_PolyMul_comm p q hp hq)

/-- Witness of C12 at `x0 + x0^2147483647` and `x1 + 5 * x0`, whose product has
the exponent `2147483648`. -/
theorem machine_PolyMul_commutative_witness :
    Machine.Canonical (Poly.mk 0 [(Poly.mk 1 [], 1), (Poly.mk 1 [], 2147483647)])
      ∧ Machine.Canonical
          (Poly.mk 0 [(Poly.mk 0 [(Poly.mk 1 [], 1)], 0), (Poly.mk 5 [], 1)])
      ∧ PolyIsEq
          (Machine.PolyMul (Poly.mk 0 [(Poly.mk 1 [], 1), (Poly.mk 1 [], 2147483647)])
            (Poly.mk 0 [(Poly.mk 0 [(Poly.mk 1 [], 1)], 0), (Poly.mk 5 [], 1)]))
          (Machine.PolyMul (Poly.mk 0 [(Poly.mk 0 [(Poly.mk 1 [], 1)], 0), (Poly.mk 5 [], 1)])
            (Poly.mk 0 [(Poly.mk 1 [], 1), (Poly.mk 1 [], 2147483647)])) = true :=
  ⟨by decide, by decide, machine_PolyMul_commutative _ _ (by decide) (by decide)⟩

/-- C40, the claim as stated fails. The polynomial with the one term
`(1, 4294967294)` is what `PolyMul` of the machine returns for `x0^2147483647` and
itself, and is canonical; in its product with the canonical polynomial `x0^2` the
array of `PolyMul` holds the monomial with coefficient 1 and exponent
`4294967294 + 2` wrapped around to 0, the constant that `PolyAddMonos` folds out
of the array is 1, and overwriting it with `0 * 0` leaves the zero polynomial. -/
theorem machine_PolyMul_drops_constant :
    Machine.PolyMul (Poly.mk 0 [(Poly.mk 1 [], 2147483647)])
        (Poly.mk 0 [(Poly.mk 1 [], 2147483647)]) = Poly.mk 0 [(Poly.mk 1 [], 4294967294)]
      ∧ Canonical (Poly.mk 0 [(Poly.mk 1 [], 4294967294)])
      ∧ Machine.Canonical (Poly.mk 0 [(Poly.mk 1 [], 4294967294)])
      ∧ Canonical (Poly.mk 0 [(Poly.mk 1 [], 2)])
      ∧ Machine.PolyMulArray (Poly.mk 0 [(Poly.mk 1 [], 4294967294)])
          (Poly.mk 0 [(Poly.mk 1 [], 2)])
        = [(Poly.mk 1 [], 0), (Poly.mk 0 [], 4294967294), (Poly.mk 0 [], 2)]
      ∧ (Machine.PolyAddMonos (Machine.PolyMulArray (Poly.mk 0 [(Poly.mk 1 [], 4294967294)])
          (Poly.mk 0 [(Poly.mk 1 [], 2)]))).constant = 1
      ∧ Machine.PolyMul (Poly.mk 0 [(Poly.mk 1 [], 4294967294)])
          (Poly.mk 0 [(Poly.mk 1 [], 2)]) = PolyZero := by
  refine ⟨by rfl, by decide, by decide, by decide, by rfl, by rfl, by rfl⟩

/-- C40 as amended: overwriting the constant in `PolyMul` loses nothing for
operands of the data model. For all canonical `p` and `q` with exponents in
`[0, INT_MAX]`, every monomial with exponent 0 of the array that `PolyMul` passes
to `PolyAddMonos` has a coefficient with constant 0, the constant of the
polynomial that `PolyAddMonos` returns for this array is 0, `PolyMul(p, q)` is
that polynomial with the constant `p.constant * q.constant` (as a `poly_coeff_t`),
its exponent-0 term holds no constant, and its constant is the product of the
constant terms of `p` and `q` (their values with every variable at 0, which are
their constant fields). -/
theorem machine_PolyMul_constant_overwrite (p q : Poly) (hp : Canonical p) (hq : Canonical q)
    (hpe : ExpsLe INT_MAX p) (hqe : ExpsLe INT_MAX q) :
    (∀ m ∈ Machine.PolyMulArray p q, m.2 = 0 → m.1.constant = 0)
      ∧ (Machine.PolyAddMonos (Machine.PolyMulArray p q)).constant = 0
      ∧ Machine.PolyMul p q = Poly.mk (wrapCoeff (p.constant * q.constant))
          (Machine.PolyAddMonos (Machine.PolyMulArray p q)).first_mono
      ∧ ZeroExpFolded (Machine.PolyMul p q)
      ∧ value p (fun _ => 0) = p.constant
      ∧ value q (fun _ => 0) = q.constant
      ∧ (Machine.PolyMul p q).constant
          = wrapCoeff (value p (fun _ => 0) * value q (fun _ => 0)) := by
  have harr := machine_PolyMulArray_folded hp.2.1 hq.2.1 hpe hqe
  refine ⟨fun m hm => (harr m hm).2, machine_constant_PolyAddMonos _ harr,
    machine_PolyMul_unfold p q, machine_zeroExpFolded_PolyMul hp.2.1 hq.2.1,
    value_zero_assignment hp.2.1, value_zero_assignment hq.2.1, ?_⟩
  rw [machine_constant_PolyMul, value_zero_assignment hp.2.1, value_zero_assignment hq.2.1]

/-- Witness of the amended C40 at `p = 5 + (x1) * x0^0 + x0^2147483647` and
`q = 7 + x1 * x0^0 + x0^2147483647`, whose product holds the wrapped exponent
`4294967294`. -/
theorem machine_PolyMul_constant_overwrite_witness :
    Canonical (Poly.mk 5 [(Poly.mk 0 [(Poly.mk 1 [], 1)], 0), (Poly.mk 1 [], 2147483647)])
      ∧ Canonical (Poly.mk 7 [(Poly.mk 0 [(Poly.mk 1 [], 1)], 0), (Poly.mk 1 [], 2147483647)])
      ∧ ExpsLe INT_MAX
          (Poly.mk 5 [(Poly.mk 0 [(Poly.mk 1 [], 1)], 0), (Poly.mk 1 [], 2147483647)])
      ∧ ExpsLe INT_MAX
          (Poly.mk 7 [(Poly.mk 0 [(Poly.mk 1 [], 1)], 0), (Poly.mk 1 [], 2147483647)])
      ∧ (Machine.PolyAddMonos (Machine.PolyMulArray
            (Poly.mk 5 [(Poly.mk 0 [(Poly.mk 1 [], 1)], 0), (Poly.mk 1 [], 2147483647)])
            (Poly.mk 7 [(Poly.mk 0 [(Poly.mk 1 [], 1)], 0), (Poly.mk 1 [], 2147483647)]))
          ).constant = 0
      ∧ (Machine.PolyMul
            (Poly.mk 5 [(Poly.mk 0 [(Poly.mk 1 [], 1)], 0), (Poly.mk 1 [], 2147483647)])
            (Poly.mk 7 [(Poly.mk 0 [(Poly.mk 1 [], 1)], 0), (Poly.mk 1 [], 2147483647)])
          ).constant = 35 :=
  ⟨by decide, by decide, by decide, by decide,
    (machine_PolyMul_constant_overwrite _ _ (by decide) (by decide) (by decide)
      (by decide)).2.1, by rfl⟩

/-! ## The byte `0xFF` in a line -/

/-- C32 on the bytes of the input: on the rejected line `(1,2)x` that holds the
byte `0xFF` before its newline, `ReadPolynomial` reports the error at column 6
and `SkipLine` stops at the byte `0xFF`, which `ReadCharacter` takes for `EOF`:
the newline of the line and the byte before it stay unread, no line is counted
and the column is not reset. On the same line without that byte the reading goes
through the newline and leaves the next line unread. -/
theorem machine_ReadPolynomial_stops_before_newline :
    Machine.ReadPolynomial (InputStreamInit ("(1,2)x".toList ++ EOF :: "\n(3,4)\n".toList))
        = (PolyZero, ⟨EOF :: "\n(3,4)\n".toList, 6, 0, true, ["ERROR 1 6\n"]⟩) ∧
      Machine.SkipLine (InputStreamInit ("x".toList ++ EOF :: "\n(3,4)\n".toList))
        = ⟨EOF :: "\n(3,4)\n".toList, 1, 0, false, []⟩ ∧
      Machine.ReadPolynomial (InputStreamInit "(1,2)x\n(3,4)\n".toList)
        = (PolyZero, ⟨"(3,4)\n".toList, 0, 1, true, ["ERROR 1 6\n"]⟩) := by
  refine ⟨?_, ?_, ?_⟩ <;> rfl

/-! ## Multiplication of the machine distributes over addition

For operands of any exponents: the sum of two exponents may wrap around, and a
product term whose exponent wraps to 0 loses its constant in both members. -/

section Ring

variable {R : Type} [CommRing R]

/-- The merge loop of `PolyAddInPlace` adds up every function of the monomials
that is additive in the coefficient. -/
theorem machine_sum_mergeLoop (G : Poly → Nat → R) (qs : List Mono)
    (hadd : ∀ c q : Poly, ∀ e : Nat, ZeroExpFolded c → ZeroExpFolded q →
      G (Machine.PolyAddInPlace c q) e = G c e + G q e)
    (hq : ∀ m ∈ qs, ZeroExpFolded m.1) :
    ∀ ps : List Mono, (∀ m ∈ ps, ZeroExpFolded m.1) →
      ((Machine.mergeLoop ps qs).map (fun m => G m.1 m.2)).sum
        = (ps.map (fun m => G m.1 m.2)).sum + (qs.map (fun m => G m.1 m.2)).sum := by
  induction qs with
  | nil => intro ps _; simp [machine_mergeLoop_nil]
  | cons q qs ihq =>
    have ihq' := ihq (fun m hm => hq m (List.mem_cons_of_mem _ hm))
    have hq1 := hq q (List.mem_cons_self _ _)
    intro ps
    induction ps with
    | nil => intro _; simp [machine_mergeLoop_nil_cons]
    | cons p ps ihp =>
      intro hp
      have hp1 := hp p (List.mem_cons_self _ _)
      have hps : ∀ m ∈ ps, ZeroExpFolded m.1 := fun m hm => hp m (List.mem_cons_of_mem _ hm)
      rw [machine_mergeLoop_cons_cons]
      split_ifs with h1 h2
      · simp only [List.map_cons, List.sum_cons, ihp hps]
        ring
      · simp only [List.map_cons, List.sum_cons, ihq' (p :: ps) hp]
        ring
      · have he : p.2 = q.2 := expLt_trichotomy (by simpa using h1) (by simpa using h2)
        rw [ihq' _ (by
          intro m hm
          rcases List.mem_cons.mp hm with rfl | hm
          · exact machine_zeroExpFolded_PolyAddInPlace hp1 hq1
          · exact hps m hm)]
        simp only [List.map_cons, List.sum_cons, he, hadd p.1 q.1 q.2 hp1 hq1]
        ring

theorem sum_removeEmpty (G : Poly → Nat → R)
    (hzero : ∀ (x : Poly) (e : Nat), PolyIsZero x = true → G x e = 0) (ms : List Mono) :
    ((RemoveEmptyMonos ms).map (fun m => G m.1 m.2)).sum = (ms.map (fun m => G m.1 m.2)).sum := by
  induction ms with
  | nil => simp [RemoveEmptyMonos]
  | cons m rest ih =>
    unfold RemoveEmptyMonos at ih ⊢
    rw [List.filter_cons]
    by_cases hz : PolyIsZero m.1 = true
    · simp [hz, ih, hzero m.1 m.2 hz]
    · simp [hz, ih]

theorem foldFirstConstant_snd_of_folded (c : Int) {ms : List Mono}
    (h : ∀ m ∈ ms, m.2 = 0 → m.1.constant = 0) : (foldFirstConstant c ms).2 = ms := by
  match ms, h with
  | [], _ => simp [foldFirstConstant_nil]
  | (p, 0) :: rest, h =>
    rw [foldFirstConstant_zero]
    have h0 : p.constant = 0 := h (p, 0) (List.mem_cons_self _ _) rfl
    show (Poly.mk 0 p.first_mono, 0) :: rest = (p, 0) :: rest
    rw [← h0, Poly.eta]
  | (p, e + 1) :: rest, _ => rw [foldFirstConstant_pos _ _ _ _ (Nat.succ_ne_zero e)]

/-- The monomials of a sum add up every function that is additive in the
coefficient and 0 at the zero polynomial. -/
theorem machine_sum_PolyAddInPlace (G : Poly → Nat → R)
    (hadd : ∀ c q : Poly, ∀ e : Nat, ZeroExpFolded c → ZeroExpFolded q →
      G (Machine.PolyAddInPlace c q) e = G c e + G q e)
    (hzero : ∀ (x : Poly) (e : Nat), PolyIsZero x = true → G x e = 0)
    (p q : Poly) (hp : ZeroExpFolded p) (hq : ZeroExpFolded q) :
    ((Machine.PolyAddInPlace p q).first_mono.map (fun m => G m.1 m.2)).sum
      = (p.first_mono.map (fun m => G m.1 m.2)).sum
        + (q.first_mono.map (fun m => G m.1 m.2)).sum := by
  obtain ⟨pc, pms⟩ := p
  obtain ⟨qc, qms⟩ := q
  cases qms with
  | nil => simp [machine_PolyAddInPlace_nil]
  | cons q1 qs =>
    cases pms with
    | nil => simp [machine_PolyAddInPlace_nil_cons]
    | cons p1 ps =>
      rw [zeroExpFolded_mk] at hp hq
      have hadd' : ∀ q ∈ q1 :: qs, ∀ c : Poly,
          (ZeroExpFolded c ∧ (q.2 = 0 → c.constant = 0)) →
          (ZeroExpFolded (Machine.PolyAddInPlace c q.1)
            ∧ (q.2 = 0 → (Machine.PolyAddInPlace c q.1).constant = 0)) := by
        intro q hq' c hc
        refine ⟨machine_zeroExpFolded_PolyAddInPlace hc.1 (hq.2 q hq'), fun he => ?_⟩
        rw [machine_constant_PolyAddInPlace hc.1 (hq.2 q hq'), hc.2 he, hq.1 q hq' he]
        exact wrapCoeff_zero
      have hmerged := machine_mergeStart_forall
        (fun m => ZeroExpFolded m.1 ∧ (m.2 = 0 → m.1.constant = 0)) p1 q1 ps qs hadd'
        (fun m hm => ⟨hp.2 m hm, hp.1 m hm⟩) (fun m hm => ⟨hq.2 m hm, hq.1 m hm⟩)
      rw [machine_PolyAddInPlace_cons_cons, first_mono_mk, sum_removeEmpty G hzero,
        foldFirstConstant_snd_of_folded _ (fun m hm => (hmerged m hm).2)]
      split_ifs with h
      · rw [machine_sum_mergeLoop G qs hadd (fun m hm => hq.2 m (List.mem_cons_of_mem _ hm))
          (q1 :: p1 :: ps) (by
            intro m hm
            rcases List.mem_cons.mp hm with rfl | hm
            · exact hq.2 _ (List.mem_cons_self _ _)
            · exact hp.2 m hm)]
        simp only [List.map_cons, List.sum_cons, first_mono_mk]
        ring
      · rw [machine_sum_mergeLoop G (q1 :: qs) hadd hq.2 (p1 :: ps) hp.2]
        simp only [first_mono_mk]

theorem evalMonosIn_map_sum (f : Mono → Poly) (g : Mono → Nat) (v : Nat → R) (ms : List Mono) :
    evalMonosIn (ms.map (fun m => (f m, g m))) v
      = (ms.map (fun m => v 0 ^ g m * evalIn (f m) (fun i => v (i + 1)))).sum := by
  induction ms with
  | nil => simp [evalMonosIn_nil]
  | cons m rest ih => simp only [List.map_cons, evalMonosIn_cons, List.sum_cons, ih]

theorem evalMonosIn_flatMap_sum (F : Mono → List Mono) (v : Nat → R) (ps : List Mono) :
    evalMonosIn (ps.flatMap F) v = (ps.map (fun mp => evalMonosIn (F mp) v)).sum := by
  induction ps with
  | nil => simp [evalMonosIn_nil]
  | cons p rest ih =>
    rw [List.flatMap_cons, evalMonosIn_append, ih, List.map_cons, List.sum_cons]

theorem machine_mulArray_folded {p s : Poly} (hp : ZeroExpFolded p) (hs : ZeroExpFolded s) :
    ∀ m ∈ Machine.PolyMulArray p s, ZeroExpFolded m.1 := by
  have hpc := (zeroExpFolded_iff p).mp hp
  have hsc := (zeroExpFolded_iff s).mp hs
  intro m hm
  rcases machine_mem_mulArray hm with ⟨mp, hmp, mq, hmq, rfl⟩ | ⟨mp, hmp, rfl⟩ | ⟨mq, hmq, rfl⟩
  · exact machine_zeroExpFolded_PolyMul (hpc.2 mp hmp) (hsc.2 mq hmq)
  · exact machine_zeroExpFolded_PolyMul (hpc.2 mp hmp) (zeroExpFolded_const _)
  · exact machine_zeroExpFolded_PolyMul (hsc.2 mq hmq) (zeroExpFolded_const _)

/-- The value of a product of the machine: the product of the constants and the
value of the array that `PolyMul` passes to `PolyAddMonos`, less the constant
that `PolyAddMonos` folds out of the array, which `PolyMul` overwrites. -/
theorem machine_evalIn_PolyMul_array (hR : WrapsIn R) {p s : Poly} (hp : ZeroExpFolded p)
    (hs : ZeroExpFolded s) (v : Nat → R) :
    evalIn (Machine.PolyMul p s) v
      = (p.constant : R) * (s.constant : R) + evalMonosIn (Machine.PolyMulArray p s) v
        - evalMonosIn (Machine.PolyMulArray p s) (fun _ => 0) := by
  have hfold := machine_mulArray_folded hp hs
  have h1 := machine_evalIn_PolyAddMonos hR (Machine.PolyMulArray p s) v
  have h0 := machine_evalIn_PolyAddMonos hR (Machine.PolyMulArray p s) (fun _ => 0)
  have hz := evalIn_zero_assignment (R := R) (Machine.PolyAddMonos (Machine.PolyMulArray p s))
    (machine_zeroExpFolded_PolyAddMonos _ hfold)
  rw [evalIn_eq] at h1
  rw [machine_PolyMul_unfold, evalIn_mk, cast_wrapCoeff hR]
  push_cast
  linear_combination h1 + hz - h0

end Ring

section Ring

variable {R : Type} [CommRing R]

theorem evalMonosIn_zero_assignment {p : Poly} (hp : ZeroExpFolded p) :
    evalMonosIn p.first_mono (fun _ => (0 : R)) = 0 := by
  have h := evalIn_zero_assignment (R := R) p hp
  rw [evalIn_eq] at h
  linear_combination h

/-- The product with a polynomial without terms, for which no exponents are
added, has the product of the values. -/
theorem machine_evalIn_PolyMul_coeff (hR : WrapsIn R) :
    ∀ p q : Poly, (p.first_mono = [] ∨ q.first_mono = []) → ZeroExpFolded p → ZeroExpFolded q →
      ∀ v : Nat → R, evalIn (Machine.PolyMul p q) v = evalIn p v * evalIn q v := by
  apply PolyMul_induct
  intro p q _ h2 h3 hpq hp hq v
  have hpc := (zeroExpFolded_iff p).mp hp
  have hqc := (zeroExpFolded_iff q).mp hq
  have key : ∀ w : Nat → R, evalMonosIn (Machine.PolyMulArray p q) w
      = (q.constant : R) * evalMonosIn p.first_mono w
        + (p.constant : R) * evalMonosIn q.first_mono w := by
    intro w
    unfold Machine.PolyMulArray CloneMonosMultipliedByAConstant
    rw [evalMonosIn_append, evalMonosIn_append,
      evalMonosIn_map_scaled (fun m => Machine.PolyMul m.1 (PolyFromCoeff q.constant))
        (fun m => m.2) (q.constant : R) 1 w p.first_mono
        (fun m hm => by
          rw [h2 m hm (Or.inr rfl) (hpc.2 m hm) (zeroExpFolded_const _), evalIn_const])
        (fun m _ => by ring),
      evalMonosIn_map_scaled (fun m => Machine.PolyMul m.1 (PolyFromCoeff p.constant))
        (fun m => m.2) (p.constant : R) 1 w q.first_mono
        (fun m hm => by
          rw [h3 m hm (Or.inr rfl) (hqc.2 m hm) (zeroExpFolded_const _), evalIn_const])
        (fun m _ => by ring)]
    have hcross : evalMonosIn (p.first_mono.flatMap (fun mp => q.first_mono.map
        (fun mq => (Machine.PolyMul mp.1 mq.1, expAdd mp.2 mq.2)))) w = 0 := by
      rcases hpq with h | h
      · rw [h]; rfl
      · rw [h]
        exact evalMonosIn_flatMap_nil w _
    rw [hcross]
    ring
  rw [machine_evalIn_PolyMul_array hR hp hq, key v, key (fun _ => 0),
    evalMonosIn_zero_assignment hp, evalMonosIn_zero_assignment hq, evalIn_eq p, evalIn_eq q]
  rcases hpq with h | h
  · rw [h]; simp only [evalMonosIn_nil]; ring
  · rw [h]; simp only [evalMonosIn_nil]; ring

theorem first_mono_of_isZero {x : Poly} (h : PolyIsZero x = true) : x.first_mono = [] := by
  unfold PolyIsZero at h
  simp only [Bool.and_eq_true, List.isEmpty_iff] at h
  exact h.2

/-- The value of the array that `PolyMul` passes to `PolyAddMonos`. -/
theorem machine_evalMonosIn_mulArray (hR : WrapsIn R) {p s : Poly} (hp : ZeroExpFolded p)
    (hs : ZeroExpFolded s) (v : Nat → R) :
    evalMonosIn (Machine.PolyMulArray p s) v
      = (p.first_mono.map (fun mp => (s.first_mono.map (fun m =>
          v 0 ^ expAdd mp.2 m.2 * evalIn (Machine.PolyMul mp.1 m.1) (fun i => v (i + 1)))).sum)).sum
        + (s.constant : R) * evalMonosIn p.first_mono v
        + (p.constant : R) * evalMonosIn s.first_mono v := by
  have hpc := (zeroExpFolded_iff p).mp hp
  have hsc := (zeroExpFolded_iff s).mp hs
  unfold Machine.PolyMulArray CloneMonosMultipliedByAConstant
  rw [evalMonosIn_append, evalMonosIn_append,
    evalMonosIn_map_scaled (fun m => Machine.PolyMul m.1 (PolyFromCoeff s.constant))
      (fun m => m.2) (s.constant : R) 1 v p.first_mono
      (fun m hm => by
        rw [machine_evalIn_PolyMul_coeff hR m.1 (PolyFromCoeff s.constant) (Or.inr rfl)
          (hpc.2 m hm) (zeroExpFolded_const _), evalIn_const])
      (fun m _ => by ring),
    evalMonosIn_map_scaled (fun m => Machine.PolyMul m.1 (PolyFromCoeff p.constant))
      (fun m => m.2) (p.constant : R) 1 v s.first_mono
      (fun m hm => by
        rw [machine_evalIn_PolyMul_coeff hR m.1 (PolyFromCoeff p.constant) (Or.inr rfl)
          (hsc.2 m hm) (zeroExpFolded_const _), evalIn_const])
      (fun m _ => by ring),
    evalMonosIn_flatMap_sum]
  have hin : ∀ mp : Mono, evalMonosIn (s.first_mono.map
      (fun mq => (Machine.PolyMul mp.1 mq.1, expAdd mp.2 mq.2))) v
      = (s.first_mono.map (fun m =>
          v 0 ^ expAdd mp.2 m.2 * evalIn (Machine.PolyMul mp.1 m.1) (fun i => v (i + 1)))).sum :=
    fun mp => evalMonosIn_map_sum (fun mq => Machine.PolyMul mp.1 mq.1)
      (fun mq => expAdd mp.2 mq.2) v s.first_mono
  simp only [hin]
  ring

end Ring

section Ring

variable {R : Type} [CommRing R]

theorem zeroExpFolded_of_isZero {x : Poly} (h : PolyIsZero x = true) : ZeroExpFolded x := by
  rw [zeroExpFolded_iff, first_mono_of_isZero h]
  exact ⟨fun m hm => absurd hm (List.not_mem_nil _), fun m hm => absurd hm (List.not_mem_nil _)⟩

/-- The value of the product with a sum, for operands of any exponents: the
sum of the values of the products, as polynomials whose exponents are the
32-bit patterns. -/
theorem machine_evalIn_PolyMul_add (hR : WrapsIn R) :
    ∀ p : Poly, ZeroExpFolded p → ∀ q r : Poly, ZeroExpFolded q → ZeroExpFolded r →
      ∀ v : Nat → R, evalIn (Machine.PolyMul p (Machine.PolyAddInPlace q r)) v
        = evalIn (Machine.PolyMul p q) v + evalIn (Machine.PolyMul p r) v := by
  intro p
  induction p using Poly.induct with
  | h pc pms ih =>
    intro hp q r hq hr v
    have hpc := (zeroExpFolded_mk pc pms).mp hp
    have hs := machine_zeroExpFolded_PolyAddInPlace hq hr
    have hcs := machine_constant_PolyAddInPlace hq hr
    have key : ∀ w : Nat → R,
        evalMonosIn (Machine.PolyMulArray (Poly.mk pc pms) (Machine.PolyAddInPlace q r)) w
          = evalMonosIn (Machine.PolyMulArray (Poly.mk pc pms) q) w
            + evalMonosIn (Machine.PolyMulArray (Poly.mk pc pms) r) w := by
      intro w
      rw [machine_evalMonosIn_mulArray hR hp hs, machine_evalMonosIn_mulArray hR hp hq,
        machine_evalMonosIn_mulArray hR hp hr, hcs, cast_wrapCoeff hR]
      have hcross : ∀ mp ∈ pms,
          ((Machine.PolyAddInPlace q r).first_mono.map (fun m =>
            w 0 ^ expAdd mp.2 m.2
              * evalIn (Machine.PolyMul mp.1 m.1) (fun i => w (i + 1)))).sum
          = (q.first_mono.map (fun m =>
              w 0 ^ expAdd mp.2 m.2
                * evalIn (Machine.PolyMul mp.1 m.1) (fun i => w (i + 1)))).sum
            + (r.first_mono.map (fun m =>
              w 0 ^ expAdd mp.2 m.2
                * evalIn (Machine.PolyMul mp.1 m.1) (fun i => w (i + 1)))).sum := by
        intro mp hmp
        refine machine_sum_PolyAddInPlace
          (fun x e => w 0 ^ expAdd mp.2 e * evalIn (Machine.PolyMul mp.1 x) (fun i => w (i + 1)))
          ?_ ?_ q r hq hr
        · intro c x e hc hx
          show w 0 ^ expAdd mp.2 e
              * evalIn (Machine.PolyMul mp.1 (Machine.PolyAddInPlace c x)) (fun i => w (i + 1))
            = w 0 ^ expAdd mp.2 e * evalIn (Machine.PolyMul mp.1 c) (fun i => w (i + 1))
              + w 0 ^ expAdd mp.2 e * evalIn (Machine.PolyMul mp.1 x) (fun i => w (i + 1))
          rw [ih mp hmp (hpc.2 mp hmp) c x hc hx]
          ring
        · intro x e hx
          show w 0 ^ expAdd mp.2 e * evalIn (Machine.PolyMul mp.1 x) (fun i => w (i + 1)) = 0
          rw [machine_evalIn_PolyMul_coeff hR mp.1 x (Or.inr (first_mono_of_isZero hx))
            (hpc.2 mp hmp) (zeroExpFolded_of_isZero hx), evalIn_of_isZero hx]
          ring
      have hsum : evalMonosIn (Machine.PolyAddInPlace q r).first_mono w
          = evalMonosIn q.first_mono w + evalMonosIn r.first_mono w := by
        have h := machine_evalIn_PolyAddInPlace hR r q w
        rw [evalIn_eq, evalIn_eq q, evalIn_eq r, hcs, cast_wrapCoeff hR] at h
        push_cast at h
        linear_combination h
      rw [first_mono_mk, List.map_congr_left hcross, List.sum_map_add, hsum]
      push_cast
      ring
    rw [machine_evalIn_PolyMul_array hR hp hs, machine_evalIn_PolyMul_array hR hp hq,
      machine_evalIn_PolyMul_array hR hp hr, key v, key (fun _ => 0), hcs, cast_wrapCoeff hR]
    push_cast
    ring

end Ring

/-- C14: multiplication distributes over addition. For all polynomials `p`, `q`
and `r` in the canonical form of the machine (by `machine_canonical_of_inRange`
every canonical polynomial with exponents in `[0, INT_MAX]`, and also the
polynomials with wrapped exponents that the operations return),
`PolyIsEq(PolyMul(p, PolyAdd(q, r)), PolyAdd(PolyMul(p, q), PolyMul(p, r)))` is
true. -/
theorem machine_PolyMul_distributes (p q r : Poly) (hp : Machine.Canonical p)
    (hq : Machine.Canonical q) (hr : Machine.Canonical r) :
    PolyIsEq (Machine.PolyMul p (Machine.PolyAdd q r))
      (Machine.PolyAdd (Machine.PolyMul p q) (Machine.PolyMul p r)) = true := by
  unfold Machine.PolyAdd
  apply machine_PolyIsEq_of_formal_eq
    (machine_canonical_PolyMul hp (machine_canonical_PolyAddInPlace hq hr))
    (machine_canonical_PolyAddInPlace (machine_canonical_PolyMul hp hq)
      (machine_canonical_PolyMul hp hr))
  rw [machine_evalIn_PolyMul_add wrapsIn_formal p hp.2.1 q r hq.2.1 hr.2.1,
    machine_evalIn_PolyAddInPlace wrapsIn_formal]

/-- Witness of C14 at the polynomial with the one term `(1, 4294967294)`, which
`PolyMul` returns for `x0^2147483647` and itself, at `x1 + 5 * x0^2` and at
`-3 - x0^2 + x0^4`: the exponent of the product with `x0^2` wraps around to 0. -/
theorem machine_PolyMul_distributes_witness :
    Machine.Canonical (Poly.mk 0 [(Poly.mk 1 [], 4294967294)])
      ∧ Machine.Canonical (Poly.mk 0 [(Poly.mk 0 [(Poly.mk 1 [], 1)], 0), (Poly.mk 5 [], 2)])
      ∧ Machine.Canonical (Poly.mk (-3) [(Poly.mk (-1) [], 2), (Poly.mk 1 [], 4)])
      ∧ PolyIsEq
          (Machine.PolyMul (Poly.mk 0 [(Poly.mk 1 [], 4294967294)])
            (Machine.PolyAdd (Poly.mk 0 [(Poly.mk 0 [(Poly.mk 1 [], 1)], 0), (Poly.mk 5 [], 2)])
              (Poly.mk (-3) [(Poly.mk (-1) [], 2), (Poly.mk 1 [], 4)])))
          (Machine.PolyAdd
            (Machine.PolyMul (Poly.mk 0 [(Poly.mk 1 [], 4294967294)])
              (Poly.mk 0 [(Poly.mk 0 [(Poly.mk 1 [], 1)], 0), (Poly.mk 5 [], 2)]))
            (Machine.PolyMul (Poly.mk 0 [(Poly.mk 1 [], 4294967294)])
              (Poly.mk (-3) [(Poly.mk (-1) [], 2), (Poly.mk 1 [], 4)]))) = true :=
  ⟨by decide, by decide, by decide,
    machine_PolyMul_distributes _ _ _ (by decide) (by decide) (by decide)⟩

/-! ## The readers on a line without the byte `0xFF`

On a stream in which a newline comes before every byte `0xFF`, the functions of
`Machine` that read the input return what the functions of the same names outside
`Machine` return. -/

theorem newline_ne_EOF : '\n' ≠ EOF := by decide

theorem lineReadable_cons {c : Char} {rest : List Char} (h : lineReadable (c :: rest) = true) :
    c ≠ EOF ∧ (c ≠ '\n' → lineReadable rest = true) := by
  simp only [lineReadable, Bool.or_eq_true, beq_iff_eq, Bool.and_eq_true, bne_iff_ne, ne_eq] at h
  rcases h with h | h
  · subst h
    exact ⟨newline_ne_EOF, fun hc => absurd rfl hc⟩
  · exact ⟨h.1, fun _ => h.2⟩

theorem lineReadable_cases {u : List Char} (h : lineReadable u = true) :
    ∃ c rest, u = c :: rest ∧ c ≠ EOF ∧ (c ≠ '\n' → lineReadable rest = true) := by
  cases u with
  | nil => cases h
  | cons c rest => exact ⟨c, rest, rfl, lineReadable_cons h⟩

theorem lineReadable_of_line (l rest : List Char) (hl : EOF ∉ l) :
    lineReadable (l ++ '\n' :: rest) = true := by
  induction l with
  | nil => simp [lineReadable]
  | cons c l ih =>
    have hc : c ≠ EOF := fun h => hl (by simp [h])
    have hl2 : EOF ∉ l := fun h => hl (List.mem_cons_of_mem _ h)
    simp [lineReadable, hc, ih hl2]

theorem machine_PeekCharacter_eq {s : InputStream} (h : lineReadable s.unread = true) :
    Machine.PeekCharacter s = PeekCharacter s := by
  obtain ⟨u, col, line, pe, err⟩ := s
  obtain ⟨c, rest, rfl, hc, _⟩ := lineReadable_cases h
  simp [Machine.PeekCharacter, PeekCharacter, hc]

theorem machine_ReadCharacter_eq {s : InputStream} (h : lineReadable s.unread = true) :
    Machine.ReadCharacter s = ReadCharacter s := by
  unfold Machine.ReadCharacter ReadCharacter
  rw [machine_PeekCharacter_eq h]

theorem PeekCharacter_unread (s : InputStream) : (PeekCharacter s).2.unread = s.unread := rfl

theorem PeekCharacter_fst (s : InputStream) : (PeekCharacter s).1 = s.unread.head? := rfl

theorem lineReadable_ReadCharacter {s : InputStream} (h : lineReadable s.unread = true)
    (hc : s.unread.head? ≠ some '\n') : lineReadable (ReadCharacter s).2.unread = true := by
  obtain ⟨u, col, line, pe, err⟩ := s
  obtain ⟨c, rest, rfl, _, hrest⟩ := lineReadable_cases h
  have hne : c ≠ '\n' := fun hh => hc (by simp [hh])
  rw [ReadCharacter_cons hne]
  exact hrest hne

theorem machine_SkipLineLoop_eq : ∀ (u : List Char) (fuel col line : Nat) (pe : Bool)
    (err : List String), lineReadable u = true → u.length < fuel →
    Machine.SkipLineLoop fuel ⟨u, col, line, pe, err⟩ = SkipLineLoop u ⟨u, col, line, pe, err⟩ := by
  intro u
  induction u with
  | nil => intro fuel col line pe err h; cases h
  | cons c rest ih =>
    intro fuel col line pe err h hf
    obtain ⟨hc, hrest⟩ := lineReadable_cons h
    obtain ⟨f, rfl⟩ : ∃ f, fuel = f + 1 := ⟨fuel - 1, by omega⟩
    have hm : Machine.ReadCharacter ⟨c :: rest, col, line, pe, err⟩
        = ReadCharacter ⟨c :: rest, col, line, pe, err⟩ := machine_ReadCharacter_eq h
    rw [Machine.SkipLineLoop, SkipLineLoop, hm]
    by_cases hn : c = '\n'
    · subst hn
      rw [ReadCharacter_newline]
      simp
    · rw [ReadCharacter_cons hn]
      simp only [hn, if_false]
      exact ih f (col + 1) line false err (hrest hn) (by simp at hf; omega)

theorem machine_SkipLine_eq {s : InputStream} (h : lineReadable s.unread = true) :
    Machine.SkipLine s = SkipLine s := by
  obtain ⟨u, col, line, pe, err⟩ := s
  exact machine_SkipLineLoop_eq u (u.length + 1) col line pe err h (Nat.lt_succ_self _)

theorem machine_reportError_eq {s : InputStream} (h : lineReadable s.unread = true)
    (message : String) : Machine.reportError s message = reportError s message := by
  unfold Machine.reportError reportError
  have h2 : lineReadable ({ s with stderr := s.stderr ++ [message] } : InputStream).unread = true := h
  simp only [machine_SkipLine_eq h2]

theorem machine_parsePolyFail_eq {s : InputStream} (h : lineReadable s.unread = true) :
    Machine.parsePolyFail s = parsePolyFail s := by
  unfold Machine.parsePolyFail parsePolyFail
  rw [machine_reportError_eq h]

theorem digit_ne_newline {c : Char} (h : IsValidDigit (some c) = true) : c ≠ '\n' := by
  rintro rfl
  revert h
  decide

theorem machine_ReadDigitsIntoAnArray_eq : ∀ (room : Nat) (s : InputStream),
    lineReadable s.unread = true →
    Machine.ReadDigitsIntoAnArray room s = ReadDigitsIntoAnArray room s ∧
      lineReadable (ReadDigitsIntoAnArray room s).2.unread = true := by
  intro room
  induction room with
  | zero =>
    intro s h
    rw [Machine.ReadDigitsIntoAnArray, ReadDigitsIntoAnArray, machine_PeekCharacter_eq h]
    exact ⟨rfl, h⟩
  | succ room ih =>
    intro s h
    obtain ⟨u, col, line, pe, err⟩ := s
    obtain ⟨c, rest, rfl, hc, hrest⟩ := lineReadable_cases h
    rw [Machine.ReadDigitsIntoAnArray, ReadDigitsIntoAnArray, machine_PeekCharacter_eq h,
      PeekCharacter_mk]
    simp only [List.head?_cons]
    by_cases hd : IsValidDigit (some c) = true
    · have hn : c ≠ '\n' := digit_ne_newline hd
      have h1 : lineReadable (⟨c :: rest, col, line, false, err⟩ : InputStream).unread = true := h
      simp only [hd, if_true, machine_ReadCharacter_eq h1, ReadCharacter_cons hn]
      obtain ⟨e1, e2⟩ := ih ⟨rest, col + 1, line, false, err⟩ (hrest hn)
      rw [e1]
      exact ⟨rfl, e2⟩
    · simp only [hd]
      exact ⟨rfl, h⟩

theorem lineReadable_minus {s : InputStream} (h : lineReadable s.unread = true) (negative : Bool)
    (hneg : negative = ((PeekCharacter s).1 == some '-')) :
    lineReadable (if negative = true then (ReadCharacter (PeekCharacter s).2).2
      else (PeekCharacter s).2).unread = true := by
  cases negative with
  | false => exact h
  | true =>
    simp only [if_true]
    apply lineReadable_ReadCharacter
    · exact h
    · have hm : (PeekCharacter s).1 = some '-' := by
        have := hneg.symm
        simpa using this
      rw [PeekCharacter_unread, ← PeekCharacter_fst, hm]
      decide

theorem machine_ReadValueOrCoefficient_eq (s : InputStream) (isValue : Bool)
    (h : lineReadable s.unread = true) :
    Machine.ReadValueOrCoefficient s isValue = ReadValueOrCoefficient s isValue := by
  have h0 : lineReadable (PeekCharacter s).2.unread = true := h
  have h1 := lineReadable_minus h ((PeekCharacter s).1 == some '-') rfl
  obtain ⟨e2, h2⟩ := machine_ReadDigitsIntoAnArray_eq MAX_VALUE_AND_COEFF_LENGTH _ h1
  unfold Machine.ReadValueOrCoefficient ReadValueOrCoefficient
  simp only [machine_PeekCharacter_eq h, machine_ReadCharacter_eq h0, e2]
  generalize hr : ReadDigitsIntoAnArray MAX_VALUE_AND_COEFF_LENGTH
    (if ((PeekCharacter s).1 == some '-') = true then (ReadCharacter (PeekCharacter s).2).2
      else (PeekCharacter s).2) = r at h2
  obtain ⟨value, st⟩ := r
  have h3 : lineReadable (PeekCharacter st).2.unread = true := h2
  simp only [machine_PeekCharacter_eq h2, machine_reportError_eq h3]

theorem lineReadable_ReadValueOrCoefficient (s : InputStream) (isValue : Bool)
    (h : lineReadable s.unread = true)
    (hok : (ReadValueOrCoefficient s isValue).2.parse_error = false) :
    lineReadable (ReadValueOrCoefficient s isValue).2.unread = true := by
  have h1 := lineReadable_minus h ((PeekCharacter s).1 == some '-') rfl
  obtain ⟨_, h2⟩ := machine_ReadDigitsIntoAnArray_eq MAX_VALUE_AND_COEFF_LENGTH _ h1
  unfold ReadValueOrCoefficient at hok ⊢
  dsimp only at hok ⊢
  generalize hr : ReadDigitsIntoAnArray MAX_VALUE_AND_COEFF_LENGTH
    (if ((PeekCharacter s).1 == some '-') = true then (ReadCharacter (PeekCharacter s).2).2
      else (PeekCharacter s).2) = r at h2 hok ⊢
  obtain ⟨value, st⟩ := r
  simp only at hok ⊢
  split_ifs at hok ⊢
  all_goals first
    | exact h2
    | (rw [reportError_parse_error] at hok; cases hok)

theorem machine_ReadExponent_eq (s : InputStream) (h : lineReadable s.unread = true) :
    Machine.ReadExponent s = ReadExponent s := by
  have h0 : lineReadable (PeekCharacter s).2.unread = true := h
  have h1 := lineReadable_minus h ((PeekCharacter s).1 == some '-') rfl
  obtain ⟨e2, h2⟩ := machine_ReadDigitsIntoAnArray_eq MAX_EXPONENT_LENGTH _ h1
  unfold Machine.ReadExponent ReadExponent
  simp only [machine_PeekCharacter_eq h, machine_ReadCharacter_eq h0, e2]
  generalize hr : ReadDigitsIntoAnArray MAX_EXPONENT_LENGTH
    (if ((PeekCharacter s).1 == some '-') = true then (ReadCharacter (PeekCharacter s).2).2
      else (PeekCharacter s).2) = r at h2
  obtain ⟨value, st⟩ := r
  simp only [machine_reportError_eq h2]

theorem lineReadable_ReadExponent (s : InputStream) (h : lineReadable s.unread = true)
    (hok : (ReadExponent s).2.parse_error = false) :
    lineReadable (ReadExponent s).2.unread = true := by
  have h1 := lineReadable_minus h ((PeekCharacter s).1 == some '-') rfl
  obtain ⟨_, h2⟩ := machine_ReadDigitsIntoAnArray_eq MAX_EXPONENT_LENGTH _ h1
  unfold ReadExponent at hok ⊢
  dsimp only at hok ⊢
  generalize hr : ReadDigitsIntoAnArray MAX_EXPONENT_LENGTH
    (if ((PeekCharacter s).1 == some '-') = true then (ReadCharacter (PeekCharacter s).2).2
      else (PeekCharacter s).2) = r at h2 hok ⊢
  obtain ⟨value, st⟩ := r
  simp only at hok ⊢
  split_ifs at hok ⊢
  all_goals first
    | exact h2
    | (rw [reportError_parse_error] at hok; cases hok)

theorem ReadExponent_le (s : InputStream) (hok : (ReadExponent s).2.parse_error = false) :
    (ReadExponent s).1 ≤ INT_MAX := by
  obtain ⟨u, col, line, pe, err⟩ := s
  obtain ⟨negative, ds, rest, rfl, hds, hrest, hneg⟩ := literal_decomposition u
  obtain ⟨hiff, hres, _⟩ := ReadExponent_accept negative ds rest hds hrest hneg col line pe err
  rw [hres hok]
  have hcond := (hiff.mp hok).2.2
  refine decimalValue_le_unsigned_bound INT_MAX (by decide) _ ?_ ?_ hcond
  · intro d hd
    exact hds d (List.mem_of_mem_take hd)
  · rw [List.length_take]
    exact Nat.min_le_left _ _

theorem machine_CollapseMonoStackIntoAPoly_eq {top : List Mono}
    (htop : ∀ m ∈ top, m.2 ≤ INT_MAX ∧ ExpsLe INT_MAX m.1) :
    Machine.CollapseMonoStackIntoAPoly top = CollapseMonoStackIntoAPoly top := by
  unfold Machine.CollapseMonoStackIntoAPoly CollapseMonoStackIntoAPoly
  rw [machine_PolyAddMonos_eq top.reverse (fun m hm => htop m (List.mem_reverse.mp hm))]

theorem expsLe_CollapseMonoStackIntoAPoly {top : List Mono}
    (htop : ∀ m ∈ top, m.2 ≤ INT_MAX ∧ ExpsLe INT_MAX m.1) :
    ExpsLe INT_MAX (CollapseMonoStackIntoAPoly top) := by
  unfold CollapseMonoStackIntoAPoly
  split_ifs
  · exact expsLe_zero _
  · exact expsLe_PolyAddMonos _ _ (fun m hm => htop m (List.mem_reverse.mp hm))

theorem head_ne_newline {s : InputStream} {c : Char} (hc : c ≠ '\n')
    (h : ((PeekCharacter s).1 == some c) = true) :
    (PeekCharacter s).2.unread.head? ≠ some '\n' := by
  rw [PeekCharacter_unread, ← PeekCharacter_fst]
  rw [beq_iff_eq] at h
  rw [h]
  intro hh
  exact hc (Option.some.inj hh)

theorem machine_ReadPolynomialLoop_eq : ∀ (fuel : Nat) (s : InputStream) (e : Bool)
    (top : List Mono) (below : List (List Mono)),
    lineReadable s.unread = true →
    (∀ m ∈ top, m.2 ≤ INT_MAX ∧ ExpsLe INT_MAX m.1) →
    (∀ l ∈ below, ∀ m ∈ l, m.2 ≤ INT_MAX ∧ ExpsLe INT_MAX m.1) →
    Machine.ReadPolynomialLoop fuel s e top below = ReadPolynomialLoop fuel s e top below := by
  intro fuel
  induction fuel with
  | zero => intros; rfl
  | succ fuel ih =>
    intro s e top below h htop hbelow
    have h0 : lineReadable (PeekCharacter s).2.unread = true := h
    rw [Machine.ReadPolynomialLoop, ReadPolynomialLoop]
    simp only [machine_PeekCharacter_eq h]
    by_cases c1 : ((PeekCharacter s).1 == some '\n') = true
    · simp only [if_pos c1, machine_CollapseMonoStackIntoAPoly_eq htop,
        machine_ReadCharacter_eq h0, machine_parsePolyFail_eq h0]
    · simp only [if_neg c1]
      by_cases c2 : ((PeekCharacter s).1 == some '(') = true
      · have hr : lineReadable (ReadCharacter (PeekCharacter s).2).2.unread = true :=
          lineReadable_ReadCharacter h0 (head_ne_newline (by decide) c2)
        have hr2 : lineReadable
            (PeekCharacter (ReadCharacter (PeekCharacter s).2).2).2.unread = true := hr
        simp only [if_pos c2, machine_ReadCharacter_eq h0, machine_PeekCharacter_eq hr]
        split_ifs
        · exact ih _ _ _ _ hr2 (fun m hm => absurd hm (List.not_mem_nil m))
            (fun l hl => by
              rcases List.mem_cons.mp hl with rfl | hl
              · exact htop
              · exact hbelow l hl)
        · exact machine_parsePolyFail_eq hr2
      · simp only [if_neg c2]
        by_cases c3 : (IsValidNumberCharacter (PeekCharacter s).1 && e == false) = true
        · simp only [if_pos c3]
          unfold Machine.ReadPolyCoefficient ReadPolyCoefficient
          rw [machine_ReadValueOrCoefficient_eq _ _ h0]
          have hpost := lineReadable_ReadValueOrCoefficient (PeekCharacter s).2 false h0
          generalize ReadValueOrCoefficient (PeekCharacter s).2 false = r at hpost ⊢
          obtain ⟨coeff, st⟩ := r
          simp only
          by_cases hpe : st.parse_error = true
          · simp only [hpe, if_true]
          · have hst := hpost (by simpa using hpe)
            simp only [if_neg hpe]
            split_ifs
            · refine ih st e _ below hst (fun m hm => ?_) hbelow
              rcases List.mem_cons.mp hm with rfl | hm
              · exact ⟨Nat.zero_le _, expsLe_const _ _⟩
              · exact htop m hm
            · exact ih st e top below hst htop hbelow
        · simp only [if_neg c3]
          by_cases c4 : ((PeekCharacter s).1 == some ',' && e == false
              && decide (below.length + 1 > 1)) = true
          · have hcomma : ((PeekCharacter s).1 == some ',') = true := by
              simp only [Bool.and_eq_true] at c4
              exact c4.1.1
            have hr : lineReadable (ReadCharacter (PeekCharacter s).2).2.unread = true :=
              lineReadable_ReadCharacter h0 (head_ne_newline (by decide) hcomma)
            simp only [if_pos c4, machine_ReadCharacter_eq h0]
            rw [machine_ReadExponent_eq _ hr]
            have hpost := lineReadable_ReadExponent _ hr
            have hle := ReadExponent_le (ReadCharacter (PeekCharacter s).2).2
            generalize ReadExponent (ReadCharacter (PeekCharacter s).2).2 = r at hpost hle ⊢
            obtain ⟨exponent, st⟩ := r
            simp only
            by_cases hpe : st.parse_error = true
            · simp only [hpe, if_true]
            · have hok : st.parse_error = false := by simpa using hpe
              have hst : lineReadable st.unread = true := hpost hok
              have hex : exponent ≤ INT_MAX := hle hok
              simp only [if_neg hpe]
              cases below with
              | nil => exact machine_parsePolyFail_eq hst
              | cons next below =>
                have hst0 : lineReadable (PeekCharacter st).2.unread = true := hst
                simp only [machine_CollapseMonoStackIntoAPoly_eq htop, machine_PeekCharacter_eq hst]
                have htop2 : ∀ m ∈ (if (!PolyIsZero (CollapseMonoStackIntoAPoly top)) = true
                    then MonoFromPoly (CollapseMonoStackIntoAPoly top) exponent :: next else next),
                    m.2 ≤ INT_MAX ∧ ExpsLe INT_MAX m.1 := by
                  intro m hm
                  have hnext := hbelow next (List.mem_cons_self _ _)
                  split_ifs at hm
                  · rcases List.mem_cons.mp hm with rfl | hm
                    · exact ⟨hex, expsLe_CollapseMonoStackIntoAPoly htop⟩
                    · exact hnext m hm
                  · exact hnext m hm
                have hbelow2 : ∀ l ∈ below, ∀ m ∈ l, m.2 ≤ INT_MAX ∧ ExpsLe INT_MAX m.1 :=
                  fun l hl => hbelow l (List.mem_cons_of_mem _ hl)
                generalize (if (!PolyIsZero (CollapseMonoStackIntoAPoly top)) = true
                    then MonoFromPoly (CollapseMonoStackIntoAPoly top) exponent :: next
                    else next) = top2 at htop2 ⊢
                by_cases c5 : ((PeekCharacter st).1 == some ')') = true
                · have hst1 : lineReadable (ReadCharacter (PeekCharacter st).2).2.unread = true :=
                    lineReadable_ReadCharacter hst0 (head_ne_newline (by decide) c5)
                  have hst2 : lineReadable
                      (PeekCharacter (ReadCharacter (PeekCharacter st).2).2).2.unread = true := hst1
                  simp only [if_pos c5, machine_ReadCharacter_eq hst0, machine_PeekCharacter_eq hst1]
                  by_cases c6 : ((PeekCharacter (ReadCharacter (PeekCharacter st).2).2).1
                      == some '+') = true
                  · simp only [if_pos c6, machine_ReadCharacter_eq hst2]
                    exact ih _ true _ below
                      (lineReadable_ReadCharacter hst2 (head_ne_newline (by decide) c6))
                      htop2 hbelow2
                  · simp only [if_neg c6]
                    split_ifs
                    · exact ih _ e _ below hst2 htop2 hbelow2
                    · exact machine_parsePolyFail_eq hst2
                · simp only [if_neg c5]
                  exact machine_parsePolyFail_eq hst0
          · simp only [if_neg c4]
            exact machine_parsePolyFail_eq h0

theorem machine_ReadPolynomial_eq (s : InputStream) (h : lineReadable s.unread = true) :
    Machine.ReadPolynomial s = ReadPolynomial s := by
  have h0 : lineReadable (PeekCharacter s).2.unread = true := h
  unfold Machine.ReadPolynomial ReadPolynomial
  simp only [machine_PeekCharacter_eq h]
  split_ifs
  · exact machine_ReadPolynomialLoop_eq _ _ _ _ _ h0 (fun m hm => absurd hm (List.not_mem_nil m))
      (fun l hl => absurd hl (List.not_mem_nil l))
  · exact machine_parsePolyFail_eq h0

/-! ## The readers on every input

On every stream the functions of `Machine` that read the input return the values,
write the diagnostics and set the flag `parse_error` as the functions of the same
names outside `Machine` do: the byte `0xFF` is no character of a polynomial, and
the readers leave it to the error exit whether it is taken for `EOF` or not. The
two differ in what `SkipLine` reads after the diagnostic. -/

theorem sameOutcome_refl {α : Type} (a : α × InputStream) : SameOutcome a a := ⟨rfl, rfl, rfl⟩

theorem sameOutcome_of_eq {α : Type} {a b : α × InputStream} (h : a = b) : SameOutcome a b :=
  h ▸ sameOutcome_refl a

/-- One line per literal on a line without the byte `0xFF`: when a newline
occurs in the input and no byte `0xFF` stands before the first one,
`Machine.ReadPolynomial` reads the bytes up to and including that newline and no
more, both when it accepts the line and when it rejects it. -/
theorem machine_ReadPolynomial_consumes_one_line (stream : InputStream) (l rest : List Char)
    (hin : stream.unread = l ++ '\n' :: rest) (hl : '\n' ∉ l) (hbyte : EOF ∉ l) :
    (Machine.ReadPolynomial stream).2.unread = rest ∧
      (Machine.ReadPolynomial stream).2.line_number = stream.line_number + 1 ∧
      (Machine.ReadPolynomial stream).2.column_number = 0 := by
  rw [machine_ReadPolynomial_eq stream (by rw [hin]; exact lineReadable_of_line l rest hbyte)]
  exact ReadPolynomial_consumes_one_line stream l rest hin hl

/-! ## The located diagnostic, on the bytes -/

end PolyCalc
